import Mathlib

/-!
# World state of the luckyshare node

A shallow embedding of `src/state/state.go`, `src/state/cached_object.go`,
`src/state/stage.go` and the block ID of `src/block/header.go`.  Go methods
become functions that take the receiver and return the result together with
the receiver after the call, because getters fill caches.  A Go `error` is a `GoError`; `nil` is `none` or `Except.ok`.

The packages `luckyshare` (byte types and hashes), `muxdb` (byte store and
secure trie), `common/stackedmap` and the file `state/account.go` are not part
of the sources at hand; their definitions below are marked and follow the
written specification.  The go-ethereum `rlp` functions follow that library.
-/

namespace Luckyshare

/-! ## Bytes, addresses and 32-byte words -/

/-- A Go `[]byte`; a nil slice and an empty slice are both `[]`. -/
abbrev Bytes := List (Fin 256)

/-- Modelled from the spec: the type `luckyshare.Bytes32`, a 32-byte value (spec section 3). -/
abbrev Bytes32 := { b : Bytes // b.length = 32 }

/-- Modelled from the spec: the type `luckyshare.Address`, a 20-byte address (spec section 3). -/
abbrev Address := { b : Bytes // b.length = 20 }

/-- Modelled from the spec: the copy behind `BytesToBytes32` and `BytesToAddress`: `b`
right-aligned into `n` zero bytes, the last `n` bytes of a longer `b` being kept. -/
def rightAlign (n : Nat) (b : Bytes) : Bytes :=
  List.replicate (n - b.length) 0 ++ b.drop (b.length - n)

theorem rightAlign_length (n : Nat) (b : Bytes) : (rightAlign n b).length = n := by
  simp only [rightAlign, List.length_append, List.length_replicate, List.length_drop]
  omega

/-- Modelled from the spec: the zero value `luckyshare.Bytes32{}`, the zero root and the zero
hash (spec section 3). -/
def Bytes32.zero : Bytes32 := ⟨List.replicate 32 0, by simp⟩

/-- Modelled from the spec: the zero value `luckyshare.Address{}`, the absent master (spec
section 3). -/
def Address.zero : Address := ⟨List.replicate 20 0, by simp⟩

/-- Modelled from the spec: `luckyshare.BytesToBytes32`, which the spec describes as placing
the content right-aligned into 32 bytes (section 4.F, storage encoding). -/
def BytesToBytes32 (b : Bytes) : Bytes32 := ⟨rightAlign 32 b, rightAlign_length 32 b⟩

/-- Modelled from the spec: `luckyshare.BytesToAddress`, the 20-byte counterpart of
`BytesToBytes32` (an absent master reads as the zero address). -/
def BytesToAddress (b : Bytes) : Address := ⟨rightAlign 20 b, rightAlign_length 20 b⟩

/-- Modelled from the spec: the method `Bytes32.IsZero` of the `luckyshare` package: the value
is the zero value (spec section 4.F, a zero value clears the slot). -/
def Bytes32.IsZero (v : Bytes32) : Bool := decide (v = Bytes32.zero)

/-- Modelled from the spec: the method `Address.IsZero` of the `luckyshare` package: the address
is the zero address (spec section 3, an absent master is zero). -/
def Address.IsZero (a : Address) : Bool := decide (a = Address.zero)

/-- The call `bytes.TrimLeft(b, "\x00")`: drop the leading zero bytes. -/
def trimLeftZeros (b : Bytes) : Bytes := b.dropWhile (fun x => decide (x = 0))

/-! ## Errors -/

/-- A Go `error` value.  `state` is the type `*state.Error` of `state.go`, which wraps a cause. -/
inductive GoError where
  | notFound : GoError
  | missingNode : GoError
  | io (code : Nat) : GoError
  | unexpectedEOF : GoError
  | canonSize : GoError
  | valueTooLarge : GoError
  | caller (code : Nat) : GoError
  | state (cause : GoError) : GoError
  deriving DecidableEq, Repr

/-! ## RLP (go-ethereum `rlp`) -/

/-- The kinds `rlp.Byte`, `rlp.String` and `rlp.List`. -/
inductive Kind where
  | Byte : Kind
  | String : Kind
  | List : Kind
  deriving DecidableEq, Repr

/-- Big-endian bytes of `n` without leading zeros (`putint` of go-ethereum); `fuel` bounds the
number of bytes. -/
def putint : Nat → Nat → Bytes
  | 0, _ => []
  | fuel + 1, n => if n = 0 then [] else putint fuel (n / 256) ++ [Fin.ofNat (n % 256)]

/-- The call `rlp.EncodeToBytes(b)` for a byte slice `b`: a single byte below 0x80 is its own
encoding, a string shorter than 56 bytes gets the header `0x80 + len`, a longer one the header
`0xB7 + len(len)` followed by the big-endian length. -/
def rlpEncodeBytes (b : Bytes) : Bytes :=
  match b with
  | [x] => if x.val < 0x80 then [x] else [0x81, x]
  | _ =>
    if b.length < 56 then Fin.ofNat (0x80 + b.length) :: b
    else
      let lenBytes := putint 8 b.length
      Fin.ofNat (0xB7 + lenBytes.length) :: (lenBytes ++ b)

/-- Big-endian value of a byte string. -/
def beValue (b : Bytes) : Nat := b.foldl (fun acc x => acc * 256 + x.val) 0

/-- The function `readSize` of go-ethereum: the size held in the first `slen` bytes of `b`;
sizes below 56 and sizes with a leading zero byte are not canonical. -/
def readSize (b : Bytes) (slen : Nat) : Except GoError Nat :=
  if slen > b.length then .error .unexpectedEOF
  else
    let s := beValue (b.take slen)
    if s < 56 ∨ b.head? = some 0 then .error .canonSize else .ok s

/-- The function `readKind` of go-ethereum: kind, tag size and content size of the first value
in `buf`. -/
def readKind (buf : Bytes) : Except GoError (Kind × Nat × Nat) :=
  match buf with
  | [] => .error .unexpectedEOF
  | b :: tl =>
    let r : Except GoError (Kind × Nat × Nat) :=
      if b.val < 0x80 then .ok (Kind.Byte, 0, 1)
      else if b.val < 0xB8 then
        if b.val - 0x80 = 1 ∧ (tl.head?.map (fun x => decide (x.val < 128))).getD false = true
        then .error .canonSize
        else .ok (Kind.String, 1, b.val - 0x80)
      else if b.val < 0xC0 then
        match readSize tl (b.val - 0xB7) with
        | .error e => .error e
        | .ok cs => .ok (Kind.String, (b.val - 0xB7) + 1, cs)
      else if b.val < 0xF8 then .ok (Kind.List, 1, b.val - 0xC0)
      else
        match readSize tl (b.val - 0xF7) with
        | .error e => .error e
        | .ok cs => .ok (Kind.List, (b.val - 0xF7) + 1, cs)
    match r with
    | .error e => .error e
    | .ok (k, ts, cs) =>
      if cs > buf.length - ts then .error .valueTooLarge else .ok (k, ts, cs)

/-- The call `rlp.Split(b)`: kind and content of the first value and the rest of the input. -/
def rlpSplit (b : Bytes) : Except GoError (Kind × Bytes × Bytes) :=
  match readKind b with
  | .error e => .error e
  | .ok (k, ts, cs) => .ok (k, (b.drop ts).take cs, b.drop (ts + cs))

/-! ## Accounts (`state/account.go`) -/

/-- Modelled from the spec: the struct `Account` of `state/account.go` (spec section 3): balance
and energy are Go big integers, `BlockTime` a uint64, and `Master`, `CodeHash` and
`StorageRoot` byte slices, empty when absent. -/
structure Account where
  Balance : Int
  Energy : Int
  BlockTime : Nat
  Master : Bytes
  CodeHash : Bytes
  StorageRoot : Bytes
  deriving DecidableEq, Repr

/-- Modelled from the spec: `emptyAccount()` of `state/account.go`, the default-constructed
account (zero balance and energy, nothing else present). -/
def emptyAccount : Account := ⟨0, 0, 0, [], [], []⟩

/-- Modelled from the spec: `Account.IsEmpty` of `state/account.go`: balance zero, energy zero,
master and code hash absent; the storage root is ignored (spec section 3). -/
def Account.IsEmpty (a : Account) : Bool :=
  decide (a.Balance = 0) && decide (a.Energy = 0) && decide (a.Master.length = 0)
    && decide (a.CodeHash.length = 0)

/-- Modelled from the spec: the scale of the energy growth in `state/account.go`, `1e18` (spec
section 8, scenario 2). -/
def energyScale : Int := 10 ^ 18

/-- Modelled from the spec: `Account.CalcEnergy` of `state/account.go`: the stored energy plus
`growth_rate * balance * (now - block_time) / scale` (spec section 3); the time difference is
taken in the naturals and the quotient is that of Go big integers. -/
def Account.CalcEnergy (growthRate : Int) (a : Account) (blockTime : Nat) : Int :=
  a.Energy + growthRate * a.Balance * ((blockTime - a.BlockTime : Nat) : Int) / energyScale

/-! ## Hashes and constants of the environment -/

/-- Contents of the accounts trie: the records saved under each address. -/
abbrev AccountContent := Address → Option Account

/-- Contents of a storage trie: the raw value under each slot, empty when absent. -/
abbrev StorageContent := Bytes32 → Bytes

/-- The functions and constants the state layer takes from outside: the two hash functions,
the root hash of a trie as a function of its logical content (spec section 3, invariant 1) and
`luckyshare.EnergyGrowthRate`. -/
structure Env where
  keccak256 : Bytes → Bytes32
  blake2b : Bytes → Bytes32
  accountsRoot : AccountContent → Bytes32
  storageRoot : StorageContent → Bytes32
  EnergyGrowthRate : Int

/-! ## Byte store and secure trie (`muxdb`) -/

/-- Modelled from the spec: the database `muxdb.MuxDB` (spec section 6): the code namespace
`state.code`, the committed accounts tries by root, the committed storage tries by name and
root, and the write faults of the backing store (a failing put of the code batch, a failing
flush of the code batch, a failing trie commit). -/
structure DB where
  codeStore : Bytes → Option Bytes
  accountTries : Bytes32 → Option AccountContent
  storageTries : Bytes → Bytes32 → Option StorageContent
  putFault : Bytes → Option GoError
  flushFault : Option GoError
  commitFault : Bytes → Option GoError

/-- Modelled from the spec: a trie handle `muxdb.Trie` (spec section 6.2): its name, the root
it was opened at and its current logical content, `none` when the root cannot be resolved. -/
structure Trie (C : Type) where
  name : Bytes
  root : Bytes32
  content : Option C

/-- The constant `AccountTrieName`, the string "a". -/
def AccountTrieName : Bytes := [0x61]

/-- The constant `codeStoreName` is the namespace held by `DB.codeStore`.
The function `StorageTrieName`: "s" followed by the first 16 bytes of the address hash. -/
def StorageTrieName (addressHash : Bytes32) : Bytes := 0x73 :: addressHash.val.take 16

/-- Modelled from the spec: the content of the empty accounts trie. -/
def emptyAccounts : AccountContent := fun _ => none

/-- Modelled from the spec: the content of the empty storage trie. -/
def emptyStorage : StorageContent := fun _ => []

/-- Modelled from the spec: `db.NewSecureTrie(AccountTrieName, root)` (spec sections 3 and 6.2):
the zero root is the empty trie; any other root is a view of the content committed under it;
the root of the empty trie reads as empty also when nothing was committed under it; a root of
neither kind cannot be resolved. -/
def DB.NewAccountTrie (env : Env) (db : DB) (root : Bytes32) : Trie AccountContent :=
  { name := AccountTrieName
    root := root
    content :=
      if root = Bytes32.zero then some emptyAccounts
      else
        match db.accountTries root with
        | some c => some c
        | none => if root = env.accountsRoot emptyAccounts then some emptyAccounts else none }

/-- Modelled from the spec: `db.NewSecureTrie(name, root)` for a storage trie, as
`DB.NewAccountTrie`. -/
def DB.NewStorageTrie (env : Env) (db : DB) (name : Bytes) (root : Bytes32) :
    Trie StorageContent :=
  { name := name
    root := root
    content :=
      if root = Bytes32.zero then some emptyStorage
      else
        match db.storageTries name root with
        | some c => some c
        | none => if root = env.storageRoot emptyStorage then some emptyStorage else none }

/-- Modelled from the spec: `Trie.Hash` on the accounts trie (spec section 6.2): the root of
the current content, computed without writing. -/
def Trie.HashAccounts (env : Env) (t : Trie AccountContent) : Bytes32 :=
  match t.content with
  | some c => env.accountsRoot c
  | none => t.root

/-- Modelled from the spec: `Trie.Hash` on a storage trie. -/
def Trie.HashStorage (env : Env) (t : Trie StorageContent) : Bytes32 :=
  match t.content with
  | some c => env.storageRoot c
  | none => t.root

/-- Modelled from the spec: `Trie.Commit` on the accounts trie (spec section 6.2): persist the
content under its root and return the root. -/
def Trie.CommitAccounts (env : Env) (db : DB) (t : Trie AccountContent) :
    Except GoError Bytes32 × DB :=
  match t.content with
  | none => (.error .missingNode, db)
  | some c =>
    match db.commitFault t.name with
    | some e => (.error e, db)
    | none =>
      (.ok (env.accountsRoot c),
        { db with accountTries := Function.update db.accountTries (env.accountsRoot c) (some c) })

/-- Modelled from the spec: `Trie.Commit` on a storage trie. -/
def Trie.CommitStorage (env : Env) (db : DB) (t : Trie StorageContent) :
    Except GoError Bytes32 × DB :=
  match t.content with
  | none => (.error .missingNode, db)
  | some c =>
    match db.commitFault t.name with
    | some e => (.error e, db)
    | none =>
      (.ok (env.storageRoot c),
        { db with
          storageTries := Function.update db.storageTries t.name
            (Function.update (db.storageTries t.name) (env.storageRoot c) (some c)) })

/-- Modelled from the spec: `loadAccount` of `state/account.go`: the record under the address,
default-constructed when absent (spec section 4.F). -/
def loadAccount (trie : Trie AccountContent) (addr : Address) : Except GoError Account :=
  match trie.content with
  | none => .error .missingNode
  | some c =>
    match c addr with
    | none => .ok emptyAccount
    | some a => .ok a

/-- Modelled from the spec: `saveAccount` of `state/account.go`: write the record under the
address; the entry of an empty account ends up absent (spec sections 3 and 4.G). -/
def saveAccount (trie : Trie AccountContent) (addr : Address) (a : Account) :
    Except GoError (Trie AccountContent) :=
  match trie.content with
  | none => .error .missingNode
  | some c =>
    .ok { trie with content := some (Function.update c addr (if a.IsEmpty then none else some a)) }

/-- Modelled from the spec: `loadStorage` of `state/account.go`: the raw value under the slot,
empty when absent. -/
def loadStorage (trie : Trie StorageContent) (key : Bytes32) : Except GoError Bytes :=
  match trie.content with
  | none => .error .missingNode
  | some c => .ok (c key)

/-- Modelled from the spec: `saveStorage` of `state/account.go`: `trie.update(key, raw)`, where
an empty value deletes the slot (spec section 6.2). -/
def saveStorage (trie : Trie StorageContent) (key : Bytes32) (data : Bytes) :
    Except GoError (Trie StorageContent) :=
  match trie.content with
  | none => .error .missingNode
  | some c => .ok { trie with content := some (Function.update c key data) }

/-! ## Stacked map (`common/stackedmap`) -/

/-- The key kinds of the stacked map of a State: an address (account record), `codeKey` and
`storageKey` of `state.go`. -/
inductive Key where
  | account (addr : Address) : Key
  | code (addr : Address) : Key
  | storage (addr : Address) (key : Bytes32) : Key
  deriving DecidableEq

/-- The Go type of the value kept under a key: `*Account`, `[]byte` or `rlp.RawValue`. -/
@[reducible] def Key.Val : Key → Type
  | .account _ => Account
  | .code _ => Bytes
  | .storage _ _ => Bytes

/-- Modelled from the spec: a frame of the stacked map (spec section 4.E): its key-value map
and the record of its puts in insertion order. -/
structure Frame where
  kvs : (k : Key) → Option k.Val
  journal : List (Sigma Key.Val)

/-- Modelled from the spec: an empty frame of the stacked map. -/
def Frame.empty : Frame := ⟨fun _ => none, []⟩

/-- Modelled from the spec: a put into a frame of the stacked map: the value is stored and the
put is appended to the journal of the frame (spec section 4.E). -/
def Frame.put (f : Frame) (k : Key) (v : k.Val) : Frame :=
  ⟨Function.update f.kvs k (some v), f.journal ++ [⟨k, v⟩]⟩

/-- Modelled from the spec: `stackedmap.StackedMap` (spec section 4.E): the bottom frame, which
holds the loaded values and is never discarded, and the pushed frames, top first. -/
structure StackedMap where
  base : Frame
  stack : List Frame

/-- Modelled from the spec: `stackedmap.New`: only the bottom frame. -/
def StackedMap.New : StackedMap := ⟨Frame.empty, []⟩

/-- Modelled from the spec: `StackedMap.Depth`, the number of frames. -/
def StackedMap.Depth (sm : StackedMap) : Nat := sm.stack.length + 1

/-- Modelled from the spec: `StackedMap.Push` (spec section 4.E): add an empty top frame and
return its index, frames being counted from 0 at the bottom. -/
def StackedMap.Push (sm : StackedMap) : StackedMap × Int :=
  ({ sm with stack := Frame.empty :: sm.stack }, (sm.Depth : Int))

/-- Modelled from the spec: `StackedMap.PopTo` (spec section 4.E): frames are discarded from
the top until `revision` frames are left, so that a revision returned by `Push` restores the
map of the time of that push (spec section 8, checkpoint identity); the bottom frame stays. -/
def StackedMap.PopTo (sm : StackedMap) (revision : Int) : StackedMap :=
  { sm with stack := sm.stack.drop (sm.Depth - max revision.toNat 1) }

/-- Modelled from the spec: the scan of `StackedMap.Get` (spec section 4.E): the value found
for a key in the frames, top-down. -/
def StackedMap.find (sm : StackedMap) (k : Key) : Option k.Val :=
  (sm.stack ++ [sm.base]).findSome? (fun f => f.kvs k)

/-- Modelled from the spec: `StackedMap.Put` (spec section 4.E): write into the top frame. -/
def StackedMap.Put (sm : StackedMap) (k : Key) (v : k.Val) : StackedMap :=
  match sm.stack with
  | [] => { sm with base := sm.base.put k v }
  | top :: rest => { sm with stack := top.put k v :: rest }

/-- Modelled from the spec: the read-through cache of `StackedMap.Get` (spec section 4.E): a
loaded value is kept in the bottom frame; it is no put and does not enter the journal. -/
def StackedMap.cacheLoaded (sm : StackedMap) (k : Key) (v : k.Val) : StackedMap :=
  { sm with base := { sm.base with kvs := Function.update sm.base.kvs k (some v) } }

/-- Modelled from the spec: the entries `StackedMap.Journal` visits (spec section 4.E): every
put of every frame in insertion order. -/
def StackedMap.Journal (sm : StackedMap) : List (Sigma Key.Val) :=
  sm.base.journal ++ sm.stack.foldl (fun acc f => f.journal ++ acc) []

/-! ## Cached object (`state/cached_object.go`) -/

/-- The process-wide `codeCache`: code by the string of its hash.  Eviction is not modelled; an
entry that is gone sends the read to the code store. -/
abbrev CodeCache := Bytes → Option Bytes

/-- The struct `cachedObject`; the field `db` is the database of the owning State and is passed
to the methods. -/
structure cachedObject where
  addr : Address
  data : Account
  code : Bytes
  storageTrie : Option (Trie StorageContent)
  storage : Option (Bytes32 → Option Bytes)

/-- The function `newCachedObject`. -/
def newCachedObject (addr : Address) (data : Account) : cachedObject :=
  { addr := addr, data := data, code := [], storageTrie := none, storage := none }

/-- The method `cachedObject.getOrCreateStorageTrie`. -/
def cachedObject.getOrCreateStorageTrie (env : Env) (db : DB) (co : cachedObject) :
    Trie StorageContent × cachedObject :=
  match co.storageTrie with
  | some t => (t, co)
  | none =>
    let trie := db.NewStorageTrie env (StorageTrieName (env.blake2b co.addr.val))
      (BytesToBytes32 co.data.StorageRoot)
    (trie, { co with storageTrie := some trie })

/-- The method `cachedObject.GetStorage`. -/
def cachedObject.GetStorage (env : Env) (db : DB) (co : cachedObject) (key : Bytes32) :
    Except GoError Bytes × cachedObject :=
  let hit : Option Bytes :=
    match co.storage with
    | some m => m key
    | none => none
  match hit with
  | some v => (.ok v, co)
  | none =>
    let m : Bytes32 → Option Bytes :=
      match co.storage with
      | some m => m
      | none => fun _ => none
    let co1 := { co with storage := some m }
    let (trie, co2) := co1.getOrCreateStorageTrie env db
    match loadStorage trie key with
    | .error e => (.error e, co2)
    | .ok v => (.ok v, { co2 with storage := some (Function.update m key (some v)) })

/-- The method `cachedObject.GetCode`; the code cache is returned with the object. -/
def cachedObject.GetCode (db : DB) (cc : CodeCache) (co : cachedObject) :
    Except GoError Bytes × cachedObject × CodeCache :=
  if co.code.length > 0 then (.ok co.code, co, cc)
  else if co.data.CodeHash.length > 0 then
    match cc co.data.CodeHash with
    | some code => (.ok code, co, cc)
    | none =>
      match db.codeStore co.data.CodeHash with
      | none => (.error .notFound, co, cc)
      | some code =>
        (.ok code, { co with code := code }, Function.update cc co.data.CodeHash (some code))
  else (.ok [], co, cc)

/-! ## State (`state/state.go`) -/

/-- The struct `State`, together with the process-wide code cache its methods read and
write. -/
structure State where
  db : DB
  trie : Trie AccountContent
  cache : Address → Option cachedObject
  sm : StackedMap
  codeCache : CodeCache

/-- The function `New`: a State over `db` at `root`. -/
def New (env : Env) (db : DB) (codeCache : CodeCache) (root : Bytes32) : State :=
  { db := db
    trie := db.NewAccountTrie env root
    cache := fun _ => none
    sm := StackedMap.New
    codeCache := codeCache }

/-- The method `State.getCachedObject`. -/
def State.getCachedObject (s : State) (addr : Address) : Except GoError cachedObject × State :=
  match s.cache addr with
  | some co => (.ok co, s)
  | none =>
    match loadAccount s.trie addr with
    | .error e => (.error e, s)
    | .ok a =>
      let co := newCachedObject addr a
      (.ok co, { s with cache := Function.update s.cache addr (some co) })

/-- The method `State.cacheGetter`, the loader of the stacked map; the type switch on the key
is the match, and a cached object changed by the call is stored back. -/
def State.cacheGetter (env : Env) (s : State) (key : Key) : Except GoError key.Val × State :=
  match key with
  | .account k =>
    match s.getCachedObject k with
    | (.error e, s1) => (.error e, s1)
    | (.ok obj, s1) => (.ok obj.data, s1)
  | .code k =>
    match s.getCachedObject k with
    | (.error e, s1) => (.error e, s1)
    | (.ok obj, s1) =>
      match obj.GetCode s1.db s1.codeCache with
      | (.error e, obj1, cc1) =>
        (.error e, { s1 with cache := Function.update s1.cache k (some obj1), codeCache := cc1 })
      | (.ok code, obj1, cc1) =>
        (.ok code, { s1 with cache := Function.update s1.cache k (some obj1), codeCache := cc1 })
  | .storage addr k =>
    match s.getCachedObject addr with
    | (.error e, s1) => (.error e, s1)
    | (.ok obj, s1) =>
      match obj.GetStorage env s1.db k with
      | (.error e, obj1) => (.error e, { s1 with cache := Function.update s1.cache addr (some obj1) })
      | (.ok v, obj1) => (.ok v, { s1 with cache := Function.update s1.cache addr (some obj1) })

/-- Modelled from the spec: the call `s.sm.Get(key)` (spec section 4.E): the frames are scanned
top-down; on a miss the loader `cacheGetter` is invoked and its result is kept in the bottom
frame; a loader error is returned unchanged. -/
def State.smGet (env : Env) (s : State) (key : Key) : Except GoError key.Val × State :=
  match s.sm.find key with
  | some v => (.ok v, s)
  | none =>
    match s.cacheGetter env key with
    | (.error e, s1) => (.error e, s1)
    | (.ok v, s1) => (.ok v, { s1 with sm := s1.sm.cacheLoaded key v })

/-- The method `State.getAccount`. -/
def State.getAccount (env : Env) (s : State) (addr : Address) : Except GoError Account × State :=
  s.smGet env (.account addr)

/-- The method `State.getAccountCopy`. -/
def State.getAccountCopy (env : Env) (s : State) (addr : Address) :
    Except GoError Account × State :=
  match s.getAccount env addr with
  | (.error e, s1) => (.error e, s1)
  | (.ok acc, s1) => (.ok acc, s1)

/-- The method `State.updateAccount`. -/
def State.updateAccount (s : State) (addr : Address) (acc : Account) : State :=
  { s with sm := s.sm.Put (.account addr) acc }

/-- The method `State.GetBalance`. -/
def State.GetBalance (env : Env) (s : State) (addr : Address) : Except GoError Int × State :=
  match s.getAccount env addr with
  | (.error e, s1) => (.error (.state e), s1)
  | (.ok acc, s1) => (.ok acc.Balance, s1)

/-- The method `State.SetBalance`. -/
def State.SetBalance (env : Env) (s : State) (addr : Address) (balance : Int) :
    Option GoError × State :=
  match s.getAccountCopy env addr with
  | (.error e, s1) => (some (.state e), s1)
  | (.ok cpy, s1) => (none, s1.updateAccount addr { cpy with Balance := balance })

/-- The method `State.GetEnergy`. -/
def State.GetEnergy (env : Env) (s : State) (addr : Address) (blockTime : Nat) :
    Except GoError Int × State :=
  match s.getAccount env addr with
  | (.error e, s1) => (.error (.state e), s1)
  | (.ok acc, s1) => (.ok (acc.CalcEnergy env.EnergyGrowthRate blockTime), s1)

/-- The method `State.SetEnergy`. -/
def State.SetEnergy (env : Env) (s : State) (addr : Address) (energy : Int) (blockTime : Nat) :
    Option GoError × State :=
  match s.getAccountCopy env addr with
  | (.error e, s1) => (some (.state e), s1)
  | (.ok cpy, s1) =>
    (none, s1.updateAccount addr { cpy with Energy := energy, BlockTime := blockTime })

/-- The method `State.GetMaster`. -/
def State.GetMaster (env : Env) (s : State) (addr : Address) : Except GoError Address × State :=
  match s.getAccount env addr with
  | (.error e, s1) => (.error (.state e), s1)
  | (.ok acc, s1) => (.ok (BytesToAddress acc.Master), s1)

/-- The method `State.SetMaster`. -/
def State.SetMaster (env : Env) (s : State) (addr : Address) (master : Address) :
    Option GoError × State :=
  match s.getAccountCopy env addr with
  | (.error e, s1) => (some (.state e), s1)
  | (.ok cpy, s1) =>
    if master.IsZero then (none, s1.updateAccount addr { cpy with Master := [] })
    else (none, s1.updateAccount addr { cpy with Master := master.val })

/-- The method `State.GetRawStorage`. -/
def State.GetRawStorage (env : Env) (s : State) (addr : Address) (key : Bytes32) :
    Except GoError Bytes × State :=
  match s.smGet env (.storage addr key) with
  | (.error e, s1) => (.error (.state e), s1)
  | (.ok data, s1) => (.ok data, s1)

/-- The method `State.SetRawStorage`. -/
def State.SetRawStorage (s : State) (addr : Address) (key : Bytes32) (raw : Bytes) : State :=
  { s with sm := s.sm.Put (.storage addr key) raw }

/-- The method `State.GetStorage`. -/
def State.GetStorage (env : Env) (s : State) (addr : Address) (key : Bytes32) :
    Except GoError Bytes32 × State :=
  match s.GetRawStorage env addr key with
  | (.error e, s1) => (.error (.state e), s1)
  | (.ok raw, s1) =>
    if raw.length = 0 then (.ok Bytes32.zero, s1)
    else
      match rlpSplit raw with
      | .error e => (.error (.state e), s1)
      | .ok (kind, content, _) =>
        if kind = Kind.List then (.ok (env.blake2b raw), s1)
        else (.ok (BytesToBytes32 content), s1)

/-- The method `State.SetStorage`. -/
def State.SetStorage (s : State) (addr : Address) (key value : Bytes32) : State :=
  if value.IsZero then s.SetRawStorage addr key []
  else s.SetRawStorage addr key (rlpEncodeBytes (trimLeftZeros value.val))

/-- The method `State.EncodeStorage`; `enc` is the result of calling the closure. -/
def State.EncodeStorage (s : State) (addr : Address) (key : Bytes32)
    (enc : Except GoError Bytes) : Option GoError × State :=
  match enc with
  | .error e => (some (.state e), s)
  | .ok raw => (none, s.SetRawStorage addr key raw)

/-- The method `State.DecodeStorage`; `dec` maps the raw value to the error of the closure. -/
def State.DecodeStorage (env : Env) (s : State) (addr : Address) (key : Bytes32)
    (dec : Bytes → Option GoError) : Option GoError × State :=
  match s.GetRawStorage env addr key with
  | (.error e, s1) => (some (.state e), s1)
  | (.ok raw, s1) =>
    match dec raw with
    | some e => (some (.state e), s1)
    | none => (none, s1)

/-- The method `State.GetCode`. -/
def State.GetCode (env : Env) (s : State) (addr : Address) : Except GoError Bytes × State :=
  match s.smGet env (.code addr) with
  | (.error e, s1) => (.error (.state e), s1)
  | (.ok v, s1) => (.ok v, s1)

/-- The method `State.GetCodeHash`. -/
def State.GetCodeHash (env : Env) (s : State) (addr : Address) :
    Except GoError Bytes32 × State :=
  match s.getAccount env addr with
  | (.error e, s1) => (.error (.state e), s1)
  | (.ok acc, s1) => (.ok (BytesToBytes32 acc.CodeHash), s1)

/-- The method `State.SetCode`. -/
def State.SetCode (env : Env) (s : State) (addr : Address) (code : Bytes) :
    Option GoError × State :=
  let codeHash : Bytes := if code.length > 0 then (env.keccak256 code).val else []
  let s0 : State :=
    if code.length > 0 then
      { s with
        sm := s.sm.Put (.code addr) code
        codeCache := Function.update s.codeCache (env.keccak256 code).val (some code) }
    else { s with sm := s.sm.Put (.code addr) [] }
  match s0.getAccountCopy env addr with
  | (.error e, s1) => (some (.state e), s1)
  | (.ok cpy, s1) => (none, s1.updateAccount addr { cpy with CodeHash := codeHash })

/-- The method `State.Exists`. -/
def State.Exists (env : Env) (s : State) (addr : Address) : Except GoError Bool × State :=
  match s.getAccount env addr with
  | (.error e, s1) => (.error (.state e), s1)
  | (.ok acc, s1) => (.ok (!acc.IsEmpty), s1)

/-- The method `State.Delete`. -/
def State.Delete (s : State) (addr : Address) : State :=
  let s0 : State := { s with sm := s.sm.Put (.code addr) [] }
  s0.updateAccount addr emptyAccount

/-- The method `State.NewCheckpoint`. -/
def State.NewCheckpoint (s : State) : Int × State :=
  ((s.sm.Push).2, { s with sm := (s.sm.Push).1 })

/-- The method `State.RevertTo`. -/
def State.RevertTo (s : State) (revision : Int) : State :=
  { s with sm := s.sm.PopTo revision }

/-! ## Stage (`State.Stage` of `state/state.go` and `state/stage.go`) -/

/-- A Go map that is iterated: its entries in the order the keys were first inserted. -/
def mapGet {K V : Type} [DecidableEq K] (m : List (K × V)) (k : K) : Option V :=
  match m with
  | [] => none
  | (k1, v) :: rest => if k1 = k then some v else mapGet rest k

/-- The assignment `m[k] = v` on a Go map. -/
def mapSet {K V : Type} [DecidableEq K] (m : List (K × V)) (k : K) (v : V) : List (K × V) :=
  match m with
  | [] => [(k, v)]
  | (k1, v1) :: rest => if k1 = k then (k, v) :: rest else (k1, v1) :: mapSet rest k v

/-- The local struct `changed` of `State.Stage`; a nil `storage` map is the empty list. -/
structure changed where
  data : Account
  storage : List (Bytes32 × Bytes)

/-- The struct `Stage`. -/
structure Stage where
  db : DB
  accountTrie : Trie AccountContent
  storageTries : List (Trie StorageContent)
  codes : List (Bytes32 × Bytes)

/-- The closure `getChanged` of `State.Stage`: get or create the changed account. -/
def State.getChanged (s : State) (changes : List (Address × changed)) (addr : Address) :
    Except GoError changed × List (Address × changed) × State :=
  match mapGet changes addr with
  | some obj => (.ok obj, changes, s)
  | none =>
    match s.getCachedObject addr with
    | (.error e, s1) => (.error (.state e), changes, s1)
    | (.ok co, s1) =>
      (.ok { data := co.data, storage := [] },
        mapSet changes addr { data := co.data, storage := [] }, s1)

/-- The journal traversal of `State.Stage`: the callback applied to the entries in order,
stopping at the first error `jerr`. -/
def State.stageJournal (env : Env) :
    List (Sigma Key.Val) → State → List (Address × changed) → List (Bytes32 × Bytes) →
      Option GoError × State × List (Address × changed) × List (Bytes32 × Bytes)
  | [], s, changes, codes => (none, s, changes, codes)
  | ⟨.account key, v⟩ :: rest, s, changes, codes =>
    match s.getChanged changes key with
    | (.error e, ch1, s1) => (some e, s1, ch1, codes)
    | (.ok c, ch1, s1) =>
      State.stageJournal env rest s1 (mapSet ch1 key { c with data := v }) codes
  | ⟨.code _, code⟩ :: rest, s, changes, codes =>
    if code.length > 0 then
      State.stageJournal env rest s changes (mapSet codes (env.keccak256 code) code)
    else State.stageJournal env rest s changes codes
  | ⟨.storage addr key, v⟩ :: rest, s, changes, codes =>
    match s.getChanged changes addr with
    | (.error e, ch1, s1) => (some e, s1, ch1, codes)
    | (.ok c, ch1, s1) =>
      State.stageJournal env rest s1
        (mapSet ch1 addr { c with storage := mapSet c.storage key v }) codes

/-- The inner loop of `State.Stage`: `saveStorage` for every pending slot of one account. -/
def saveStorageAll :
    Trie StorageContent → List (Bytes32 × Bytes) → Except GoError (Trie StorageContent)
  | trie, [] => .ok trie
  | trie, (k, v) :: rest =>
    match saveStorage trie k v with
    | .error e => .error e
    | .ok t => saveStorageAll t rest

/-- The storage part of one round of the loop over `changes` of `State.Stage`: storage changes
of an empty account are skipped; otherwise, when slots are pending, the storage trie is opened
at the storage root of the record, appended to the tries of the stage, every pending slot is
saved and the storage root of the record is replaced by the hash of the trie.  The result is
the record to save and the storage tries of the stage. -/
def stageStorage (env : Env) (db : DB) (addr : Address) (c : changed)
    (tries : List (Trie StorageContent)) :
    Except GoError (Account × List (Trie StorageContent)) :=
  if !c.data.IsEmpty then
    if c.storage.length > 0 then
      match saveStorageAll
          (db.NewStorageTrie env (StorageTrieName (env.blake2b addr.val))
            (BytesToBytes32 c.data.StorageRoot)) c.storage with
      | .error e => .error (.state e)
      | .ok storageTrie =>
        .ok ({ c.data with StorageRoot := (storageTrie.HashStorage env).val },
          tries ++ [storageTrie])
    else .ok (c.data, tries)
  else .ok (c.data, tries)

/-- The loop over `changes` of `State.Stage`: for every changed account the storage part, then
`saveAccount` into the accounts trie of the stage. -/
def stageChanges (env : Env) (db : DB) :
    List (Address × changed) → Stage → Except GoError Stage
  | [], stage => .ok stage
  | (addr, c) :: rest, stage =>
    match stageStorage env db addr c stage.storageTries with
    | .error e => .error e
    | .ok (data, tries) =>
      match saveAccount stage.accountTrie addr data with
      | .error e => .error (.state e)
      | .ok t => stageChanges env db rest { stage with accountTrie := t, storageTries := tries }

/-- The method `State.Stage`. -/
def State.Stage (env : Env) (s : State) : Except GoError Stage × State :=
  match State.stageJournal env s.sm.Journal s [] [] with
  | (some jerr, s1, _, _) => (.error (.state jerr), s1)
  | (none, s1, changes, codes) =>
    match stageChanges env s1.db changes
        { db := s1.db
          accountTrie := s1.db.NewAccountTrie env (s1.trie.HashAccounts env)
          storageTries := []
          codes := codes } with
    | .error e => (.error e, s1)
    | .ok stage => (.ok stage, s1)

/-- The method `Stage.Hash`. -/
def Stage.Hash (env : Env) (st : Stage) : Bytes32 := st.accountTrie.HashAccounts env

/-- The batch function of `Stage.Commit`: every code is put under its hash; a failing put is
returned wrapped in a state error. -/
def putCodes (db : DB) :
    List (Bytes32 × Bytes) → (Bytes → Option Bytes) → Except GoError (Bytes → Option Bytes)
  | [], store => .ok store
  | (hash, code) :: rest, store =>
    match db.putFault hash.val with
    | some e => .error (.state e)
    | none => putCodes db rest (Function.update store hash.val (some code))

/-- Modelled from the spec: `codeStore.Batch(fn)` (spec section 6.1) for the batch function of
`Stage.Commit`: the puts are accumulated and flushed together when the function returns. -/
def DB.BatchCodes (db : DB) (codes : List (Bytes32 × Bytes)) : Except GoError DB :=
  match putCodes db codes db.codeStore with
  | .error e => .error e
  | .ok store =>
    match db.flushFault with
    | some e => .error e
    | none => .ok { db with codeStore := store }

/-- The loop of `Stage.Commit` over the storage tries. -/
def commitStorageTries (env : Env) : DB → List (Trie StorageContent) → Option GoError × DB
  | db, [] => (none, db)
  | db, t :: rest =>
    match t.CommitStorage env db with
    | (.error e, db1) => (some (.state e), db1)
    | (.ok _, db1) => commitStorageTries env db1 rest

/-- The method `Stage.Commit`; the database after the call is returned with the result. -/
def Stage.Commit (env : Env) (st : Stage) : Except GoError Bytes32 × DB :=
  match st.db.BatchCodes st.codes with
  | .error e => (.error (.state e), st.db)
  | .ok db1 =>
    match commitStorageTries env db1 st.storageTries with
    | (some e, db2) => (.error e, db2)
    | (none, db2) => st.accountTrie.CommitAccounts env db2

/-! ## Predicates and operations used in the statements -/

/-- Two States give the same getter results at address `a`: `GetBalance`, `GetEnergy` at every
time, `GetMaster`, `GetCode`, `GetCodeHash`, `GetStorage` and `GetRawStorage` at every key, and
`Exists` return the same value or the same error. -/
def SameReads (env : Env) (s1 s2 : State) (a : Address) : Prop :=
  (s1.GetBalance env a).1 = (s2.GetBalance env a).1 ∧
  (∀ t, (s1.GetEnergy env a t).1 = (s2.GetEnergy env a t).1) ∧
  (s1.GetMaster env a).1 = (s2.GetMaster env a).1 ∧
  (s1.GetCode env a).1 = (s2.GetCode env a).1 ∧
  (s1.GetCodeHash env a).1 = (s2.GetCodeHash env a).1 ∧
  (∀ k, (s1.GetStorage env a k).1 = (s2.GetStorage env a k).1) ∧
  (∀ k, (s1.GetRawStorage env a k).1 = (s2.GetRawStorage env a k).1) ∧
  (s1.Exists env a).1 = (s2.Exists env a).1

/-- The decoding step of `GetStorage`, applied to the result of `GetRawStorage`. -/
def decodeStorage (env : Env) (r : Except GoError Bytes) : Except GoError Bytes32 :=
  match r with
  | .error e => .error (.state e)
  | .ok raw =>
    if raw.length = 0 then .ok Bytes32.zero
    else
      match rlpSplit raw with
      | .error e => .error (.state e)
      | .ok (kind, content, _) =>
        if kind = Kind.List then .ok (env.blake2b raw) else .ok (BytesToBytes32 content)

/-- The value stored by `SetStorage`: empty for the zero value, else the encoding of the value
without its leading zero bytes. -/
def encodeValue (v : Bytes32) : Bytes :=
  if v.IsZero then [] else rlpEncodeBytes (trimLeftZeros v.val)

/-- The storage writes of the round trip: `SetStorage(a, k, v)` for every pair of `m`. -/
def setStorages (s : State) (a : Address) (m : List (Bytes32 × Bytes32)) : State :=
  m.foldl (fun st p => st.SetStorage a p.1 p.2) s

/-- The code store is content-addressed for the code `c` as far as the State `s` sees it: every
address whose loaded record carries the hash of `c` as its code hash loads the code `c`. -/
def CodeAddressed (env : Env) (s : State) (c : Bytes) : Prop :=
  ∀ addr acc, (s.cacheGetter env (.account addr)).1 = .ok acc →
    acc.CodeHash = (env.keccak256 c).val → (s.cacheGetter env (.code addr)).1 = .ok c

/-- The write operations of a State. -/
inductive WriteOp where
  | setBalance (a : Address) (v : Int) : WriteOp
  | setEnergy (a : Address) (e : Int) (t : Nat) : WriteOp
  | setMaster (a : Address) (m : Address) : WriteOp
  | setCode (a : Address) (c : Bytes) : WriteOp
  | setStorage (a : Address) (k : Bytes32) (v : Bytes32) : WriteOp
  | setRawStorage (a : Address) (k : Bytes32) (raw : Bytes) : WriteOp
  | delete (a : Address) : WriteOp

/-- The State after one write operation; an error returned by a setter is dropped. -/
def State.applyOp (env : Env) (s : State) : WriteOp → State
  | .setBalance a v => (s.SetBalance env a v).2
  | .setEnergy a e t => (s.SetEnergy env a e t).2
  | .setMaster a m => (s.SetMaster env a m).2
  | .setCode a c => (s.SetCode env a c).2
  | .setStorage a k v => s.SetStorage a k v
  | .setRawStorage a k raw => s.SetRawStorage a k raw
  | .delete a => s.Delete a

/-- The State after a sequence of write operations. -/
def State.applyOps (env : Env) (s : State) (ops : List WriteOp) : State :=
  ops.foldl (State.applyOp env) s

/-- The relation between a State `s` and a State `st` reached from it by a checkpoint followed
by writes: the loader returns the same, one frame lies above the frames of `s`, and the bottom
frame differs at most by loaded values for keys that `s` holds in no frame. -/
def AboveCheckpoint (env : Env) (s st : State) : Prop :=
  (∀ key, (st.cacheGetter env key).1 = (s.cacheGetter env key).1) ∧
  (∃ top, st.sm.stack = top :: s.sm.stack) ∧
  (∀ key : Key, st.sm.base.kvs key = s.sm.base.kvs key ∨
    (s.sm.find key = none ∧
      ∃ v, st.sm.base.kvs key = some v ∧ (s.cacheGetter env key).1 = .ok v))

/-- The storage trie a cached object reads from: the cached handle, else the trie opened at
the storage root of its record. -/
def cachedObject.trieOf (env : Env) (db : DB) (co : cachedObject) : Trie StorageContent :=
  match co.storageTrie with
  | some t => t
  | none =>
    db.NewStorageTrie env (StorageTrieName (env.blake2b co.addr.val))
      (BytesToBytes32 co.data.StorageRoot)

/-- The slot value a cached object holds in its slot cache. -/
def cachedObject.cachedSlot (co : cachedObject) (k : Bytes32) : Option Bytes :=
  match co.storage with
  | some m => m k
  | none => none

/-- The result of `cachedObject.GetStorage` as a function of the object: the cached slot, else
the slot loaded from the storage trie. -/
def cachedObject.slotOf (env : Env) (db : DB) (co : cachedObject) (k : Bytes32) :
    Except GoError Bytes :=
  match co.cachedSlot k with
  | some v => .ok v
  | none => loadStorage (co.trieOf env db) k

/-- The State after a sequence of reads of the stacked map, one per key. -/
def State.afterReads (env : Env) (s : State) (keys : List Key) : State :=
  keys.foldl (fun st key => (st.smGet env key).2) s

/-- The cached object `getCachedObject` returns, as a function of the State: the cached one,
else the one built from the loaded record. -/
def State.objectOf (s : State) (b : Address) : Except GoError cachedObject :=
  match s.cache b with
  | some co => .ok co
  | none =>
    match loadAccount s.trie b with
    | .error e => .error e
    | .ok a => .ok (newCachedObject b a)

/-- Two cached objects of one address are read alike: they hold the same record and return the
same code (each from its code cache) and the same slots. -/
def ReadAlike (env : Env) (db : DB) (cc2 cc : CodeCache) (o2 o : cachedObject) : Prop :=
  o2.data = o.data ∧ (o2.GetCode db cc2).1 = (o.GetCode db cc).1 ∧
    ∀ k, (o2.GetStorage env db k).1 = (o.GetStorage env db k).1

/-! ## Concrete instances -/

/-- A small environment: toy hash functions and the growth rate of the main network. -/
def sampleEnv : Env :=
  { keccak256 := fun b => BytesToBytes32 (1 :: b)
    blake2b := fun b => BytesToBytes32 (2 :: b)
    accountsRoot := fun _ => BytesToBytes32 [3]
    storageRoot := fun _ => BytesToBytes32 [4]
    EnergyGrowthRate := 5000000000 }

/-- An empty in-memory database without write faults (`muxdb.NewMem()`). -/
def sampleDB : DB :=
  { codeStore := fun _ => none
    accountTries := fun _ => none
    storageTries := fun _ _ => none
    putFault := fun _ => none
    flushFault := none
    commitFault := fun _ => none }

/-- An empty code cache. -/
def sampleCache : CodeCache := fun _ => none

/-- The address "acc1" of `TestStage`. -/
def sampleAddr : Address := BytesToAddress [0x61, 0x63, 0x63, 0x31]

/-- The storage of the sample account: the slot "s1" holds "v1". -/
def sampleStorage : List (Bytes32 × Bytes32) :=
  [(BytesToBytes32 [0x73, 0x31], BytesToBytes32 [0x76, 0x31])]

/-- A fresh State over the sample database. -/
def sampleState : State := New sampleEnv sampleDB sampleCache Bytes32.zero

/-- The State of `TestStage` before staging. -/
def sampleWritten : State :=
  setStorages ((sampleState.SetBalance sampleEnv sampleAddr 10).2.SetCode sampleEnv sampleAddr
    [1, 2, 3]).2 sampleAddr sampleStorage

/-- The stage of a State, when staging succeeds. -/
def stageOf (env : Env) (s : State) : Stage :=
  match (s.Stage env).1 with
  | .ok st => st
  | .error _ => { db := s.db, accountTrie := s.trie, storageTries := [], codes := [] }

/-- The root returned by a commit, when the commit succeeds. -/
def rootOf (env : Env) (st : Stage) : Bytes32 :=
  match (st.Commit env).1 with
  | .ok r => r
  | .error _ => Bytes32.zero

/-- The database after the commit of the sample State. -/
def sampleCommitted : DB := ((stageOf sampleEnv sampleWritten).Commit sampleEnv).2

/-- The root of the commit of the sample State. -/
def sampleRoot : Bytes32 := rootOf sampleEnv (stageOf sampleEnv sampleWritten)

/-- A fresh State at the committed root, with the account of `TestStage` in its base. -/
def sampleReopened : State := New sampleEnv sampleCommitted sampleCache sampleRoot

/-- Reads of every kind on the sample address. -/
def sampleReads : List Key :=
  [.account sampleAddr, .code sampleAddr, .storage sampleAddr (BytesToBytes32 [0x73, 0x31])]

/-- Write operations of every kind on the sample address. -/
def sampleOps : List WriteOp :=
  [.setBalance sampleAddr 100, .setCode sampleAddr [9], .setEnergy sampleAddr 5 3,
    .setMaster sampleAddr sampleAddr,
    .setStorage sampleAddr (BytesToBytes32 [0x73, 0x31]) (BytesToBytes32 [0x76, 0x32]),
    .setRawStorage sampleAddr (BytesToBytes32 [0x73, 0x32]) [0xc1, 0x01], .delete sampleAddr]

/-- A byte string is a sequence of well-formed RLP items: every item has a header that
`rlp.Split` accepts and, when it is a list, a payload that is again such a sequence; `fuel`
bounds the number of items read. -/
def wellFormedSeq : Nat → Bytes → Bool
  | 0, b => b.isEmpty
  | fuel + 1, b =>
    if b.isEmpty then true
    else
      match rlpSplit b with
      | .error _ => false
      | .ok (kind, content, rest) =>
        (if kind = Kind.List then wellFormedSeq fuel content else true) && wellFormedSeq fuel rest

/-- A raw value is well-formed RLP: it is one item with nothing after it whose header
`rlp.Split` accepts and whose payload, when the item is a list, is a sequence of well-formed
items. -/
def wellFormedRLP (r : Bytes) : Bool :=
  match rlpSplit r with
  | .error _ => false
  | .ok (kind, content, rest) =>
    rest.isEmpty && (if kind = Kind.List then wellFormedSeq r.length content else true)

/-- A raw value that is an RLP list of one item whose payload is cut short: the list payload
`0x81` announces a one-byte string that is missing. -/
def truncatedList : Bytes := [0xc1, 0x81]


/-- The writes of `TestStage` on a fresh State over the database `db`. -/
def writtenOn (db : DB) : State :=
  setStorages (((New sampleEnv db sampleCache Bytes32.zero).SetBalance sampleEnv sampleAddr
    10).2.SetCode sampleEnv sampleAddr [1, 2, 3]).2 sampleAddr sampleStorage

/-- A database whose code store fails to flush a batch. -/
def codeFaultDB : DB := { sampleDB with flushFault := some (.io 2) }

/-- A database that fails to commit every storage trie. -/
def storageFaultDB : DB :=
  { sampleDB with commitFault := fun name => if name = AccountTrieName then none else some (.io 3) }

/-- A database that fails to commit the accounts trie. -/
def accountsFaultDB : DB :=
  { sampleDB with commitFault := fun name => if name = AccountTrieName then some (.io 1) else none }

/-- A database whose code store fails every put. -/
def putFaultDB : DB := { sampleDB with putFault := fun _ => some (.io 4) }

/-- The database after the code batch of a commit, when the batch succeeds. -/
def batchOf (st : Stage) : DB :=
  match st.db.BatchCodes st.codes with
  | .ok db1 => db1
  | .error _ => st.db

/-- The journal traversal of `State.BuildStorageTrie`: `saveStorage` for every journaled storage
write whose address is `addr`, in journal order, stopping at the first error. -/
def buildStorageJournal (addr : Address) :
    List (Sigma Key.Val) → Trie StorageContent → Except GoError (Trie StorageContent)
  | [], trie => .ok trie
  | ⟨.account _, _⟩ :: rest, trie => buildStorageJournal addr rest trie
  | ⟨.code _, _⟩ :: rest, trie => buildStorageJournal addr rest trie
  | ⟨.storage a k, v⟩ :: rest, trie =>
    if a = addr then
      match saveStorage trie k v with
      | .error e => .error e
      | .ok t => buildStorageJournal addr rest t
    else buildStorageJournal addr rest trie

/-- The method `State.BuildStorageTrie`. -/
def State.BuildStorageTrie (env : Env) (s : State) (addr : Address) :
    Except GoError (Trie StorageContent) × State :=
  match s.getAccount env addr with
  | (.error e, s1) => (.error (.state e), s1)
  | (.ok acc, s1) =>
    match buildStorageJournal addr s1.sm.Journal
        (s1.db.NewStorageTrie env (StorageTrieName (env.blake2b addr.val))
          (BytesToBytes32 acc.StorageRoot)) with
    | .error e => (.error (.state e), s1)
    | .ok trie => (.ok trie, s1)

/-- A State opened at a root the database does not hold: every read of its accounts trie fails
with a missing node. -/
def brokenState : State := New sampleEnv sampleDB sampleCache (BytesToBytes32 [9])

/-- The stage of the State of `TestStage` over a database that fails to commit the accounts
trie. -/
def accountsFaultStage : Stage := stageOf sampleEnv (writtenOn accountsFaultDB)


/-- The journaled storage writes whose address is `a`, in journal order. -/
def storageWrites (a : Address) : List (Sigma Key.Val) → List (Bytes32 × Bytes)
  | [] => []
  | ⟨.account _, _⟩ :: rest => storageWrites a rest
  | ⟨.code _, _⟩ :: rest => storageWrites a rest
  | ⟨.storage b k, v⟩ :: rest =>
    if b = a then (k, v) :: storageWrites a rest else storageWrites a rest

/-- The raw value of the last journaled storage write to the slot `k` of the address `a`. -/
def lastWrite (a : Address) (k : Bytes32) : List (Sigma Key.Val) → Option Bytes
  | [] => none
  | ⟨.account _, _⟩ :: rest => lastWrite a k rest
  | ⟨.code _, _⟩ :: rest => lastWrite a k rest
  | ⟨.storage b k1, v⟩ :: rest =>
    match lastWrite a k rest with
    | some w => some w
    | none => if b = a ∧ k1 = k then some v else none


/-- The value of the last journal entry for `key`, when the journal has one. -/
def lastPut (key : Key) : List (Sigma Key.Val) → Option key.Val
  | [] => none
  | ⟨k, v⟩ :: rest =>
    match lastPut key rest with
    | some w => some w
    | none => if h : k = key then some (h ▸ v) else none

/-- The map `changes` that the journal traversal of `Stage` builds from the journal `j` on the
State `s`, described by its entries: an address is a key exactly when the journal holds an
account or storage entry for it; its record is the last journaled one, else the loaded one;
its pending slots are the last journaled raw value of every slot written. -/
def ChangesOf (env : Env) (s : State) (j : List (Sigma Key.Val))
    (ch : List (Address × changed)) : Prop :=
  (ch.map Prod.fst).Nodup ∧
  (∀ a, mapGet ch a = none ↔
    (lastPut (.account a) j = none ∧ ∀ k, lastPut (.storage a k) j = none)) ∧
  (∀ a c, mapGet ch a = some c →
    (∃ rec : Account, (s.cacheGetter env (.account a)).1 = .ok rec ∧
      c.data = (lastPut (.account a) j).getD rec) ∧
    (c.storage.map Prod.fst).Nodup ∧ ∀ k, mapGet c.storage k = lastPut (.storage a k) j)


/-- Two lists hold the same map `changes`, whatever the order of their entries and of the
pending slots of every entry: every key is listed once, and an address has in both the same
record and the same pending slots with the same raw values, or is a key of neither. -/
def SameChanges (ch1 ch2 : List (Address × changed)) : Prop :=
  (ch1.map Prod.fst).Nodup ∧ (ch2.map Prod.fst).Nodup ∧
  ∀ a,
    (mapGet ch1 a = none ∧ mapGet ch2 a = none) ∨
    (∃ c1 c2, mapGet ch1 a = some c1 ∧ mapGet ch2 a = some c2 ∧ c1.data = c2.data ∧
      (c1.storage.map Prod.fst).Nodup ∧ (c2.storage.map Prod.fst).Nodup ∧
      ∀ k, mapGet c1.storage k = mapGet c2.storage k)

/-- The address "acc2". -/
def sampleAddr2 : Address := BytesToAddress [0x61, 0x63, 0x63, 0x32]

/-- The address "acc3". -/
def sampleAddr3 : Address := BytesToAddress [0x61, 0x63, 0x63, 0x33]

/-- Writes to three addresses. -/
def sampleInterleaved1 : List WriteOp :=
  [.setBalance sampleAddr 1, .setBalance sampleAddr2 2, .setBalance sampleAddr3 3,
    .setStorage sampleAddr (BytesToBytes32 [0x73, 0x31]) (BytesToBytes32 [0x76, 0x31])]

/-- The writes of `sampleInterleaved1`, interleaved in another order. -/
def sampleInterleaved2 : List WriteOp :=
  [.setBalance sampleAddr3 3, .setBalance sampleAddr 1,
    .setStorage sampleAddr (BytesToBytes32 [0x73, 0x31]) (BytesToBytes32 [0x76, 0x31]),
    .setBalance sampleAddr2 2]


/-- The content of the storage trie of `a` after the pending slots of the journal `j` are
saved into the content `c0`: a slot holds the last raw value journaled for it, else the value
it held. -/
def stagedStorage (j : List (Sigma Key.Val)) (a : Address) (c0 : StorageContent) :
    StorageContent :=
  fun k => (lastPut (.storage a k) j).getD (c0 k)

/-- The State of an account with a balance and no storage. -/
def balanceState : State := (sampleState.SetBalance sampleEnv sampleAddr 10).2

/-- A fresh State at the root of the commit of `balanceState`: the account "acc1" has the
balance 10 and no storage root. -/
def balanceReopened : State :=
  New sampleEnv ((stageOf sampleEnv balanceState).Commit sampleEnv).2 sampleCache
    (rootOf sampleEnv (stageOf sampleEnv balanceState))

/-- The State `balanceReopened` after `SetStorage(acc1, "s1", zero)`. -/
def zeroWritten : State :=
  balanceReopened.SetStorage sampleAddr (BytesToBytes32 [0x73, 0x31]) Bytes32.zero

/-- The record of an address in the accounts trie that a fresh State at the root of the commit
of the State `s` reads. -/
def committedRecord (env : Env) (s : State) (a : Address) : Except GoError Account :=
  loadAccount
    ((((stageOf env s).Commit env).2).NewAccountTrie env (rootOf env (stageOf env s))) a


/-- A step of the use of a State: a write operation, `NewCheckpoint` or `RevertTo`. -/
inductive Step where
  | write (op : WriteOp) : Step
  | checkpoint : Step
  | revert (revision : Int) : Step

/-- The State after one step; the revision returned by `NewCheckpoint` is dropped. -/
def State.step (env : Env) (s : State) : Step → State
  | .write op => s.applyOp env op
  | .checkpoint => (s.NewCheckpoint).2
  | .revert revision => s.RevertTo revision

/-- The State after a sequence of steps. -/
def State.run (env : Env) (s : State) (steps : List Step) : State :=
  steps.foldl (State.step env) s

/-- The stacked map without its `n` topmost pushed frames. -/
def StackedMap.dropTop (sm : StackedMap) (n : Nat) : StackedMap :=
  { sm with stack := sm.stack.drop n }

/-- The stacked map of a State agrees with its journal: a key with a journal entry is found
with its last journaled value, and a record found without journal entry is the one the loader
returns. -/
def Journaled (env : Env) (s : State) : Prop :=
  (∀ (key : Key) (v : key.Val), lastPut key s.sm.Journal = some v → s.sm.find key = some v) ∧
  (∀ (a : Address) (v : Account), lastPut (.account a) s.sm.Journal = none →
    s.sm.find (.account a) = some v → (s.cacheGetter env (.account a)).1 = .ok v)

/-- The stacked map of a State agrees with its journal, and still does after any number of its
topmost frames are discarded. -/
def WellJournaled (env : Env) (s : State) : Prop :=
  ∀ n, Journaled env { s with sm := s.sm.dropTop n }


/-- The code hash that `SetCode` writes into the record for the code `c`. -/
def codeHashOf (env : Env) (c : Bytes) : Bytes :=
  if c.length > 0 then (env.keccak256 c).val else []

/-- In the journal `j`, every address with a code entry has a record entry, and the last
journaled record holds the hash of the last journaled code. -/
def Synced (env : Env) (j : List (Sigma Key.Val)) : Prop :=
  ∀ (a : Address) (c : Bytes), lastPut (.code a) j = some c →
    ∃ acc : Account, lastPut (.account a) j = some acc ∧ acc.CodeHash = codeHashOf env c

/-- The journal of a State is `Synced`, and still is after any number of the topmost frames
of its stacked map are discarded. -/
def WellSynced (env : Env) (s : State) : Prop :=
  ∀ n, Synced env (s.sm.dropTop n).Journal


/-- Writes with two checkpoints and a revert to the second one. -/
def sampleSteps : List Step :=
  [.write (.setBalance sampleAddr 10), .checkpoint, .write (.setCode sampleAddr [1, 2, 3]),
    .write (.setStorage sampleAddr (BytesToBytes32 [0x73, 0x31]) (BytesToBytes32 [0x76, 0x31])),
    .checkpoint, .write (.setBalance sampleAddr 99), .revert 2]

/-- The State after `sampleSteps` on a fresh State. -/
def sampleRun : State := sampleState.run sampleEnv sampleSteps

/-- A fresh State after `SetStorage(acc1, "s1", "v1")` alone: the account "acc1" is empty. -/
def emptyWritten : State :=
  sampleState.SetStorage sampleAddr (BytesToBytes32 [0x73, 0x31]) (BytesToBytes32 [0x76, 0x31])


/-- The non-empty code values of a journal, in journal order: the entries for which the
staging loop writes `codes[keccak256(code)] = code`. -/
def journalCodes : List (Sigma Key.Val) → List Bytes
  | [] => []
  | ⟨.code _, code⟩ :: rest =>
    if code.length > 0 then code :: journalCodes rest else journalCodes rest
  | ⟨.account _, _⟩ :: rest => journalCodes rest
  | ⟨.storage _ _, _⟩ :: rest => journalCodes rest

/-- State with two successive codes of one address, then a deletion of another address. -/
def twoCodes : State :=
  (((sampleState.SetCode sampleEnv sampleAddr [1]).2.SetCode sampleEnv sampleAddr [2]).2).Delete
    sampleAddr2


/-- The part of a State that a setter on address `a` leaves alone, seen through the getters:
every getter result at every other address, and every storage slot of `a`. -/
def FrameOf (env : Env) (s1 s2 : State) (a : Address) : Prop :=
  (∀ b, b ≠ a → SameReads env s1 s2 b) ∧
  (∀ k, (s1.GetRawStorage env a k).1 = (s2.GetRawStorage env a k).1) ∧
  (∀ k, (s1.GetStorage env a k).1 = (s2.GetStorage env a k).1)


/-- What a caller does between two calls of `Stage()` without leaving a write behind: a read
of the stacked map, which is what every getter does, or writes enclosed by
`r = NewCheckpoint()` and `RevertTo(r)`. -/
inductive Between where
  | read (key : Key) : Between
  | reverted (writes : List WriteOp) : Between

/-- The State after one such action. -/
def State.between (env : Env) (s : State) : Between → State
  | .read key => (s.smGet env key).2
  | .reverted writes => ((s.NewCheckpoint).2.applyOps env writes).RevertTo (s.NewCheckpoint).1

/-- The State after a sequence of such actions. -/
def State.betweens (env : Env) (s : State) (items : List Between) : State :=
  items.foldl (State.between env) s

/-- Two States give `Stage()` the same input: the same database, accounts trie and journal, and
the same loaded record at every address. -/
def StageAlike (env : Env) (s1 s2 : State) : Prop :=
  s1.db = s2.db ∧ s1.trie = s2.trie ∧ s1.sm.Journal = s2.sm.Journal ∧
  ∀ a, (s1.cacheGetter env (.account a)).1 = (s2.cacheGetter env (.account a)).1

/-- The sample actions between two stagings: reads, and writes that are reverted. -/
def sampleBetween : List Between :=
  [.read (.account sampleAddr), .read (.storage sampleAddr (BytesToBytes32 [0x73, 0x31])),
    .reverted [.setBalance sampleAddr 77, .setCode sampleAddr2 [5], .delete sampleAddr],
    .read (.code sampleAddr)]


/-! ## Block header (`block/header.go`) -/

/-- The library functions the header methods call: `luckyshare.NewBlake2b` (the hash of all
bytes written), `rlp.Encode` of the list of the header fields without the signature,
`crypto.SigToPub` and `crypto.PubkeyToAddress`. -/
structure BlockEnv where
  blake2b : Bytes → Bytes32
  encodeSigning : Bytes32 → Nat → Nat → Address → Nat → Nat → Bytes32 → Nat → Bytes32 →
    Bytes32 → Bytes
  SigToPub : Bytes → Bytes → Except GoError Bytes
  PubkeyToAddress : Bytes → Address

/-- The struct `txsRootFeatures`. -/
structure txsRootFeatures where
  Root : Bytes32
  Features : Nat

/-- The struct `headerBody`; the `uint64` fields are numbers below `2^64`. -/
structure headerBody where
  ParentID : Bytes32
  Timestamp : Nat
  GasLimit : Nat
  Beneficiary : Address
  GasUsed : Nat
  TotalScore : Nat
  TxsRootFeatures : txsRootFeatures
  StateRoot : Bytes32
  ReceiptsRoot : Bytes32
  Signature : Bytes

/-- The field `cache` of `Header`: three `atomic.Value`, `none` before the first store. -/
structure headerCache where
  signingHash : Option Bytes32
  signer : Option Address
  id : Option Bytes32

/-- The struct `Header`. -/
structure Header where
  body : headerBody
  cache : headerCache

/-- The zero value of the field `cache`. -/
def headerCache.empty : headerCache := { signingHash := none, signer := none, id := none }

/-- The function `binary.BigEndian.Uint32`: the number held by the first four bytes. -/
def beUint32 (b : Bytes) : Nat :=
  match b with
  | b0 :: b1 :: b2 :: b3 :: _ => b0.val * 16777216 + b1.val * 65536 + b2.val * 256 + b3.val
  | _ => 0

/-- The four bytes `binary.BigEndian.PutUint32` writes for the `uint32` value `v`. -/
def beBytes32 (v : Nat) : Bytes :=
  [⟨v / 16777216 % 256, Nat.mod_lt _ (by decide)⟩, ⟨v / 65536 % 256, Nat.mod_lt _ (by decide)⟩,
    ⟨v / 256 % 256, Nat.mod_lt _ (by decide)⟩, ⟨v % 256, Nat.mod_lt _ (by decide)⟩]

/-- The call `binary.BigEndian.PutUint32(id[:], v)` on a 32-byte word: the first four bytes
are overwritten. -/
def PutUint32 (id : Bytes32) (v : Nat) : Bytes32 :=
  ⟨beBytes32 v ++ id.val.drop 4, by
    simp only [List.length_append, List.length_drop, id.property, beBytes32, List.length_cons,
      List.length_nil]⟩

/-- The function `Number`: the block number held by a block ID. -/
def Number (blockID : Bytes32) : Nat := beUint32 blockID.val

/-- The method `Header.ParentID`. -/
def Header.ParentID (h : Header) : Bytes32 := h.body.ParentID

/-- The method `Header.Number`, a `uint32` sum. -/
def Header.Number (h : Header) : Nat := (Luckyshare.Number h.body.ParentID + 1) % 2 ^ 32

/-- The method `Header.SigningHash`, with the header after the call. -/
def Header.SigningHash (env : BlockEnv) (h : Header) : Bytes32 × Header :=
  match h.cache.signingHash with
  | some cached => (cached, h)
  | none =>
    let hash := env.blake2b (env.encodeSigning h.body.ParentID h.body.Timestamp h.body.GasLimit
      h.body.Beneficiary h.body.GasUsed h.body.TotalScore h.body.TxsRootFeatures.Root
      h.body.TxsRootFeatures.Features h.body.StateRoot h.body.ReceiptsRoot)
    (hash, { h with cache := { h.cache with signingHash := some hash } })

/-- The method `Header.withSignature`. -/
def Header.withSignature (h : Header) (sig : Bytes) : Header :=
  { body := { h.body with Signature := sig }, cache := headerCache.empty }

/-- The method `Header.Signer`, with the header after the call. -/
def Header.Signer (env : BlockEnv) (h : Header) : Except GoError Address × Header :=
  if h.Number = 0 then (.ok Address.zero, h)
  else
    match h.cache.signer with
    | some cached => (.ok cached, h)
    | none =>
      let (sh, h1) := h.SigningHash env
      match env.SigToPub sh.val h1.body.Signature with
      | .error e => (.error e, h1)
      | .ok pub =>
        (.ok (env.PubkeyToAddress pub),
          { h1 with cache := { h1.cache with signer := some (env.PubkeyToAddress pub) } })

/-- The method `Header.ID`, with the header after the call: the deferred function overwrites
the first four bytes of the result with the block number and stores the result. -/
def Header.ID (env : BlockEnv) (h : Header) : Bytes32 × Header :=
  match h.cache.id with
  | some cached => (cached, h)
  | none =>
    match h.Signer env with
    | (.error _, h1) =>
      (PutUint32 Bytes32.zero h1.Number,
        { h1 with cache := { h1.cache with id := some (PutUint32 Bytes32.zero h1.Number) } })
    | (.ok signer, h1) =>
      let (sh, h2) := h1.SigningHash env
      (PutUint32 (env.blake2b (sh.val ++ signer.val)) h2.Number,
        { h2 with cache := { h2.cache with
            id := some (PutUint32 (env.blake2b (sh.val ++ signer.val)) h2.Number) } })

/-- The header with the same body and nothing cached. -/
def Header.fresh (h : Header) : Header := { body := h.body, cache := headerCache.empty }

/-- The cache of a header holds only what its methods store: the signing hash, the signer and
the ID of the body. -/
def Header.Valid (env : BlockEnv) (h : Header) : Prop :=
  (∀ c, h.cache.signingHash = some c → c = (h.fresh.SigningHash env).1) ∧
  (∀ s, h.cache.signer = some s → (h.fresh.Signer env).1 = .ok s) ∧
  (∀ c, h.cache.id = some c → c = (h.fresh.ID env).1)

/-- A small environment for headers: toy hash, and a recovery that fails on an empty
signature. -/
def sampleBlockEnv : BlockEnv :=
  { blake2b := fun b => BytesToBytes32 (2 :: b)
    encodeSigning := fun p _ _ _ _ _ _ _ _ _ => p.val
    SigToPub := fun _ sig => if sig.length = 0 then .error (.io 1) else .ok sig
    PubkeyToAddress := BytesToAddress }

/-- A header of block 42 without signature. -/
def sampleHeader : Header :=
  { body :=
      { ParentID := PutUint32 (BytesToBytes32 [7]) 41
        Timestamp := 1
        GasLimit := 2
        Beneficiary := Address.zero
        GasUsed := 0
        TotalScore := 3
        TxsRootFeatures := { Root := Bytes32.zero, Features := 0 }
        StateRoot := Bytes32.zero
        ReceiptsRoot := Bytes32.zero
        Signature := [] }
    cache := headerCache.empty }


/-! ## Basic facts about the stacked map -/

theorem StackedMap.find_Put_same (sm : StackedMap) (k : Key) (v : k.Val) :
    (sm.Put k v).find k = some v := by
  unfold StackedMap.Put StackedMap.find
  cases h : sm.stack with
  | nil => simp [Frame.put]
  | cons top rest => simp [Frame.put]

theorem StackedMap.find_Put_ne (sm : StackedMap) (k : Key) (v : k.Val) (k1 : Key) (h : k1 ≠ k) :
    (sm.Put k v).find k1 = sm.find k1 := by
  unfold StackedMap.Put StackedMap.find
  cases hs : sm.stack with
  | nil => simp [Frame.put, List.findSome?_cons, Function.update_noteq h]
  | cons top rest => simp [Frame.put, List.findSome?_cons, Function.update_noteq h]

theorem State.smGet_of_find (env : Env) (s : State) (k : Key) (v : k.Val)
    (h : s.sm.find k = some v) : s.smGet env k = (.ok v, s) := by
  unfold State.smGet
  rw [h]

theorem rightAlign_of_length (n : Nat) (b : Bytes) (h : b.length = n) : rightAlign n b = b := by
  simp [rightAlign, h]

theorem BytesToAddress_val (m : Address) : BytesToAddress m.val = m :=
  Subtype.ext (rightAlign_of_length 20 m.val m.property)

theorem BytesToBytes32_val (v : Bytes32) : BytesToBytes32 v.val = v :=
  Subtype.ext (rightAlign_of_length 32 v.val v.property)

theorem BytesToAddress_nil : BytesToAddress [] = Address.zero := by
  apply Subtype.ext
  simp [BytesToAddress, rightAlign, Address.zero]

theorem BytesToBytes32_nil : BytesToBytes32 [] = Bytes32.zero := by
  apply Subtype.ext
  simp [BytesToBytes32, rightAlign, Bytes32.zero]

/-! ## Reads after writes -/

theorem State.getAccount_updateAccount (env : Env) (s : State) (a : Address) (acc : Account) :
    (s.updateAccount a acc).getAccount env a = (.ok acc, s.updateAccount a acc) := by
  unfold State.getAccount
  exact State.smGet_of_find env _ (.account a) acc (StackedMap.find_Put_same s.sm (.account a) acc)

/-- The account a setter journals: the copy read by `getAccountCopy`, when the read succeeds. -/
theorem State.getAccountCopy_cases (env : Env) (s : State) (a : Address) :
    (∃ e, s.getAccountCopy env a = (.error e, (s.smGet env (.account a)).2)) ∨
    (∃ acc, s.getAccountCopy env a = (.ok acc, (s.smGet env (.account a)).2)) := by
  unfold State.getAccountCopy State.getAccount
  rcases h : s.smGet env (.account a) with ⟨r, s1⟩
  cases r with
  | error e => exact Or.inl ⟨e, rfl⟩
  | ok acc => exact Or.inr ⟨acc, rfl⟩

/-- C2. Read-your-writes for the account fields: when the setter returns no error, `GetBalance`
returns the balance just set, `GetMaster` the master just set (the zero address included) and
`GetEnergy` at the time of the write the energy just set, for every State. -/
theorem C2_read_your_writes (env : Env) (s : State) (a : Address) (v : Int) (m : Address)
    (e : Int) (t : Nat) :
    ((s.SetBalance env a v).1 = none →
      ((s.SetBalance env a v).2.GetBalance env a).1 = .ok v) ∧
    ((s.SetMaster env a m).1 = none →
      ((s.SetMaster env a m).2.GetMaster env a).1 = .ok m) ∧
    ((s.SetEnergy env a e t).1 = none →
      ((s.SetEnergy env a e t).2.GetEnergy env a t).1 = .ok e) := by
  refine ⟨?_, ?_, ?_⟩
  · intro h
    unfold State.SetBalance at h ⊢
    rcases State.getAccountCopy_cases env s a with ⟨e1, h1⟩ | ⟨acc, h1⟩
    · rw [h1] at h; simp at h
    · rw [h1]
      simp [State.GetBalance, State.getAccount_updateAccount]
  · intro h
    unfold State.SetMaster at h ⊢
    rcases State.getAccountCopy_cases env s a with ⟨e1, h1⟩ | ⟨acc, h1⟩
    · rw [h1] at h; simp at h
    · rw [h1]
      by_cases hz : m.IsZero = true
      · have hm : m = Address.zero := by simpa [Address.IsZero] using hz
        simp only [if_pos hz]
        simp [State.GetMaster, State.getAccount_updateAccount, BytesToAddress_nil, hm]
      · simp only [if_neg hz]
        simp [State.GetMaster, State.getAccount_updateAccount, BytesToAddress_val]
  · intro h
    unfold State.SetEnergy at h ⊢
    rcases State.getAccountCopy_cases env s a with ⟨e1, h1⟩ | ⟨acc, h1⟩
    · rw [h1] at h; simp at h
    · rw [h1]
      simp [State.GetEnergy, State.getAccount_updateAccount, Account.CalcEnergy]

/-- The quotient of `CalcEnergy` is the floor of the exact quotient. -/
theorem energy_quotient_floor (x : Int) :
    x / energyScale = ⌊(x : ℚ) / (10 : ℚ) ^ 18⌋ := by
  have h := Rat.floor_intCast_div_natCast x (10 ^ 18)
  push_cast at h
  rw [energyScale]
  exact h.symm

/-- C7. Energy growth: after `SetBalance(a,b)` (returning no error) and `SetEnergy(a,e,t)`, which
then returns no error either, `GetEnergy(a,now)` for `t <= now` returns
`e + floor(EnergyGrowthRate * b * (now - t) / 10^18)`, for every balance `b` and energy `e` (the
non-negative ones in particular); with `b = 10^18`, `e = 0`, `t = 10` and
`now = 1000` this value is `990 * EnergyGrowthRate`. -/
theorem C7_energy_growth (env : Env) (s : State) (a : Address) (b e : Int) (t now : Nat)
    (ht : t ≤ now) (hset : (s.SetBalance env a b).1 = none) :
    (((s.SetBalance env a b).2.SetEnergy env a e t).1 = none ∧
      ((((s.SetBalance env a b).2.SetEnergy env a e t).2.GetEnergy env a now).1 =
        .ok (e + ⌊((env.EnergyGrowthRate * b * ((now : Int) - (t : Int)) : Int) : ℚ)
          / (10 : ℚ) ^ 18⌋))) ∧
    ((0 : Int) + ⌊((env.EnergyGrowthRate * (10 : Int) ^ 18 * (((1000 : Nat) : Int) - ((10 : Nat) : Int)) : Int) : ℚ)
          / (10 : ℚ) ^ 18⌋ = 990 * env.EnergyGrowthRate) := by
  constructor
  · unfold State.SetBalance at hset ⊢
    rcases State.getAccountCopy_cases env s a with ⟨e1, h1⟩ | ⟨acc, h1⟩
    · rw [h1] at hset; simp at hset
    · rw [h1]
      have hsub : (((now - t : Nat)) : Int) = (now : Int) - (t : Int) := by omega
      simp [State.SetEnergy, State.getAccountCopy, State.GetEnergy,
        State.getAccount_updateAccount, Account.CalcEnergy, energy_quotient_floor, hsub]
  · rw [← energy_quotient_floor]
    rw [energyScale]
    have : env.EnergyGrowthRate * (10 : Int) ^ 18 * (((1000 : Nat) : Int) - ((10 : Nat) : Int))
        = (990 * env.EnergyGrowthRate) * 10 ^ 18 := by push_cast; ring
    rw [this, Int.mul_ediv_cancel _ (by norm_num : (10 : Int) ^ 18 ≠ 0)]
    simp

/-! ## Storage encoding -/

theorem trimLeftZeros_length_le (b : Bytes) : (trimLeftZeros b).length ≤ b.length := by
  induction b with
  | nil => simp [trimLeftZeros]
  | cons x tl ih =>
    unfold trimLeftZeros at ih ⊢
    by_cases hx : x = 0
    · simp [List.dropWhile_cons, hx]; omega
    · simp [List.dropWhile_cons, hx]

theorem trimLeftZeros_pad (b : Bytes) :
    List.replicate (b.length - (trimLeftZeros b).length) 0 ++ trimLeftZeros b = b := by
  induction b with
  | nil => simp [trimLeftZeros]
  | cons x tl ih =>
    have hle := trimLeftZeros_length_le tl
    unfold trimLeftZeros at ih hle ⊢
    by_cases hx : x = 0
    · subst hx
      simp only [List.dropWhile_cons, decide_True, if_true, List.length_cons]
      rw [show tl.length + 1 - (List.dropWhile (fun x => decide (x = 0)) tl).length
        = (tl.length - (List.dropWhile (fun x => decide (x = 0)) tl).length) + 1 by omega]
      rw [List.replicate_succ, List.cons_append, ih]
    · simp [List.dropWhile_cons, hx]

theorem rightAlign_trimLeftZeros (n : Nat) (b : Bytes) (h : b.length = n) :
    rightAlign n (trimLeftZeros b) = b := by
  have hle := trimLeftZeros_length_le b
  have hpad := trimLeftZeros_pad b
  unfold rightAlign
  rw [show (trimLeftZeros b).length - n = 0 by omega, List.drop_zero, ← h]
  exact hpad

theorem trimLeftZeros_ne_nil (v : Bytes32) (h : v ≠ Bytes32.zero) : trimLeftZeros v.val ≠ [] := by
  intro hnil
  apply h
  apply Subtype.ext
  have hpad := trimLeftZeros_pad v.val
  rw [hnil] at hpad
  simp [v.property] at hpad
  simp [Bytes32.zero, ← hpad]

/-- Splitting the encoding of a short byte string gives the string back, as a non-list. -/
theorem rlpSplit_rlpEncodeBytes (b : Bytes) (hne : b ≠ []) (hlen : b.length ≤ 55) :
    ∃ k, k ≠ Kind.List ∧ rlpSplit (rlpEncodeBytes b) = .ok (k, b, []) := by
  match b, hne, hlen with
  | [x], _, _ =>
    by_cases hx : x.val < 0x80
    · refine ⟨Kind.Byte, by decide, ?_⟩
      simp [rlpEncodeBytes, rlpSplit, readKind, hx]
    · refine ⟨Kind.String, by decide, ?_⟩
      have hx2 : ¬ (x.val < 128) := hx
      have h129 : ((129 : Fin 256) : Nat) = 129 := rfl
      simp [rlpEncodeBytes, rlpSplit, readKind, hx, hx2, h129]
  | x :: y :: tl, _, hlen =>
    refine ⟨Kind.String, by decide, ?_⟩
    simp only [List.length_cons] at hlen
    have hv : (Fin.ofNat (0x80 + (tl.length + 1 + 1)) : Fin 256).val = 0x80 + (tl.length + 2) := by
      simp [Fin.ofNat]; omega
    have h1 : ¬ ((Fin.ofNat (0x80 + (tl.length + 1 + 1)) : Fin 256).val < 0x80) := by
      rw [hv]; omega
    have h2 : (Fin.ofNat (0x80 + (tl.length + 1 + 1)) : Fin 256).val < 0xB8 := by
      rw [hv]; omega
    have h3 : ¬ ((Fin.ofNat (0x80 + (tl.length + 1 + 1)) : Fin 256).val - 0x80 = 1) := by
      rw [hv]; omega
    have h5 : (Fin.ofNat (0x80 + (tl.length + 1 + 1)) : Fin 256).val - 0x80 = tl.length + 2 := by
      rw [hv]; omega
    simp only [rlpEncodeBytes, rlpSplit, readKind, List.length_cons]
    rw [if_pos (by omega)]
    simp only [if_neg h1, if_pos h2, h3, false_and, if_false, h5]
    rw [if_neg (by omega)]
    simp
    omega

/-! ## What a read leaves unchanged -/

theorem State.getCachedObject_sm (s : State) (addr : Address) :
    (s.getCachedObject addr).2.sm = s.sm ∧ (s.getCachedObject addr).2.db = s.db ∧
      (s.getCachedObject addr).2.trie = s.trie ∧
      (s.getCachedObject addr).2.codeCache = s.codeCache := by
  unfold State.getCachedObject
  split
  · exact ⟨rfl, rfl, rfl, rfl⟩
  · split <;> exact ⟨rfl, rfl, rfl, rfl⟩

theorem State.cacheGetter_sm (env : Env) (s : State) (key : Key) :
    (s.cacheGetter env key).2.sm = s.sm ∧ (s.cacheGetter env key).2.db = s.db ∧
      (s.cacheGetter env key).2.trie = s.trie := by
  have h := State.getCachedObject_sm s
  cases key with
  | account k =>
    simp only [State.cacheGetter]
    have hk := h k
    split <;> rename_i heq <;> rw [heq] at hk <;> exact ⟨hk.1, hk.2.1, hk.2.2.1⟩
  | code k =>
    simp only [State.cacheGetter]
    have hk := h k
    split <;> rename_i heq <;> rw [heq] at hk
    · exact ⟨hk.1, hk.2.1, hk.2.2.1⟩
    · split <;> exact ⟨hk.1, hk.2.1, hk.2.2.1⟩
  | storage addr k =>
    simp only [State.cacheGetter]
    have hk := h addr
    split <;> rename_i heq <;> rw [heq] at hk
    · exact ⟨hk.1, hk.2.1, hk.2.2.1⟩
    · split <;> exact ⟨hk.1, hk.2.1, hk.2.2.1⟩

theorem StackedMap.find_cacheLoaded_ne (sm : StackedMap) (k : Key) (v : k.Val) (k1 : Key)
    (h : k1 ≠ k) : (sm.cacheLoaded k v).find k1 = sm.find k1 := by
  unfold StackedMap.cacheLoaded StackedMap.find
  simp [List.findSome?_append, List.findSome?_cons, Function.update_noteq h]

/-- A read of one key leaves what the frames hold for every other key. -/
theorem State.smGet_find_ne (env : Env) (s : State) (k k1 : Key) (h : k1 ≠ k) :
    (s.smGet env k).2.sm.find k1 = s.sm.find k1 := by
  unfold State.smGet
  split
  · rfl
  · have hsm := (State.cacheGetter_sm env s k).1
    split <;> rename_i heq <;> rw [heq] at hsm
    · simp only [] at hsm; rw [hsm]
    · simp only [] at hsm ⊢
      rw [StackedMap.find_cacheLoaded_ne _ _ _ _ h, hsm]

/-- After a successful `SetCode(a, c)` the frames hold `c` under the code key of `a` and a
record whose code hash is the hash journaled by the call. -/
theorem State.SetCode_find (env : Env) (s : State) (a : Address) (c : Bytes)
    (h : (s.SetCode env a c).1 = none) :
    (s.SetCode env a c).2.sm.find (.code a) = some c ∧
    ∃ acc : Account, (s.SetCode env a c).2.sm.find (.account a) = some acc ∧
      acc.CodeHash = (if c.length > 0 then (env.keccak256 c).val else []) := by
  unfold State.SetCode at h ⊢
  simp only [] at h ⊢
  generalize hs0 : (if c.length > 0 then
      ({ s with
        sm := s.sm.Put (.code a) c
        codeCache := Function.update s.codeCache (env.keccak256 c).val (some c) } : State)
    else { s with sm := s.sm.Put (.code a) [] }) = s0 at h ⊢
  have hcode : s0.sm.find (.code a) = some c := by
    by_cases hc : c.length > 0
    · rw [if_pos hc] at hs0
      rw [← hs0]
      exact StackedMap.find_Put_same _ _ _
    · rw [if_neg hc] at hs0
      have hnil : c = [] := List.length_eq_zero.mp (by omega)
      rw [← hs0, hnil]
      exact StackedMap.find_Put_same s.sm (.code a) ([] : Bytes)
  rcases State.getAccountCopy_cases env s0 a with ⟨e1, h1⟩ | ⟨acc, h1⟩
  · rw [h1] at h; simp at h
  · rw [h1]
    simp only [State.updateAccount]
    refine ⟨?_, _, StackedMap.find_Put_same _ _ _, rfl⟩
    rw [StackedMap.find_Put_ne _ _ _ _ (by simp), State.smGet_find_ne env s0 _ _ (by simp), hcode]

/-- C6. Read-your-writes for code: after a successful `SetCode(a, c)`, `GetCode(a)` returns `c`
and `GetCodeHash(a)` returns `keccak256(c)` when `c` is non-empty, and the empty code and the
zero hash when `c` is empty; this holds for every State, so whatever `SetCode` came before. -/
theorem C6_code_read_your_writes (env : Env) (s : State) (a : Address) (c : Bytes)
    (h : (s.SetCode env a c).1 = none) :
    (c ≠ [] → ((s.SetCode env a c).2.GetCode env a).1 = .ok c ∧
      ((s.SetCode env a c).2.GetCodeHash env a).1 = .ok (env.keccak256 c)) ∧
    (c = [] → ((s.SetCode env a c).2.GetCode env a).1 = .ok [] ∧
      ((s.SetCode env a c).2.GetCodeHash env a).1 = .ok Bytes32.zero) := by
  obtain ⟨hcode, acc, hacc, hhash⟩ := State.SetCode_find env s a c h
  have hgc : ((s.SetCode env a c).2.GetCode env a).1 = .ok c := by
    unfold State.GetCode
    rw [State.smGet_of_find env _ (.code a) c hcode]
  have hgh : ((s.SetCode env a c).2.GetCodeHash env a).1 = .ok (BytesToBytes32 acc.CodeHash) := by
    unfold State.GetCodeHash State.getAccount
    rw [State.smGet_of_find env _ (.account a) acc hacc]
  constructor
  · intro hc
    have hlen : c.length > 0 := List.length_pos.mpr hc
    rw [if_pos hlen] at hhash
    exact ⟨hgc, by rw [hgh, hhash, BytesToBytes32_val]⟩
  · intro hc
    subst hc
    rw [if_neg (by simp)] at hhash
    exact ⟨hgc, by rw [hgh, hhash, BytesToBytes32_nil]⟩

/-! ## The loader does not look at the stacked map -/

theorem State.getCachedObject_with_sm (s : State) (sm1 : StackedMap) (addr : Address) :
    ({ s with sm := sm1 } : State).getCachedObject addr =
      ((s.getCachedObject addr).1, { (s.getCachedObject addr).2 with sm := sm1 }) := by
  unfold State.getCachedObject
  simp only []
  split
  · rfl
  · split <;> rfl

theorem State.cacheGetter_with_sm (env : Env) (s : State) (sm1 : StackedMap) (key : Key) :
    ({ s with sm := sm1 } : State).cacheGetter env key =
      ((s.cacheGetter env key).1, { (s.cacheGetter env key).2 with sm := sm1 }) := by
  cases key with
  | account k =>
    simp only [State.cacheGetter, State.getCachedObject_with_sm]
    rcases s.getCachedObject k with ⟨r, s1⟩
    cases r <;> rfl
  | code k =>
    simp only [State.cacheGetter, State.getCachedObject_with_sm]
    rcases s.getCachedObject k with ⟨r, s1⟩
    cases r with
    | error e => rfl
    | ok obj =>
      simp only []
      rcases obj.GetCode s1.db s1.codeCache with ⟨r2, obj1, cc1⟩
      cases r2 <;> rfl
  | storage addr k =>
    simp only [State.cacheGetter, State.getCachedObject_with_sm]
    rcases s.getCachedObject addr with ⟨r, s1⟩
    cases r with
    | error e => rfl
    | ok obj =>
      simp only []
      rcases obj.GetStorage env s1.db k with ⟨r2, obj1⟩
      cases r2 <;> rfl

/-- The result of a read is decided by what the frames hold for the key and, on a miss, by the
loader, which does not depend on the stacked map. -/
theorem State.smGet_with_sm (env : Env) (s : State) (sm1 : StackedMap) (key : Key)
    (h : sm1.find key = s.sm.find key) :
    (({ s with sm := sm1 } : State).smGet env key).1 = (s.smGet env key).1 := by
  unfold State.smGet
  simp only [h]
  cases s.sm.find key with
  | some v => rfl
  | none =>
    simp only [State.cacheGetter_with_sm]
    rcases s.cacheGetter env key with ⟨r, s1⟩
    cases r <;> rfl

/-! ## Getters as functions of the read -/

theorem State.GetBalance_fst (env : Env) (s : State) (a : Address) :
    (s.GetBalance env a).1 =
      match (s.smGet env (.account a)).1 with
      | .error e => .error (.state e)
      | .ok acc => .ok acc.Balance := by
  unfold State.GetBalance State.getAccount
  rcases s.smGet env (.account a) with ⟨r, s1⟩
  cases r <;> rfl

theorem State.GetEnergy_fst (env : Env) (s : State) (a : Address) (t : Nat) :
    (s.GetEnergy env a t).1 =
      match (s.smGet env (.account a)).1 with
      | .error e => .error (.state e)
      | .ok acc => .ok (acc.CalcEnergy env.EnergyGrowthRate t) := by
  unfold State.GetEnergy State.getAccount
  rcases s.smGet env (.account a) with ⟨r, s1⟩
  cases r <;> rfl

theorem State.GetMaster_fst (env : Env) (s : State) (a : Address) :
    (s.GetMaster env a).1 =
      match (s.smGet env (.account a)).1 with
      | .error e => .error (.state e)
      | .ok acc => .ok (BytesToAddress acc.Master) := by
  unfold State.GetMaster State.getAccount
  rcases s.smGet env (.account a) with ⟨r, s1⟩
  cases r <;> rfl

theorem State.GetCodeHash_fst (env : Env) (s : State) (a : Address) :
    (s.GetCodeHash env a).1 =
      match (s.smGet env (.account a)).1 with
      | .error e => .error (.state e)
      | .ok acc => .ok (BytesToBytes32 acc.CodeHash) := by
  unfold State.GetCodeHash State.getAccount
  rcases s.smGet env (.account a) with ⟨r, s1⟩
  cases r <;> rfl

theorem State.Exists_fst (env : Env) (s : State) (a : Address) :
    (s.Exists env a).1 =
      match (s.smGet env (.account a)).1 with
      | .error e => .error (.state e)
      | .ok acc => .ok (!acc.IsEmpty) := by
  unfold State.Exists State.getAccount
  rcases s.smGet env (.account a) with ⟨r, s1⟩
  cases r <;> rfl

theorem State.GetCode_fst (env : Env) (s : State) (a : Address) :
    (s.GetCode env a).1 =
      match (s.smGet env (.code a)).1 with
      | .error e => .error (.state e)
      | .ok c => .ok c := by
  unfold State.GetCode
  rcases s.smGet env (.code a) with ⟨r, s1⟩
  cases r <;> rfl

theorem State.GetRawStorage_fst (env : Env) (s : State) (a : Address) (k : Bytes32) :
    (s.GetRawStorage env a k).1 =
      match (s.smGet env (.storage a k)).1 with
      | .error e => .error (.state e)
      | .ok c => .ok c := by
  unfold State.GetRawStorage
  rcases s.smGet env (.storage a k) with ⟨r, s1⟩
  cases r <;> rfl

theorem State.GetStorage_fst (env : Env) (s : State) (a : Address) (k : Bytes32) :
    (s.GetStorage env a k).1 = decodeStorage env (s.GetRawStorage env a k).1 := by
  unfold State.GetStorage decodeStorage
  rcases s.GetRawStorage env a k with ⟨r, s1⟩
  cases r with
  | error e => rfl
  | ok raw =>
    simp only []
    split
    · rfl
    · rcases rlpSplit raw with _ | ⟨kind, content, rest⟩
      · rfl
      · simp only []
        split <;> rfl

/-- States whose reads agree on the three kinds of key of an address give the same getter
results at that address. -/
theorem SameReads.of_smGet (env : Env) (s1 s2 : State) (a : Address)
    (hacc : (s1.smGet env (.account a)).1 = (s2.smGet env (.account a)).1)
    (hcode : (s1.smGet env (.code a)).1 = (s2.smGet env (.code a)).1)
    (hsto : ∀ k, (s1.smGet env (.storage a k)).1 = (s2.smGet env (.storage a k)).1) :
    SameReads env s1 s2 a := by
  refine ⟨?_, ?_, ?_, ?_, ?_, ?_, ?_, ?_⟩
  · rw [State.GetBalance_fst, State.GetBalance_fst, hacc]
  · intro t; rw [State.GetEnergy_fst, State.GetEnergy_fst, hacc]
  · rw [State.GetMaster_fst, State.GetMaster_fst, hacc]
  · rw [State.GetCode_fst, State.GetCode_fst, hcode]
  · rw [State.GetCodeHash_fst, State.GetCodeHash_fst, hacc]
  · intro k
    rw [State.GetStorage_fst, State.GetStorage_fst, State.GetRawStorage_fst,
      State.GetRawStorage_fst, hsto k]
  · intro k; rw [State.GetRawStorage_fst, State.GetRawStorage_fst, hsto k]
  · rw [State.Exists_fst, State.Exists_fst, hacc]

/-! ## Existence and deletion -/

theorem Account.IsEmpty_eq (acc : Account) :
    (!acc.IsEmpty) =
      decide (acc.Balance ≠ 0 ∨ acc.Energy ≠ 0 ∨ acc.Master ≠ [] ∨ acc.CodeHash ≠ []) := by
  unfold Account.IsEmpty
  by_cases h1 : acc.Balance = 0 <;> by_cases h2 : acc.Energy = 0 <;>
    by_cases h3 : acc.Master = [] <;> by_cases h4 : acc.CodeHash = [] <;>
    simp [h1, h2, h3, h4]

/-- C8. `Exists(a)` is true iff the current account of `a` has a non-zero balance, a non-zero
stored energy, a master or a code hash; the storage root does not enter, and a `SetStorage` on
`a` leaves the result of `Exists(a)` as it was, so it stays false on an address without
balance, energy, master and code. -/
theorem C8_exists_iff_not_empty (env : Env) (s : State) (a : Address) :
    (∀ acc, (s.getAccount env a).1 = .ok acc →
      (s.Exists env a).1 =
        .ok (decide (acc.Balance ≠ 0 ∨ acc.Energy ≠ 0 ∨ acc.Master ≠ [] ∨ acc.CodeHash ≠ []))) ∧
    (∀ k v, ((s.SetStorage a k v).Exists env a).1 = (s.Exists env a).1) ∧
    (∀ acc k v, (s.getAccount env a).1 = .ok acc → acc.Balance = 0 → acc.Energy = 0 →
      acc.Master = [] → acc.CodeHash = [] →
      ((s.SetStorage a k v).Exists env a).1 = .ok false) := by
  have h1 : ∀ acc, (s.getAccount env a).1 = .ok acc →
      (s.Exists env a).1 =
        .ok (decide (acc.Balance ≠ 0 ∨ acc.Energy ≠ 0 ∨ acc.Master ≠ [] ∨ acc.CodeHash ≠ [])) := by
    intro acc hacc
    unfold State.getAccount at hacc
    rw [State.Exists_fst, hacc]
    simp only [Account.IsEmpty_eq]
  have h2 : ∀ k v, ((s.SetStorage a k v).Exists env a).1 = (s.Exists env a).1 := by
    intro k v
    have key : ∀ raw, ((s.SetRawStorage a k raw).Exists env a).1 = (s.Exists env a).1 := by
      intro raw
      rw [State.Exists_fst, State.Exists_fst]
      unfold State.SetRawStorage
      rw [State.smGet_with_sm env s _ _ (StackedMap.find_Put_ne _ _ _ _ (by simp))]
    unfold State.SetStorage
    split <;> exact key _
  refine ⟨h1, h2, ?_⟩
  intro acc k v hacc hb he hm hc
  rw [h2 k v, h1 acc hacc]
  simp [hb, he, hm, hc]

theorem State.Delete_sm (s : State) (a : Address) :
    s.Delete a =
      { s with sm := (s.sm.Put (.code a) ([] : Bytes)).Put (.account a) emptyAccount } := rfl

/-- C9. Delete within a State: after `Delete(a)` the same State returns balance 0, energy 0 at
every time, the zero master, empty code, the zero code hash and `Exists(a) = false`, and every
getter on every other address returns what it returned before. -/
theorem C9_delete_reads (env : Env) (s : State) (a : Address) :
    ((s.Delete a).GetBalance env a).1 = .ok 0 ∧
    (∀ now, ((s.Delete a).GetEnergy env a now).1 = .ok 0) ∧
    ((s.Delete a).GetMaster env a).1 = .ok Address.zero ∧
    ((s.Delete a).GetCode env a).1 = .ok [] ∧
    ((s.Delete a).GetCodeHash env a).1 = .ok Bytes32.zero ∧
    ((s.Delete a).Exists env a).1 = .ok false ∧
    (∀ b, b ≠ a → SameReads env (s.Delete a) s b) := by
  have hacc : (s.Delete a).smGet env (.account a) = (.ok emptyAccount, s.Delete a) :=
    State.smGet_of_find env _ (.account a) emptyAccount (StackedMap.find_Put_same _ _ _)
  have hcode : (s.Delete a).smGet env (.code a) = (.ok ([] : Bytes), s.Delete a) := by
    apply State.smGet_of_find env _ (.code a)
    rw [State.Delete_sm]
    simp only []
    rw [StackedMap.find_Put_ne _ _ _ _ (by simp)]
    exact StackedMap.find_Put_same s.sm (.code a) ([] : Bytes)
  refine ⟨?_, ?_, ?_, ?_, ?_, ?_, ?_⟩
  · rw [State.GetBalance_fst, hacc]; rfl
  · intro now
    rw [State.GetEnergy_fst, hacc]
    simp [Account.CalcEnergy, emptyAccount]
  · rw [State.GetMaster_fst, hacc]
    simp [emptyAccount, BytesToAddress_nil]
  · rw [State.GetCode_fst, hcode]
  · rw [State.GetCodeHash_fst, hacc]
    simp [emptyAccount, BytesToBytes32_nil]
  · rw [State.Exists_fst, hacc]; rfl
  · intro b hb
    have hfind : ∀ key : Key, key ≠ .code a → key ≠ .account a →
        ((s.sm.Put (.code a) ([] : Bytes)).Put (.account a) emptyAccount).find key
          = s.sm.find key := by
      intro key h1 h2
      rw [StackedMap.find_Put_ne _ _ _ _ h2]
      exact StackedMap.find_Put_ne s.sm (.code a) ([] : Bytes) key h1
    rw [State.Delete_sm]
    apply SameReads.of_smGet
    · exact State.smGet_with_sm env s _ _ (hfind _ (by simp) (by simpa using hb))
    · exact State.smGet_with_sm env s _ _ (hfind _ (by simpa using hb) (by simp))
    · intro k
      exact State.smGet_with_sm env s _ _ (hfind _ (by simp) (by simp))

/-! ## Commit -/

/-- A successful `Commit` went through its three steps: the code batch, the commits of the
storage tries and the commit of the accounts trie, whose content is stored under the returned
root. -/
theorem Stage.Commit_ok (env : Env) (st : Stage) (R : Bytes32) (db2 : DB)
    (h : st.Commit env = (.ok R, db2)) :
    ∃ cA db0 db1, st.accountTrie.content = some cA ∧ R = env.accountsRoot cA ∧
      st.db.BatchCodes st.codes = .ok db0 ∧
      commitStorageTries env db0 st.storageTries = (none, db1) ∧
      db2 = { db1 with accountTries := Function.update db1.accountTries R (some cA) } := by
  unfold Stage.Commit at h
  cases hb : st.db.BatchCodes st.codes with
  | error e => rw [hb] at h; simp at h
  | ok db0 =>
    rw [hb] at h
    simp only [] at h
    rcases hc : commitStorageTries env db0 st.storageTries with ⟨r, db1⟩
    rw [hc] at h
    cases r with
    | some e => simp at h
    | none =>
      simp only [] at h
      unfold Trie.CommitAccounts at h
      cases hcont : st.accountTrie.content with
      | none => rw [hcont] at h; simp at h
      | some cA =>
        rw [hcont] at h
        simp only [] at h
        cases hf : db1.commitFault st.accountTrie.name with
        | some e => rw [hf] at h; simp at h
        | none =>
          rw [hf] at h
          simp only [Prod.mk.injEq, Except.ok.injEq] at h
          exact ⟨cA, db0, db1, rfl, h.1.symm, rfl, hc, by rw [← h.2, h.1]⟩

/-- C5. `Stage.Hash` is a function of the stage alone (it changes nothing), so every call
returns the same value, and when `Commit` succeeds on a stage produced by `State.Stage` the
root it returns is the value of `Hash` before the commit. -/
theorem C5_hash_is_commit_root (env : Env) (s : State) (st : Stage) (R : Bytes32) (db2 : DB)
    (_hst : (s.Stage env).1 = .ok st) (hc : st.Commit env = (.ok R, db2)) :
    R = st.Hash env := by
  obtain ⟨cA, db0, db1, hcont, hR, _, _, _⟩ := Stage.Commit_ok env st R db2 hc
  rw [hR, Stage.Hash, Trie.HashAccounts, hcont]

/-! ## Go maps as lists -/

theorem mapGet_mapSet_same {K V : Type} [DecidableEq K] (m : List (K × V)) (k : K) (v : V) :
    mapGet (mapSet m k v) k = some v := by
  induction m with
  | nil => simp [mapSet, mapGet]
  | cons p rest ih =>
    obtain ⟨k1, v1⟩ := p
    by_cases h : k1 = k
    · simp [mapSet, mapGet, h]
    · simp [mapSet, mapGet, h, ih]

theorem mapGet_mapSet_ne {K V : Type} [DecidableEq K] (m : List (K × V)) (k : K) (v : V)
    (k2 : K) (hne : k2 ≠ k) : mapGet (mapSet m k v) k2 = mapGet m k2 := by
  induction m with
  | nil => simp [mapSet, mapGet, Ne.symm hne]
  | cons p rest ih =>
    obtain ⟨k1, v1⟩ := p
    by_cases h : k1 = k
    · subst h
      simp [mapSet, mapGet, Ne.symm hne]
    · by_cases h2 : k1 = k2
      · subst h2
        simp [mapSet, mapGet, h]
      · simp [mapSet, mapGet, h, h2, ih]

theorem mapSet_keys {K V : Type} [DecidableEq K] (m : List (K × V)) (k : K) (v : V) :
    (mapSet m k v).map Prod.fst =
      if k ∈ m.map Prod.fst then m.map Prod.fst else m.map Prod.fst ++ [k] := by
  induction m with
  | nil => simp [mapSet]
  | cons p rest ih =>
    obtain ⟨k1, v1⟩ := p
    by_cases h : k1 = k
    · subst h
      simp [mapSet]
    · have h2 : ¬ k = k1 := fun e => h e.symm
      simp only [mapSet, if_neg h, List.map_cons, ih, List.mem_cons, h2, false_or]
      split <;> simp

theorem mapSet_keys_nodup {K V : Type} [DecidableEq K] (m : List (K × V)) (k : K) (v : V)
    (h : (m.map Prod.fst).Nodup) : ((mapSet m k v).map Prod.fst).Nodup := by
  rw [mapSet_keys]
  split
  · exact h
  · rename_i hk
    exact List.Nodup.append h (by simp) (by simpa using hk)

theorem mapGet_eq_none_iff {K V : Type} [DecidableEq K] (m : List (K × V)) (k : K) :
    mapGet m k = none ↔ k ∉ m.map Prod.fst := by
  induction m with
  | nil => simp [mapGet]
  | cons p rest ih =>
    obtain ⟨k1, v1⟩ := p
    by_cases h : k1 = k
    · simp [mapGet, h]
    · have h2 : ¬ k = k1 := fun e => h e.symm
      simp [mapGet, h, h2, ih]

/-! ## The journal -/

theorem journal_foldl (stack : List Frame) (init : List (Sigma Key.Val)) :
    stack.foldl (fun acc f => f.journal ++ acc) init =
      stack.foldl (fun acc f => f.journal ++ acc) [] ++ init := by
  induction stack generalizing init with
  | nil => simp
  | cons f rest ih =>
    simp only [List.foldl_cons, List.append_nil]
    rw [ih (f.journal ++ init), ih f.journal, List.append_assoc]

/-- A put is appended to the journal. -/
theorem StackedMap.Journal_Put (sm : StackedMap) (k : Key) (v : k.Val) :
    (sm.Put k v).Journal = sm.Journal ++ [⟨k, v⟩] := by
  unfold StackedMap.Put StackedMap.Journal
  cases hs : sm.stack with
  | nil => simp [Frame.put]
  | cons top rest =>
    simp only [Frame.put, List.foldl_cons, List.append_nil]
    rw [journal_foldl rest (top.journal ++ [(⟨k, v⟩ : Sigma Key.Val)]),
      journal_foldl rest top.journal]
    simp [List.append_assoc]

/-! ## The journal traversal of `Stage` -/

theorem State.getChanged_facts (s : State) (changes : List (Address × changed))
    (addr : Address) :
    (s.getChanged changes addr).2.2.db = s.db ∧ (s.getChanged changes addr).2.2.trie = s.trie ∧
    (s.getChanged changes addr).2.2.sm = s.sm ∧
    (s.getChanged changes addr).2.2.codeCache = s.codeCache ∧
    ((changes.map Prod.fst).Nodup → ((s.getChanged changes addr).2.1.map Prod.fst).Nodup) ∧
    (∀ c, (s.getChanged changes addr).1 = .ok c →
      mapGet (s.getChanged changes addr).2.1 addr = some c) ∧
    (∀ b, b ≠ addr → mapGet (s.getChanged changes addr).2.1 b = mapGet changes b) := by
  unfold State.getChanged
  cases hg : mapGet changes addr with
  | some obj =>
    refine ⟨rfl, rfl, rfl, rfl, fun h => h, ?_, fun _ _ => rfl⟩
    intro c hc
    simp only [Except.ok.injEq] at hc
    simp [← hc, hg]
  | none =>
    have hco := State.getCachedObject_sm s addr
    simp only []
    rcases hgo : s.getCachedObject addr with ⟨r, s1⟩
    rw [hgo] at hco
    cases r with
    | error e =>
      refine ⟨hco.2.1, hco.2.2.1, hco.1, hco.2.2.2, fun h => h, ?_, fun _ _ => rfl⟩
      intro c hc
      simp at hc
    | ok co =>
      refine ⟨hco.2.1, hco.2.2.1, hco.1, hco.2.2.2, fun h => mapSet_keys_nodup _ _ _ h, ?_, ?_⟩
      · intro c hc
        simp only [Except.ok.injEq] at hc
        simp [← hc, mapGet_mapSet_same]
      · intro b hb
        exact mapGet_mapSet_ne _ _ _ _ hb

/-- The traversal of a journal in two parts. -/
theorem State.stageJournal_append (env : Env) (j1 j2 : List (Sigma Key.Val)) :
    ∀ (s : State) (changes : List (Address × changed)) (codes : List (Bytes32 × Bytes)),
    State.stageJournal env (j1 ++ j2) s changes codes =
      match State.stageJournal env j1 s changes codes with
      | (some e, r) => (some e, r)
      | (none, s1, ch1, co1) => State.stageJournal env j2 s1 ch1 co1 := by
  induction j1 with
  | nil => intro s changes codes; simp [State.stageJournal]
  | cons entry rest ih =>
    intro s changes codes
    obtain ⟨key, v⟩ := entry
    cases key with
    | account addr =>
      simp only [List.cons_append, State.stageJournal]
      rcases s.getChanged changes addr with ⟨r, ch1, s1⟩
      cases r with
      | error e => rfl
      | ok c => exact ih _ _ _
    | code addr =>
      simp only [List.cons_append, State.stageJournal]
      split
      · exact ih _ _ _
      · exact ih _ _ _
    | storage addr k =>
      simp only [List.cons_append, State.stageJournal]
      rcases s.getChanged changes addr with ⟨r, ch1, s1⟩
      cases r with
      | error e => rfl
      | ok c => exact ih _ _ _

/-- The traversal reads only through the cache: database, accounts trie, stacked map and code
cache of the State stay, and the keys of `changes` stay distinct. -/
theorem State.stageJournal_facts (env : Env) (j : List (Sigma Key.Val)) :
    ∀ (s : State) (changes : List (Address × changed)) (codes : List (Bytes32 × Bytes)),
    (State.stageJournal env j s changes codes).2.1.db = s.db ∧
    (State.stageJournal env j s changes codes).2.1.trie = s.trie ∧
    (State.stageJournal env j s changes codes).2.1.sm = s.sm ∧
    (State.stageJournal env j s changes codes).2.1.codeCache = s.codeCache ∧
    ((changes.map Prod.fst).Nodup →
      ((State.stageJournal env j s changes codes).2.2.1.map Prod.fst).Nodup) := by
  induction j with
  | nil => intro s changes codes; exact ⟨rfl, rfl, rfl, rfl, fun h => h⟩
  | cons entry rest ih =>
    intro s changes codes
    obtain ⟨key, v⟩ := entry
    cases key with
    | account addr =>
      simp only [State.stageJournal]
      have hg := State.getChanged_facts s changes addr
      rcases hgc : s.getChanged changes addr with ⟨r, ch1, s1⟩
      rw [hgc] at hg
      cases r with
      | error e => exact ⟨hg.1, hg.2.1, hg.2.2.1, hg.2.2.2.1, hg.2.2.2.2.1⟩
      | ok c =>
        have := ih s1 (mapSet ch1 addr { c with data := v }) codes
        simp only [] at hg ⊢
        exact ⟨this.1.trans hg.1, this.2.1.trans hg.2.1, this.2.2.1.trans hg.2.2.1,
          this.2.2.2.1.trans hg.2.2.2.1,
          fun h => this.2.2.2.2 (mapSet_keys_nodup _ _ _ (hg.2.2.2.2.1 h))⟩
    | code addr =>
      simp only [State.stageJournal]
      split
      · exact ih _ _ _
      · exact ih _ _ _
    | storage addr k =>
      simp only [State.stageJournal]
      have hg := State.getChanged_facts s changes addr
      rcases hgc : s.getChanged changes addr with ⟨r, ch1, s1⟩
      rw [hgc] at hg
      cases r with
      | error e => exact ⟨hg.1, hg.2.1, hg.2.2.1, hg.2.2.2.1, hg.2.2.2.2.1⟩
      | ok c =>
        have := ih s1 (mapSet ch1 addr { c with storage := mapSet c.storage k v }) codes
        simp only [] at hg ⊢
        exact ⟨this.1.trans hg.1, this.2.1.trans hg.2.1, this.2.2.1.trans hg.2.2.1,
          this.2.2.2.1.trans hg.2.2.2.1,
          fun h => this.2.2.2.2 (mapSet_keys_nodup _ _ _ (hg.2.2.2.2.1 h))⟩

/-! ## The loop over `changes` -/

theorem stageStorage_of_empty (env : Env) (db : DB) (addr : Address) (c : changed)
    (tries : List (Trie StorageContent)) (h : c.data.IsEmpty = true) :
    stageStorage env db addr c tries = .ok (c.data, tries) := by
  simp [stageStorage, h]

theorem saveAccount_ok (trie t : Trie AccountContent) (addr : Address) (a : Account)
    (h : saveAccount trie addr a = .ok t) :
    ∃ cA, trie.content = some cA ∧
      t.content = some (Function.update cA addr (if a.IsEmpty then none else some a)) ∧
      t.name = trie.name := by
  unfold saveAccount at h
  cases hc : trie.content with
  | none => rw [hc] at h; simp at h
  | some cA =>
    rw [hc] at h
    simp only [Except.ok.injEq] at h
    exact ⟨cA, rfl, by rw [← h], by rw [← h]⟩

/-- What the loop over `changes` leaves in the accounts trie of the stage: the entry of an
address that is no key of `changes` is untouched; the entry of a key is the record returned by
the storage part of its round, absent when that record is empty. -/
theorem stageChanges_content (env : Env) (db : DB) :
    ∀ (changes : List (Address × changed)) (stage st1 : Stage),
    (changes.map Prod.fst).Nodup → stageChanges env db changes stage = .ok st1 →
    st1.db = stage.db ∧ st1.codes = stage.codes ∧
    (changes ≠ [] → ∃ cA, stage.accountTrie.content = some cA) ∧
    (∀ cA, stage.accountTrie.content = some cA →
      ∃ cA1, st1.accountTrie.content = some cA1 ∧
        (∀ addr, mapGet changes addr = none → cA1 addr = cA addr) ∧
        (∀ addr c, mapGet changes addr = some c →
          ∃ data tries0 tries1, stageStorage env db addr c tries0 = .ok (data, tries1) ∧
            cA1 addr = if data.IsEmpty then none else some data)) := by
  intro changes
  induction changes with
  | nil =>
    intro stage st1 _ h
    simp only [stageChanges, Except.ok.injEq] at h
    subst h
    refine ⟨rfl, rfl, fun h => absurd rfl h, ?_⟩
    intro cA hcA
    exact ⟨cA, hcA, fun _ _ => rfl, fun addr c hc => by simp [mapGet] at hc⟩
  | cons p rest ih =>
    intro stage st1 hnd h
    obtain ⟨addr, c⟩ := p
    simp only [List.map_cons, List.nodup_cons] at hnd
    simp only [stageChanges] at h
    cases hss : stageStorage env db addr c stage.storageTries with
    | error e => rw [hss] at h; simp at h
    | ok r =>
      obtain ⟨data, tries⟩ := r
      rw [hss] at h
      simp only [] at h
      cases hsa : saveAccount stage.accountTrie addr data with
      | error e => rw [hsa] at h; simp at h
      | ok t =>
        rw [hsa] at h
        simp only [] at h
        obtain ⟨cA0, hcA0, htc, _⟩ := saveAccount_ok _ _ _ _ hsa
        obtain ⟨hdb, hcodes, _, hcont⟩ := ih _ st1 hnd.2 h
        refine ⟨hdb, hcodes, fun _ => ⟨cA0, hcA0⟩, ?_⟩
        intro cA hcA
        rw [hcA0] at hcA
        simp only [Option.some.injEq] at hcA
        subst hcA
        obtain ⟨cA1, hcA1, hother, hkey⟩ := hcont _ htc
        refine ⟨cA1, hcA1, ?_, ?_⟩
        · intro addr2 hnone
          simp only [mapGet] at hnone
          by_cases heq : addr = addr2
          · simp [heq] at hnone
          · rw [if_neg heq] at hnone
            rw [hother addr2 hnone, Function.update_noteq (Ne.symm heq)]
        · intro addr2 c2 hsome
          simp only [mapGet] at hsome
          by_cases heq : addr = addr2
          · subst heq
            rw [if_pos rfl] at hsome
            simp only [Option.some.injEq] at hsome
            subst hsome
            refine ⟨data, _, _, hss, ?_⟩
            rw [hother addr ((mapGet_eq_none_iff rest addr).mpr hnd.1), Function.update_same]
          · rw [if_neg heq] at hsome
            exact hkey addr2 c2 hsome

/-- A successful `Stage` is a successful journal traversal followed by a successful loop. -/
theorem State.Stage_ok (env : Env) (s : State) (st : Luckyshare.Stage) (h : (s.Stage env).1 = .ok st) :
    ∃ s1 changes codes,
      State.stageJournal env s.sm.Journal s [] [] = (none, s1, changes, codes) ∧
      stageChanges env s1.db changes
        { db := s1.db
          accountTrie := s1.db.NewAccountTrie env (s1.trie.HashAccounts env)
          storageTries := []
          codes := codes } = .ok st := by
  unfold State.Stage at h
  rcases hj : State.stageJournal env s.sm.Journal s [] [] with ⟨r, s1, changes, codes⟩
  rw [hj] at h
  cases r with
  | some e => simp at h
  | none =>
    simp only [] at h
    refine ⟨s1, changes, codes, rfl, ?_⟩
    cases hsc : stageChanges env s1.db changes
        { db := s1.db
          accountTrie := s1.db.NewAccountTrie env (s1.trie.HashAccounts env)
          storageTries := []
          codes := codes } with
    | error e => rw [hsc] at h; simp at h
    | ok st1 => rw [hsc] at h; simpa using h

/-! ## Reads of a fresh State -/

theorem New_smGet_account (env : Env) (db : DB) (cc : CodeCache) (R : Bytes32) (a : Address)
    (cA : AccountContent) (h : (db.NewAccountTrie env R).content = some cA) :
    ((New env db cc R).smGet env (.account a)).1 = .ok ((cA a).getD emptyAccount) := by
  simp only [State.smGet, New, StackedMap.find, StackedMap.New, Frame.empty, List.nil_append,
    List.findSome?_cons, List.findSome?_nil, State.cacheGetter, State.getCachedObject,
    loadAccount, h]
  cases cA a <;> rfl

theorem New_smGet_code (env : Env) (db : DB) (cc : CodeCache) (R : Bytes32) (a : Address)
    (cA : AccountContent) (h : (db.NewAccountTrie env R).content = some cA) :
    ((New env db cc R).smGet env (.code a)).1 =
      ((newCachedObject a ((cA a).getD emptyAccount)).GetCode db cc).1 := by
  simp only [State.smGet, New, StackedMap.find, StackedMap.New, Frame.empty, List.nil_append,
    List.findSome?_cons, List.findSome?_nil, State.cacheGetter, State.getCachedObject,
    loadAccount, h]
  cases cA a with
  | none =>
    simp only [Option.getD]
    rcases (newCachedObject a emptyAccount).GetCode db cc with ⟨r, obj1, cc1⟩
    cases r <;> rfl
  | some acc =>
    simp only [Option.getD]
    rcases (newCachedObject a acc).GetCode db cc with ⟨r, obj1, cc1⟩
    cases r <;> rfl

theorem New_smGet_storage (env : Env) (db : DB) (cc : CodeCache) (R : Bytes32) (a : Address)
    (k : Bytes32) (cA : AccountContent) (h : (db.NewAccountTrie env R).content = some cA) :
    ((New env db cc R).smGet env (.storage a k)).1 =
      ((newCachedObject a ((cA a).getD emptyAccount)).GetStorage env db k).1 := by
  simp only [State.smGet, New, StackedMap.find, StackedMap.New, Frame.empty, List.nil_append,
    List.findSome?_cons, List.findSome?_nil, State.cacheGetter, State.getCachedObject,
    loadAccount, h]
  cases cA a with
  | none =>
    simp only [Option.getD]
    rcases (newCachedObject a emptyAccount).GetStorage env db k with ⟨r, obj1⟩
    cases r <;> rfl
  | some acc =>
    simp only [Option.getD]
    rcases (newCachedObject a acc).GetStorage env db k with ⟨r, obj1⟩
    cases r <;> rfl

/-- The accounts trie a fresh State sees at the root returned by a successful commit of the
content `cA` holds `cA` at every address where the two could differ: it is `cA`, or the root
is the zero root and it is the empty trie. -/
theorem NewAccountTrie_after_commit (env : Env) (db1 : DB) (cA : AccountContent) :
    (({ db1 with accountTries :=
        Function.update db1.accountTries (env.accountsRoot cA) (some cA) } : DB).NewAccountTrie
      env (env.accountsRoot cA)).content =
      some (if env.accountsRoot cA = Bytes32.zero then emptyAccounts else cA) := by
  unfold DB.NewAccountTrie
  by_cases h : env.accountsRoot cA = Bytes32.zero
  · simp [h]
  · simp [h]

/-! ## Deletion through a commit -/

/-- The stage of a State whose last journal entry is the record `acc` of `a`, when `acc` is
empty, has no entry for `a` in its accounts trie. -/
theorem State.Stage_last_account_empty (env : Env) (s : State) (st : Luckyshare.Stage)
    (j0 : List (Sigma Key.Val)) (a : Address) (acc : Account)
    (hj : s.sm.Journal = j0 ++ [⟨.account a, acc⟩]) (hempty : acc.IsEmpty = true)
    (hst : (s.Stage env).1 = .ok st) :
    ∃ cA, st.accountTrie.content = some cA ∧ cA a = none := by
  obtain ⟨s1, changes, codes, hwalk, hloop⟩ := State.Stage_ok env s st hst
  rw [hj, State.stageJournal_append] at hwalk
  have hfacts := State.stageJournal_facts env j0 s [] []
  rcases hj0 : State.stageJournal env j0 s [] [] with ⟨r0, s0, ch0, co0⟩
  rw [hj0] at hwalk hfacts
  cases r0 with
  | some e => simp at hwalk
  | none =>
    simp only [State.stageJournal] at hwalk
    have hg := State.getChanged_facts s0 ch0 a
    rcases hgc : s0.getChanged ch0 a with ⟨r, ch1, s2⟩
    rw [hgc] at hwalk hg
    cases r with
    | error e => simp at hwalk
    | ok c =>
      simp only [Prod.mk.injEq, true_and] at hwalk
      obtain ⟨hs1, hch, hco⟩ := hwalk
      have hnd : (changes.map Prod.fst).Nodup := by
        rw [← hch]
        exact mapSet_keys_nodup _ _ _ (hg.2.2.2.2.1 (hfacts.2.2.2.2 (by simp)))
      have hget : mapGet changes a = some { c with data := acc } := by
        rw [← hch]; exact mapGet_mapSet_same _ _ _
      obtain ⟨_, _, hex, hcont⟩ := stageChanges_content env s1.db changes _ st hnd hloop
      have hne : changes ≠ [] := by
        intro h0
        rw [h0] at hget
        simp [mapGet] at hget
      obtain ⟨cA0, hcA0⟩ := hex hne
      obtain ⟨cA1, hcA1, _, hkey⟩ := hcont cA0 hcA0
      obtain ⟨data, tries0, tries1, hss, hval⟩ := hkey a _ hget
      rw [stageStorage_of_empty env s1.db a _ tries0 hempty] at hss
      simp only [Except.ok.injEq, Prod.mk.injEq] at hss
      refine ⟨cA1, hcA1, ?_⟩
      rw [hval, ← hss.1]
      simp [hempty]

/-- The reads of a deleted account on the fresh State at the committed root. -/
theorem deleted_reads (env : Env) (s : State) (a : Address) (st : Stage)
    (R : Bytes32) (db2 : DB) (cc : CodeCache)
    (hst : ((s.Delete a).Stage env).1 = .ok st) (hc : st.Commit env = (.ok R, db2)) :
    ((New env db2 cc R).Exists env a).1 = .ok false ∧
    ((New env db2 cc R).GetBalance env a).1 = .ok 0 ∧
    (∀ now, ((New env db2 cc R).GetEnergy env a now).1 = .ok 0) ∧
    ((New env db2 cc R).GetCode env a).1 = .ok [] := by
  have hj : (s.Delete a).sm.Journal =
      (s.sm.Journal ++ [⟨.code a, ([] : Bytes)⟩]) ++ [⟨.account a, emptyAccount⟩] := by
    rw [State.Delete_sm]
    simp only []
    rw [StackedMap.Journal_Put, StackedMap.Journal_Put]
  obtain ⟨cA, hcA, hna⟩ :=
    State.Stage_last_account_empty env (s.Delete a) st _ a emptyAccount hj rfl hst
  obtain ⟨cA2, db0, db1, hcont, hR, _, _, hdb2⟩ := Stage.Commit_ok env st R db2 hc
  rw [hcA] at hcont
  simp only [Option.some.injEq] at hcont
  subst hcont
  have htrie : ∃ cF, (db2.NewAccountTrie env R).content = some cF ∧ cF a = none := by
    rw [hdb2, hR]
    refine ⟨_, NewAccountTrie_after_commit env db1 cA, ?_⟩
    split
    · rfl
    · exact hna
  obtain ⟨cF, hcF, hFa⟩ := htrie
  have hacc := New_smGet_account env db2 cc R a cF hcF
  have hcode := New_smGet_code env db2 cc R a cF hcF
  rw [hFa] at hacc hcode
  simp only [Option.getD] at hacc hcode
  refine ⟨?_, ?_, ?_, ?_⟩
  · rw [State.Exists_fst, hacc]; rfl
  · rw [State.GetBalance_fst, hacc]; rfl
  · intro now
    rw [State.GetEnergy_fst, hacc]
    simp [Account.CalcEnergy, emptyAccount]
  · rw [State.GetCode_fst, hcode]
    simp [cachedObject.GetCode, newCachedObject, emptyAccount]

/-! ## Journals of the setters -/

theorem StackedMap.Journal_cacheLoaded (sm : StackedMap) (k : Key) (v : k.Val) :
    (sm.cacheLoaded k v).Journal = sm.Journal := rfl

/-- A read changes neither the database, nor the accounts trie, nor the journal. -/
theorem State.smGet_facts (env : Env) (s : State) (key : Key) :
    (s.smGet env key).2.db = s.db ∧ (s.smGet env key).2.trie = s.trie ∧
      (s.smGet env key).2.sm.Journal = s.sm.Journal := by
  unfold State.smGet
  split
  · exact ⟨rfl, rfl, rfl⟩
  · have h := State.cacheGetter_sm env s key
    rcases hg : s.cacheGetter env key with ⟨r, s1⟩
    rw [hg] at h
    cases r with
    | error e => exact ⟨h.2.1, h.2.2, by rw [h.1]⟩
    | ok v =>
      simp only [] at h ⊢
      exact ⟨h.2.1, h.2.2, by rw [StackedMap.Journal_cacheLoaded, h.1]⟩

theorem State.SetStorage_eq (s : State) (a : Address) (k v : Bytes32) :
    s.SetStorage a k v = s.SetRawStorage a k (encodeValue v) := by
  unfold State.SetStorage encodeValue
  split <;> rfl

theorem setStorages_facts (a : Address) (m : List (Bytes32 × Bytes32)) :
    ∀ s : State, (setStorages s a m).db = s.db ∧ (setStorages s a m).trie = s.trie ∧
      (setStorages s a m).sm.Journal =
        s.sm.Journal ++ m.map (fun p => (⟨.storage a p.1, encodeValue p.2⟩ : Sigma Key.Val)) := by
  induction m with
  | nil => intro s; simp [setStorages]
  | cons p rest ih =>
    intro s
    have h := ih (s.SetStorage a p.1 p.2)
    simp only [setStorages, List.foldl_cons, List.map_cons] at h ⊢
    have hd : (s.SetStorage a p.1 p.2).db = s.db := by rw [State.SetStorage_eq]; rfl
    have ht : (s.SetStorage a p.1 p.2).trie = s.trie := by rw [State.SetStorage_eq]; rfl
    refine ⟨h.1.trans hd, h.2.1.trans ht, ?_⟩
    rw [h.2.2, State.SetStorage_eq]
    simp [State.SetRawStorage, StackedMap.Journal_Put]

/-- Decoding the stored form of a value gives the value back. -/
theorem decodeStorage_encodeValue (env : Env) (v : Bytes32) :
    decodeStorage env (.ok (encodeValue v)) = .ok v := by
  unfold encodeValue
  by_cases hz : v.IsZero = true
  · have hv : v = Bytes32.zero := by simpa [Bytes32.IsZero] using hz
    rw [if_pos hz]
    simp [decodeStorage, hv]
  · have hv : v ≠ Bytes32.zero := by simpa [Bytes32.IsZero] using hz
    rw [if_neg hz]
    have hne := trimLeftZeros_ne_nil v hv
    have hle : (trimLeftZeros v.val).length ≤ 55 := by
      have := trimLeftZeros_length_le v.val
      have := v.property
      omega
    obtain ⟨kind, hk, hsplit⟩ := rlpSplit_rlpEncodeBytes _ hne hle
    have hraw : (rlpEncodeBytes (trimLeftZeros v.val)).length ≠ 0 := by
      intro h0
      rw [List.length_eq_zero] at h0
      rw [h0] at hsplit
      simp [rlpSplit, readKind] at hsplit
    have hback : BytesToBytes32 (trimLeftZeros v.val) = v :=
      Subtype.ext (rightAlign_trimLeftZeros 32 v.val v.property)
    simp [decodeStorage, hraw, hsplit, hk, hback]

/-- C3. Storage encoding round trip: for every State, address, key and 32-byte value (zero,
with leading zero bytes, a single byte below 0x80, or full), `GetStorage` after `SetStorage`
returns exactly the value, without error. -/
theorem C3_storage_round_trip (env : Env) (s : State) (a : Address) (k v : Bytes32) :
    ((s.SetStorage a k v).GetStorage env a k).1 = .ok v := by
  rw [State.GetStorage_fst, State.SetStorage_eq, State.GetRawStorage_fst]
  unfold State.SetRawStorage
  rw [State.smGet_of_find env _ (.storage a k) (encodeValue v)
    (StackedMap.find_Put_same s.sm (.storage a k) (encodeValue v))]
  exact decodeStorage_encodeValue env v

theorem State.getAccountCopy_of_read (env : Env) (s : State) (a : Address) (acc : Account)
    (h : (s.smGet env (.account a)).1 = .ok acc) :
    s.getAccountCopy env a = (.ok acc, (s.smGet env (.account a)).2) := by
  unfold State.getAccountCopy State.getAccount
  rcases hg : s.smGet env (.account a) with ⟨r, s1⟩
  rw [hg] at h
  simp only [] at h
  subst h
  rfl

theorem State.SetBalance_of_read (env : Env) (s : State) (a : Address) (b : Int) (acc : Account)
    (h : (s.smGet env (.account a)).1 = .ok acc) :
    s.SetBalance env a b =
      (none, (s.smGet env (.account a)).2.updateAccount a { acc with Balance := b }) := by
  unfold State.SetBalance
  rw [State.getAccountCopy_of_read env s a acc h]

theorem State.SetCode_of_find (env : Env) (s : State) (a : Address) (c : Bytes) (acc : Account)
    (hc : c ≠ []) (h : s.sm.find (.account a) = some acc) :
    s.SetCode env a c =
      (none, { s with
        sm := ((s.sm.Put (.code a) c).Put (.account a)
          { acc with CodeHash := (env.keccak256 c).val })
        codeCache := Function.update s.codeCache (env.keccak256 c).val (some c) }) := by
  have hlen : c.length > 0 := List.length_pos.mpr hc
  unfold State.SetCode
  simp only [if_pos hlen]
  have hfind : (s.sm.Put (.code a) c).find (.account a) = some acc := by
    rw [StackedMap.find_Put_ne _ _ _ _ (by simp), h]
  have hread := State.smGet_of_find env
    ({ s with
        sm := s.sm.Put (.code a) c
        codeCache := Function.update s.codeCache (env.keccak256 c).val (some c) } : State)
    (.account a) acc hfind
  rw [State.getAccountCopy_of_read env _ a acc (by rw [hread])]
  rw [hread]
  rfl

theorem NewAccountTrie_zero (env : Env) (db : DB) :
    (db.NewAccountTrie env Bytes32.zero).content = some emptyAccounts := by
  simp [DB.NewAccountTrie]

/-- The State of the round trip after `SetBalance(a, b)` and `SetCode(a, c)` on a State opened
at the zero root: both setters return no error, and the journal holds the record with the
balance, the code and the record with balance and code hash. -/
theorem roundTrip_prefix (env : Env) (db : DB) (cc : CodeCache) (a : Address) (b : Int)
    (c : Bytes) (hc : c ≠ []) :
    ((New env db cc Bytes32.zero).SetBalance env a b).1 = none ∧
    ((((New env db cc Bytes32.zero).SetBalance env a b).2).SetCode env a c).1 = none ∧
    ((((New env db cc Bytes32.zero).SetBalance env a b).2).SetCode env a c).2.db = db ∧
    ((((New env db cc Bytes32.zero).SetBalance env a b).2).SetCode env a c).2.trie
      = db.NewAccountTrie env Bytes32.zero ∧
    ((((New env db cc Bytes32.zero).SetBalance env a b).2).SetCode env a c).2.sm.Journal =
      [⟨.account a, { emptyAccount with Balance := b }⟩, ⟨.code a, c⟩,
        ⟨.account a, { emptyAccount with Balance := b, CodeHash := (env.keccak256 c).val }⟩] := by
  have hread := New_smGet_account env db cc Bytes32.zero a emptyAccounts
    (NewAccountTrie_zero env db)
  simp only [emptyAccounts, Option.getD] at hread
  have hfacts := State.smGet_facts env (New env db cc Bytes32.zero) (.account a)
  rw [State.SetBalance_of_read env _ a b emptyAccount hread]
  simp only []
  have hfind : (((New env db cc Bytes32.zero).smGet env (.account a)).2.updateAccount a
      { emptyAccount with Balance := b }).sm.find (.account a)
        = some { emptyAccount with Balance := b } := StackedMap.find_Put_same _ _ _
  rw [State.SetCode_of_find env _ a c _ hc hfind]
  refine ⟨by trivial, by trivial, ?_, ?_, ?_⟩
  · exact hfacts.1
  · exact hfacts.2.1
  · simp only [State.updateAccount, StackedMap.Journal_Put, hfacts.2.2]
    simp [New, StackedMap.New, StackedMap.Journal, Frame.empty]

/-- The traversal of storage entries of one address whose account is already in `changes`. -/
theorem State.stageJournal_storage (env : Env) (a : Address) (raws : List (Bytes32 × Bytes)) :
    ∀ (s : State) (ch : changed) (codes : List (Bytes32 × Bytes)),
    State.stageJournal env
        (raws.map (fun p => (⟨.storage a p.1, p.2⟩ : Sigma Key.Val))) s [(a, ch)] codes =
      (none, s,
        [(a, { ch with storage := raws.foldl (fun st p => mapSet st p.1 p.2) ch.storage })],
        codes) := by
  induction raws with
  | nil => intro s ch codes; simp [State.stageJournal]
  | cons p rest ih =>
    intro s ch codes
    simp only [List.map_cons, State.stageJournal, State.getChanged, mapGet, if_true, mapSet,
      List.foldl_cons]
    exact ih s _ codes

/-- The traversal of the journal of the round trip, when it ends without error. -/
theorem roundTrip_walk (env : Env) (s s1 : State) (a : Address) (acc1 acc2 : Account)
    (c : Bytes) (raws : List (Bytes32 × Bytes)) (changes : List (Address × changed))
    (codes : List (Bytes32 × Bytes)) (hc : c ≠ [])
    (h : State.stageJournal env
      (⟨.account a, acc1⟩ :: ⟨.code a, c⟩ :: ⟨.account a, acc2⟩ ::
        raws.map (fun p => (⟨.storage a p.1, p.2⟩ : Sigma Key.Val))) s [] [] =
        (none, s1, changes, codes)) :
    changes = [(a, { data := acc2, storage := raws.foldl (fun st p => mapSet st p.1 p.2) [] })] ∧
    codes = [(env.keccak256 c, c)] ∧ s1.db = s.db ∧ s1.trie = s.trie := by
  have hlen : c.length > 0 := List.length_pos.mpr hc
  have hfacts := State.stageJournal_facts env
      (⟨.account a, acc1⟩ :: ⟨.code a, c⟩ :: ⟨.account a, acc2⟩ ::
        raws.map (fun p => (⟨.storage a p.1, p.2⟩ : Sigma Key.Val))) s [] []
  rw [h] at hfacts
  refine ⟨?_, ?_, hfacts.1, hfacts.2.1⟩ <;>
  · simp only [State.stageJournal, State.getChanged, mapGet] at h
    rcases hg : s.getCachedObject a with ⟨r, s2⟩
    rw [hg] at h
    cases r with
    | error e => simp at h
    | ok co =>
      simp only [mapSet, if_true, if_pos hlen, mapGet] at h
      rw [State.stageJournal_storage] at h
      simp only [Prod.mk.injEq, true_and] at h
      first
      | exact h.2.1.symm
      | exact h.2.2.symm

/-! ## Storage writes of a stage -/

theorem saveStorageAll_ok (l : List (Bytes32 × Bytes)) :
    ∀ (trie : Trie StorageContent) (c0 : StorageContent), trie.content = some c0 →
    saveStorageAll trie l =
      .ok { trie with content := some (l.foldl (fun c p => Function.update c p.1 p.2) c0) } := by
  induction l with
  | nil => intro trie c0 h; simp [saveStorageAll, ← h]
  | cons p rest ih =>
    intro trie c0 h
    obtain ⟨k, v⟩ := p
    simp only [saveStorageAll, saveStorage, h, List.foldl_cons]
    exact ih _ _ rfl

theorem mapSet_of_not_mem {K V : Type} [DecidableEq K] (m : List (K × V)) (k : K) (v : V)
    (h : k ∉ m.map Prod.fst) : mapSet m k v = m ++ [(k, v)] := by
  induction m with
  | nil => rfl
  | cons p rest ih =>
    obtain ⟨k1, v1⟩ := p
    simp only [List.map_cons, List.mem_cons, not_or] at h
    have h1 : ¬ k1 = k := fun e => h.1 e.symm
    simp [mapSet, h1, ih h.2]

theorem foldl_mapSet_nodup {K V : Type} [DecidableEq K] (l : List (K × V)) :
    ∀ init : List (K × V), ((init ++ l).map Prod.fst).Nodup →
      l.foldl (fun st p => mapSet st p.1 p.2) init = init ++ l := by
  induction l with
  | nil => intro init _; simp
  | cons p rest ih =>
    intro init h
    have hnot : p.1 ∉ init.map Prod.fst := by
      simp only [List.map_append, List.map_cons] at h
      have := (List.nodup_append.mp h).2.2
      intro hmem
      exact this hmem (List.mem_cons_self _ _)
    simp only [List.foldl_cons]
    rw [mapSet_of_not_mem init p.1 p.2 hnot, ih _ (by simpa using h)]
    simp

theorem foldl_update_other (l : List (Bytes32 × Bytes)) :
    ∀ (c0 : StorageContent) (k : Bytes32), (∀ q ∈ l, q.1 ≠ k) →
      (l.foldl (fun c p => Function.update c p.1 p.2) c0) k = c0 k := by
  induction l with
  | nil => intro c0 k _; rfl
  | cons q rest ih =>
    intro c0 k hq
    simp only [List.foldl_cons]
    rw [ih _ k (fun q2 hq2 => hq q2 (List.mem_cons_of_mem _ hq2))]
    exact Function.update_noteq (Ne.symm (hq q (List.mem_cons_self _ _))) _ _

theorem foldl_update_lookup (l : List (Bytes32 × Bytes)) :
    ∀ (c0 : StorageContent) (k : Bytes32) (v : Bytes), (l.map Prod.fst).Nodup → (k, v) ∈ l →
      (l.foldl (fun c p => Function.update c p.1 p.2) c0) k = v := by
  induction l with
  | nil => intro c0 k v _ h; simp at h
  | cons p rest ih =>
    intro c0 k v hnd hmem
    simp only [List.map_cons, List.nodup_cons] at hnd
    simp only [List.foldl_cons]
    rcases List.mem_cons.mp hmem with heq | hrest
    · subst heq
      rw [foldl_update_other rest _ k (fun q hq heq => hnd.1 (by
        have hm := List.mem_map_of_mem Prod.fst hq
        rw [heq] at hm
        exact hm))]
      exact Function.update_same _ _ _
    · exact ih _ k v hnd.2 hrest

/-! ## What a commit writes -/

theorem Trie.CommitStorage_facts (env : Env) (db : DB) (t : Trie StorageContent) :
    (t.CommitStorage env db).2.codeStore = db.codeStore ∧
    (t.CommitStorage env db).2.accountTries = db.accountTries ∧
    (∀ r, (t.CommitStorage env db).1 = .ok r →
      ∃ cS, t.content = some cS ∧
        (t.CommitStorage env db).2.storageTries t.name (env.storageRoot cS) = some cS) := by
  unfold Trie.CommitStorage
  cases hc : t.content with
  | none => simp
  | some cS =>
    simp only []
    cases hf : db.commitFault t.name with
    | some e => simp
    | none => simp

theorem commitStorageTries_facts (env : Env) (tries : List (Trie StorageContent)) :
    ∀ db0 : DB, (commitStorageTries env db0 tries).2.codeStore = db0.codeStore ∧
      (commitStorageTries env db0 tries).2.accountTries = db0.accountTries := by
  induction tries with
  | nil => intro db0; exact ⟨rfl, rfl⟩
  | cons t rest ih =>
    intro db0
    have hf := Trie.CommitStorage_facts env db0 t
    simp only [commitStorageTries]
    rcases hc : t.CommitStorage env db0 with ⟨r, db1⟩
    rw [hc] at hf
    cases r with
    | error e => exact ⟨hf.1, hf.2.1⟩
    | ok root =>
      have := ih db1
      exact ⟨this.1.trans hf.1, this.2.trans hf.2.1⟩

theorem commitStorageTries_single (env : Env) (db0 db1 : DB) (t : Trie StorageContent)
    (h : commitStorageTries env db0 [t] = (none, db1)) :
    ∃ cS, t.content = some cS ∧ db1.storageTries t.name (env.storageRoot cS) = some cS := by
  have hf := Trie.CommitStorage_facts env db0 t
  simp only [commitStorageTries] at h
  rcases hc : t.CommitStorage env db0 with ⟨r, db3⟩
  rw [hc] at h hf
  cases r with
  | error e => simp at h
  | ok root =>
    simp only [Prod.mk.injEq, true_and] at h
    subst h
    exact hf.2.2 root rfl

theorem BatchCodes_single (db db0 : DB) (hash : Bytes32) (c : Bytes)
    (h : db.BatchCodes [(hash, c)] = .ok db0) : db0.codeStore hash.val = some c := by
  unfold DB.BatchCodes at h
  simp only [putCodes] at h
  cases hp : db.putFault hash.val with
  | some e => rw [hp] at h; simp at h
  | none =>
    rw [hp] at h
    simp only [] at h
    cases hf : db.flushFault with
    | some e => rw [hf] at h; simp at h
    | none =>
      rw [hf] at h
      simp only [Except.ok.injEq] at h
      rw [← h]
      simp

theorem NewStorageTrie_zero (env : Env) (db : DB) (name : Bytes) :
    db.NewStorageTrie env name Bytes32.zero =
      { name := name, root := Bytes32.zero, content := some emptyStorage } := by
  simp [DB.NewStorageTrie]

theorem NewStorageTrie_committed (env : Env) (db : DB) (name : Bytes) (root : Bytes32)
    (cS : StorageContent) (hr : root ≠ Bytes32.zero) (h : db.storageTries name root = some cS) :
    (db.NewStorageTrie env name root).content = some cS := by
  simp [DB.NewStorageTrie, hr, h]

/-! ## The commit round trip -/

/-- The loop over `changes` for a single non-empty account: the record saved is the journaled
one, with the storage root replaced by the hash of the storage trie when slots are pending. -/
theorem stageChanges_single (env : Env) (db : DB) (a : Address) (c : changed) (stage st : Stage)
    (hne : c.data.IsEmpty = false) (h : stageChanges env db [(a, c)] stage = .ok st) :
    st.db = stage.db ∧ st.codes = stage.codes ∧
    ∃ (cA0 : AccountContent) (data : Account), stage.accountTrie.content = some cA0 ∧
      st.accountTrie.content = some (Function.update cA0 a (some data)) ∧
      data.Balance = c.data.Balance ∧ data.CodeHash = c.data.CodeHash ∧
      (c.storage = [] → st.storageTries = stage.storageTries) ∧
      (c.storage ≠ [] → ∀ cS0,
        (db.NewStorageTrie env (StorageTrieName (env.blake2b a.val))
          (BytesToBytes32 c.data.StorageRoot)).content = some cS0 →
        ∃ t, st.storageTries = stage.storageTries ++ [t] ∧
          t.name = (db.NewStorageTrie env (StorageTrieName (env.blake2b a.val))
            (BytesToBytes32 c.data.StorageRoot)).name ∧
          t.content = some (c.storage.foldl (fun c p => Function.update c p.1 p.2) cS0) ∧
          data.StorageRoot = (env.storageRoot
            (c.storage.foldl (fun c p => Function.update c p.1 p.2) cS0)).val) := by
  simp only [stageChanges] at h
  cases hss : stageStorage env db a c stage.storageTries with
  | error e => rw [hss] at h; simp at h
  | ok r =>
    obtain ⟨data, tries⟩ := r
    rw [hss] at h
    simp only [] at h
    cases hsa : saveAccount stage.accountTrie a data with
    | error e => rw [hsa] at h; simp at h
    | ok tA =>
      rw [hsa] at h
      simp only [Except.ok.injEq] at h
      obtain ⟨cA0, hcA0, htA, _⟩ := saveAccount_ok _ _ _ _ hsa
      subst h
      simp only [stageStorage, hne, Bool.not_false, if_true] at hss
      by_cases hlen : c.storage.length > 0
      · rw [if_pos hlen] at hss
        have hnil : c.storage ≠ [] := List.length_pos.mp hlen
        cases hcont : (db.NewStorageTrie env (StorageTrieName (env.blake2b a.val))
            (BytesToBytes32 c.data.StorageRoot)).content with
        | none =>
          exfalso
          obtain ⟨p, rest, hpr⟩ := List.exists_cons_of_ne_nil hnil
          rw [hpr] at hss
          simp [saveStorageAll, saveStorage, hcont] at hss
        | some cS0 =>
          rw [saveStorageAll_ok _ _ cS0 hcont] at hss
          simp only [Except.ok.injEq, Prod.mk.injEq] at hss
          obtain ⟨hdata, htries⟩ := hss
          have hd : data.IsEmpty = false := by
            rw [← hdata]
            simpa [Account.IsEmpty] using hne
          rw [hd] at htA
          refine ⟨rfl, rfl, cA0, data, hcA0, by simpa using htA, by rw [← hdata],
            by rw [← hdata], fun h0 => absurd h0 hnil, ?_⟩
          intro _ cS1 hcS1
          simp only [Option.some.injEq] at hcS1
          subst hcS1
          refine ⟨_, htries.symm, rfl, rfl, ?_⟩
          rw [← hdata]
          simp [Trie.HashStorage]
      · rw [if_neg hlen] at hss
        simp only [Except.ok.injEq, Prod.mk.injEq] at hss
        obtain ⟨hdata, htries⟩ := hss
        have hnil : c.storage = [] := List.length_eq_zero.mp (by omega)
        rw [← hdata, hne] at htA
        refine ⟨rfl, rfl, cA0, data, hcA0, by rw [← hdata]; simpa using htA, by rw [← hdata],
          by rw [← hdata], fun _ => htries.symm, fun h0 => absurd hnil h0⟩

/-- The stage of the round trip: the record of `a` in its accounts trie carries the balance and
the code hash; the code is its one pending code; and when slots were written, its one storage
trie holds their stored forms and its root is the storage root of the record. -/
theorem roundTrip_stage (env : Env) (db : DB) (cc : CodeCache) (a : Address) (b : Int)
    (c : Bytes) (m : List (Bytes32 × Bytes32)) (st : Stage)
    (hb : 0 < b) (hc : c ≠ []) (hkeys : (m.map Prod.fst).Nodup)
    (hst : ((setStorages (((New env db cc Bytes32.zero).SetBalance env a b).2.SetCode env a c).2
      a m).Stage env).1 = .ok st) :
    st.db = db ∧ st.codes = [(env.keccak256 c, c)] ∧
    ∃ (cA : AccountContent) (data : Account), st.accountTrie.content = some cA ∧
      cA a = some data ∧ data.Balance = b ∧ data.CodeHash = (env.keccak256 c).val ∧
      (m = [] → st.storageTries = []) ∧
      (m ≠ [] → ∃ t cS, st.storageTries = [t] ∧ t.content = some cS ∧
        t.name = StorageTrieName (env.blake2b a.val) ∧
        data.StorageRoot = (env.storageRoot cS).val ∧
        ∀ p ∈ m, cS p.1 = encodeValue p.2) := by
  obtain ⟨_, _, hdb, htrie, hjournal⟩ := roundTrip_prefix env db cc a b c hc
  have hsets := setStorages_facts a m
    (((New env db cc Bytes32.zero).SetBalance env a b).2.SetCode env a c).2
  rw [hdb, htrie, hjournal] at hsets
  obtain ⟨s1, changes, codes, hwalk, hloop⟩ := State.Stage_ok env _ st hst
  rw [hsets.2.2] at hwalk
  have hmap : m.map (fun p => (⟨.storage a p.1, encodeValue p.2⟩ : Sigma Key.Val)) =
      (m.map (fun p => (p.1, encodeValue p.2))).map
        (fun p => (⟨.storage a p.1, p.2⟩ : Sigma Key.Val)) := by
    simp [List.map_map]
  rw [hmap] at hwalk
  simp only [List.cons_append, List.nil_append] at hwalk
  obtain ⟨hch, hco, hs1db, hs1trie⟩ := roundTrip_walk env _ s1 a _ _ c _ changes codes hc hwalk
  have hrawkeys : ((m.map (fun p => (p.1, encodeValue p.2))).map Prod.fst).Nodup := by
    simpa [List.map_map, Function.comp] using hkeys
  rw [foldl_mapSet_nodup _ [] (by simpa using hrawkeys)] at hch
  simp only [List.nil_append] at hch
  rw [hs1db, hsets.1, hch, hco] at hloop
  have hb0 : b ≠ 0 := by omega
  obtain ⟨hstdb, hstcodes, cA0, data, _, hcont, hbal, hhash, hnil, hcons⟩ :=
    stageChanges_single env db a _ _ st (by simp [Account.IsEmpty, emptyAccount, hb0]) hloop
  simp only [] at hstdb hstcodes hbal hhash hnil hcons
  refine ⟨hstdb, hstcodes, _, data, hcont, by simp, hbal, hhash, ?_, ?_⟩
  · intro hm
    exact hnil (by simp [hm])
  · intro hm
    have hraw : m.map (fun p => (p.1, encodeValue p.2)) ≠ [] := by simpa using hm
    have hzero : BytesToBytes32 emptyAccount.StorageRoot = Bytes32.zero := BytesToBytes32_nil
    obtain ⟨t, htries, hname, htc, hroot⟩ := hcons hraw emptyStorage
      (by rw [hzero, NewStorageTrie_zero])
    refine ⟨t, _, by simpa using htries, htc, by rw [hname]; rfl, hroot, ?_⟩
    intro q hq
    exact foldl_update_lookup _ emptyStorage q.1 (encodeValue q.2) hrawkeys
      (List.mem_map_of_mem (fun p => (p.1, encodeValue p.2)) hq)

/-- The reads of the round trip on the fresh State itself: balance, code, code hash and every
slot of `m` come back. -/
theorem roundTrip_reads (env : Env) (db : DB) (cc : CodeCache) (a : Address) (b : Int)
    (c : Bytes) (m : List (Bytes32 × Bytes32)) (st : Stage) (R : Bytes32) (db2 : DB)
    (cc2 : CodeCache)
    (hb : 0 < b) (hc : c ≠ []) (hkeys : (m.map Prod.fst).Nodup)
    (hR : R ≠ Bytes32.zero) (hS : ∀ cS, env.storageRoot cS ≠ Bytes32.zero)
    (hcc2 : ∀ c2, cc2 (env.keccak256 c).val = some c2 → c2 = c)
    (hst : ((setStorages (((New env db cc Bytes32.zero).SetBalance env a b).2.SetCode env a c).2
      a m).Stage env).1 = .ok st)
    (hcommit : st.Commit env = (.ok R, db2)) :
    ((New env db2 cc2 R).GetBalance env a).1 = .ok b ∧
    ((New env db2 cc2 R).GetCode env a).1 = .ok c ∧
    ((New env db2 cc2 R).GetCodeHash env a).1 = .ok (env.keccak256 c) ∧
    (∀ p ∈ m, ((New env db2 cc2 R).GetStorage env a p.1).1 = .ok p.2) := by
  obtain ⟨hstdb, hstcodes, cA, data, hcA, hdata, hbal, hhash, hnil, hcons⟩ :=
    roundTrip_stage env db cc a b c m st hb hc hkeys hst
  obtain ⟨cA2, db0, db1, hcont, hRoot, hbatch, hcs, hdb2⟩ := Stage.Commit_ok env st R db2 hcommit
  rw [hcA] at hcont
  simp only [Option.some.injEq] at hcont
  subst hcont
  rw [hstdb, hstcodes] at hbatch
  have hcsf := commitStorageTries_facts env st.storageTries db0
  rw [hcs] at hcsf
  have hcode0 := BatchCodes_single db db0 (env.keccak256 c) c hbatch
  have hF : (db2.NewAccountTrie env R).content = some cA := by
    have := NewAccountTrie_after_commit env db1 cA
    rw [← hRoot, if_neg hR, ← hdb2] at this
    exact this
  have hacc := New_smGet_account env db2 cc2 R a cA hF
  have hcode := New_smGet_code env db2 cc2 R a cA hF
  rw [hdata] at hacc hcode
  simp only [Option.getD] at hacc hcode
  have hstore : db2.codeStore (env.keccak256 c).val = some c := by
    rw [hdb2]
    simp only []
    rw [hcsf.1, hcode0]
  refine ⟨?_, ?_, ?_, ?_⟩
  · rw [State.GetBalance_fst, hacc]
    simp [hbal]
  · rw [State.GetCode_fst, hcode]
    have hlen : ¬ ((env.keccak256 c).val.length = 0) := by
      rw [(env.keccak256 c).property]; decide
    unfold cachedObject.GetCode
    simp only [newCachedObject, List.length_nil, gt_iff_lt, lt_self_iff_false, if_false, hhash,
      List.length_pos, ne_eq, List.length_eq_zero.not.mp hlen, not_false_eq_true, if_true]
    cases hcache : cc2 (env.keccak256 c).val with
    | some c2 => simp [hcc2 c2 hcache]
    | none => simp [hstore]
  · rw [State.GetCodeHash_fst, hacc]
    simp [hhash, BytesToBytes32_val]
  · intro p hp
    have hm : m ≠ [] := List.ne_nil_of_mem hp
    obtain ⟨t, cS, htries, htc, hname, hroot, hvals⟩ := hcons hm
    rw [htries] at hcs
    obtain ⟨cS2, hcS2, hcommitted⟩ := commitStorageTries_single env db0 db1 t hcs
    rw [htc] at hcS2
    simp only [Option.some.injEq] at hcS2
    subst hcS2
    have hsto := New_smGet_storage env db2 cc2 R a p.1 cA hF
    rw [hdata] at hsto
    simp only [Option.getD] at hsto
    have htrie2 : (db2.NewStorageTrie env (StorageTrieName (env.blake2b a.val))
        (BytesToBytes32 data.StorageRoot)).content = some cS := by
      rw [hroot, BytesToBytes32_val]
      apply NewStorageTrie_committed env db2 _ _ cS (hS cS)
      rw [hdb2]
      simp only []
      rw [← hname]
      exact hcommitted
    have hload : ((newCachedObject a data).GetStorage env db2 p.1).1 = .ok (cS p.1) := by
      simp [cachedObject.GetStorage, newCachedObject, cachedObject.getOrCreateStorageTrie,
        loadStorage, htrie2]
    rw [State.GetStorage_fst, State.GetRawStorage_fst, hsto, hload, hvals p hp]
    exact decodeStorage_encodeValue env p.2

/-! ## Checkpoints -/

/-- A State that differs from `s` by holding the freshly loaded object of `a` in its cache
returns from the loader what `s` returns. -/
theorem State.cacheGetter_cached (env : Env) (s s1 : State) (a : Address) (acc : Account)
    (key : Key) (hca : s.cache a = none) (hl : loadAccount s.trie a = .ok acc)
    (hdb : s1.db = s.db) (htrie : s1.trie = s.trie) (hcc : s1.codeCache = s.codeCache)
    (hcache : s1.cache = Function.update s.cache a (some (newCachedObject a acc))) :
    (s1.cacheGetter env key).1 = (s.cacheGetter env key).1 := by
  have hobj : ∀ a2, (s1.getCachedObject a2).1 = (s.getCachedObject a2).1 := by
    intro a2
    unfold State.getCachedObject
    rw [hcache, htrie]
    by_cases h2 : a2 = a
    · subst h2
      simp [hca, hl]
    · simp only [Function.update_noteq h2]
      cases s.cache a2 with
      | some co => rfl
      | none => cases loadAccount s.trie a2 <;> rfl
  have hst : ∀ a2, (s1.getCachedObject a2).2.db = (s.getCachedObject a2).2.db ∧
      (s1.getCachedObject a2).2.codeCache = (s.getCachedObject a2).2.codeCache := by
    intro a2
    have h1 := State.getCachedObject_sm s1 a2
    have h2 := State.getCachedObject_sm s a2
    exact ⟨(h1.2.1.trans hdb).trans h2.2.1.symm, (h1.2.2.2.trans hcc).trans h2.2.2.2.symm⟩
  cases key with
  | account k =>
    simp only [State.cacheGetter]
    have h1 := hobj k
    rcases hg1 : s1.getCachedObject k with ⟨r1, t1⟩
    rcases hg2 : s.getCachedObject k with ⟨r2, t2⟩
    rw [hg1, hg2] at h1
    simp only [] at h1
    subst h1
    cases r1 <;> rfl
  | code k =>
    simp only [State.cacheGetter]
    have h1 := hobj k
    have h2 := hst k
    rcases hg1 : s1.getCachedObject k with ⟨r1, t1⟩
    rcases hg2 : s.getCachedObject k with ⟨r2, t2⟩
    rw [hg1, hg2] at h1 h2
    simp only [] at h1 h2
    subst h1
    cases r1 with
    | error e => rfl
    | ok obj =>
      simp only [h2.1, h2.2]
      rcases obj.GetCode t2.db t2.codeCache with ⟨r3, obj1, cc1⟩
      cases r3 <;> rfl
  | storage addr k =>
    simp only [State.cacheGetter]
    have h1 := hobj addr
    have h2 := hst addr
    rcases hg1 : s1.getCachedObject addr with ⟨r1, t1⟩
    rcases hg2 : s.getCachedObject addr with ⟨r2, t2⟩
    rw [hg1, hg2] at h1 h2
    simp only [] at h1 h2
    subst h1
    cases r1 with
    | error e => rfl
    | ok obj =>
      simp only [h2.1]
      rcases obj.GetStorage env t2.db k with ⟨r3, obj1⟩
      cases r3 <;> rfl

/-- Caching the object of an address does not change what the loader returns. -/
theorem State.cacheGetter_getCachedObject (env : Env) (s : State) (a : Address) (key : Key) :
    ((s.getCachedObject a).2.cacheGetter env key).1 = (s.cacheGetter env key).1 := by
  cases hca : s.cache a with
  | some co => simp [State.getCachedObject, hca]
  | none =>
    cases hl : loadAccount s.trie a with
    | error e => simp [State.getCachedObject, hca, hl]
    | ok acc =>
      apply State.cacheGetter_cached env s _ a acc key hca hl <;>
        simp [State.getCachedObject, hca, hl]

/-- Adding a code under its hash to the code cache does not change what the loader returns,
when the code store is content-addressed for that code. -/
theorem State.cacheGetter_addCode (env : Env) (s s1 : State) (c : Bytes) (key : Key)
    (hdb : s1.db = s.db) (htrie : s1.trie = s.trie) (hcache : s1.cache = s.cache)
    (hcc : s1.codeCache = Function.update s.codeCache (env.keccak256 c).val (some c))
    (hca : CodeAddressed env s c) :
    (s1.cacheGetter env key).1 = (s.cacheGetter env key).1 := by
  have hobj : ∀ a2, (s1.getCachedObject a2).1 = (s.getCachedObject a2).1 := by
    intro a2
    unfold State.getCachedObject
    rw [hcache, htrie]
    cases s.cache a2 with
    | some co => rfl
    | none => cases loadAccount s.trie a2 <;> rfl
  have hst : ∀ a2, (s1.getCachedObject a2).2.db = (s.getCachedObject a2).2.db ∧
      (s1.getCachedObject a2).2.codeCache =
        Function.update (s.getCachedObject a2).2.codeCache (env.keccak256 c).val (some c) := by
    intro a2
    have h1 := State.getCachedObject_sm s1 a2
    have h2 := State.getCachedObject_sm s a2
    exact ⟨(h1.2.1.trans hdb).trans h2.2.1.symm, by rw [h1.2.2.2, hcc, h2.2.2.2]⟩
  cases key with
  | account k =>
    simp only [State.cacheGetter]
    have h1 := hobj k
    rcases hg1 : s1.getCachedObject k with ⟨r1, t1⟩
    rcases hg2 : s.getCachedObject k with ⟨r2, t2⟩
    rw [hg1, hg2] at h1
    simp only [] at h1
    subst h1
    cases r1 <;> rfl
  | storage addr k =>
    simp only [State.cacheGetter]
    have h1 := hobj addr
    have h2 := hst addr
    rcases hg1 : s1.getCachedObject addr with ⟨r1, t1⟩
    rcases hg2 : s.getCachedObject addr with ⟨r2, t2⟩
    rw [hg1, hg2] at h1 h2
    simp only [] at h1 h2
    subst h1
    cases r1 with
    | error e => rfl
    | ok obj =>
      simp only [h2.1]
      rcases obj.GetStorage env t2.db k with ⟨r3, obj1⟩
      cases r3 <;> rfl
  | code k =>
    have hacc := hca k
    simp only [State.cacheGetter] at hacc ⊢
    have h1 := hobj k
    have h2 := hst k
    rcases hg1 : s1.getCachedObject k with ⟨r1, t1⟩
    rcases hg2 : s.getCachedObject k with ⟨r2, t2⟩
    rw [hg1, hg2] at h1 h2
    rw [hg2] at hacc
    simp only [] at h1 h2 hacc
    subst h1
    cases r1 with
    | error e => rfl
    | ok obj =>
      simp only [] at hacc ⊢
      have hacc2 := hacc obj.data rfl
      have key : (obj.GetCode t1.db t1.codeCache).1 = (obj.GetCode t2.db t2.codeCache).1 := by
        rw [h2.1, h2.2]
        unfold cachedObject.GetCode
        by_cases hcode : obj.code.length > 0
        · simp only [if_pos hcode]
        · simp only [if_neg hcode]
          by_cases hh : obj.data.CodeHash.length > 0
          · simp only [if_pos hh]
            by_cases heq : obj.data.CodeHash = (env.keccak256 c).val
            · have h3 := hacc2 heq
              unfold cachedObject.GetCode at h3
              simp only [if_neg hcode, if_pos hh] at h3
              rw [heq] at h3 ⊢
              simp only [Function.update_same]
              cases hcc0 : t2.codeCache (env.keccak256 c).val with
              | some code =>
                rw [hcc0] at h3
                simp only [Except.ok.injEq] at h3
                simp [h3]
              | none =>
                rw [hcc0] at h3
                simp only []
                cases hstore : t2.db.codeStore (env.keccak256 c).val with
                | none => rw [hstore] at h3; simp at h3
                | some code =>
                  rw [hstore] at h3
                  simp only [Except.ok.injEq] at h3
                  simp [h3]
            · rw [Function.update_noteq heq]
              cases t2.codeCache obj.data.CodeHash with
              | some code => rfl
              | none => cases t2.db.codeStore obj.data.CodeHash <;> rfl
          · simp only [if_neg hh]
      rcases hgc1 : obj.GetCode t1.db t1.codeCache with ⟨r3, obj1, cc1⟩
      rcases hgc2 : obj.GetCode t2.db t2.codeCache with ⟨r4, obj2, cc2⟩
      rw [hgc1, hgc2] at key
      simp only [] at key
      subst key
      cases r3 <;> rfl

theorem AboveCheckpoint.newCheckpoint (env : Env) (s : State) :
    AboveCheckpoint env s (s.NewCheckpoint).2 := by
  refine ⟨fun key => ?_, ⟨Frame.empty, rfl⟩, fun key => Or.inl rfl⟩
  unfold State.NewCheckpoint
  rw [State.cacheGetter_with_sm]

theorem AboveCheckpoint.put (env : Env) (s st : State) (k : Key) (v : k.Val)
    (h : AboveCheckpoint env s st) :
    AboveCheckpoint env s { st with sm := st.sm.Put k v } := by
  obtain ⟨h1, ⟨top, h2⟩, h3⟩ := h
  refine ⟨fun key => ?_, ?_, ?_⟩
  · rw [State.cacheGetter_with_sm]
    exact h1 key
  · unfold StackedMap.Put
    rw [h2]
    exact ⟨_, rfl⟩
  · intro key
    have : (st.sm.Put k v).base = st.sm.base := by
      unfold StackedMap.Put
      rw [h2]
    simp only [this]
    exact h3 key

theorem StackedMap.find_eq_none (sm : StackedMap) (k : Key) (h : sm.find k = none) :
    sm.base.kvs k = none ∧ sm.stack.findSome? (fun f => f.kvs k) = none := by
  unfold StackedMap.find at h
  rw [List.findSome?_append] at h
  cases hst : sm.stack.findSome? (fun f => f.kvs k) with
  | some v => rw [hst] at h; simp at h
  | none =>
    rw [hst] at h
    simp only [Option.none_or, List.findSome?_cons, List.findSome?_nil] at h
    cases hb : sm.base.kvs k with
    | some v => rw [hb] at h; simp at h
    | none => exact ⟨rfl, rfl⟩

theorem AboveCheckpoint.getAccount (env : Env) (s st : State) (a : Address)
    (h : AboveCheckpoint env s st) :
    AboveCheckpoint env s (st.smGet env (.account a)).2 := by
  obtain ⟨h1, ⟨top, h2⟩, h3⟩ := h
  unfold State.smGet
  cases hf : st.sm.find (.account a) with
  | some v => exact ⟨h1, ⟨top, h2⟩, h3⟩
  | none =>
    simp only []
    have hsm := (State.cacheGetter_sm env st (.account a)).1
    have htr : ∀ key, ((st.cacheGetter env (.account a)).2.cacheGetter env key).1
        = (st.cacheGetter env key).1 := by
      intro key
      have := State.cacheGetter_getCachedObject env st a key
      have hst : (st.cacheGetter env (.account a)).2 = (st.getCachedObject a).2 := by
        simp only [State.cacheGetter]
        rcases st.getCachedObject a with ⟨r, t⟩
        cases r <;> rfl
      rw [hst]
      exact this
    rcases hg : st.cacheGetter env (.account a) with ⟨r, s1⟩
    rw [hg] at hsm htr
    simp only [] at hsm htr
    cases r with
    | error e =>
      refine ⟨fun key => (htr key).trans (h1 key), ⟨top, by rw [hsm, h2]⟩, ?_⟩
      intro key
      rw [hsm]
      exact h3 key
    | ok v =>
      simp only []
      refine ⟨fun key => ?_, ⟨top, ?_⟩, ?_⟩
      · rw [State.cacheGetter_with_sm]
        exact (htr key).trans (h1 key)
      · simp only [StackedMap.cacheLoaded]
        rw [hsm, h2]
      · intro key
        simp only [StackedMap.cacheLoaded]
        rw [hsm]
        by_cases hk : key = .account a
        · subst hk
          right
          obtain ⟨hbase, hstack⟩ := StackedMap.find_eq_none st.sm _ hf
          rw [h2, List.findSome?_cons] at hstack
          have hstack2 : s.sm.stack.findSome? (fun f => f.kvs (.account a)) = none := by
            cases htop : top.kvs (.account a) with
            | some w => rw [htop] at hstack; simp at hstack
            | none => rw [htop] at hstack; exact hstack
          have hsbase : s.sm.base.kvs (.account a) = none := by
            rcases h3 (.account a) with heq | ⟨_, w, hw, _⟩
            · rw [← heq]; exact hbase
            · rw [hbase] at hw; simp at hw
          refine ⟨?_, v, by simp, ?_⟩
          · unfold StackedMap.find
            rw [List.findSome?_append, hstack2]
            simp [List.findSome?_cons, hsbase]
          · rw [← h1 (.account a), hg]
        · rw [Function.update_noteq hk]
          exact h3 key

theorem AboveCheckpoint.addCode (env : Env) (s st : State) (c : Bytes)
    (h : AboveCheckpoint env s st) (hca : CodeAddressed env s c) :
    AboveCheckpoint env s
      { st with codeCache := Function.update st.codeCache (env.keccak256 c).val (some c) } := by
  obtain ⟨h1, h2, h3⟩ := h
  refine ⟨fun key => ?_, h2, h3⟩
  have hca2 : CodeAddressed env st c := by
    intro addr acc hacc hhash
    rw [h1] at hacc ⊢
    exact hca addr acc hacc hhash
  exact (State.cacheGetter_addCode env st
    { st with codeCache := Function.update st.codeCache (env.keccak256 c).val (some c) }
    c key rfl rfl rfl rfl hca2).trans (h1 key)

theorem State.getAccountCopy_snd (env : Env) (s : State) (a : Address) :
    (s.getAccountCopy env a).2 = (s.smGet env (.account a)).2 := by
  rcases State.getAccountCopy_cases env s a with ⟨e, h⟩ | ⟨acc, h⟩ <;> rw [h]

/-- A write operation after a checkpoint stays above the checkpoint. -/
theorem AboveCheckpoint.applyOp (env : Env) (s st : State) (op : WriteOp)
    (h : AboveCheckpoint env s st)
    (hcode : ∀ a c, op = .setCode a c → c ≠ [] → CodeAddressed env s c) :
    AboveCheckpoint env s (st.applyOp env op) := by
  cases op with
  | setBalance a v =>
    simp only [State.applyOp, State.SetBalance]
    have hg := AboveCheckpoint.getAccount env s st a h
    rw [← State.getAccountCopy_snd] at hg
    rcases hgc : st.getAccountCopy env a with ⟨r, s1⟩
    rw [hgc] at hg
    cases r with
    | error e => exact hg
    | ok cpy => exact AboveCheckpoint.put env s s1 _ _ hg
  | setEnergy a e t =>
    simp only [State.applyOp, State.SetEnergy]
    have hg := AboveCheckpoint.getAccount env s st a h
    rw [← State.getAccountCopy_snd] at hg
    rcases hgc : st.getAccountCopy env a with ⟨r, s1⟩
    rw [hgc] at hg
    cases r with
    | error e => exact hg
    | ok cpy => exact AboveCheckpoint.put env s s1 _ _ hg
  | setMaster a m =>
    simp only [State.applyOp, State.SetMaster]
    have hg := AboveCheckpoint.getAccount env s st a h
    rw [← State.getAccountCopy_snd] at hg
    rcases hgc : st.getAccountCopy env a with ⟨r, s1⟩
    rw [hgc] at hg
    cases r with
    | error e => exact hg
    | ok cpy =>
      simp only []
      split <;> exact AboveCheckpoint.put env s s1 _ _ hg
  | setCode a c =>
    simp only [State.applyOp, State.SetCode]
    have h0 : AboveCheckpoint env s
        (if c.length > 0 then
          ({ st with
            sm := st.sm.Put (.code a) c
            codeCache := Function.update st.codeCache (env.keccak256 c).val (some c) } : State)
        else { st with sm := st.sm.Put (.code a) [] }) := by
      by_cases hc : c.length > 0
      · rw [if_pos hc]
        have hne : c ≠ [] := List.length_pos.mp hc
        exact AboveCheckpoint.put env s _ (.code a) c
          (AboveCheckpoint.addCode env s st c h (hcode a c rfl hne))
      · rw [if_neg hc]
        exact AboveCheckpoint.put env s st (.code a) ([] : Bytes) h
    have hg := AboveCheckpoint.getAccount env s _ a h0
    rw [← State.getAccountCopy_snd] at hg
    rcases hgc : State.getAccountCopy env
        (if c.length > 0 then
          ({ st with
            sm := st.sm.Put (.code a) c
            codeCache := Function.update st.codeCache (env.keccak256 c).val (some c) } : State)
        else { st with sm := st.sm.Put (.code a) [] }) a with ⟨r, s1⟩
    rw [hgc] at hg
    cases r with
    | error e => exact hg
    | ok cpy => exact AboveCheckpoint.put env s s1 _ _ hg
  | setStorage a k v =>
    simp only [State.applyOp, State.SetStorage_eq]
    exact AboveCheckpoint.put env s st (.storage a k) _ h
  | setRawStorage a k raw =>
    exact AboveCheckpoint.put env s st (.storage a k) raw h
  | delete a =>
    simp only [State.applyOp, State.Delete_sm]
    have h1 := AboveCheckpoint.put env s st (.code a) ([] : Bytes) h
    exact AboveCheckpoint.put env s _ (.account a) emptyAccount h1

theorem AboveCheckpoint.applyOps (env : Env) (s : State) (ops : List WriteOp) :
    ∀ st : State, AboveCheckpoint env s st →
    (∀ a c, WriteOp.setCode a c ∈ ops → c ≠ [] → CodeAddressed env s c) →
    AboveCheckpoint env s (st.applyOps env ops) := by
  induction ops with
  | nil => intro st h _; exact h
  | cons op rest ih =>
    intro st h hcode
    simp only [State.applyOps, List.foldl_cons]
    apply ih
    · apply AboveCheckpoint.applyOp env s st op h
      intro a c hop
      exact hcode a c (by rw [hop]; exact List.mem_cons_self _ _)
    · intro a c hmem
      exact hcode a c (List.mem_cons_of_mem _ hmem)

theorem State.smGet_fst (env : Env) (s : State) (key : Key) :
    (s.smGet env key).1 =
      match s.sm.find key with
      | some v => .ok v
      | none => (s.cacheGetter env key).1 := by
  unfold State.smGet
  cases s.sm.find key with
  | some v => rfl
  | none =>
    simp only []
    rcases s.cacheGetter env key with ⟨r, s1⟩
    cases r <;> rfl

/-- Reverting to the checkpoint gives back every read of the State before the checkpoint. -/
theorem AboveCheckpoint.revert (env : Env) (s st : State) (h : AboveCheckpoint env s st)
    (key : Key) :
    ((st.RevertTo (s.NewCheckpoint).1).smGet env key).1 = (s.smGet env key).1 := by
  obtain ⟨h1, ⟨top, h2⟩, h3⟩ := h
  have hstack : (st.RevertTo (s.NewCheckpoint).1).sm.stack = s.sm.stack := by
    simp only [State.RevertTo, State.NewCheckpoint, StackedMap.Push, StackedMap.PopTo,
      StackedMap.Depth, h2, List.length_cons, Int.toNat_ofNat]
    rw [show s.sm.stack.length + 1 + 1 - max (s.sm.stack.length + 1) 1 = 1 by omega]
    rfl
  have hbase : (st.RevertTo (s.NewCheckpoint).1).sm.base = st.sm.base := rfl
  have hload : ((st.RevertTo (s.NewCheckpoint).1).cacheGetter env key).1
      = (s.cacheGetter env key).1 := by
    unfold State.RevertTo
    rw [State.cacheGetter_with_sm]
    exact h1 key
  rw [State.smGet_fst, State.smGet_fst, hload]
  unfold StackedMap.find
  rw [hstack, hbase, List.findSome?_append, List.findSome?_append]
  cases hs : s.sm.stack.findSome? (fun f => f.kvs key) with
  | some v => rfl
  | none =>
    simp only [Option.none_or, List.findSome?_cons, List.findSome?_nil]
    rcases h3 key with heq | ⟨hnone, v, hv, hl⟩
    · rw [heq]
    · obtain ⟨hb, _⟩ := StackedMap.find_eq_none s.sm key hnone
      rw [hv, hb, hl]

/-- C4. Checkpoint identity: for every State and every sequence `W` of write operations, after
`r = NewCheckpoint()`, the writes of `W` and `RevertTo(r)`, every getter returns at every
address and key what it returns on the State before the checkpoint; the codes written by
`SetCode` in `W` are taken to be content-addressed in the code store.  In particular on a fresh
State, `NewCheckpoint`, `SetBalance(a, 100)`, `RevertTo(r)` leave `GetBalance(a) = 0`. -/
theorem C4_checkpoint_identity (env : Env) (s : State) (W : List WriteOp)
    (hcode : ∀ a c, WriteOp.setCode a c ∈ W → c ≠ [] → CodeAddressed env s c) :
    (∀ a, SameReads env (((s.NewCheckpoint).2.applyOps env W).RevertTo (s.NewCheckpoint).1) s a) ∧
    (∀ (db : DB) (cc : CodeCache) (a : Address),
      (((((New env db cc Bytes32.zero).NewCheckpoint).2.SetBalance env a 100).2.RevertTo
        ((New env db cc Bytes32.zero).NewCheckpoint).1).GetBalance env a).1 = .ok 0) := by
  constructor
  · intro a
    have h := AboveCheckpoint.applyOps env s W _ (AboveCheckpoint.newCheckpoint env s) hcode
    exact SameReads.of_smGet env _ s a (AboveCheckpoint.revert env s _ h _)
      (AboveCheckpoint.revert env s _ h _) (fun k => AboveCheckpoint.revert env s _ h _)
  · intro db cc a
    have h := AboveCheckpoint.applyOps env (New env db cc Bytes32.zero) [.setBalance a 100] _
      (AboveCheckpoint.newCheckpoint env _) (by simp)
    have hr := AboveCheckpoint.revert env _ _ h (.account a)
    simp only [State.applyOps, List.foldl_cons, List.foldl_nil, State.applyOp] at hr
    rw [State.GetBalance_fst, hr,
      New_smGet_account env db cc Bytes32.zero a emptyAccounts (NewAccountTrie_zero env db)]
    rfl

/-! ## Reads are transparent -/

/-- What `GetCode` leaves in the object and in the code cache: the record and the storage
caches are untouched, and every object, the changed one included, reads from the new code
cache the code it read from the old one. -/
theorem cachedObject.GetCode_facts (db : DB) (cc : CodeCache) (co : cachedObject) :
    (co.GetCode db cc).2.1.data = co.data ∧
    (co.GetCode db cc).2.1.addr = co.addr ∧
    (co.GetCode db cc).2.1.storage = co.storage ∧
    (co.GetCode db cc).2.1.storageTrie = co.storageTrie ∧
    ((co.GetCode db cc).2.1.GetCode db (co.GetCode db cc).2.2).1 = (co.GetCode db cc).1 ∧
    (∀ o : cachedObject, (o.GetCode db (co.GetCode db cc).2.2).1 = (o.GetCode db cc).1) := by
  unfold cachedObject.GetCode
  by_cases hcode : co.code.length > 0
  · simp only [if_pos hcode]
    exact ⟨by trivial, by trivial, by trivial, by trivial, by simp [hcode], fun _ => by trivial⟩
  · simp only [if_neg hcode]
    by_cases hh : co.data.CodeHash.length > 0
    · simp only [if_pos hh]
      cases hcc : cc co.data.CodeHash with
      | some code =>
        simp only []
        exact ⟨by trivial, by trivial, by trivial, by trivial, by simp [hcode, hh, hcc],
          fun _ => by trivial⟩
      | none =>
        simp only []
        cases hst : db.codeStore co.data.CodeHash with
        | none =>
          simp only []
          exact ⟨by trivial, by trivial, by trivial, by trivial, by simp [hcode, hh, hcc, hst],
            fun _ => by trivial⟩
        | some code =>
          simp only []
          refine ⟨by trivial, by trivial, by trivial, by trivial, ?_, ?_⟩
          · by_cases hc2 : code.length > 0
            · simp [hc2]
            · simp [hc2, hh]
          · intro o
            by_cases ho : o.code.length > 0
            · simp only [if_pos ho]
            · simp only [if_neg ho]
              by_cases hoh : o.data.CodeHash.length > 0
              · simp only [if_pos hoh]
                by_cases heq : o.data.CodeHash = co.data.CodeHash
                · rw [heq, Function.update_same, hcc, hst]
                · rw [Function.update_noteq heq]
                  cases cc o.data.CodeHash with
                  | some c2 => rfl
                  | none => cases db.codeStore o.data.CodeHash <;> rfl
              · simp only [if_neg hoh]
    · simp only [if_neg hh]
      exact ⟨by trivial, by trivial, by trivial, by trivial, by simp [hcode, hh],
        fun _ => by trivial⟩

/-- The result of `GetStorage` is the cached slot, else the slot of the storage trie. -/
theorem cachedObject.GetStorage_slotOf (env : Env) (db : DB) (co : cachedObject) (k : Bytes32) :
    (co.GetStorage env db k).1 = co.slotOf env db k := by
  unfold cachedObject.GetStorage cachedObject.slotOf cachedObject.cachedSlot
    cachedObject.trieOf cachedObject.getOrCreateStorageTrie
  cases hs : co.storage with
  | some m =>
    simp only []
    cases hm : m k with
    | some v => rfl
    | none =>
      simp only []
      cases ht : co.storageTrie with
      | some t =>
        simp only []
        cases loadStorage t k <;> rfl
      | none =>
        simp only []
        cases loadStorage (db.NewStorageTrie env (StorageTrieName (env.blake2b co.addr.val))
            (BytesToBytes32 co.data.StorageRoot)) k <;> rfl
  | none =>
    simp only []
    cases ht : co.storageTrie with
    | some t =>
      simp only []
      cases loadStorage t k <;> rfl
    | none =>
      simp only []
      cases loadStorage (db.NewStorageTrie env (StorageTrieName (env.blake2b co.addr.val))
          (BytesToBytes32 co.data.StorageRoot)) k <;> rfl

/-- What `GetStorage` leaves in the object: record, address and code are untouched, the trie
read from is the same, and a slot the object holds afterwards is one it held before or the one
just loaded. -/
theorem cachedObject.GetStorage_snd (env : Env) (db : DB) (co : cachedObject) (k : Bytes32) :
    (co.GetStorage env db k).2.data = co.data ∧
    (co.GetStorage env db k).2.addr = co.addr ∧
    (co.GetStorage env db k).2.code = co.code ∧
    (co.GetStorage env db k).2.trieOf env db = co.trieOf env db ∧
    (∀ k2, (co.GetStorage env db k).2.cachedSlot k2 = co.cachedSlot k2 ∨
      (k2 = k ∧ co.cachedSlot k = none ∧
        ∃ v, (co.GetStorage env db k).2.cachedSlot k = some v ∧
          loadStorage (co.trieOf env db) k = .ok v)) := by
  unfold cachedObject.GetStorage cachedObject.cachedSlot cachedObject.trieOf
    cachedObject.getOrCreateStorageTrie
  cases hs : co.storage with
  | some m =>
    simp only []
    cases hm : m k with
    | some v =>
      simp only [hs]
      exact ⟨by trivial, by trivial, by trivial, by trivial, fun k2 => Or.inl (by trivial)⟩
    | none =>
      simp only []
      cases ht : co.storageTrie with
      | some t =>
        simp only []
        cases hl : loadStorage t k with
        | error e =>
          exact ⟨by trivial, by trivial, by trivial, by trivial, fun k2 => Or.inl (by trivial)⟩
        | ok v =>
          refine ⟨by trivial, by trivial, by trivial, by trivial, fun k2 => ?_⟩
          by_cases hk : k2 = k
          · subst hk
            exact Or.inr ⟨rfl, by trivial, v, by simp, rfl⟩
          · exact Or.inl (by simp [Function.update_noteq hk])
      | none =>
        simp only []
        cases hl : loadStorage (db.NewStorageTrie env (StorageTrieName (env.blake2b co.addr.val))
            (BytesToBytes32 co.data.StorageRoot)) k with
        | error e =>
          exact ⟨by trivial, by trivial, by trivial, by trivial, fun k2 => Or.inl (by trivial)⟩
        | ok v =>
          refine ⟨by trivial, by trivial, by trivial, by trivial, fun k2 => ?_⟩
          by_cases hk : k2 = k
          · subst hk
            exact Or.inr ⟨rfl, by trivial, v, by simp, rfl⟩
          · exact Or.inl (by simp [Function.update_noteq hk])
  | none =>
    simp only []
    cases ht : co.storageTrie with
    | some t =>
      simp only []
      cases hl : loadStorage t k with
      | error e =>
        exact ⟨by trivial, by trivial, by trivial, by trivial, fun k2 => Or.inl (by trivial)⟩
      | ok v =>
        refine ⟨by trivial, by trivial, by trivial, by trivial, fun k2 => ?_⟩
        by_cases hk : k2 = k
        · subst hk
          exact Or.inr ⟨rfl, by trivial, v, by simp, rfl⟩
        · exact Or.inl (by simp [Function.update_noteq hk])
    | none =>
      simp only []
      cases hl : loadStorage (db.NewStorageTrie env (StorageTrieName (env.blake2b co.addr.val))
          (BytesToBytes32 co.data.StorageRoot)) k with
      | error e =>
        exact ⟨by trivial, by trivial, by trivial, by trivial, fun k2 => Or.inl (by trivial)⟩
      | ok v =>
        refine ⟨by trivial, by trivial, by trivial, by trivial, fun k2 => ?_⟩
        by_cases hk : k2 = k
        · subst hk
          exact Or.inr ⟨rfl, by trivial, v, by simp, rfl⟩
        · exact Or.inl (by simp [Function.update_noteq hk])

/-- A repeated `GetStorage` returns what the first one would have returned. -/
theorem cachedObject.GetStorage_again (env : Env) (db : DB) (co : cachedObject)
    (k k2 : Bytes32) :
    ((co.GetStorage env db k).2.GetStorage env db k2).1 = (co.GetStorage env db k2).1 := by
  rw [cachedObject.GetStorage_slotOf, cachedObject.GetStorage_slotOf]
  obtain ⟨_, _, _, htrie, hslot⟩ := cachedObject.GetStorage_snd env db co k
  unfold cachedObject.slotOf
  rw [htrie]
  rcases hslot k2 with h | ⟨hk, hnone, v, hv, hl⟩
  · rw [h]
  · subst hk
    rw [hv, hnone, hl]

theorem State.getCachedObject_fst (s : State) (b : Address) :
    (s.getCachedObject b).1 = s.objectOf b := by
  unfold State.getCachedObject State.objectOf
  cases s.cache b with
  | some co => rfl
  | none => cases loadAccount s.trie b <;> rfl

/-- After `getCachedObject(a)` the object of every address is the one it was before. -/
theorem State.objectOf_getCachedObject (s : State) (a b : Address) :
    (s.getCachedObject a).2.objectOf b = s.objectOf b := by
  unfold State.getCachedObject
  cases hca : s.cache a with
  | some co => rfl
  | none =>
    simp only []
    cases hl : loadAccount s.trie a with
    | error e => rfl
    | ok acc =>
      simp only [State.objectOf]
      by_cases hb : b = a
      · subst hb
        simp [hca, hl]
      · rw [Function.update_noteq hb]

/-- After a successful `getCachedObject(a)` the cache holds the returned object under `a`. -/
theorem State.getCachedObject_cache (s : State) (a : Address) (obj : cachedObject)
    (h : (s.getCachedObject a).1 = .ok obj) : (s.getCachedObject a).2.cache a = some obj := by
  unfold State.getCachedObject at h ⊢
  cases hca : s.cache a with
  | some co =>
    rw [hca] at h
    simp only [Except.ok.injEq] at h
    simp [hca, h]
  | none =>
    rw [hca] at h
    simp only [] at h ⊢
    cases hl : loadAccount s.trie a with
    | error e => rw [hl] at h; simp at h
    | ok acc =>
      rw [hl] at h
      simp only [Except.ok.injEq] at h
      simp [h]

/-- States over the same database whose objects are read alike return the same from the
loader. -/
theorem State.cacheGetter_congr (env : Env) (s s2 : State) (hdb : s2.db = s.db)
    (hobj : ∀ b,
      (∃ e, s2.objectOf b = .error e ∧ s.objectOf b = .error e) ∨
      (∃ o2 o, s2.objectOf b = .ok o2 ∧ s.objectOf b = .ok o ∧
        ReadAlike env s.db s2.codeCache s.codeCache o2 o))
    (key : Key) : (s2.cacheGetter env key).1 = (s.cacheGetter env key).1 := by
  have hpost : ∀ (t : State) (b : Address), (t.getCachedObject b).2.db = t.db ∧
      (t.getCachedObject b).2.codeCache = t.codeCache := fun t b =>
    ⟨(State.getCachedObject_sm t b).2.1, (State.getCachedObject_sm t b).2.2.2⟩
  cases key with
  | account k =>
    simp only [State.cacheGetter]
    have h2 := State.getCachedObject_fst s2 k
    have h1 := State.getCachedObject_fst s k
    rcases hg2 : s2.getCachedObject k with ⟨r2, t2⟩
    rcases hg1 : s.getCachedObject k with ⟨r1, t1⟩
    rw [hg2] at h2
    rw [hg1] at h1
    simp only [] at h1 h2
    rcases hobj k with ⟨e, he2, he1⟩ | ⟨o2, o, ho2, ho1, hal⟩
    · rw [h2, he2]; rw [h1, he1]
    · rw [h2, ho2]; rw [h1, ho1]
      simp only [hal.1]
  | code k =>
    simp only [State.cacheGetter]
    have h2 := State.getCachedObject_fst s2 k
    have h1 := State.getCachedObject_fst s k
    have hp2 := hpost s2 k
    have hp1 := hpost s k
    rcases hg2 : s2.getCachedObject k with ⟨r2, t2⟩
    rcases hg1 : s.getCachedObject k with ⟨r1, t1⟩
    rw [hg2] at h2 hp2
    rw [hg1] at h1 hp1
    simp only [] at h1 h2 hp1 hp2
    rcases hobj k with ⟨e, he2, he1⟩ | ⟨o2, o, ho2, ho1, hal⟩
    · rw [h2, he2]; rw [h1, he1]
    · rw [h2, ho2]; rw [h1, ho1]
      simp only [hp2.1, hp2.2, hp1.1, hp1.2, hdb]
      have hc := hal.2.1
      rcases hgc2 : o2.GetCode s.db s2.codeCache with ⟨q2, p2, c2⟩
      rcases hgc1 : o.GetCode s.db s.codeCache with ⟨q1, p1, c1⟩
      rw [hgc2, hgc1] at hc
      simp only [] at hc
      subst hc
      cases q2 <;> rfl
  | storage addr k =>
    simp only [State.cacheGetter]
    have h2 := State.getCachedObject_fst s2 addr
    have h1 := State.getCachedObject_fst s addr
    have hp2 := hpost s2 addr
    have hp1 := hpost s addr
    rcases hg2 : s2.getCachedObject addr with ⟨r2, t2⟩
    rcases hg1 : s.getCachedObject addr with ⟨r1, t1⟩
    rw [hg2] at h2 hp2
    rw [hg1] at h1 hp1
    simp only [] at h1 h2 hp1 hp2
    rcases hobj addr with ⟨e, he2, he1⟩ | ⟨o2, o, ho2, ho1, hal⟩
    · rw [h2, he2]; rw [h1, he1]
    · rw [h2, ho2]; rw [h1, ho1]
      simp only [hp2.1, hp1.1, hdb]
      have hc := hal.2.2 k
      rcases hgc2 : o2.GetStorage env s.db k with ⟨q2, p2⟩
      rcases hgc1 : o.GetStorage env s.db k with ⟨q1, p1⟩
      rw [hgc2, hgc1] at hc
      simp only [] at hc
      subst hc
      cases q2 <;> rfl

theorem ReadAlike.refl (env : Env) (db : DB) (cc : CodeCache) (o : cachedObject) :
    ReadAlike env db cc cc o o := ⟨rfl, rfl, fun _ => rfl⟩

theorem cachedObject.GetCode_congr (db : DB) (cc : CodeCache) (o2 o : cachedObject)
    (hcode : o2.code = o.code) (hdata : o2.data = o.data) :
    (o2.GetCode db cc).1 = (o.GetCode db cc).1 := by
  unfold cachedObject.GetCode
  rw [hcode, hdata]
  split
  · rfl
  · split
    · cases cc o.data.CodeHash with
      | some c => rfl
      | none => cases db.codeStore o.data.CodeHash <;> rfl
    · rfl

theorem cachedObject.GetStorage_congr (env : Env) (db : DB) (o2 o : cachedObject) (k : Bytes32)
    (haddr : o2.addr = o.addr) (hdata : o2.data = o.data) (hst : o2.storage = o.storage)
    (htr : o2.storageTrie = o.storageTrie) :
    (o2.GetStorage env db k).1 = (o.GetStorage env db k).1 := by
  rw [cachedObject.GetStorage_slotOf, cachedObject.GetStorage_slotOf]
  unfold cachedObject.slotOf cachedObject.cachedSlot cachedObject.trieOf
  rw [haddr, hdata, hst, htr]

/-- The objects of a State whose cache was changed at one address only. -/
theorem State.objectOf_update (s s2 : State) (a : Address) (obj1 : cachedObject)
    (htrie : s2.trie = s.trie) (hcache : s2.cache = Function.update s.cache a (some obj1)) :
    s2.objectOf a = .ok obj1 ∧ ∀ b, b ≠ a → s2.objectOf b = s.objectOf b := by
  unfold State.objectOf
  rw [hcache, htrie]
  refine ⟨by simp, fun b hb => ?_⟩
  rw [Function.update_noteq hb]

/-- The loader is transparent: what it returns for a key is not changed by an earlier call of
the loader, for the same or any other key. -/
theorem State.cacheGetter_transparent (env : Env) (s : State) (key key2 : Key) :
    ((s.cacheGetter env key).2.cacheGetter env key2).1 = (s.cacheGetter env key2).1 := by
  apply State.cacheGetter_congr env s _ (State.cacheGetter_sm env s key).2.1
  have hsame : ∀ (t : State), t.codeCache = s.codeCache → (∀ b, t.objectOf b = s.objectOf b) →
      ∀ b, (∃ e, t.objectOf b = .error e ∧ s.objectOf b = .error e) ∨
        (∃ o2 o, t.objectOf b = .ok o2 ∧ s.objectOf b = .ok o ∧
          ReadAlike env s.db t.codeCache s.codeCache o2 o) := by
    intro t hcc hob b
    rw [hob b, hcc]
    cases s.objectOf b with
    | error e => exact Or.inl ⟨e, rfl, rfl⟩
    | ok o => exact Or.inr ⟨o, o, rfl, rfl, ReadAlike.refl env s.db s.codeCache o⟩
  have hpost := State.getCachedObject_sm s
  cases key with
  | account a =>
    have hst : (s.cacheGetter env (.account a)).2 = (s.getCachedObject a).2 := by
      simp only [State.cacheGetter]
      rcases s.getCachedObject a with ⟨r, t⟩
      cases r <;> rfl
    rw [hst]
    exact hsame _ (hpost a).2.2.2 (State.objectOf_getCachedObject s a)
  | code a =>
    have hfst := State.getCachedObject_fst s a
    have hob := State.objectOf_getCachedObject s a
    have hca := State.getCachedObject_cache s a
    have hp := hpost a
    simp only [State.cacheGetter]
    rcases hg : s.getCachedObject a with ⟨r, s1⟩
    rw [hg] at hfst hob hca hp
    simp only [] at hfst hob hca hp
    cases r with
    | error e => exact hsame s1 hp.2.2.2 hob
    | ok obj =>
      have hfacts := cachedObject.GetCode_facts s1.db s1.codeCache obj
      have hs1a := hca obj rfl
      have hupd : ∀ (t : State), t.trie = s1.trie → t.codeCache = (obj.GetCode s1.db
          s1.codeCache).2.2 → t.cache = Function.update s1.cache a
            (some (obj.GetCode s1.db s1.codeCache).2.1) →
          ∀ b, (∃ e, t.objectOf b = .error e ∧ s.objectOf b = .error e) ∨
            (∃ o2 o, t.objectOf b = .ok o2 ∧ s.objectOf b = .ok o ∧
              ReadAlike env s.db t.codeCache s.codeCache o2 o) := by
        intro t htrie hcc hcache b
        obtain ⟨hta, htb⟩ := State.objectOf_update s1 t a _ htrie hcache
        rw [hcc, ← hp.2.1, ← hp.2.2.2]
        by_cases hb : b = a
        · subst hb
          right
          refine ⟨_, obj, hta, hfst.symm, hfacts.1, hfacts.2.2.2.2.1, fun k => ?_⟩
          exact cachedObject.GetStorage_congr env s1.db _ obj k hfacts.2.1 hfacts.1
            hfacts.2.2.1 hfacts.2.2.2.1
        · rw [htb b hb, hob b]
          cases s.objectOf b with
          | error e => exact Or.inl ⟨e, rfl, rfl⟩
          | ok o => exact Or.inr ⟨o, o, rfl, rfl, rfl, hfacts.2.2.2.2.2 o, fun _ => rfl⟩
      simp only []
      rcases hgc : obj.GetCode s1.db s1.codeCache with ⟨q, obj1, cc1⟩
      rw [hgc] at hupd
      cases q with
      | error e => exact hupd _ rfl rfl rfl
      | ok code => exact hupd _ rfl rfl rfl
  | storage a k =>
    have hfst := State.getCachedObject_fst s a
    have hob := State.objectOf_getCachedObject s a
    have hca := State.getCachedObject_cache s a
    have hp := hpost a
    simp only [State.cacheGetter]
    rcases hg : s.getCachedObject a with ⟨r, s1⟩
    rw [hg] at hfst hob hca hp
    simp only [] at hfst hob hca hp
    cases r with
    | error e => exact hsame s1 hp.2.2.2 hob
    | ok obj =>
      have hfacts := cachedObject.GetStorage_snd env s1.db obj k
      have hupd : ∀ (t : State), t.trie = s1.trie → t.codeCache = s1.codeCache →
          t.cache = Function.update s1.cache a (some (obj.GetStorage env s1.db k).2) →
          ∀ b, (∃ e, t.objectOf b = .error e ∧ s.objectOf b = .error e) ∨
            (∃ o2 o, t.objectOf b = .ok o2 ∧ s.objectOf b = .ok o ∧
              ReadAlike env s.db t.codeCache s.codeCache o2 o) := by
        intro t htrie hcc hcache b
        obtain ⟨hta, htb⟩ := State.objectOf_update s1 t a _ htrie hcache
        rw [hcc, ← hp.2.1, ← hp.2.2.2]
        by_cases hb : b = a
        · subst hb
          right
          refine ⟨_, obj, hta, hfst.symm, hfacts.1, ?_, fun k2 => ?_⟩
          · exact cachedObject.GetCode_congr s1.db s1.codeCache _ obj hfacts.2.2.1 hfacts.1
          · exact cachedObject.GetStorage_again env s1.db obj k k2
        · rw [htb b hb, hob b]
          cases s.objectOf b with
          | error e => exact Or.inl ⟨e, rfl, rfl⟩
          | ok o => exact Or.inr ⟨o, o, rfl, rfl, ReadAlike.refl env s1.db s1.codeCache o⟩
      simp only []
      rcases hgs : obj.GetStorage env s1.db k with ⟨q, obj1⟩
      rw [hgs] at hupd
      cases q with
      | error e => exact hupd _ rfl rfl rfl
      | ok v => exact hupd _ rfl rfl rfl

theorem StackedMap.find_cacheLoaded_same (sm : StackedMap) (k : Key) (v : k.Val)
    (h : sm.find k = none) : (sm.cacheLoaded k v).find k = some v := by
  obtain ⟨_, hstack⟩ := StackedMap.find_eq_none sm k h
  unfold StackedMap.cacheLoaded StackedMap.find
  rw [List.findSome?_append, hstack]
  simp [List.findSome?_cons]

/-- A read is transparent: what a read returns for a key is not changed by an earlier read, of
the same or any other key. -/
theorem State.smGet_transparent (env : Env) (s : State) (key key2 : Key) :
    ((s.smGet env key).2.smGet env key2).1 = (s.smGet env key2).1 := by
  cases hf : s.sm.find key with
  | some v => rw [State.smGet_of_find env s key v hf]
  | none =>
    have hsm := (State.cacheGetter_sm env s key).1
    have htr := State.cacheGetter_transparent env s key key2
    have hfst := State.smGet_fst env s key
    rw [hf] at hfst
    simp only [] at hfst
    rw [State.smGet_fst env _ key2, State.smGet_fst env s key2]
    unfold State.smGet
    rw [hf]
    simp only []
    rcases hg : s.cacheGetter env key with ⟨r, s1⟩
    rw [hg] at hsm htr hfst
    simp only [] at hsm htr hfst
    cases r with
    | error e =>
      simp only []
      rw [hsm, htr]
    | ok v =>
      simp only []
      rw [State.cacheGetter_with_sm]
      simp only []
      rw [htr, hsm]
      by_cases hk : key2 = key
      · subst hk
        rw [StackedMap.find_cacheLoaded_same _ _ _ hf, hf]
        simp only []
        rw [hg]
      · rw [StackedMap.find_cacheLoaded_ne _ _ _ _ hk]

/-- Reads made before do not change what a read returns. -/
theorem State.smGet_afterReads (env : Env) (keys : List Key) :
    ∀ (s : State) (key : Key),
      ((s.afterReads env keys).smGet env key).1 = (s.smGet env key).1 := by
  induction keys with
  | nil => intro s key; rfl
  | cons k rest ih =>
    intro s key
    simp only [State.afterReads, List.foldl_cons]
    have := ih (s.smGet env k).2 key
    simp only [State.afterReads] at this
    rw [this, State.smGet_transparent]

/-- Reads made before do not change what the getters return. -/
theorem SameReads.afterReads (env : Env) (s : State) (keys : List Key) (a : Address) :
    SameReads env (s.afterReads env keys) s a :=
  SameReads.of_smGet env _ s a (State.smGet_afterReads env keys s _)
    (State.smGet_afterReads env keys s _) (fun _ => State.smGet_afterReads env keys s _)

/-! ## Reads of a fresh State after a commit -/

/-- C1. Commit round trip: from a State opened at the zero root, after `SetBalance(a, b)` with
`b > 0`, `SetCode(a, c)` with non-empty `c` and `SetStorage(a, k, v)` for every pair of a map
`m` with distinct keys, if `Stage` and `Commit` succeed with root `R`, a fresh State at `R`
returns, whatever reads were made on it before, the balance `b`, the code `c`, the code hash
`keccak256(c)` and, for every key of `m`, its value, all without error.  The root hashes are
taken not to be the zero word, which stands for the empty trie, and the code cache seen by the
fresh State holds no other code under the hash of `c`. -/
theorem C1_commit_round_trip (env : Env) (db : DB) (cc : CodeCache) (a : Address) (b : Int)
    (c : Bytes) (m : List (Bytes32 × Bytes32)) (st : Stage) (R : Bytes32) (db2 : DB)
    (cc2 : CodeCache) (keys : List Key)
    (hb : 0 < b) (hc : c ≠ []) (hkeys : (m.map Prod.fst).Nodup)
    (hR : R ≠ Bytes32.zero) (hS : ∀ cS, env.storageRoot cS ≠ Bytes32.zero)
    (hcc2 : ∀ c2, cc2 (env.keccak256 c).val = some c2 → c2 = c)
    (hst : ((setStorages (((New env db cc Bytes32.zero).SetBalance env a b).2.SetCode env a c).2
      a m).Stage env).1 = .ok st)
    (hcommit : st.Commit env = (.ok R, db2)) :
    (((New env db2 cc2 R).afterReads env keys).GetBalance env a).1 = .ok b ∧
    (((New env db2 cc2 R).afterReads env keys).GetCode env a).1 = .ok c ∧
    (((New env db2 cc2 R).afterReads env keys).GetCodeHash env a).1 = .ok (env.keccak256 c) ∧
    (∀ p ∈ m, (((New env db2 cc2 R).afterReads env keys).GetStorage env a p.1).1 = .ok p.2) := by
  obtain ⟨h1, h2, h3, h4⟩ :=
    roundTrip_reads env db cc a b c m st R db2 cc2 hb hc hkeys hR hS hcc2 hst hcommit
  obtain ⟨s1, _, _, s4, s5, s6, _, _⟩ := SameReads.afterReads env (New env db2 cc2 R) keys a
  exact ⟨s1.trans h1, s4.trans h2, s5.trans h3, fun p hp => (s6 p.1).trans (h4 p hp)⟩

/-- C10. Empty account pruning: for every State, whatever was written to `a` before (committed
in the base root or only journaled), after `Delete(a)`, a successful `Stage` and a successful
`Commit` with root `R`, a fresh State at `R` returns, whatever reads were made on it before,
`Exists(a) = false`, balance 0, energy 0 at every time and empty code. -/
theorem C10_deleted_account_pruned (env : Env) (s : State) (a : Address) (st : Stage)
    (R : Bytes32) (db2 : DB) (cc : CodeCache) (keys : List Key)
    (hst : ((s.Delete a).Stage env).1 = .ok st) (hc : st.Commit env = (.ok R, db2)) :
    (((New env db2 cc R).afterReads env keys).Exists env a).1 = .ok false ∧
    (((New env db2 cc R).afterReads env keys).GetBalance env a).1 = .ok 0 ∧
    (∀ now, (((New env db2 cc R).afterReads env keys).GetEnergy env a now).1 = .ok 0) ∧
    (((New env db2 cc R).afterReads env keys).GetCode env a).1 = .ok [] := by
  obtain ⟨h1, h2, h3, h4⟩ := deleted_reads env s a st R db2 cc hst hc
  obtain ⟨s1, s2, _, s4, _, _, _, s8⟩ := SameReads.afterReads env (New env db2 cc R) keys a
  exact ⟨s8.trans h1, s1.trans h2, fun now => (s2 now).trans (h3 now), s4.trans h4⟩

/-! ## Caller closures and the decoding of `GetStorage` -/

theorem State.GetRawStorage_SetRawStorage (env : Env) (s : State) (a : Address) (k : Bytes32)
    (raw : Bytes) : (s.SetRawStorage a k raw).GetRawStorage env a k
      = (.ok raw, s.SetRawStorage a k raw) := by
  unfold State.GetRawStorage
  rw [State.smGet_of_find env _ (.storage a k) raw
    (by unfold State.SetRawStorage; exact StackedMap.find_Put_same s.sm (.storage a k) raw)]

/-- C18. `EncodeStorage` and `DecodeStorage`: when `enc` returns `(raw, nil)`, `EncodeStorage`
returns nil, afterwards `GetRawStorage(a, k)` is `raw` and the result of `DecodeStorage` is
the result of `dec` on exactly `raw`, wrapped in a state error when it is an error; when `enc`
returns an error `e`, `EncodeStorage` returns the state error wrapping `e` and leaves the State,
hence every raw storage value, unchanged; and on any State `DecodeStorage` returns, when the
read succeeds with `raw`, the state error wrapping the error of `dec raw`, or nil. -/
theorem C18_encode_decode_storage (env : Env) (s : State) (a : Address) (k : Bytes32)
    (dec : Bytes → Option GoError) :
    (∀ raw, (s.EncodeStorage a k (.ok raw)).1 = none ∧
      ((s.EncodeStorage a k (.ok raw)).2.GetRawStorage env a k).1 = .ok raw ∧
      ((s.EncodeStorage a k (.ok raw)).2.DecodeStorage env a k dec).1
        = (dec raw).map GoError.state) ∧
    (∀ e, s.EncodeStorage a k (.error e) = (some (.state e), s)) ∧
    (s.DecodeStorage env a k dec).1 =
      match (s.GetRawStorage env a k).1 with
      | .error e => some (.state e)
      | .ok raw => (dec raw).map GoError.state := by
  refine ⟨fun raw => ⟨rfl, ?_, ?_⟩, fun e => rfl, ?_⟩
  · simp only [State.EncodeStorage]
    rw [State.GetRawStorage_SetRawStorage]
  · simp only [State.EncodeStorage, State.DecodeStorage]
    rw [State.GetRawStorage_SetRawStorage]
    simp only []
    cases dec raw <;> rfl
  · unfold State.DecodeStorage
    rcases s.GetRawStorage env a k with ⟨r, s1⟩
    cases r with
    | error e => rfl
    | ok raw => simp only []; cases dec raw <;> rfl

theorem wellFormedRLP_split (r : Bytes) (h : wellFormedRLP r = true) :
    ∃ kind content, rlpSplit r = .ok (kind, content, []) := by
  unfold wellFormedRLP at h
  rcases hs : rlpSplit r with _ | ⟨kind, content, rest⟩
  · rw [hs] at h; simp at h
  · rw [hs] at h
    simp only [Bool.and_eq_true, List.isEmpty_iff] at h
    exact ⟨kind, content, by rw [h.1]⟩

theorem BytesToBytes32_short (content : Bytes) (h : content.length ≤ 32) :
    (BytesToBytes32 content).val = List.replicate (32 - content.length) 0 ++ content := by
  simp [BytesToBytes32, rightAlign, h]

theorem rlpSplit_nil_error : ∃ e, rlpSplit [] = .error e := ⟨_, rfl⟩
/-- C19. The decoding of `GetStorage`: for every raw value `r` held at `(a, k)`, `GetStorage(a,
k)` returns the zero value when `r` is empty; `Blake2b(r)` when `rlp.Split` reads a list;
the content, right-aligned into 32 bytes (left-padded with zero bytes when it has at most 32
bytes), when `rlp.Split` reads a string, as it does for the encoding of every non-empty string
of at most 32 bytes; and the state error wrapping the error of `rlp.Split` when `r` is not
empty and `rlp.Split` rejects it.  Every well-formed RLP value is accepted by `rlp.Split`; only
the header of the value is inspected. -/
theorem C19_get_storage_decoding (env : Env) (s : State) (a : Address) (k : Bytes32) (r : Bytes)
    (h : (s.GetRawStorage env a k).1 = .ok r) :
    (r = [] → (s.GetStorage env a k).1 = .ok Bytes32.zero) ∧
    (∀ content rest, rlpSplit r = .ok (Kind.List, content, rest) →
      (s.GetStorage env a k).1 = .ok (env.blake2b r)) ∧
    (∀ kind content rest, rlpSplit r = .ok (kind, content, rest) → kind ≠ Kind.List →
      (s.GetStorage env a k).1 = .ok (BytesToBytes32 content) ∧
      (content.length ≤ 32 →
        (BytesToBytes32 content).val = List.replicate (32 - content.length) 0 ++ content)) ∧
    (∀ content, content ≠ [] → content.length ≤ 32 → r = rlpEncodeBytes content →
      (s.GetStorage env a k).1 = .ok (BytesToBytes32 content)) ∧
    (∀ e, r ≠ [] → rlpSplit r = .error e → (s.GetStorage env a k).1 = .error (.state e)) ∧
    (wellFormedRLP r = true → ∃ kind content, rlpSplit r = .ok (kind, content, [])) := by
  have hne : ∀ x, rlpSplit r = .ok x → ¬ r.length = 0 := by
    intro x hx h0
    rw [List.length_eq_zero.mp h0] at hx
    simp [rlpSplit, readKind] at hx
  have hstr : ∀ kind content rest, rlpSplit r = .ok (kind, content, rest) → kind ≠ Kind.List →
      (s.GetStorage env a k).1 = .ok (BytesToBytes32 content) := by
    intro kind content rest hs hk
    rw [State.GetStorage_fst, h]
    simp only [decodeStorage, hs, if_neg (hne _ hs), if_neg hk]
  refine ⟨?_, ?_, ?_, ?_, ?_, wellFormedRLP_split r⟩
  · intro h0
    rw [State.GetStorage_fst, h, h0]
    rfl
  · intro content rest hs
    rw [State.GetStorage_fst, h]
    simp only [decodeStorage, hs, if_neg (hne _ hs), if_true]
  · intro kind content rest hs hk
    exact ⟨hstr kind content rest hs hk, BytesToBytes32_short content⟩
  · intro content hc hlen hr
    obtain ⟨kind, hk, hs⟩ := rlpSplit_rlpEncodeBytes content hc (by omega)
    rw [← hr] at hs
    exact hstr kind content [] hs hk
  · intro e h0 hs
    rw [State.GetStorage_fst, h]
    simp only [decodeStorage, hs, if_neg (fun hl => h0 (List.length_eq_zero.mp hl))]


/-! ## Nested checkpoints -/

theorem State.smGet_stack (env : Env) (s : State) (key : Key) :
    (s.smGet env key).2.sm.stack = s.sm.stack := by
  unfold State.smGet
  cases s.sm.find key with
  | some v => rfl
  | none =>
    simp only []
    have h := (State.cacheGetter_sm env s key).1
    rcases hc : s.cacheGetter env key with ⟨r, s1⟩
    rw [hc] at h
    simp only [] at h
    cases r with
    | error e => exact congrArg StackedMap.stack h
    | ok v =>
      show (s1.sm.cacheLoaded key v).stack = s.sm.stack
      rw [← h]
      rfl

theorem StackedMap.Put_stack (sm : StackedMap) (k : Key) (v : k.Val) :
    (sm.Put k v).stack.length = sm.stack.length ∧ (sm.Put k v).stack.tail = sm.stack.tail := by
  unfold StackedMap.Put
  cases sm.stack with
  | nil => exact ⟨rfl, rfl⟩
  | cons top rest => exact ⟨rfl, rfl⟩

/-- A setter that reads the record and puts it back leaves the frames below the top alone. -/
theorem State.put_after_read_stack (env : Env) (st : State) (a : Address)
    (f : Account → Account) :
    (match st.getAccountCopy env a with
      | (.error e, s1) => ((some (.state e) : Option GoError), s1)
      | (.ok cpy, s1) => (none, s1.updateAccount a (f cpy))).2.sm.stack.length
        = st.sm.stack.length ∧
    (match st.getAccountCopy env a with
      | (.error e, s1) => ((some (.state e) : Option GoError), s1)
      | (.ok cpy, s1) => (none, s1.updateAccount a (f cpy))).2.sm.stack.tail
        = st.sm.stack.tail := by
  have hg := State.smGet_stack env st (.account a)
  rw [← State.getAccountCopy_snd] at hg
  rcases hgc : st.getAccountCopy env a with ⟨r, s1⟩
  rw [hgc] at hg
  simp only [] at hg
  cases r with
  | error e => simp only [hg, and_self]
  | ok cpy =>
    have hp := StackedMap.Put_stack s1.sm (.account a) (f cpy)
    simp only [State.updateAccount, hp, hg, and_self]

/-- A write operation changes at most the top frame and the bottom frame of the stacked map. -/
theorem State.applyOp_stack (env : Env) (st : State) (op : WriteOp) :
    (st.applyOp env op).sm.stack.length = st.sm.stack.length ∧
    (st.applyOp env op).sm.stack.tail = st.sm.stack.tail := by
  cases op with
  | setBalance a v => exact State.put_after_read_stack env st a _
  | setEnergy a e t => exact State.put_after_read_stack env st a _
  | setMaster a m =>
    simp only [State.applyOp, State.SetMaster]
    by_cases hm : m.IsZero = true
    · simp only [hm, if_true]
      exact State.put_after_read_stack env st a _
    · simp only [hm, if_false]
      exact State.put_after_read_stack env st a _
  | setCode a c =>
    simp only [State.applyOp, State.SetCode]
    by_cases hc : c.length > 0
    · simp only [if_pos hc]
      have h := State.put_after_read_stack env
        { st with
          sm := st.sm.Put (.code a) c
          codeCache := Function.update st.codeCache (env.keccak256 c).val (some c) } a
        (fun cpy => { cpy with CodeHash := (env.keccak256 c).val })
      have hp := StackedMap.Put_stack st.sm (.code a) c
      exact ⟨h.1.trans hp.1, h.2.trans hp.2⟩
    · simp only [if_neg hc]
      have h := State.put_after_read_stack env { st with sm := st.sm.Put (.code a) [] } a
        (fun cpy => { cpy with CodeHash := [] })
      have hp := StackedMap.Put_stack st.sm (.code a) ([] : Bytes)
      exact ⟨h.1.trans hp.1, h.2.trans hp.2⟩
  | setStorage a k v =>
    simp only [State.applyOp, State.SetStorage_eq]
    exact StackedMap.Put_stack st.sm (.storage a k) _
  | setRawStorage a k raw => exact StackedMap.Put_stack st.sm (.storage a k) raw
  | delete a =>
    simp only [State.applyOp, State.Delete_sm]
    have h1 := StackedMap.Put_stack st.sm (.code a) ([] : Bytes)
    have h2 := StackedMap.Put_stack (st.sm.Put (.code a) ([] : Bytes)) (.account a) emptyAccount
    exact ⟨h2.1.trans h1.1, h2.2.trans h1.2⟩

theorem State.applyOps_stack (env : Env) (ops : List WriteOp) :
    ∀ st : State, (st.applyOps env ops).sm.stack.length = st.sm.stack.length ∧
      (st.applyOps env ops).sm.stack.tail = st.sm.stack.tail := by
  induction ops with
  | nil => intro st; exact ⟨rfl, rfl⟩
  | cons op rest ih =>
    intro st
    simp only [State.applyOps, List.foldl_cons]
    have h1 := State.applyOp_stack env st op
    have h2 := ih (st.applyOp env op)
    simp only [State.applyOps] at h2
    exact ⟨h2.1.trans h1.1, h2.2.trans h1.2⟩

/-- After a checkpoint and writes, the stack of frames is a top frame over the frames of the
State before the checkpoint. -/
theorem State.applyOps_checkpoint_stack (env : Env) (s : State) (ops : List WriteOp) :
    ∃ top, ((s.NewCheckpoint).2.applyOps env ops).sm.stack = top :: s.sm.stack := by
  have h := State.applyOps_stack env ops (s.NewCheckpoint).2
  have hlen : ((s.NewCheckpoint).2.applyOps env ops).sm.stack.length = s.sm.stack.length + 1 :=
    h.1
  have htail : ((s.NewCheckpoint).2.applyOps env ops).sm.stack.tail = s.sm.stack := h.2
  cases hst : ((s.NewCheckpoint).2.applyOps env ops).sm.stack with
  | nil => rw [hst] at hlen; simp at hlen
  | cons top rest =>
    rw [hst] at htail
    exact ⟨top, by rw [← htail]; rfl⟩

/-- C14. Revert nesting: with `r1 = NewCheckpoint()`, the writes `W1`, `r2 = NewCheckpoint()`
and the writes `W2`, after `RevertTo(r2)` every getter returns at every address and key what it
returned just before the second `NewCheckpoint`, so all of `W1` is preserved (the codes written
by `SetCode` in `W2` are taken to be content-addressed in the code store); and `RevertTo(r1)`
called directly leaves the very State that `RevertTo(r2)` followed by `RevertTo(r1)` leaves,
hence the same getter results; `r1` is below `r2`. -/
theorem C14_revert_nesting (env : Env) (s : State) (W1 W2 : List WriteOp)
    (hcode : ∀ a c, WriteOp.setCode a c ∈ W2 → c ≠ [] →
      CodeAddressed env ((s.NewCheckpoint).2.applyOps env W1) c) :
    (∀ a, SameReads env
      (((((s.NewCheckpoint).2.applyOps env W1).NewCheckpoint).2.applyOps env W2).RevertTo
        (((s.NewCheckpoint).2.applyOps env W1).NewCheckpoint).1)
      ((s.NewCheckpoint).2.applyOps env W1) a) ∧
    (((((s.NewCheckpoint).2.applyOps env W1).NewCheckpoint).2.applyOps env W2).RevertTo
        (s.NewCheckpoint).1
      = (((((s.NewCheckpoint).2.applyOps env W1).NewCheckpoint).2.applyOps env W2).RevertTo
        (((s.NewCheckpoint).2.applyOps env W1).NewCheckpoint).1).RevertTo (s.NewCheckpoint).1) ∧
    (s.NewCheckpoint).1 < (((s.NewCheckpoint).2.applyOps env W1).NewCheckpoint).1 := by
  obtain ⟨t1, h1⟩ := State.applyOps_checkpoint_stack env s W1
  obtain ⟨t2, h2⟩ := State.applyOps_checkpoint_stack env ((s.NewCheckpoint).2.applyOps env W1) W2
  refine ⟨fun a => ?_, ?_, ?_⟩
  · have h := AboveCheckpoint.applyOps env ((s.NewCheckpoint).2.applyOps env W1) W2 _
      (AboveCheckpoint.newCheckpoint env _) hcode
    exact SameReads.of_smGet env _ _ a (AboveCheckpoint.revert env _ _ h _)
      (AboveCheckpoint.revert env _ _ h _) (fun k => AboveCheckpoint.revert env _ _ h _)
  · have hr1 : (s.NewCheckpoint).1 = ((s.sm.stack.length + 1 : Nat) : Int) := rfl
    have hr2 : (((s.NewCheckpoint).2.applyOps env W1).NewCheckpoint).1
        = ((s.sm.stack.length + 1 + 1 : Nat) : Int) := by
      show ((((s.NewCheckpoint).2.applyOps env W1).sm.stack.length + 1 : Nat) : Int) = _
      rw [h1]
      rfl
    rw [hr1, hr2]
    simp only [State.RevertTo, StackedMap.PopTo, StackedMap.Depth, h2, h1, List.length_cons,
      Int.toNat_ofNat]
    rw [show s.sm.stack.length + 1 + 1 + 1 - max (s.sm.stack.length + 1) 1 = 2 by omega,
      show s.sm.stack.length + 1 + 1 + 1 - max (s.sm.stack.length + 1 + 1) 1 = 1 by omega]
    simp only [List.drop_succ_cons, List.drop_zero, List.length_cons]
    rw [show s.sm.stack.length + 1 + 1 - max (s.sm.stack.length + 1) 1 = 1 by omega]
    rfl
  · show ((s.sm.stack.length + 1 : Nat) : Int)
      < ((((s.NewCheckpoint).2.applyOps env W1).sm.stack.length + 1 : Nat) : Int)
    rw [h1, List.length_cons]
    omega

theorem CodeAddressed.above (env : Env) (s st : State) (c : Bytes)
    (h : AboveCheckpoint env s st) (hc : CodeAddressed env s c) : CodeAddressed env st c := by
  intro addr acc hacc hhash
  rw [h.1] at hacc ⊢
  exact hc addr acc hacc hhash


/-! ## Order and failures of a commit -/

theorem putCodes_error (db : DB) (codes : List (Bytes32 × Bytes)) :
    ∀ (store : Bytes → Option Bytes) (e : GoError), putCodes db codes store = .error e →
      ∃ hash e0, db.putFault hash = some e0 ∧ e = .state e0 := by
  induction codes with
  | nil => intro store e h; simp [putCodes] at h
  | cons p rest ih =>
    intro store e h
    obtain ⟨hash, code⟩ := p
    simp only [putCodes] at h
    cases hp : db.putFault hash.val with
    | some e0 =>
      rw [hp] at h
      simp only [Except.error.injEq] at h
      exact ⟨hash.val, e0, hp, h.symm⟩
    | none =>
      rw [hp] at h
      exact ih _ e h

theorem BatchCodes_facts (db db1 : DB) (codes : List (Bytes32 × Bytes))
    (h : db.BatchCodes codes = .ok db1) :
    db1.accountTries = db.accountTries ∧ db1.storageTries = db.storageTries ∧
      db1.commitFault = db.commitFault := by
  unfold DB.BatchCodes at h
  cases hp : putCodes db codes db.codeStore with
  | error e => rw [hp] at h; simp at h
  | ok store =>
    rw [hp] at h
    simp only [] at h
    cases hf : db.flushFault with
    | some e => rw [hf] at h; simp at h
    | none =>
      rw [hf] at h
      simp only [Except.ok.injEq] at h
      rw [← h]
      exact ⟨rfl, rfl, rfl⟩

/-- C15. Commit order and failure: `Stage.Commit` writes the codes first, then commits the
storage tries on the database the code batch left, then commits the accounts trie on the
database the storage tries left.  If the code batch fails, the database is left as it was (no
storage trie and not the accounts trie is committed); if the commit of a storage trie fails,
the codes are written and the accounts tries of the database are left as they were; in both
cases `Commit` returns an error and the zero root. -/
theorem C15_commit_order_and_failure (env : Env) (st : Stage) :
    (∀ e, st.db.BatchCodes st.codes = .error e →
      (st.Commit env).1 = .error (.state e) ∧ rootOf env st = Bytes32.zero ∧
      (st.Commit env).2 = st.db) ∧
    (∀ db1 e db2, st.db.BatchCodes st.codes = .ok db1 →
      commitStorageTries env db1 st.storageTries = (some e, db2) →
      (st.Commit env).1 = .error e ∧ rootOf env st = Bytes32.zero ∧
      (st.Commit env).2.codeStore = db1.codeStore ∧
      (st.Commit env).2.accountTries = st.db.accountTries) ∧
    (∀ db1 db2, st.db.BatchCodes st.codes = .ok db1 →
      commitStorageTries env db1 st.storageTries = (none, db2) →
      st.Commit env = st.accountTrie.CommitAccounts env db2 ∧
      db2.codeStore = db1.codeStore ∧ db2.accountTries = st.db.accountTries) := by
  refine ⟨?_, ?_, ?_⟩
  · intro e hb
    simp only [rootOf, Stage.Commit, hb, and_self]
  · intro db1 e db2 hb hc
    have hf := commitStorageTries_facts env st.storageTries db1
    rw [hc] at hf
    simp only [rootOf, Stage.Commit, hb, hc, true_and]
    exact ⟨hf.1, hf.2.trans (BatchCodes_facts st.db db1 st.codes hb).1⟩
  · intro db1 db2 hb hc
    have hf := commitStorageTries_facts env st.storageTries db1
    rw [hc] at hf
    simp only [Stage.Commit, hb, hc, true_and]
    exact ⟨hf.1, hf.2.trans (BatchCodes_facts st.db db1 st.codes hb).1⟩

/-! ## Wrapping of errors -/

/-- C16. The errors of the steps of `Stage.Commit` at failing inputs: a failing flush of the
code batch and a failing commit of a storage trie are returned wrapped in one state error; a
failing put of the code batch is returned wrapped in two state errors; a failing commit of the
accounts trie is returned as it is, in no state error. -/
theorem C16_commit_errors :
    ((stageOf sampleEnv (writtenOn codeFaultDB)).Commit sampleEnv).1
      = .error (.state (.io 2)) ∧
    ((stageOf sampleEnv (writtenOn storageFaultDB)).Commit sampleEnv).1
      = .error (.state (.io 3)) ∧
    ((stageOf sampleEnv (writtenOn putFaultDB)).Commit sampleEnv).1
      = .error (.state (.state (.io 4))) ∧
    accountsFaultDB.commitFault AccountTrieName = some (.io 1) ∧
    (accountsFaultStage.Commit sampleEnv).1 = .error (.io 1) :=
  ⟨rfl, rfl, rfl, rfl, rfl⟩

/-- C17. The wrapping of a backing-store fault at a failing input: on a State whose accounts
trie cannot be read (the read fails with the missing-node error), `GetBalance`, `GetEnergy`,
`GetMaster`, `GetCode`, `GetCodeHash`, `GetRawStorage`, `Exists`, `SetBalance`, `SetEnergy`,
`SetMaster`, `SetCode` and `BuildStorageTrie` return the state error whose cause is the
missing-node error, while `GetStorage`, `DecodeStorage` and `Stage` return a state error whose
cause is that state error: the fault is wrapped twice. -/
theorem C17_wrapping_of_faults :
    (loadAccount brokenState.trie sampleAddr = .error .missingNode) ∧
    ((brokenState.GetBalance sampleEnv sampleAddr).1 = .error (.state .missingNode) ∧
      (brokenState.GetEnergy sampleEnv sampleAddr 0).1 = .error (.state .missingNode) ∧
      (brokenState.GetMaster sampleEnv sampleAddr).1 = .error (.state .missingNode) ∧
      (brokenState.GetCode sampleEnv sampleAddr).1 = .error (.state .missingNode) ∧
      (brokenState.GetCodeHash sampleEnv sampleAddr).1 = .error (.state .missingNode) ∧
      (brokenState.GetRawStorage sampleEnv sampleAddr Bytes32.zero).1
        = .error (.state .missingNode) ∧
      (brokenState.Exists sampleEnv sampleAddr).1 = .error (.state .missingNode) ∧
      (brokenState.SetBalance sampleEnv sampleAddr 1).1 = some (.state .missingNode) ∧
      (brokenState.SetEnergy sampleEnv sampleAddr 1 1).1 = some (.state .missingNode) ∧
      (brokenState.SetMaster sampleEnv sampleAddr sampleAddr).1 = some (.state .missingNode) ∧
      (brokenState.SetCode sampleEnv sampleAddr [1]).1 = some (.state .missingNode) ∧
      (brokenState.BuildStorageTrie sampleEnv sampleAddr).1 = .error (.state .missingNode)) ∧
    ((brokenState.GetStorage sampleEnv sampleAddr Bytes32.zero).1
        = .error (.state (.state .missingNode)) ∧
      (brokenState.DecodeStorage sampleEnv sampleAddr Bytes32.zero (fun _ => none)).1
        = some (.state (.state .missingNode)) ∧
      ((brokenState.SetRawStorage sampleAddr Bytes32.zero [1]).Stage sampleEnv).1
        = .error (.state (.state .missingNode))) :=
  ⟨rfl, ⟨rfl, rfl, rfl, rfl, rfl, rfl, rfl, rfl, rfl, rfl, rfl, rfl⟩, rfl, rfl, rfl⟩


/-! ## `BuildStorageTrie` -/

theorem buildStorageJournal_ok (a : Address) (j : List (Sigma Key.Val)) :
    ∀ (t : Trie StorageContent) (c : StorageContent), t.content = some c →
      buildStorageJournal a j t = .ok { t with
        content := some ((storageWrites a j).foldl (fun c p => Function.update c p.1 p.2) c) } := by
  induction j with
  | nil => intro t c h; simp [buildStorageJournal, storageWrites, ← h]
  | cons entry rest ih =>
    intro t c h
    obtain ⟨key, v⟩ := entry
    cases key with
    | account b => simp only [buildStorageJournal, storageWrites]; exact ih t c h
    | code b => simp only [buildStorageJournal, storageWrites]; exact ih t c h
    | storage b k =>
      simp only [buildStorageJournal, storageWrites]
      by_cases hb : b = a
      · simp only [if_pos hb, saveStorage, h, List.foldl_cons]
        exact ih _ _ rfl
      · simp only [if_neg hb]
        exact ih t c h

theorem storageWrites_lastWrite (a : Address) (k : Bytes32) (j : List (Sigma Key.Val)) :
    ∀ c : StorageContent,
      ((storageWrites a j).foldl (fun c p => Function.update c p.1 p.2) c) k
        = (lastWrite a k j).getD (c k) := by
  induction j with
  | nil => intro c; rfl
  | cons entry rest ih =>
    intro c
    obtain ⟨key, v⟩ := entry
    cases key with
    | account b => simp only [storageWrites, lastWrite]; exact ih c
    | code b => simp only [storageWrites, lastWrite]; exact ih c
    | storage b k1 =>
      simp only [storageWrites, lastWrite]
      by_cases hb : b = a
      · simp only [if_pos hb, List.foldl_cons, ih]
        cases hl : lastWrite a k rest with
        | some w => rfl
        | none =>
          by_cases hk : k1 = k
          · subst hk
            simp [hb]
          · simp [hb, hk, Function.update_noteq (Ne.symm hk)]
      · simp only [if_neg hb, ih]
        cases hl : lastWrite a k rest with
        | some w => rfl
        | none => simp [hb]

/-- C20. `BuildStorageTrie(a)`, when the record of `a` is read and its storage trie is readable
at the storage root of the record, returns the trie opened at that root, updated in journal
order with exactly the journaled storage writes whose address is `a`: every slot holds the raw
value of the last such write to it (an empty value is an absent slot) and, without such a
write, the value the trie held, so that writes journaled for other addresses are not applied.
The database is left as it was (nothing is committed) and every getter returns the same
results after the call as before. -/
theorem C20_build_storage_trie (env : Env) (s : State) (a : Address) (acc : Account)
    (c0 : StorageContent) (hacc : (s.getAccount env a).1 = .ok acc)
    (hc0 : (s.db.NewStorageTrie env (StorageTrieName (env.blake2b a.val))
      (BytesToBytes32 acc.StorageRoot)).content = some c0) :
    (s.BuildStorageTrie env a).1 = .ok
      { name := StorageTrieName (env.blake2b a.val)
        root := BytesToBytes32 acc.StorageRoot
        content := some ((storageWrites a s.sm.Journal).foldl
          (fun c p => Function.update c p.1 p.2) c0) } ∧
    (∀ k, ((storageWrites a s.sm.Journal).foldl (fun c p => Function.update c p.1 p.2) c0) k
      = (lastWrite a k s.sm.Journal).getD (c0 k)) ∧
    (s.BuildStorageTrie env a).2.db = s.db ∧
    (∀ b, SameReads env (s.BuildStorageTrie env a).2 s b) := by
  have hf := State.smGet_facts env s (.account a)
  have hsnd : (s.BuildStorageTrie env a).2 = (s.smGet env (.account a)).2 := by
    unfold State.BuildStorageTrie State.getAccount
    rcases s.smGet env (.account a) with ⟨r, s1⟩
    cases r with
    | error e => rfl
    | ok acc1 =>
      simp only []
      split <;> rfl
  refine ⟨?_, fun k => storageWrites_lastWrite a k s.sm.Journal c0, ?_, fun b => ?_⟩
  · unfold State.BuildStorageTrie State.getAccount
    unfold State.getAccount at hacc
    rcases hg : s.smGet env (.account a) with ⟨r, s1⟩
    rw [hg] at hacc hf
    simp only [] at hacc hf
    subst hacc
    simp only [hf.1, hf.2.2]
    rw [buildStorageJournal_ok a s.sm.Journal _ c0 hc0]
    rfl
  · rw [hsnd]
    exact hf.1
  · rw [hsnd]
    exact SameReads.of_smGet env _ s b (State.smGet_transparent env s _ _)
      (State.smGet_transparent env s _ _) (fun k => State.smGet_transparent env s _ _)


/-! ## The last value journaled for a key -/

theorem lastPut_append (key : Key) (j1 j2 : List (Sigma Key.Val)) :
    lastPut key (j1 ++ j2) =
      match lastPut key j2 with
      | some w => some w
      | none => lastPut key j1 := by
  induction j1 with
  | nil => simp only [List.nil_append, lastPut]; cases lastPut key j2 <;> rfl
  | cons e rest ih =>
    obtain ⟨k, v⟩ := e
    simp only [List.cons_append, lastPut, List.append_eq, ih]
    cases lastPut key j2 with
    | some w => rfl
    | none => rfl

theorem lastPut_snoc_same (key : Key) (j : List (Sigma Key.Val)) (v : key.Val) :
    lastPut key (j ++ [⟨key, v⟩]) = some v := by
  rw [lastPut_append]
  simp [lastPut]

theorem lastPut_snoc_ne (key k : Key) (j : List (Sigma Key.Val)) (v : k.Val) (h : k ≠ key) :
    lastPut key (j ++ [⟨k, v⟩]) = lastPut key j := by
  rw [lastPut_append]
  simp [lastPut, h]

theorem lastPut_snoc_account (a b : Address) (j : List (Sigma Key.Val)) (v : Account) :
    lastPut (.account a) (j ++ [⟨.account b, v⟩]) =
      if b = a then some v else lastPut (.account a) j := by
  by_cases h : b = a
  · subst h
    rw [if_pos rfl]
    exact lastPut_snoc_same (.account b) j v
  · rw [if_neg h]
    exact lastPut_snoc_ne (.account a) (.account b) j v (fun hk => h (Key.account.inj hk))

theorem lastPut_snoc_storage (a b : Address) (k k1 : Bytes32) (j : List (Sigma Key.Val))
    (v : Bytes) :
    lastPut (.storage a k) (j ++ [⟨.storage b k1, v⟩]) =
      if b = a ∧ k1 = k then some v else lastPut (.storage a k) j := by
  by_cases h : b = a ∧ k1 = k
  · obtain ⟨h1, h2⟩ := h
    subst h1
    subst h2
    simp only [and_self, if_true]
    exact lastPut_snoc_same (.storage b k1) j v
  · rw [if_neg h]
    exact lastPut_snoc_ne (.storage a k) (.storage b k1) j v
      (fun hk => h ⟨(Key.storage.inj hk).1, (Key.storage.inj hk).2⟩)

theorem lastPut_snoc_code (a b : Address) (j : List (Sigma Key.Val)) (v : Bytes) :
    lastPut (.code a) (j ++ [⟨.code b, v⟩]) =
      if b = a then some v else lastPut (.code a) j := by
  by_cases h : b = a
  · subst h
    rw [if_pos rfl]
    exact lastPut_snoc_same (.code b) j v
  · rw [if_neg h]
    exact lastPut_snoc_ne (.code a) (.code b) j v (fun hk => h (Key.code.inj hk))

/-! ## The map `changes` as a function of the journal -/

/-- What `getChanged` returns: the entry of the address, or a new entry made of the loaded
record; the loader returns afterwards what it returned before. -/
theorem State.getChanged_value (env : Env) (s : State) (ch : List (Address × changed))
    (a : Address) :
    (∀ key, ((s.getChanged ch a).2.2.cacheGetter env key).1 = (s.cacheGetter env key).1) ∧
    ∀ c, (s.getChanged ch a).1 = .ok c →
      (mapGet ch a = some c ∧ (s.getChanged ch a).2.1 = ch) ∨
      (mapGet ch a = none ∧ (s.cacheGetter env (.account a)).1 = .ok c.data ∧
        c.storage = [] ∧ (s.getChanged ch a).2.1 = mapSet ch a c) := by
  unfold State.getChanged
  cases hg : mapGet ch a with
  | some obj =>
    refine ⟨fun _ => rfl, fun c hc => Or.inl ?_⟩
    simp only [Except.ok.injEq] at hc
    exact ⟨by rw [hc], rfl⟩
  | none =>
    simp only []
    have ht := State.cacheGetter_getCachedObject env s a
    have hl : (s.cacheGetter env (.account a)).1
        = match (s.getCachedObject a).1 with
          | .error e => .error e
          | .ok obj => .ok obj.data := by
      simp only [State.cacheGetter]
      rcases s.getCachedObject a with ⟨r, s1⟩
      cases r <;> rfl
    rcases hco : s.getCachedObject a with ⟨r, s1⟩
    rw [hco] at ht hl
    cases r with
    | error e =>
      refine ⟨ht, fun c hc => ?_⟩
      simp at hc
    | ok co =>
      refine ⟨ht, fun c hc => Or.inr ?_⟩
      simp only [Except.ok.injEq] at hc
      subst hc
      exact ⟨trivial, hl, rfl, rfl⟩

/-- One account entry of the journal, added to a map that describes the journal before it. -/
theorem ChangesOf.step_account (env : Env) (s0 s1 : State) (j : List (Sigma Key.Val))
    (ch codes : _) (b : Address) (v : Account) (hinv : ChangesOf env s0 j ch)
    (hload : ∀ key, (s1.cacheGetter env key).1 = (s0.cacheGetter env key).1)
    (s2 : State) (ch2 : List (Address × changed)) (co2 : List (Bytes32 × Bytes))
    (h : State.stageJournal env [⟨.account b, v⟩] s1 ch codes = (none, s2, ch2, co2)) :
    ChangesOf env s0 (j ++ [⟨.account b, v⟩]) ch2 ∧
    (∀ key, (s2.cacheGetter env key).1 = (s0.cacheGetter env key).1) := by
  simp only [State.stageJournal] at h
  have hv := State.getChanged_value env s1 ch b
  have hf := State.getChanged_facts s1 ch b
  rcases hgc : s1.getChanged ch b with ⟨r, ch1, s1x⟩
  rw [hgc] at h hv hf
  cases r with
  | error e => simp at h
  | ok c =>
    simp only [Prod.mk.injEq, true_and] at h
    obtain ⟨hs2, hch2, _⟩ := h
    subst hs2
    subst hch2
    obtain ⟨_, _, _, _, hnd, hsame, hother⟩ := hf
    obtain ⟨hinv1, hinv2, hinv3⟩ := hinv
    refine ⟨⟨mapSet_keys_nodup _ _ _ (hnd hinv1), fun a => ?_, fun a c2 hc2 => ?_⟩,
      fun key => (hv.1 key).trans (hload key)⟩
    · by_cases hab : a = b
      · subst hab
        simp [mapGet_mapSet_same, lastPut_snoc_account]
      · rw [mapGet_mapSet_ne _ _ _ _ hab, hother a hab, lastPut_snoc_account,
          if_neg (fun hba => hab hba.symm)]
        simp only [lastPut_snoc_ne (.storage a _) (.account b) j v (by simp)]
        exact hinv2 a
    · by_cases hab : a = b
      · subst hab
        rw [mapGet_mapSet_same] at hc2
        simp only [Option.some.injEq] at hc2
        subst hc2
        simp only [lastPut_snoc_account, if_true, Option.getD_some,
          lastPut_snoc_ne (.storage a _) (.account a) j v (by simp)]
        rcases hv.2 c rfl with ⟨hin, _⟩ | ⟨hnone, hrec, hsto, _⟩
        · obtain ⟨⟨rec, hrec, _⟩, hsn, hsk⟩ := hinv3 a c hin
          exact ⟨⟨rec, hrec, trivial⟩, hsn, hsk⟩
        · refine ⟨⟨c.data, (hload _).symm.trans hrec |>.symm ▸ rfl, trivial⟩, ?_, ?_⟩
          · rw [hsto]; exact List.nodup_nil
          · intro k
            rw [hsto]
            exact (((hinv2 a).mp hnone).2 k).symm
      · rw [mapGet_mapSet_ne _ _ _ _ hab, hother a hab] at hc2
        rw [lastPut_snoc_account, if_neg (fun hba => hab hba.symm)]
        simp only [lastPut_snoc_ne (.storage a _) (.account b) j v (by simp)]
        exact hinv3 a c2 hc2

/-- One storage entry of the journal, added to a map that describes the journal before it. -/
theorem ChangesOf.step_storage (env : Env) (s0 s1 : State) (j : List (Sigma Key.Val))
    (ch codes : _) (b : Address) (k1 : Bytes32) (v : Bytes) (hinv : ChangesOf env s0 j ch)
    (hload : ∀ key, (s1.cacheGetter env key).1 = (s0.cacheGetter env key).1)
    (s2 : State) (ch2 : List (Address × changed)) (co2 : List (Bytes32 × Bytes))
    (h : State.stageJournal env [⟨.storage b k1, v⟩] s1 ch codes = (none, s2, ch2, co2)) :
    ChangesOf env s0 (j ++ [⟨.storage b k1, v⟩]) ch2 ∧
    (∀ key, (s2.cacheGetter env key).1 = (s0.cacheGetter env key).1) := by
  simp only [State.stageJournal] at h
  have hv := State.getChanged_value env s1 ch b
  have hf := State.getChanged_facts s1 ch b
  rcases hgc : s1.getChanged ch b with ⟨r, ch1, s1x⟩
  rw [hgc] at h hv hf
  cases r with
  | error e => simp at h
  | ok c =>
    simp only [Prod.mk.injEq, true_and] at h
    obtain ⟨hs2, hch2, _⟩ := h
    subst hs2
    subst hch2
    obtain ⟨_, _, _, _, hnd, hsame, hother⟩ := hf
    obtain ⟨hinv1, hinv2, hinv3⟩ := hinv
    have hacc : ∀ a, lastPut (.account a) (j ++ [⟨.storage b k1, v⟩]) = lastPut (.account a) j :=
      fun a => lastPut_snoc_ne (.account a) (.storage b k1) j v (by simp)
    have hneq : ∀ a, a ≠ b → ∀ k, ¬ (b = a ∧ k1 = k) := fun a hab k h => hab h.1.symm
    refine ⟨⟨mapSet_keys_nodup _ _ _ (hnd hinv1), fun a => ?_, fun a c2 hc2 => ?_⟩,
      fun key => (hv.1 key).trans (hload key)⟩
    · by_cases hab : a = b
      · subst hab
        rw [mapGet_mapSet_same]
        constructor
        · intro h0
          cases h0
        · intro h0
          have h1 := h0.2 k1
          simp [lastPut_snoc_storage] at h1
      · rw [mapGet_mapSet_ne _ _ _ _ hab, hother a hab, hacc]
        simp only [lastPut_snoc_storage, if_neg (hneq a hab _)]
        exact hinv2 a
    · by_cases hab : a = b
      · subst hab
        rw [mapGet_mapSet_same] at hc2
        simp only [Option.some.injEq] at hc2
        subst hc2
        simp only [hacc, lastPut_snoc_storage, true_and]
        have hget : ∀ k, mapGet (mapSet c.storage k1 v) k
            = if k1 = k then some v else mapGet c.storage k := by
          intro k
          by_cases hk : k1 = k
          · subst hk; rw [if_pos rfl, mapGet_mapSet_same]
          · rw [if_neg hk, mapGet_mapSet_ne _ _ _ _ (fun h => hk h.symm)]
        rcases hv.2 c rfl with ⟨hin, _⟩ | ⟨hnone, hrec, hsto, _⟩
        · obtain ⟨hdata, hsn, hsk⟩ := hinv3 a c hin
          refine ⟨hdata, mapSet_keys_nodup _ _ _ hsn, fun k => ?_⟩
          rw [hget k, hsk k]
        · have hn := (hinv2 a).mp hnone
          refine ⟨⟨c.data, ((hload _).symm.trans hrec), by rw [hn.1]; rfl⟩,
            mapSet_keys_nodup _ _ _ (by rw [hsto]; exact List.nodup_nil), fun k => ?_⟩
          rw [hget k, hsto, hn.2 k]
          rfl
      · rw [mapGet_mapSet_ne _ _ _ _ hab, hother a hab] at hc2
        rw [hacc]
        simp only [lastPut_snoc_storage, if_neg (hneq a hab _)]
        exact hinv3 a c2 hc2

/-- The map `changes` that the journal traversal of `Stage` builds, when the traversal ends
without error, is the one the journal describes; the loader returns afterwards what it returned
before. -/
theorem State.stageJournal_changes (env : Env) (s0 : State) (j : List (Sigma Key.Val)) :
    ∀ (s1 : State) (ch : List (Address × changed)) (codes : List (Bytes32 × Bytes)),
    State.stageJournal env j s0 [] [] = (none, s1, ch, codes) →
    ChangesOf env s0 j ch ∧
    (∀ key, (s1.cacheGetter env key).1 = (s0.cacheGetter env key).1) := by
  induction j using List.reverseRecOn with
  | nil =>
    intro s1 ch codes h
    simp only [State.stageJournal, Prod.mk.injEq, true_and] at h
    obtain ⟨hs, hch, _⟩ := h
    subst hs
    subst hch
    refine ⟨⟨List.nodup_nil, fun a => ?_, fun a c hc => ?_⟩, fun _ => rfl⟩
    · simp [mapGet, lastPut]
    · simp [mapGet] at hc
  | append_singleton j e ih =>
    intro s1 ch codes h
    rw [State.stageJournal_append] at h
    rcases hj : State.stageJournal env j s0 [] [] with ⟨r, sx, chx, cox⟩
    rw [hj] at h
    cases r with
    | some err => simp at h
    | none =>
      simp only [] at h
      obtain ⟨hinv, hload⟩ := ih sx chx cox hj
      obtain ⟨key, v⟩ := e
      cases key with
      | account b => exact ChangesOf.step_account env s0 sx j chx cox b v hinv hload s1 ch codes h
      | storage b k1 =>
        exact ChangesOf.step_storage env s0 sx j chx cox b k1 v hinv hload s1 ch codes h
      | code b =>
        have hsame : State.stageJournal env [⟨.code b, v⟩] sx chx cox
            = (none, sx, chx, (State.stageJournal env [⟨.code b, v⟩] sx chx cox).2.2.2) := by
          simp only [State.stageJournal]
          split <;> rfl
        rw [hsame] at h
        simp only [Prod.mk.injEq, true_and] at h
        obtain ⟨hs, hch, _⟩ := h
        subst hs
        subst hch
        obtain ⟨hinv1, hinv2, hinv3⟩ := hinv
        refine ⟨⟨hinv1, fun a => ?_, fun a c hc => ?_⟩, hload⟩
        · rw [lastPut_snoc_ne (.account a) (.code b) j v (by simp)]
          simp only [lastPut_snoc_ne (.storage a _) (.code b) j v (by simp)]
          exact hinv2 a
        · rw [lastPut_snoc_ne (.account a) (.code b) j v (by simp)]
          simp only [lastPut_snoc_ne (.storage a _) (.code b) j v (by simp)]
          exact hinv3 a c hc


theorem lastPut_pair_comm (key k1 k2 : Key) (v1 : k1.Val) (v2 : k2.Val) (h : k1 ≠ k2) :
    lastPut key [⟨k1, v1⟩, ⟨k2, v2⟩] = lastPut key [⟨k2, v2⟩, ⟨k1, v1⟩] := by
  simp only [lastPut]
  by_cases h1 : k1 = key
  · have h2 : ¬ k2 = key := fun h2 => h (h1.trans h2.symm)
    simp [h1, h2]
  · by_cases h2 : k2 = key
    · simp [h1, h2]
    · simp [h1, h2]

/-- Two neighbouring journal entries for different keys can be exchanged without changing the
last value of any key. -/
theorem lastPut_swap (key k1 k2 : Key) (v1 : k1.Val) (v2 : k2.Val) (h : k1 ≠ k2)
    (j1 j2 : List (Sigma Key.Val)) :
    lastPut key (j1 ++ [⟨k1, v1⟩, ⟨k2, v2⟩] ++ j2)
      = lastPut key (j1 ++ [⟨k2, v2⟩, ⟨k1, v1⟩] ++ j2) := by
  simp only [lastPut_append, lastPut_pair_comm key k1 k2 v1 v2 h]

/-! ## The stage does not depend on the order of the maps -/

theorem foldl_update_mapGet (l : List (Bytes32 × Bytes)) :
    ∀ (c0 : StorageContent) (k : Bytes32), (l.map Prod.fst).Nodup →
      (l.foldl (fun c p => Function.update c p.1 p.2) c0) k = (mapGet l k).getD (c0 k) := by
  induction l with
  | nil => intro c0 k _; rfl
  | cons p rest ih =>
    intro c0 k hnd
    simp only [List.map_cons, List.nodup_cons] at hnd
    simp only [List.foldl_cons, mapGet]
    rw [ih _ k hnd.2]
    by_cases hk : p.1 = k
    · subst hk
      rw [if_pos rfl, (mapGet_eq_none_iff rest p.1).mpr hnd.1]
      simp
    · rw [if_neg hk, Function.update_noteq (Ne.symm hk)]

theorem saveStorageAll_error (l : List (Bytes32 × Bytes)) (trie : Trie StorageContent)
    (hl : l ≠ []) (hc : trie.content = none) : ∃ e, saveStorageAll trie l = .error e := by
  cases l with
  | nil => exact absurd rfl hl
  | cons p rest =>
    obtain ⟨k, v⟩ := p
    simp [saveStorageAll, saveStorage, hc]

/-- What the storage part of a round of the loop over `changes` returns. -/
theorem stageStorage_ok (env : Env) (db : DB) (a : Address) (c : changed)
    (tries0 tries1 : List (Trie StorageContent)) (data : Account)
    (h : stageStorage env db a c tries0 = .ok (data, tries1)) :
    (c.data.IsEmpty = true ∨ c.storage = [] → data = c.data ∧ tries1 = tries0) ∧
    (c.data.IsEmpty = false → c.storage ≠ [] →
      ∃ c0, (db.NewStorageTrie env (StorageTrieName (env.blake2b a.val))
          (BytesToBytes32 c.data.StorageRoot)).content = some c0 ∧
        data = { c.data with StorageRoot := (env.storageRoot
          (c.storage.foldl (fun c p => Function.update c p.1 p.2) c0)).val } ∧
        tries1 = tries0 ++ [{ db.NewStorageTrie env (StorageTrieName (env.blake2b a.val))
          (BytesToBytes32 c.data.StorageRoot) with
            content := some (c.storage.foldl (fun c p => Function.update c p.1 p.2) c0) }]) := by
  unfold stageStorage at h
  by_cases he : c.data.IsEmpty = true
  · simp only [he, Bool.not_true, Bool.false_eq_true, if_false, Except.ok.injEq,
      Prod.mk.injEq] at h
    refine ⟨fun _ => ⟨h.1.symm, h.2.symm⟩, fun hne => ?_⟩
    rw [he] at hne
    cases hne
  · have he2 : c.data.IsEmpty = false := by simpa using he
    by_cases hs : c.storage = []
    · simp only [hs, List.length_nil, gt_iff_lt, lt_self_iff_false, if_false, ite_self,
        Except.ok.injEq, Prod.mk.injEq] at h
      refine ⟨fun _ => ⟨h.1.symm, h.2.symm⟩, fun _ hne => absurd hs hne⟩
    · have hlen : c.storage.length > 0 := List.length_pos.mpr hs
      simp only [he2, Bool.not_false, if_true, hlen] at h
      refine ⟨fun hor => ?_, fun _ _ => ?_⟩
      · rcases hor with h1 | h1
        · rw [he2] at h1; cases h1
        · exact absurd h1 hs
      · cases hc : (db.NewStorageTrie env (StorageTrieName (env.blake2b a.val))
            (BytesToBytes32 c.data.StorageRoot)).content with
        | none =>
          obtain ⟨e, herr⟩ := saveStorageAll_error c.storage _ hs hc
          rw [herr] at h
          simp at h
        | some c0 =>
          rw [saveStorageAll_ok c.storage _ c0 hc] at h
          simp only [Except.ok.injEq, Prod.mk.injEq] at h
          exact ⟨c0, rfl, h.1.symm, h.2.symm⟩

theorem mapGet_nil_iff {K V : Type} [DecidableEq K] (m : List (K × V)) :
    m = [] ↔ ∀ k, mapGet m k = none := by
  cases m with
  | nil => simp [mapGet]
  | cons p rest =>
    simp only [reduceCtorEq, false_iff, not_forall]
    exact ⟨p.1, by simp [mapGet]⟩

/-- The record the storage part returns depends on the pending slots as a map only. -/
theorem stageStorage_ext (env : Env) (db : DB) (a : Address) (c1 c2 : changed)
    (t1 t2 u1 u2 : List (Trie StorageContent)) (d1 d2 : Account)
    (hdata : c1.data = c2.data) (hn1 : (c1.storage.map Prod.fst).Nodup)
    (hn2 : (c2.storage.map Prod.fst).Nodup)
    (hext : ∀ k, mapGet c1.storage k = mapGet c2.storage k)
    (h1 : stageStorage env db a c1 t1 = .ok (d1, u1))
    (h2 : stageStorage env db a c2 t2 = .ok (d2, u2)) : d1 = d2 := by
  obtain ⟨p1, q1⟩ := stageStorage_ok env db a c1 t1 u1 d1 h1
  obtain ⟨p2, q2⟩ := stageStorage_ok env db a c2 t2 u2 d2 h2
  have hnil : c1.storage = [] ↔ c2.storage = [] := by
    rw [mapGet_nil_iff, mapGet_nil_iff]
    exact ⟨fun h k => (hext k).symm.trans (h k), fun h k => (hext k).trans (h k)⟩
  by_cases he : c1.data.IsEmpty = true
  · rw [(p1 (Or.inl he)).1, (p2 (Or.inl (hdata ▸ he))).1, hdata]
  · have he1 : c1.data.IsEmpty = false := by simpa using he
    by_cases hs : c1.storage = []
    · rw [(p1 (Or.inr hs)).1, (p2 (Or.inr (hnil.mp hs))).1, hdata]
    · obtain ⟨c0, hc0, hd1, _⟩ := q1 he1 hs
      obtain ⟨c0x, hc0x, hd2, _⟩ := q2 (hdata ▸ he1) (fun h => hs (hnil.mpr h))
      rw [← hdata, hc0] at hc0x
      simp only [Option.some.injEq] at hc0x
      subst hc0x
      have hfold : c1.storage.foldl (fun c p => Function.update c p.1 p.2) c0
          = c2.storage.foldl (fun c p => Function.update c p.1 p.2) c0 := by
        funext k
        rw [foldl_update_mapGet _ _ _ hn1, foldl_update_mapGet _ _ _ hn2, hext k]
      rw [hd1, hd2, hfold, hdata]

theorem stageChanges_trie (env : Env) (db : DB) :
    ∀ (changes : List (Address × changed)) (stage st1 : Stage),
    stageChanges env db changes stage = .ok st1 →
    st1.accountTrie.name = stage.accountTrie.name ∧
      st1.accountTrie.root = stage.accountTrie.root := by
  intro changes
  induction changes with
  | nil =>
    intro stage st1 h
    simp only [stageChanges, Except.ok.injEq] at h
    subst h
    exact ⟨rfl, rfl⟩
  | cons p rest ih =>
    intro stage st1 h
    obtain ⟨addr, c⟩ := p
    simp only [stageChanges] at h
    cases hss : stageStorage env db addr c stage.storageTries with
    | error e => rw [hss] at h; simp at h
    | ok r =>
      obtain ⟨data, tries⟩ := r
      rw [hss] at h
      simp only [] at h
      cases hsa : saveAccount stage.accountTrie addr data with
      | error e => rw [hsa] at h; simp at h
      | ok t =>
        rw [hsa] at h
        simp only [] at h
        have hi := ih _ st1 h
        simp only [] at hi
        unfold saveAccount at hsa
        cases hc : stage.accountTrie.content with
        | none => rw [hc] at hsa; simp at hsa
        | some cA =>
          rw [hc] at hsa
          simp only [Except.ok.injEq] at hsa
          rw [← hsa] at hi
          exact hi

/-- The accounts trie of the stage depends on `changes` as a map only, not on the order in
which its entries and their pending slots are visited. -/
theorem stageChanges_ext (env : Env) (db : DB) (ch1 ch2 : List (Address × changed))
    (stage1 stage2 st1 st2 : Stage) (hsame : SameChanges ch1 ch2)
    (htrie : stage1.accountTrie = stage2.accountTrie)
    (h1 : stageChanges env db ch1 stage1 = .ok st1)
    (h2 : stageChanges env db ch2 stage2 = .ok st2) : st1.accountTrie = st2.accountTrie := by
  obtain ⟨hn1, hn2, hall⟩ := hsame
  obtain ⟨_, _, hne1, hc1⟩ := stageChanges_content env db ch1 stage1 st1 hn1 h1
  obtain ⟨_, _, hne2, hc2⟩ := stageChanges_content env db ch2 stage2 st2 hn2 h2
  obtain ⟨hname1, hroot1⟩ := stageChanges_trie env db ch1 stage1 st1 h1
  obtain ⟨hname2, hroot2⟩ := stageChanges_trie env db ch2 stage2 st2 h2
  have hcontent : st1.accountTrie.content = st2.accountTrie.content := by
    cases hc : stage1.accountTrie.content with
    | none =>
      have e1 : ch1 = [] := by
        by_contra hne
        obtain ⟨cA, hcA⟩ := hne1 hne
        rw [hc] at hcA
        cases hcA
      have e2 : ch2 = [] := by
        by_contra hne
        obtain ⟨cA, hcA⟩ := hne2 hne
        rw [← htrie, hc] at hcA
        cases hcA
      subst e1
      subst e2
      simp only [stageChanges, Except.ok.injEq] at h1 h2
      rw [← h1, ← h2, htrie]
    | some cA =>
      obtain ⟨cA1, hcA1, ho1, hk1⟩ := hc1 cA hc
      obtain ⟨cA2, hcA2, ho2, hk2⟩ := hc2 cA (by rw [← htrie]; exact hc)
      rw [hcA1, hcA2]
      congr 1
      funext a
      rcases hall a with ⟨g1, g2⟩ | ⟨c1, c2, g1, g2, hdata, hs1, hs2, hext⟩
      · rw [ho1 a g1, ho2 a g2]
      · obtain ⟨d1, t1, u1, hst1, he1⟩ := hk1 a c1 g1
        obtain ⟨d2, t2, u2, hst2, he2⟩ := hk2 a c2 g2
        rw [he1, he2, stageStorage_ext env db a c1 c2 t1 t2 u1 u2 d1 d2 hdata hs1 hs2 hext hst1 hst2]
  rcases hta : st1.accountTrie with ⟨n1, r1, c1⟩
  rcases htb : st2.accountTrie with ⟨n2, r2, c2⟩
  rw [hta] at hname1 hroot1 hcontent
  rw [htb] at hname2 hroot2 hcontent
  simp only [] at hname1 hroot1 hname2 hroot2 hcontent
  rw [hname1, hroot1, hcontent, hname2, hroot2, htrie]

/-- Two maps `changes` built from journals with the same last value for every account and
storage key, over States with the same loaded records, are the same map. -/
theorem ChangesOf.same (env : Env) (s1 s2 : State) (j1 j2 : List (Sigma Key.Val))
    (ch1 ch2 : List (Address × changed))
    (hload : ∀ a, (s1.cacheGetter env (.account a)).1 = (s2.cacheGetter env (.account a)).1)
    (hacc : ∀ a, lastPut (.account a) j1 = lastPut (.account a) j2)
    (hsto : ∀ a k, lastPut (.storage a k) j1 = lastPut (.storage a k) j2)
    (h1 : ChangesOf env s1 j1 ch1) (h2 : ChangesOf env s2 j2 ch2) : SameChanges ch1 ch2 := by
  obtain ⟨n1, b1, c1⟩ := h1
  obtain ⟨n2, b2, c2⟩ := h2
  refine ⟨n1, n2, fun a => ?_⟩
  cases g1 : mapGet ch1 a with
  | none =>
    left
    refine ⟨rfl, (b2 a).mpr ?_⟩
    have := (b1 a).mp g1
    exact ⟨(hacc a).symm.trans this.1, fun k => (hsto a k).symm.trans (this.2 k)⟩
  | some x1 =>
    right
    cases g2 : mapGet ch2 a with
    | none =>
      have := (b2 a).mp g2
      have hn : mapGet ch1 a = none :=
        (b1 a).mpr ⟨(hacc a).trans this.1, fun k => (hsto a k).trans (this.2 k)⟩
      rw [g1] at hn
      cases hn
    | some x2 =>
      obtain ⟨⟨r1, hr1, hd1⟩, hs1, hk1⟩ := c1 a x1 g1
      obtain ⟨⟨r2, hr2, hd2⟩, hs2, hk2⟩ := c2 a x2 g2
      have hr : r1 = r2 := by
        rw [hload a, hr2] at hr1
        simp only [Except.ok.injEq] at hr1
        exact hr1.symm
      refine ⟨x1, x2, rfl, rfl, ?_, hs1, hs2, fun k => ?_⟩
      · rw [hd1, hd2, hacc a, hr]
      · rw [hk1 k, hk2 k, hsto a k]

/-- C12. Stage determinism: `Stage().Hash()` depends only on the base (database, accounts trie
and loaded records) and on the last journaled value of every account and storage key.  Two
States over the same base whose journals end at the same value for every key, as after the
same ordered writes or after writes to several addresses interleaved in different orders,
produce the same accounts trie, hence equal hashes, when both stages succeed; and the loop over
`changes` produces the same accounts trie and hash for every list that holds the same map
`changes`, whatever the order of its entries and of the pending slots of every entry. -/
theorem C12_stage_determinism (env : Env) (s1 s2 : State) (st1 st2 : Stage)
    (hdb : s1.db = s2.db) (htrie : s1.trie = s2.trie)
    (hload : ∀ a, (s1.cacheGetter env (.account a)).1 = (s2.cacheGetter env (.account a)).1)
    (hacc : ∀ a, lastPut (.account a) s1.sm.Journal = lastPut (.account a) s2.sm.Journal)
    (hsto : ∀ a k,
      lastPut (.storage a k) s1.sm.Journal = lastPut (.storage a k) s2.sm.Journal)
    (h1 : (s1.Stage env).1 = .ok st1) (h2 : (s2.Stage env).1 = .ok st2) :
    (st1.accountTrie = st2.accountTrie ∧ st1.Hash env = st2.Hash env) ∧
    ∀ (changes : List (Address × changed)) (st : Stage),
      SameChanges (State.stageJournal env s1.sm.Journal s1 [] []).2.2.1 changes →
      stageChanges env s1.db changes
        { db := s1.db
          accountTrie := s1.db.NewAccountTrie env (s1.trie.HashAccounts env)
          storageTries := []
          codes := (State.stageJournal env s1.sm.Journal s1 [] []).2.2.2 } = .ok st →
      st.accountTrie = st1.accountTrie ∧ st.Hash env = st1.Hash env := by
  obtain ⟨sa, cha, coa, hwa, hla⟩ := State.Stage_ok env s1 st1 h1
  obtain ⟨sb, chb, cob, hwb, hlb⟩ := State.Stage_ok env s2 st2 h2
  have hfa := State.stageJournal_facts env s1.sm.Journal s1 [] []
  have hfb := State.stageJournal_facts env s2.sm.Journal s2 [] []
  rw [hwa] at hfa
  rw [hwb] at hfb
  simp only [] at hfa hfb
  obtain ⟨hca, _⟩ := State.stageJournal_changes env s1 s1.sm.Journal sa cha coa hwa
  obtain ⟨hcb, _⟩ := State.stageJournal_changes env s2 s2.sm.Journal sb chb cob hwb
  rw [hfa.1, hfa.2.1] at hla
  rw [hfb.1, hfb.2.1, ← hdb, ← htrie] at hlb
  constructor
  · have hsame := ChangesOf.same env s1 s2 _ _ cha chb hload hacc hsto hca hcb
    have := stageChanges_ext env s1.db cha chb
      { db := s1.db
        accountTrie := s1.db.NewAccountTrie env (s1.trie.HashAccounts env)
        storageTries := []
        codes := coa }
      { db := s1.db
        accountTrie := s1.db.NewAccountTrie env (s1.trie.HashAccounts env)
        storageTries := []
        codes := cob } st1 st2 hsame rfl hla hlb
    refine ⟨this, ?_⟩
    unfold Stage.Hash
    rw [this]
  · intro changes st hsame hst
    rw [hwa] at hsame hst
    have := stageChanges_ext env s1.db cha changes _ _ st1 st hsame rfl hla hst
    refine ⟨this.symm, ?_⟩
    unfold Stage.Hash
    rw [this]

/-! ## What every write operation preserves -/

/-- A property of States that reads of records, puts and additions to the code cache preserve
is preserved by every write operation. -/
theorem State.applyOp_preserves (env : Env) (Q : State → Prop)
    (hread : ∀ (s : State) (a : Address), Q s → Q (s.smGet env (.account a)).2)
    (hput : ∀ (s : State) (k : Key) (v : k.Val), Q s → Q { s with sm := s.sm.Put k v })
    (hcc : ∀ (s : State) (h c : Bytes), Q s →
      Q { s with codeCache := Function.update s.codeCache h (some c) })
    (s : State) (op : WriteOp) (h : Q s) : Q (s.applyOp env op) := by
  have hset : ∀ (st : State) (a : Address) (f : Account → Account), Q st →
      Q (match st.getAccountCopy env a with
        | (.error e, s1) => ((some (.state e) : Option GoError), s1)
        | (.ok cpy, s1) => (none, s1.updateAccount a (f cpy))).2 := by
    intro st a f hq
    have hg := hread st a hq
    rw [← State.getAccountCopy_snd] at hg
    rcases hgc : st.getAccountCopy env a with ⟨r, s1⟩
    rw [hgc] at hg
    cases r with
    | error e => exact hg
    | ok cpy => exact hput s1 (.account a) (f cpy) hg
  cases op with
  | setBalance a v => exact hset s a _ h
  | setEnergy a e t => exact hset s a _ h
  | setMaster a m =>
    simp only [State.applyOp, State.SetMaster]
    by_cases hm : m.IsZero = true
    · simp only [hm, if_true]
      exact hset s a _ h
    · simp only [hm, if_false]
      exact hset s a _ h
  | setCode a c =>
    simp only [State.applyOp, State.SetCode]
    by_cases hc : c.length > 0
    · simp only [if_pos hc]
      exact hset _ a (fun cpy => { cpy with CodeHash := (env.keccak256 c).val })
        (hcc { s with sm := s.sm.Put (.code a) c } _ c (hput s (.code a) c h))
    · simp only [if_neg hc]
      exact hset _ a (fun cpy => { cpy with CodeHash := [] }) (hput s (.code a) ([] : Bytes) h)
  | setStorage a k v =>
    simp only [State.applyOp, State.SetStorage_eq]
    exact hput s (.storage a k) _ h
  | setRawStorage a k raw => exact hput s (.storage a k) raw h
  | delete a =>
    simp only [State.applyOp, State.Delete_sm]
    exact hput _ (.account a) emptyAccount (hput s (.code a) ([] : Bytes) h)

theorem State.applyOps_preserves (env : Env) (Q : State → Prop)
    (hread : ∀ (s : State) (a : Address), Q s → Q (s.smGet env (.account a)).2)
    (hput : ∀ (s : State) (k : Key) (v : k.Val), Q s → Q { s with sm := s.sm.Put k v })
    (hcc : ∀ (s : State) (h c : Bytes), Q s →
      Q { s with codeCache := Function.update s.codeCache h (some c) })
    (ops : List WriteOp) : ∀ s : State, Q s → Q (s.applyOps env ops) := by
  induction ops with
  | nil => intro s h; exact h
  | cons op rest ih =>
    intro s h
    simp only [State.applyOps, List.foldl_cons]
    exact ih _ (State.applyOp_preserves env Q hread hput hcc s op h)

theorem State.smGet_loader (env : Env) (s : State) (key key2 : Key) :
    ((s.smGet env key).2.cacheGetter env key2).1 = (s.cacheGetter env key2).1 := by
  unfold State.smGet
  cases s.sm.find key with
  | some v => rfl
  | none =>
    simp only []
    have ht := State.cacheGetter_transparent env s key key2
    rcases hc : s.cacheGetter env key with ⟨r, s1⟩
    rw [hc] at ht
    cases r with
    | error e => exact ht
    | ok v =>
      simp only [] at ht ⊢
      rw [State.cacheGetter_with_sm]
      exact ht

/-- Write operations change neither the database, nor the accounts trie, nor the records the
loader returns. -/
theorem State.applyOps_base (env : Env) (s : State) (ops : List WriteOp) :
    (s.applyOps env ops).db = s.db ∧ (s.applyOps env ops).trie = s.trie ∧
    ∀ a, ((s.applyOps env ops).cacheGetter env (.account a)).1
      = (s.cacheGetter env (.account a)).1 := by
  apply State.applyOps_preserves env (fun st => st.db = s.db ∧ st.trie = s.trie ∧
    ∀ a, (st.cacheGetter env (.account a)).1 = (s.cacheGetter env (.account a)).1)
  · intro st b ⟨h1, h2, h3⟩
    have hf := State.smGet_facts env st (.account b)
    exact ⟨hf.1.trans h1, hf.2.1.trans h2, fun a => (State.smGet_loader env st _ _).trans (h3 a)⟩
  · intro st k v ⟨h1, h2, h3⟩
    refine ⟨h1, h2, fun a => ?_⟩
    rw [State.cacheGetter_with_sm]
    exact h3 a
  · intro st h c ⟨h1, h2, h3⟩
    refine ⟨h1, h2, fun a => ?_⟩
    rw [← h3 a]
    simp only [State.cacheGetter, State.getCachedObject]
    cases st.cache a with
    | some co => rfl
    | none =>
      simp only []
      cases loadAccount st.trie a <;> rfl
  · exact ⟨rfl, rfl, fun _ => rfl⟩


/-! ## The accounts trie of a stage as a function of the journal -/

/-- The accounts trie of a successful stage, entry by entry.  An address without account or
storage entry in the journal keeps its entry.  For any other address the record is the last
journaled one, else the loaded one; when it is empty the entry is absent; when no slot is
pending the record is saved as it is; otherwise the storage trie at the storage root of the
record is readable and the record is saved with the hash of that trie after the pending slots
are saved into it. -/
theorem State.Stage_content (env : Env) (s : State) (st : Luckyshare.Stage)
    (h : (s.Stage env).1 = .ok st) (cA0 : AccountContent)
    (h0 : (s.db.NewAccountTrie env (s.trie.HashAccounts env)).content = some cA0) :
    ∃ cA, st.accountTrie.content = some cA ∧ st.db = s.db ∧
      ∀ a,
        (lastPut (.account a) s.sm.Journal = none →
          (∀ k, lastPut (.storage a k) s.sm.Journal = none) → cA a = cA0 a) ∧
        ((lastPut (.account a) s.sm.Journal ≠ none ∨
            ∃ k, lastPut (.storage a k) s.sm.Journal ≠ none) →
          ∃ rec : Account, (s.cacheGetter env (.account a)).1 = .ok rec ∧
            (((lastPut (.account a) s.sm.Journal).getD rec).IsEmpty = true → cA a = none) ∧
            (((lastPut (.account a) s.sm.Journal).getD rec).IsEmpty = false →
              ((∀ k, lastPut (.storage a k) s.sm.Journal = none) →
                cA a = some ((lastPut (.account a) s.sm.Journal).getD rec)) ∧
              ((∃ k, lastPut (.storage a k) s.sm.Journal ≠ none) →
                ∃ c0, (s.db.NewStorageTrie env (StorageTrieName (env.blake2b a.val))
                    (BytesToBytes32
                      ((lastPut (.account a) s.sm.Journal).getD rec).StorageRoot)).content
                    = some c0 ∧
                  cA a = some { (lastPut (.account a) s.sm.Journal).getD rec with
                    StorageRoot :=
                      (env.storageRoot (stagedStorage s.sm.Journal a c0)).val }))) := by
  obtain ⟨s1, ch, codes, hw, hl⟩ := State.Stage_ok env s st h
  have hf := State.stageJournal_facts env s.sm.Journal s [] []
  rw [hw] at hf
  simp only [] at hf
  obtain ⟨⟨hnd, hnone, hsome⟩, _⟩ := State.stageJournal_changes env s s.sm.Journal s1 ch codes hw
  rw [hf.1, hf.2.1] at hl
  obtain ⟨hdb, _, _, hcont⟩ := stageChanges_content env s.db ch _ st hnd hl
  obtain ⟨cA, hcA, hother, hkey⟩ := hcont cA0 h0
  refine ⟨cA, hcA, hdb, fun a => ⟨fun ha hk => hother a ((hnone a).mpr ⟨ha, hk⟩), fun htouch => ?_⟩⟩
  cases hg : mapGet ch a with
  | none =>
    obtain ⟨ha, hk⟩ := (hnone a).mp hg
    rcases htouch with h1 | ⟨k, h1⟩
    · exact absurd ha h1
    · exact absurd (hk k) h1
  | some c =>
    obtain ⟨⟨rec, hrec, hdata⟩, hsn, hsk⟩ := hsome a c hg
    obtain ⟨data, t0, t1, hss, hca⟩ := hkey a c hg
    obtain ⟨p, q⟩ := stageStorage_ok env s.db a c t0 t1 data hss
    have hnil : c.storage = [] ↔ ∀ k, lastPut (.storage a k) s.sm.Journal = none := by
      rw [mapGet_nil_iff]
      exact ⟨fun h k => (hsk k).symm.trans (h k), fun h k => (hsk k).trans (h k)⟩
    refine ⟨rec, hrec, fun he => ?_, fun he => ⟨fun hk => ?_, fun hk => ?_⟩⟩
    · rw [← hdata] at he
      rw [hca, (p (Or.inl he)).1, he]
      rfl
    · rw [← hdata] at he ⊢
      rw [hca, (p (Or.inr (hnil.mpr hk))).1, he]
      rfl
    · rw [← hdata] at he ⊢
      have hne : c.storage ≠ [] := by
        intro hs
        obtain ⟨k, hk1⟩ := hk
        exact hk1 (hnil.mp hs k)
      obtain ⟨c0, hc0, hd, _⟩ := q he hne
      refine ⟨c0, hc0, ?_⟩
      have hfold : c.storage.foldl (fun c p => Function.update c p.1 p.2) c0
          = stagedStorage s.sm.Journal a c0 := by
        funext k
        rw [foldl_update_mapGet _ _ _ hsn, hsk k]
        rfl
      rw [hca, hd, hfold]
      have hne2 : ({ c.data with StorageRoot :=
          (env.storageRoot (stagedStorage s.sm.Journal a c0)).val } : Account).IsEmpty
            = false := he
      rw [hne2]
      rfl

/-! ## Writing zero to an absent slot -/

theorem lastPut_none_of_forall (key : Key) (j : List (Sigma Key.Val))
    (h : ∀ e ∈ j, e.1 ≠ key) : lastPut key j = none := by
  induction j with
  | nil => rfl
  | cons e rest ih =>
    obtain ⟨k, v⟩ := e
    simp only [lastPut]
    rw [ih (fun e he => h e (List.mem_cons_of_mem _ he))]
    have : ¬ k = key := h ⟨k, v⟩ (List.mem_cons_self _ _)
    simp [this]

theorem lastPut_append_other (key : Key) (j w : List (Sigma Key.Val))
    (h : ∀ e ∈ w, e.1 ≠ key) : lastPut key (j ++ w) = lastPut key j := by
  rw [lastPut_append, lastPut_none_of_forall key w h]

theorem setStorages_applyOps (env : Env) (a : Address) (m : List (Bytes32 × Bytes32)) :
    ∀ s : State, setStorages s a m = s.applyOps env (m.map (fun p => .setStorage a p.1 p.2)) := by
  induction m with
  | nil => intro s; rfl
  | cons p rest ih =>
    intro s
    simp only [setStorages, List.foldl_cons, List.map_cons, State.applyOps, State.applyOp]
    exact ih _

/-- The last journaled values after a sequence of `SetStorage` calls on one slot that ends
with the zero value: the slot holds the empty raw value, every other key is as before. -/
theorem lastPut_zero_writes (s : State) (a : Address) (k : Bytes32) (vs : List Bytes32)
    (key : Key) :
    lastPut key (setStorages s a (vs.map (fun v => (k, v)) ++ [(k, Bytes32.zero)])).sm.Journal
      = if key = .storage a k then
          lastPut key [(⟨.storage a k, ([] : Bytes)⟩ : Sigma Key.Val)]
        else lastPut key s.sm.Journal := by
  rw [(setStorages_facts a _ s).2.2, List.map_append, ← List.append_assoc]
  simp only [List.map_cons, List.map_nil]
  have hz : encodeValue Bytes32.zero = [] := by
    unfold encodeValue
    rw [if_pos (by decide)]
  rw [hz]
  by_cases hkey : key = .storage a k
  · subst hkey
    rw [if_pos rfl, lastPut_snoc_same]
    simp [lastPut]
  · rw [if_neg hkey, lastPut_snoc_ne key (.storage a k) _ _ (fun h => hkey h.symm)]
    apply lastPut_append_other
    intro e he
    simp only [List.map_map, List.mem_map, Function.comp] at he
    obtain ⟨v, _, hv⟩ := he
    rw [← hv]
    exact fun h => hkey h.symm

/-- C13. Writing zero to an absent slot: for an account `a` whose record at staging is not
empty, whose storage trie is readable and holds nothing at the slot `k`, and a journal without
write to `(a, k)`, after any sequence of `SetStorage` calls on `(a, k)` that ends with the zero
value, `Stage` saves the record of `a` with the hash of its storage trie after the other
pending slots are saved: the slot `k` contributes nothing.  This is the record that `Stage`
saves when `k` is never written and another slot of `a` is pending; when no other slot is
pending the storage root saved is the hash of the unchanged content of the trie, and the record
is unchanged when its storage root is that hash. -/
theorem C13_zero_write_storage_root (env : Env) (s : State) (a : Address) (k : Bytes32)
    (vs : List Bytes32) (st : Stage) (rec : Account) (c0 : StorageContent)
    (cA0 : AccountContent)
    (h0 : (s.db.NewAccountTrie env (s.trie.HashAccounts env)).content = some cA0)
    (hrec : (s.cacheGetter env (.account a)).1 = .ok rec)
    (hne : ((lastPut (.account a) s.sm.Journal).getD rec).IsEmpty = false)
    (hc0 : (s.db.NewStorageTrie env (StorageTrieName (env.blake2b a.val))
      (BytesToBytes32 ((lastPut (.account a) s.sm.Journal).getD rec).StorageRoot)).content
        = some c0)
    (hk0 : c0 k = []) (hk : lastPut (.storage a k) s.sm.Journal = none)
    (hst : ((setStorages s a (vs.map (fun v => (k, v)) ++ [(k, Bytes32.zero)])).Stage env).1
      = .ok st) :
    ∃ cA, st.accountTrie.content = some cA ∧
      cA a = some { (lastPut (.account a) s.sm.Journal).getD rec with
        StorageRoot := (env.storageRoot (stagedStorage s.sm.Journal a c0)).val } ∧
      ((∀ k2, lastPut (.storage a k2) s.sm.Journal = none) →
        stagedStorage s.sm.Journal a c0 = c0 ∧
        ((env.storageRoot c0).val = ((lastPut (.account a) s.sm.Journal).getD rec).StorageRoot →
          cA a = some ((lastPut (.account a) s.sm.Journal).getD rec))) ∧
      (∀ st0, (s.Stage env).1 = .ok st0 → (∃ k2, lastPut (.storage a k2) s.sm.Journal ≠ none) →
        ∃ cB, st0.accountTrie.content = some cB ∧ cB a = cA a) := by
  have hfacts := setStorages_facts a (vs.map (fun v => (k, v)) ++ [(k, Bytes32.zero)]) s
  have hload := (State.applyOps_base env s
    ((vs.map (fun v => (k, v)) ++ [(k, Bytes32.zero)]).map
      (fun p => WriteOp.setStorage a p.1 p.2))).2.2 a
  rw [← setStorages_applyOps] at hload
  have hlast := lastPut_zero_writes s a k vs
  obtain ⟨cA, hcA, _, hall⟩ := State.Stage_content env _ st hst cA0
    (by rw [hfacts.1, hfacts.2.1]; exact h0)
  have hacc : lastPut (.account a)
      (setStorages s a (vs.map (fun v => (k, v)) ++ [(k, Bytes32.zero)])).sm.Journal
        = lastPut (.account a) s.sm.Journal := by
    rw [hlast, if_neg (by simp)]
  have hsk : lastPut (.storage a k)
      (setStorages s a (vs.map (fun v => (k, v)) ++ [(k, Bytes32.zero)])).sm.Journal
        = some [] := by
    rw [hlast, if_pos rfl]
    simp [lastPut]
  have hstaged : stagedStorage
      (setStorages s a (vs.map (fun v => (k, v)) ++ [(k, Bytes32.zero)])).sm.Journal a c0
        = stagedStorage s.sm.Journal a c0 := by
    funext k2
    unfold stagedStorage
    by_cases hk2 : k2 = k
    · subst hk2
      rw [hsk, hk, hk0]
      rfl
    · rw [hlast, if_neg (fun h => hk2 (Key.storage.inj h).2)]
  obtain ⟨rec2, hrec2, _, hnon⟩ := (hall a).2 (Or.inr ⟨k, by rw [hsk]; simp⟩)
  rw [hload, hrec] at hrec2
  simp only [Except.ok.injEq] at hrec2
  subst hrec2
  rw [hacc] at hnon
  obtain ⟨c1, hc1, hca⟩ := (hnon hne).2 ⟨k, by rw [hsk]; simp⟩
  rw [hfacts.1, hc0] at hc1
  simp only [Option.some.injEq] at hc1
  subst hc1
  rw [hstaged] at hca
  refine ⟨cA, hcA, hca, fun hnone => ?_, fun st0 hst0 hpend => ?_⟩
  · have hsame : stagedStorage s.sm.Journal a c0 = c0 := by
      funext k2
      unfold stagedStorage
      rw [hnone k2]
      rfl
    refine ⟨hsame, fun hroot => ?_⟩
    rw [hca, hsame, hroot]
  · obtain ⟨cB, hcB, _, hallB⟩ := State.Stage_content env s st0 hst0 cA0 h0
    obtain ⟨rec3, hrec3, _, hnonB⟩ := (hallB a).2 (Or.inr hpend)
    rw [hrec] at hrec3
    simp only [Except.ok.injEq] at hrec3
    subst hrec3
    obtain ⟨c2, hc2, hcb⟩ := (hnonB hne).2 hpend
    rw [hc0] at hc2
    simp only [Option.some.injEq] at hc2
    subst hc2
    exact ⟨cB, hcB, hcb.trans hca.symm⟩


/-! ## States reached by writes, checkpoints and reverts -/

theorem StackedMap.find_dropTop_none (sm : StackedMap) (key : Key) (n : Nat)
    (h : sm.find key = none) : (sm.dropTop n).find key = none := by
  obtain ⟨hb, hs⟩ := StackedMap.find_eq_none sm key h
  unfold StackedMap.find StackedMap.dropTop
  simp only [List.findSome?_append, List.findSome?_cons, List.findSome?_nil, hb]
  have : (sm.stack.drop n).findSome? (fun f => f.kvs key) = none := by
    rw [List.findSome?_eq_none_iff] at hs ⊢
    intro f hf
    exact hs f (List.mem_of_mem_drop hf)
  rw [this]
  rfl

theorem Journaled.after_put (env : Env) (s : State) (k : Key) (v : k.Val) (h : Journaled env s) :
    Journaled env { s with sm := s.sm.Put k v } := by
  obtain ⟨h1, h2⟩ := h
  refine ⟨fun key w hw => ?_, fun a w hn hf => ?_⟩
  · simp only [StackedMap.Journal_Put] at hw
    by_cases hk : key = k
    · subst hk
      rw [lastPut_snoc_same] at hw
      simp only [Option.some.injEq] at hw
      subst hw
      exact StackedMap.find_Put_same s.sm key v
    · rw [lastPut_snoc_ne key k _ v (fun h => hk h.symm)] at hw
      show (s.sm.Put k v).find key = some w
      rw [StackedMap.find_Put_ne s.sm k v key hk]
      exact h1 key w hw
  · simp only [StackedMap.Journal_Put] at hn
    have hk : Key.account a ≠ k := by
      intro hk
      subst hk
      rw [lastPut_snoc_same] at hn
      cases hn
    rw [lastPut_snoc_ne _ k _ v (fun h => hk h.symm)] at hn
    have hf2 : s.sm.find (.account a) = some w := by
      rw [← StackedMap.find_Put_ne s.sm k v _ hk]
      exact hf
    rw [State.cacheGetter_with_sm]
    exact h2 a w hn hf2

theorem Journaled.cacheLoaded (env : Env) (s s1 : State) (key : Key) (v : key.Val)
    (h : Journaled env s) (hfind : s.sm.find key = none)
    (hsm : s1.sm = s.sm.cacheLoaded key v)
    (hload : ∀ a, (s1.cacheGetter env (.account a)).1 = (s.cacheGetter env (.account a)).1)
    (hv : ∀ a, key = .account a → ∀ w : Account, s1.sm.find (.account a) = some w →
      (s.cacheGetter env (.account a)).1 = .ok w) :
    Journaled env s1 := by
  obtain ⟨h1, h2⟩ := h
  refine ⟨fun key2 w hw => ?_, fun a w hn hf => ?_⟩
  · rw [hsm] at hw ⊢
    rw [StackedMap.Journal_cacheLoaded] at hw
    by_cases hk : key2 = key
    · subst hk
      rw [h1 key2 w hw] at hfind
      cases hfind
    · rw [StackedMap.find_cacheLoaded_ne s.sm key v key2 hk]
      exact h1 key2 w hw
  · rw [hload a]
    by_cases hk : Key.account a = key
    · exact hv a hk.symm w hf
    · rw [hsm, StackedMap.find_cacheLoaded_ne s.sm key v _ hk] at hf
      rw [hsm, StackedMap.Journal_cacheLoaded] at hn
      exact h2 a w hn hf

theorem Journaled.of_eq (env : Env) (s s1 : State) (h : Journaled env s)
    (hj : s1.sm.Journal = s.sm.Journal) (hf : ∀ key, s1.sm.find key = s.sm.find key)
    (hload : ∀ a, (s1.cacheGetter env (.account a)).1 = (s.cacheGetter env (.account a)).1) :
    Journaled env s1 := by
  obtain ⟨h1, h2⟩ := h
  refine ⟨fun key w hw => ?_, fun a w hn hfa => ?_⟩
  · rw [hf]
    rw [hj] at hw
    exact h1 key w hw
  · rw [hload]
    rw [hj] at hn
    rw [hf] at hfa
    exact h2 a w hn hfa

theorem StackedMap.Put_dropTop_nil (sm : StackedMap) (k : Key) (v : k.Val) (n : Nat)
    (hs : sm.stack = []) : (sm.Put k v).dropTop n = (sm.dropTop n).Put k v := by
  simp [StackedMap.Put, StackedMap.dropTop, hs]

theorem StackedMap.Put_dropTop_zero (sm : StackedMap) (k : Key) (v : k.Val) :
    (sm.Put k v).dropTop 0 = (sm.dropTop 0).Put k v := by
  simp [StackedMap.dropTop]

theorem StackedMap.Put_dropTop_succ (sm : StackedMap) (k : Key) (v : k.Val) (n : Nat)
    (top : Frame) (rest : List Frame) (hs : sm.stack = top :: rest) :
    (sm.Put k v).dropTop (n + 1) = sm.dropTop (n + 1) := by
  simp [StackedMap.Put, StackedMap.dropTop, hs]

theorem WellJournaled.put_all (env : Env) (s : State) (k : Key) (v : k.Val)
    (h : WellJournaled env s) : WellJournaled env { s with sm := s.sm.Put k v } := by
  intro n
  show Journaled env { s with sm := (s.sm.Put k v).dropTop n }
  cases hs : s.sm.stack with
  | nil =>
    rw [StackedMap.Put_dropTop_nil s.sm k v n hs]
    exact Journaled.after_put env { s with sm := s.sm.dropTop n } k v (h n)
  | cons top rest =>
    cases n with
    | zero =>
      rw [StackedMap.Put_dropTop_zero]
      exact Journaled.after_put env { s with sm := s.sm.dropTop 0 } k v (h 0)
    | succ m =>
      rw [StackedMap.Put_dropTop_succ s.sm k v m top rest hs]
      exact h (m + 1)

theorem State.loader_with_sm (env : Env) (s : State) (sm1 : StackedMap) (key : Key) :
    (({ s with sm := sm1 } : State).cacheGetter env key).1 = (s.cacheGetter env key).1 := by
  rw [State.cacheGetter_with_sm]

theorem WellJournaled.read (env : Env) (s : State) (key : Key) (h : WellJournaled env s) :
    WellJournaled env (s.smGet env key).2 := by
  intro n
  have hloader := State.smGet_loader env s key
  cases hf : s.sm.find key with
  | some v =>
    rw [State.smGet_of_find env s key v hf]
    exact h n
  | none =>
    have hsm := (State.cacheGetter_sm env s key).1
    have hfst := State.smGet_fst env s key
    rw [hf] at hfst
    simp only [] at hfst
    unfold State.smGet at hloader ⊢
    rw [hf] at hloader ⊢
    simp only [] at hloader ⊢
    rcases hc : s.cacheGetter env key with ⟨r, s1⟩
    rw [hc] at hsm hloader
    simp only [] at hsm
    cases r with
    | error e =>
      simp only [] at hloader ⊢
      apply Journaled.of_eq env { s with sm := s.sm.dropTop n } _ (h n)
      · show (s1.sm.dropTop n).Journal = (s.sm.dropTop n).Journal
        rw [hsm]
      · intro key2
        show (s1.sm.dropTop n).find key2 = (s.sm.dropTop n).find key2
        rw [hsm]
      · intro a
        exact (State.loader_with_sm env s1 _ _).trans
          ((hloader (.account a)).trans (State.loader_with_sm env s _ _).symm)
    | ok v =>
      simp only [] at hloader ⊢
      apply Journaled.cacheLoaded env { s with sm := s.sm.dropTop n } _ key v (h n)
        (StackedMap.find_dropTop_none s.sm key n hf)
      · show (s1.sm.cacheLoaded key v).dropTop n = (s.sm.dropTop n).cacheLoaded key v
        rw [hsm]
        rfl
      · intro a
        exact (State.loader_with_sm env s1 _ _).trans
          (((State.loader_with_sm env s1 _ _).symm.trans (hloader (.account a))).trans
            (State.loader_with_sm env s _ _).symm)
      · intro a hk w hw
        subst hk
        have hw2 : ((s.sm.dropTop n).cacheLoaded (.account a) v).find (.account a) = some w := by
          rw [← hw]
          show _ = ((s1.sm.cacheLoaded (.account a) v).dropTop n).find (.account a)
          rw [hsm]
          rfl
        rw [StackedMap.find_cacheLoaded_same _ _ v
          (StackedMap.find_dropTop_none s.sm _ n hf)] at hw2
        simp only [Option.some.injEq] at hw2
        subst hw2
        rw [State.loader_with_sm, hc]

theorem State.loader_with_codeCache (env : Env) (s : State) (cc : CodeCache) (a : Address) :
    (({ s with codeCache := cc } : State).cacheGetter env (.account a)).1
      = (s.cacheGetter env (.account a)).1 := by
  simp only [State.cacheGetter, State.getCachedObject]
  cases s.cache a with
  | some co => rfl
  | none =>
    simp only []
    cases loadAccount s.trie a <;> rfl

theorem WellJournaled.add_code (env : Env) (s : State) (cc : CodeCache)
    (h : WellJournaled env s) : WellJournaled env { s with codeCache := cc } := by
  intro n
  refine Journaled.of_eq env { s with sm := s.sm.dropTop n } _ (h n) ?_ ?_ ?_
  · rfl
  · exact fun _ => rfl
  intro a
  exact (State.loader_with_sm env { s with codeCache := cc } _ _).trans
    ((State.loader_with_codeCache env s cc a).trans (State.loader_with_sm env s _ _).symm)

theorem StackedMap.Push_Journal (sm : StackedMap) : (sm.Push).1.Journal = sm.Journal := by
  simp [StackedMap.Push, StackedMap.Journal, Frame.empty]

theorem StackedMap.Push_find (sm : StackedMap) (key : Key) :
    (sm.Push).1.find key = sm.find key := by
  simp [StackedMap.Push, StackedMap.find, Frame.empty, List.findSome?_cons]

theorem WellJournaled.checkpoint (env : Env) (s : State) (h : WellJournaled env s) :
    WellJournaled env (s.NewCheckpoint).2 := by
  intro n
  cases n with
  | zero =>
    apply Journaled.of_eq env { s with sm := s.sm.dropTop 0 } _ (h 0)
    · exact StackedMap.Push_Journal s.sm
    · exact fun key => StackedMap.Push_find s.sm key
    · intro a
      exact (State.loader_with_sm env s _ _).trans (State.loader_with_sm env s _ _).symm
  | succ m => exact h m

theorem WellJournaled.revert_to (env : Env) (s : State) (revision : Int)
    (h : WellJournaled env s) : WellJournaled env (s.RevertTo revision) := by
  intro n
  have := h (s.sm.Depth - max revision.toNat 1 + n)
  simp only [StackedMap.dropTop, State.RevertTo, StackedMap.PopTo, List.drop_drop] at this ⊢
  exact this

theorem WellJournaled.fresh (env : Env) (db : DB) (cc : CodeCache) (root : Bytes32) :
    WellJournaled env (New env db cc root) := by
  intro n
  refine ⟨fun key v hv => ?_, fun a v _ hf => ?_⟩
  · simp [New, StackedMap.New, StackedMap.dropTop, StackedMap.Journal, Frame.empty,
      lastPut] at hv
  · simp [New, StackedMap.New, StackedMap.dropTop, StackedMap.find, Frame.empty,
      List.findSome?_cons] at hf

theorem WellJournaled.run (env : Env) (steps : List Step) :
    ∀ s : State, WellJournaled env s → WellJournaled env (s.run env steps) := by
  induction steps with
  | nil => intro s h; exact h
  | cons st rest ih =>
    intro s h
    simp only [State.run, List.foldl_cons]
    apply ih
    cases st with
    | write op =>
      exact State.applyOp_preserves env (WellJournaled env)
        (fun s a hq => WellJournaled.read env s _ hq)
        (fun s k v hq => WellJournaled.put_all env s k v hq)
        (fun s hh c hq => WellJournaled.add_code env s _ hq) s op h
    | checkpoint => exact WellJournaled.checkpoint env s h
    | revert revision => exact WellJournaled.revert_to env s revision h

/-- Writes, checkpoints and reverts change neither the database, nor the accounts trie, nor the
records the loader returns. -/
theorem State.run_base (env : Env) (steps : List Step) :
    ∀ s : State, (s.run env steps).db = s.db ∧ (s.run env steps).trie = s.trie ∧
      ∀ a, ((s.run env steps).cacheGetter env (.account a)).1
        = (s.cacheGetter env (.account a)).1 := by
  induction steps with
  | nil => intro s; exact ⟨rfl, rfl, fun _ => rfl⟩
  | cons st rest ih =>
    intro s
    simp only [State.run, List.foldl_cons]
    obtain ⟨h1, h2, h3⟩ := ih (s.step env st)
    simp only [State.run] at h1 h2 h3
    have hstep : (s.step env st).db = s.db ∧ (s.step env st).trie = s.trie ∧
        ∀ a, ((s.step env st).cacheGetter env (.account a)).1
          = (s.cacheGetter env (.account a)).1 := by
      cases st with
      | write op =>
        have := State.applyOps_base env s [op]
        simpa [State.applyOps] using this
      | checkpoint => exact ⟨rfl, rfl, fun a => State.loader_with_sm env s _ _⟩
      | revert revision => exact ⟨rfl, rfl, fun a => State.loader_with_sm env s _ _⟩
    exact ⟨h1.trans hstep.1, h2.trans hstep.2.1, fun a => (h3 a).trans (hstep.2.2 a)⟩

/-- What a State whose stacked map agrees with its journal reads: the last journaled value of
the key; for a record without journal entry, what the loader returns. -/
theorem Journaled.reads (env : Env) (s : State) (h : Journaled env s) :
    (∀ (key : Key) (v : key.Val), lastPut key s.sm.Journal = some v →
      (s.smGet env key).1 = .ok v) ∧
    (∀ a, lastPut (.account a) s.sm.Journal = none →
      (s.smGet env (.account a)).1 = (s.cacheGetter env (.account a)).1) := by
  obtain ⟨h1, h2⟩ := h
  refine ⟨fun key v hv => ?_, fun a hn => ?_⟩
  · rw [State.smGet_of_find env s key v (h1 key v hv)]
  · rw [State.smGet_fst]
    cases hf : s.sm.find (.account a) with
    | none => rfl
    | some w => exact (h2 a w hn hf).symm


/-! ## The storage tries of a stage and their commit -/

/-- The storage tries of a successful stage: for every address of `changes` whose record is not
empty and which has pending slots, the storage trie at the storage root of the record is
readable and the stage holds that trie with the pending slots saved. -/
theorem stageChanges_tries (env : Env) (db : DB) :
    ∀ (changes : List (Address × changed)) (stage st1 : Stage),
    (changes.map Prod.fst).Nodup → stageChanges env db changes stage = .ok st1 →
    (∀ t ∈ stage.storageTries, t ∈ st1.storageTries) ∧
    ∀ addr c, mapGet changes addr = some c → c.data.IsEmpty = false → c.storage ≠ [] →
      ∃ c0, (db.NewStorageTrie env (StorageTrieName (env.blake2b addr.val))
          (BytesToBytes32 c.data.StorageRoot)).content = some c0 ∧
        ({ db.NewStorageTrie env (StorageTrieName (env.blake2b addr.val))
            (BytesToBytes32 c.data.StorageRoot) with
          content := some (c.storage.foldl (fun c p => Function.update c p.1 p.2) c0) } :
            Trie StorageContent) ∈ st1.storageTries := by
  intro changes
  induction changes with
  | nil =>
    intro stage st1 _ h
    simp only [stageChanges, Except.ok.injEq] at h
    subst h
    exact ⟨fun t ht => ht, fun addr c hc => by simp [mapGet] at hc⟩
  | cons p rest ih =>
    intro stage st1 hnd h
    obtain ⟨addr, c⟩ := p
    simp only [List.map_cons, List.nodup_cons] at hnd
    simp only [stageChanges] at h
    cases hss : stageStorage env db addr c stage.storageTries with
    | error e => rw [hss] at h; simp at h
    | ok r =>
      obtain ⟨data, tries⟩ := r
      rw [hss] at h
      simp only [] at h
      cases hsa : saveAccount stage.accountTrie addr data with
      | error e => rw [hsa] at h; simp at h
      | ok t =>
        rw [hsa] at h
        simp only [] at h
        obtain ⟨hmono, hkey⟩ := ih _ st1 hnd.2 h
        simp only [] at hmono
        obtain ⟨p1, q1⟩ := stageStorage_ok env db addr c stage.storageTries tries data hss
        have hsub : ∀ t ∈ stage.storageTries, t ∈ tries := by
          intro t ht
          by_cases he : c.data.IsEmpty = true
          · rw [(p1 (Or.inl he)).2]; exact ht
          · have he1 : c.data.IsEmpty = false := by simpa using he
            by_cases hs : c.storage = []
            · rw [(p1 (Or.inr hs)).2]; exact ht
            · obtain ⟨c0, _, _, htr⟩ := q1 he1 hs
              rw [htr]
              exact List.mem_append_left _ ht
        refine ⟨fun t ht => hmono t (hsub t ht), ?_⟩
        intro addr2 c2 hsome hne hsto
        simp only [mapGet] at hsome
        by_cases heq : addr = addr2
        · subst heq
          rw [if_pos rfl] at hsome
          simp only [Option.some.injEq] at hsome
          subst hsome
          obtain ⟨c0, hc0, _, htr⟩ := q1 hne hsto
          refine ⟨c0, hc0, hmono _ ?_⟩
          rw [htr]
          exact List.mem_append_right _ (List.mem_singleton.mpr rfl)
        · rw [if_neg heq] at hsome
          exact hkey addr2 c2 hsome hne hsto

theorem Trie.CommitStorage_other (env : Env) (db : DB) (t : Trie StorageContent) (name : Bytes)
    (h : name ≠ t.name) :
    (t.CommitStorage env db).2.storageTries name = db.storageTries name := by
  unfold Trie.CommitStorage
  cases t.content with
  | none => rfl
  | some cS =>
    simp only []
    cases db.commitFault t.name with
    | some e => rfl
    | none => exact Function.update_noteq h _ _

/-- After the commit of storage tries with distinct names, every one of them is held by the
database under its name and the hash of its content. -/
theorem commitStorageTries_lookup (env : Env) :
    ∀ (tries : List (Trie StorageContent)) (db0 db1 : DB),
    (tries.map (fun t => t.name)).Nodup → commitStorageTries env db0 tries = (none, db1) →
    (∀ t ∈ tries, ∃ cS, t.content = some cS ∧
      db1.storageTries t.name (env.storageRoot cS) = some cS) ∧
    (∀ name, name ∉ tries.map (fun t => t.name) →
      db1.storageTries name = db0.storageTries name) := by
  intro tries
  induction tries with
  | nil =>
    intro db0 db1 _ h
    simp only [commitStorageTries, Prod.mk.injEq, true_and] at h
    subst h
    exact ⟨fun t ht => by simp at ht, fun _ _ => rfl⟩
  | cons t rest ih =>
    intro db0 db1 hnd h
    simp only [List.map_cons, List.nodup_cons] at hnd
    have hf := Trie.CommitStorage_facts env db0 t
    have ho := Trie.CommitStorage_other env db0 t
    simp only [commitStorageTries] at h
    rcases hc : t.CommitStorage env db0 with ⟨r, dbm⟩
    rw [hc] at h hf ho
    cases r with
    | error e => simp at h
    | ok root =>
      simp only [] at h hf ho
      obtain ⟨hin, hout⟩ := ih dbm db1 hnd.2 h
      refine ⟨fun t2 ht2 => ?_, fun name hname => ?_⟩
      · rcases List.mem_cons.mp ht2 with heq | hrest
        · subst heq
          obtain ⟨cS, hcS, hlook⟩ := hf.2.2 root rfl
          exact ⟨cS, hcS, by rw [hout t2.name hnd.1]; exact hlook⟩
        · exact hin t2 hrest
      · simp only [List.map_cons, List.mem_cons, not_or] at hname
        rw [hout name hname.2, ho name hname.1]

/-- The storage trie that a successful stage holds for an address whose record at staging is
not empty and which has a pending slot. -/
theorem State.Stage_trie (env : Env) (s : State) (st : Luckyshare.Stage)
    (h : (s.Stage env).1 = .ok st) (a : Address) (rec : Account)
    (hrec : (s.cacheGetter env (.account a)).1 = .ok rec)
    (hne : ((lastPut (.account a) s.sm.Journal).getD rec).IsEmpty = false)
    (hpend : ∃ k, lastPut (.storage a k) s.sm.Journal ≠ none) :
    ∃ c0, (s.db.NewStorageTrie env (StorageTrieName (env.blake2b a.val))
        (BytesToBytes32 ((lastPut (.account a) s.sm.Journal).getD rec).StorageRoot)).content
          = some c0 ∧
      ({ name := StorageTrieName (env.blake2b a.val)
         root := BytesToBytes32 ((lastPut (.account a) s.sm.Journal).getD rec).StorageRoot
         content := some (stagedStorage s.sm.Journal a c0) } : Trie StorageContent)
        ∈ st.storageTries := by
  obtain ⟨s1, ch, codes, hw, hl⟩ := State.Stage_ok env s st h
  have hf := State.stageJournal_facts env s.sm.Journal s [] []
  rw [hw] at hf
  simp only [] at hf
  obtain ⟨⟨hnd, hnone, hsome⟩, _⟩ := State.stageJournal_changes env s s.sm.Journal s1 ch codes hw
  rw [hf.1, hf.2.1] at hl
  obtain ⟨_, hkey⟩ := stageChanges_tries env s.db ch _ st hnd hl
  cases hg : mapGet ch a with
  | none =>
    obtain ⟨k, hk⟩ := hpend
    exact absurd (((hnone a).mp hg).2 k) hk
  | some c =>
    obtain ⟨⟨rec2, hrec2, hdata⟩, hsn, hsk⟩ := hsome a c hg
    rw [hrec] at hrec2
    simp only [Except.ok.injEq] at hrec2
    subst hrec2
    have hne2 : c.storage ≠ [] := by
      intro hs
      obtain ⟨k, hk⟩ := hpend
      apply hk
      rw [← hsk k, hs]
      rfl
    obtain ⟨c0, hc0, hmem⟩ := hkey a c hg (by rw [hdata]; exact hne) hne2
    have hfold : c.storage.foldl (fun c p => Function.update c p.1 p.2) c0
        = stagedStorage s.sm.Journal a c0 := by
      funext k
      rw [foldl_update_mapGet _ _ _ hsn, hsk k]
      rfl
    rw [hfold, hdata] at hmem
    rw [hdata] at hc0
    exact ⟨c0, hc0, hmem⟩

/-! ## Reads of a fresh State at the root of a commit -/

theorem Account.fields_of_empty (x : Account) (h : x.IsEmpty = true) :
    x.Balance = 0 ∧ x.Energy = 0 ∧ x.Master = [] ∧ x.CodeHash = [] := by
  simp only [Account.IsEmpty, Bool.and_eq_true, decide_eq_true_eq, List.length_eq_zero] at h
  exact ⟨h.1.1.1, h.1.1.2, h.1.2, h.2⟩

/-- The record and the slots that a fresh State at the root of a commit loads for an address,
next to what the committed State read: the records agree in balance, energy, master and code
hash, and in the block time unless the balance is zero; and when the record was not empty at
staging, the storage trie at the committed storage root holds, for every slot with a journal
entry, the last raw value journaled. -/
theorem commit_reads (env : Env) (s : State) (st : Stage) (R : Bytes32) (db2 : DB)
    (cc2 : CodeCache) (cA0 : AccountContent) (hJ : Journaled env s)
    (hload : ∀ a, (s.cacheGetter env (.account a)).1 = .ok ((cA0 a).getD emptyAccount))
    (h0 : (s.db.NewAccountTrie env (s.trie.HashAccounts env)).content = some cA0)
    (hst : (s.Stage env).1 = .ok st) (hcommit : st.Commit env = (.ok R, db2))
    (hR : R ≠ Bytes32.zero) (hS : ∀ cS, env.storageRoot cS ≠ Bytes32.zero)
    (hnames : (st.storageTries.map (fun t => t.name)).Nodup) (a : Address) :
    ∃ x y : Account, (s.smGet env (.account a)).1 = .ok x ∧
      ((New env db2 cc2 R).smGet env (.account a)).1 = .ok y ∧
      x.Balance = y.Balance ∧ x.Energy = y.Energy ∧ x.Master = y.Master ∧
      x.CodeHash = y.CodeHash ∧ (x.Balance = 0 ∨ x.BlockTime = y.BlockTime) ∧
      (x.IsEmpty = false → ∀ k v, lastPut (.storage a k) s.sm.Journal = some v →
        loadStorage (db2.NewStorageTrie env (StorageTrieName (env.blake2b a.val))
          (BytesToBytes32 y.StorageRoot)) k = .ok v) := by
  obtain ⟨hr1, hr2⟩ := Journaled.reads env s hJ
  have hx : (s.smGet env (.account a)).1
      = .ok ((lastPut (.account a) s.sm.Journal).getD ((cA0 a).getD emptyAccount)) := by
    cases hl : lastPut (.account a) s.sm.Journal with
    | some v => exact hr1 (.account a) v hl
    | none => rw [hr2 a hl, hload a]; rfl
  obtain ⟨cA, dbA, dbB, hcont, hRoot, _, hcs, hdb2⟩ := Stage.Commit_ok env st R db2 hcommit
  obtain ⟨cA1, hcA1, _, hall⟩ := State.Stage_content env s st hst cA0 h0
  rw [hcont] at hcA1
  simp only [Option.some.injEq] at hcA1
  subst hcA1
  have hfresh : (db2.NewAccountTrie env R).content = some cA := by
    rw [hdb2, hRoot, NewAccountTrie_after_commit, if_neg (by rw [← hRoot]; exact hR)]
  have hy := New_smGet_account env db2 cc2 R a cA hfresh
  refine ⟨_, _, hx, hy, ?_⟩
  by_cases htouch : lastPut (.account a) s.sm.Journal = none ∧
      ∀ k, lastPut (.storage a k) s.sm.Journal = none
  · rw [(hall a).1 htouch.1 htouch.2, htouch.1]
    refine ⟨rfl, rfl, rfl, rfl, Or.inr rfl, fun _ k v hv => ?_⟩
    rw [htouch.2 k] at hv
    cases hv
  · have htouch2 : lastPut (.account a) s.sm.Journal ≠ none ∨
        ∃ k, lastPut (.storage a k) s.sm.Journal ≠ none := by
      by_contra hcon
      simp only [not_or, not_not, not_exists] at hcon
      exact htouch hcon
    obtain ⟨rec, hrec, hemp, hnon⟩ := (hall a).2 htouch2
    rw [hload a] at hrec
    simp only [Except.ok.injEq] at hrec
    subst hrec
    cases he : ((lastPut (.account a) s.sm.Journal).getD ((cA0 a).getD emptyAccount)).IsEmpty with
    | true =>
      rw [hemp he]
      obtain ⟨f1, f2, f3, f4⟩ := Account.fields_of_empty _ he
      exact ⟨f1, f2, f3, f4, Or.inl f1, fun hf => by cases hf⟩
    | false =>
      obtain ⟨hnp, hp⟩ := hnon he
      by_cases hpend : ∃ k, lastPut (.storage a k) s.sm.Journal ≠ none
      · obtain ⟨c0, hc0, hca⟩ := hp hpend
        obtain ⟨c1, hc1, hmem⟩ := State.Stage_trie env s st hst a _ (hload a) he hpend
        rw [hc0] at hc1
        simp only [Option.some.injEq] at hc1
        subst hc1
        obtain ⟨hlook, _⟩ := commitStorageTries_lookup env st.storageTries dbA dbB hnames hcs
        obtain ⟨cS, hcS, hdb⟩ := hlook _ hmem
        simp only [Option.some.injEq] at hcS
        subst hcS
        rw [hca]
        refine ⟨rfl, rfl, rfl, rfl, Or.inr rfl, fun _ k v hv => ?_⟩
        simp only [Option.getD_some, BytesToBytes32_val]
        have hcontent : (db2.NewStorageTrie env (StorageTrieName (env.blake2b a.val))
            (env.storageRoot (stagedStorage s.sm.Journal a c0))).content
              = some (stagedStorage s.sm.Journal a c0) := by
          apply NewStorageTrie_committed env db2 _ _ _ (hS _)
          rw [hdb2]
          exact hdb
        simp only [loadStorage, hcontent, stagedStorage, hv, Option.getD_some]
      · have hnone : ∀ k, lastPut (.storage a k) s.sm.Journal = none := by
          intro k
          by_contra hk
          exact hpend ⟨k, hk⟩
        rw [hnp hnone]
        refine ⟨rfl, rfl, rfl, rfl, Or.inr rfl, fun _ k v hv => ?_⟩
        rw [hnone k] at hv
        cases hv


/-! ## Journaled codes and code hashes -/

theorem Synced.append_account (env : Env) (j : List (Sigma Key.Val)) (a : Address)
    (acc : Account) (h : Synced env j)
    (hacc : ∀ c, lastPut (.code a) j = some c → acc.CodeHash = codeHashOf env c) :
    Synced env (j ++ [⟨.account a, acc⟩]) := by
  intro b c hc
  rw [lastPut_snoc_ne (.code b) (.account a) j acc (by simp)] at hc
  rw [lastPut_snoc_account]
  by_cases hab : a = b
  · subst hab
    rw [if_pos rfl]
    exact ⟨acc, rfl, hacc c hc⟩
  · rw [if_neg hab]
    exact h b c hc

theorem Synced.append_code_account (env : Env) (j : List (Sigma Key.Val)) (a : Address)
    (c : Bytes) (acc : Account) (h : Synced env j) (hacc : acc.CodeHash = codeHashOf env c) :
    Synced env ((j ++ [⟨.code a, c⟩]) ++ [⟨.account a, acc⟩]) := by
  intro b c2 hc
  rw [lastPut_snoc_ne (.code b) (.account a) _ acc (by simp), lastPut_snoc_code] at hc
  rw [lastPut_snoc_account]
  by_cases hab : a = b
  · subst hab
    rw [if_pos rfl] at hc ⊢
    simp only [Option.some.injEq] at hc
    subst hc
    exact ⟨acc, rfl, hacc⟩
  · rw [if_neg hab] at hc ⊢
    rw [lastPut_snoc_ne (.account b) (.code a) j c (by simp)]
    exact h b c2 hc

theorem Synced.append_storage (env : Env) (j : List (Sigma Key.Val)) (a : Address)
    (k : Bytes32) (raw : Bytes) (h : Synced env j) :
    Synced env (j ++ [⟨.storage a k, raw⟩]) := by
  intro b c hc
  rw [lastPut_snoc_ne (.code b) (.storage a k) j raw (by simp)] at hc
  rw [lastPut_snoc_ne (.account b) (.storage a k) j raw (by simp)]
  exact h b c hc

/-- A setter that reads the record and puts a changed copy back, when the read succeeds. -/
theorem State.put_after_read (env : Env) (st : State) (a : Address) (f : Account → Account)
    (cpy : Account) (h : (st.smGet env (.account a)).1 = .ok cpy) :
    (match st.getAccountCopy env a with
      | (.error e, s1) => ((some (.state e) : Option GoError), s1)
      | (.ok cpy, s1) => (none, s1.updateAccount a (f cpy))).2
        = (st.smGet env (.account a)).2.updateAccount a (f cpy) := by
  rw [State.getAccountCopy_of_read env st a cpy h]

theorem State.put_after_read_journal (env : Env) (st : State) (a : Address)
    (f : Account → Account) (cpy : Account) (h : (st.smGet env (.account a)).1 = .ok cpy) :
    (match st.getAccountCopy env a with
      | (.error e, s1) => ((some (.state e) : Option GoError), s1)
      | (.ok cpy, s1) => (none, s1.updateAccount a (f cpy))).2.sm.Journal
        = st.sm.Journal ++ [⟨.account a, f cpy⟩] := by
  rw [State.put_after_read env st a f cpy h]
  simp only [State.updateAccount, StackedMap.Journal_Put, (State.smGet_facts env st _).2.2]

/-- In a State whose stacked map agrees with its journal and whose accounts trie is readable,
the read of a record succeeds and returns the last journaled record when there is one. -/
theorem Journaled.read_account (env : Env) (s : State) (a : Address) (hJ : Journaled env s)
    (hread : ∀ b, ∃ rec : Account, (s.cacheGetter env (.account b)).1 = .ok rec) :
    ∃ cpy : Account, (s.smGet env (.account a)).1 = .ok cpy ∧
      ∀ acc : Account, lastPut (.account a) s.sm.Journal = some acc → cpy = acc := by
  obtain ⟨hr1, hr2⟩ := Journaled.reads env s hJ
  cases hl : lastPut (.account a) s.sm.Journal with
  | some v => exact ⟨v, hr1 (.account a) v hl, fun acc hacc => by cases hacc; rfl⟩
  | none =>
    obtain ⟨rec, hrec⟩ := hread a
    exact ⟨rec, by rw [hr2 a hl, hrec], fun acc hacc => by cases hacc⟩

/-- A write operation keeps the journal `Synced`, on a State whose stacked map agrees with its
journal and whose accounts trie is readable. -/
theorem Synced.write (env : Env) (s : State) (op : WriteOp) (hJ : Journaled env s)
    (hread : ∀ b, ∃ rec : Account, (s.cacheGetter env (.account b)).1 = .ok rec)
    (h : Synced env s.sm.Journal) : Synced env (s.applyOp env op).sm.Journal := by
  have hcopy : ∀ (a : Address) (f : Account → Account),
      (∀ x : Account, (f x).CodeHash = x.CodeHash) →
      Synced env (match s.getAccountCopy env a with
        | (.error e, s1) => ((some (.state e) : Option GoError), s1)
        | (.ok cpy, s1) => (none, s1.updateAccount a (f cpy))).2.sm.Journal := by
    intro a f hf
    obtain ⟨cpy, hcpy, hlast⟩ := Journaled.read_account env s a hJ hread
    rw [State.put_after_read_journal env s a f cpy hcpy]
    apply Synced.append_account env _ a _ h
    intro c hc
    obtain ⟨acc, hacc, hh⟩ := h a c hc
    rw [hf, hlast acc hacc]
    exact hh
  cases op with
  | setBalance a v => exact hcopy a _ (fun _ => rfl)
  | setEnergy a e t => exact hcopy a _ (fun _ => rfl)
  | setMaster a m =>
    simp only [State.applyOp, State.SetMaster]
    by_cases hm : m.IsZero = true
    · simp only [hm, if_true]
      exact hcopy a _ (fun _ => rfl)
    · simp only [hm, if_false]
      exact hcopy a _ (fun _ => rfl)
  | setCode a c =>
    simp only [State.applyOp, State.SetCode]
    have hgen : ∀ (s0 : State) (c0 : Bytes), s0.sm = s.sm.Put (.code a) c0 →
        (∀ b, (s0.cacheGetter env (.account b)).1 = (s.cacheGetter env (.account b)).1) →
        ∀ hash : Bytes, hash = codeHashOf env c0 →
        Synced env (match s0.getAccountCopy env a with
          | (.error e, s1) => ((some (.state e) : Option GoError), s1)
          | (.ok cpy, s1) => (none, s1.updateAccount a { cpy with CodeHash := hash })).2.sm.Journal := by
      intro s0 c0 hsm hl hash hhash
      have hJ0 : Journaled env s0 := by
        apply Journaled.of_eq env { s with sm := s.sm.Put (.code a) c0 } s0
          (Journaled.after_put env s (.code a) c0 hJ)
        · rw [hsm]
        · intro key; rw [hsm]
        · intro b
          exact (hl b).trans (State.loader_with_sm env s _ _).symm
      have hread0 : ∀ b, ∃ rec : Account, (s0.cacheGetter env (.account b)).1 = .ok rec := by
        intro b
        rw [hl b]
        exact hread b
      obtain ⟨cpy, hcpy, _⟩ := Journaled.read_account env s0 a hJ0 hread0
      rw [State.put_after_read_journal env s0 a (fun cpy => { cpy with CodeHash := hash }) cpy
        hcpy, hsm, StackedMap.Journal_Put]
      exact Synced.append_code_account env _ a c0 _ h hhash
    by_cases hc : c.length > 0
    · simp only [if_pos hc]
      apply hgen _ c rfl _ _ (by simp [codeHashOf, hc])
      intro b
      exact (State.loader_with_codeCache env { s with sm := s.sm.Put (.code a) c } _ b).trans
        (State.loader_with_sm env s _ _)
    · simp only [if_neg hc]
      apply hgen _ [] rfl _ _ (by simp [codeHashOf])
      intro b
      exact State.loader_with_sm env s _ _
  | setStorage a k v =>
    simp only [State.applyOp, State.SetStorage_eq, State.SetRawStorage, StackedMap.Journal_Put]
    exact Synced.append_storage env _ a k _ h
  | setRawStorage a k raw =>
    simp only [State.applyOp, State.SetRawStorage, StackedMap.Journal_Put]
    exact Synced.append_storage env _ a k raw h
  | delete a =>
    simp only [State.applyOp, State.Delete_sm, StackedMap.Journal_Put]
    exact Synced.append_code_account env _ a [] emptyAccount h (by simp [codeHashOf, emptyAccount])

theorem StackedMap.dropTop_zero (sm : StackedMap) : sm.dropTop 0 = sm := rfl

theorem StackedMap.dropTop_nil (sm : StackedMap) (n : Nat) (h : sm.stack = []) :
    sm.dropTop n = sm := by
  cases sm with
  | mk base stack =>
    simp only [] at h
    subst h
    simp [StackedMap.dropTop]

theorem StackedMap.Journal_dropTop_succ (sm : StackedMap) (m : Nat) :
    (sm.dropTop (m + 1)).Journal =
      sm.base.journal ++ (sm.stack.tail.drop m).foldl (fun acc f => f.journal ++ acc) [] := by
  unfold StackedMap.dropTop StackedMap.Journal
  cases sm.stack with
  | nil => simp
  | cons top rest => simp

theorem State.smGet_base_journal (env : Env) (s : State) (key : Key) :
    (s.smGet env key).2.sm.base.journal = s.sm.base.journal := by
  unfold State.smGet
  cases s.sm.find key with
  | some v => rfl
  | none =>
    simp only []
    have h := (State.cacheGetter_sm env s key).1
    rcases hc : s.cacheGetter env key with ⟨r, s1⟩
    rw [hc] at h
    simp only [] at h
    cases r with
    | error e => simp only []; rw [h]
    | ok v =>
      show (s1.sm.cacheLoaded key v).base.journal = s.sm.base.journal
      rw [h]
      rfl

/-- With a pushed frame on the stacked map, a write operation leaves the journal of the bottom
frame alone. -/
theorem State.applyOp_base_journal (env : Env) (s : State) (op : WriteOp)
    (h : s.sm.stack ≠ []) : (s.applyOp env op).sm.base.journal = s.sm.base.journal := by
  have := State.applyOp_preserves env
    (fun st => st.sm.stack.length = s.sm.stack.length ∧ st.sm.base.journal = s.sm.base.journal)
    (fun st a hq => ⟨by rw [State.smGet_stack]; exact hq.1,
      (State.smGet_base_journal env st _).trans hq.2⟩)
    (fun st k v hq => by
      have hl := (StackedMap.Put_stack st.sm k v).1
      refine ⟨hl.trans hq.1, ?_⟩
      show (st.sm.Put k v).base.journal = s.sm.base.journal
      unfold StackedMap.Put
      cases hs : st.sm.stack with
      | nil =>
        have := hq.1
        rw [hs] at this
        exact absurd (List.length_eq_zero.mp this.symm) h
      | cons top rest => exact hq.2)
    (fun st hh c hq => hq) s op ⟨rfl, rfl⟩
  exact this.2

theorem WellJournaled.zero (env : Env) (s : State) (h : WellJournaled env s) :
    Journaled env s := h 0

theorem WellSynced.write_all (env : Env) (s : State) (op : WriteOp) (hJ : WellJournaled env s)
    (hread : ∀ b, ∃ rec : Account, (s.cacheGetter env (.account b)).1 = .ok rec)
    (h : WellSynced env s) : WellSynced env (s.applyOp env op) := by
  have hflat := Synced.write env s op (WellJournaled.zero env s hJ) hread (h 0)
  have hstack := State.applyOp_stack env s op
  intro n
  cases hs : s.sm.stack with
  | nil =>
    have hs2 : (s.applyOp env op).sm.stack = [] := by
      apply List.length_eq_zero.mp
      rw [hstack.1, hs]
      rfl
    rw [StackedMap.dropTop_nil _ n hs2]
    exact hflat
  | cons top rest =>
    cases n with
    | zero => exact hflat
    | succ m =>
      rw [StackedMap.Journal_dropTop_succ, hstack.2,
        State.applyOp_base_journal env s op (by rw [hs]; simp),
        ← StackedMap.Journal_dropTop_succ]
      exact h (m + 1)

/-- The invariants of the States reached from a State with a readable accounts trie by writes,
checkpoints and reverts. -/
theorem State.run_invariants (env : Env) (steps : List Step) :
    ∀ s : State, WellJournaled env s → WellSynced env s →
    (∀ b, ∃ rec : Account, (s.cacheGetter env (.account b)).1 = .ok rec) →
    WellJournaled env (s.run env steps) ∧ WellSynced env (s.run env steps) := by
  induction steps with
  | nil => intro s h1 h2 _; exact ⟨h1, h2⟩
  | cons st rest ih =>
    intro s h1 h2 hread
    simp only [State.run, List.foldl_cons]
    have hbase := (State.run_base env [st] s).2.2
    simp only [State.run, List.foldl_cons, List.foldl_nil] at hbase
    have hj : WellJournaled env (s.step env st) := by
      have := WellJournaled.run env [st] s h1
      simpa [State.run] using this
    apply ih _ hj
    · cases st with
      | write op => exact WellSynced.write_all env s op h1 hread h2
      | checkpoint =>
        intro n
        cases n with
        | zero => exact (StackedMap.Push_Journal s.sm) ▸ h2 0
        | succ m => exact h2 m
      | revert revision =>
        intro n
        have := h2 (s.sm.Depth - max revision.toNat 1 + n)
        simp only [StackedMap.dropTop, State.step, State.RevertTo, StackedMap.PopTo,
          List.drop_drop] at this ⊢
        exact this
    · intro b
      rw [hbase b]
      exact hread b

theorem WellSynced.fresh_state (env : Env) (db : DB) (cc : CodeCache) (root : Bytes32) :
    WellSynced env (New env db cc root) := by
  intro n a c hc
  simp [New, StackedMap.New, StackedMap.dropTop, StackedMap.Journal, Frame.empty, lastPut] at hc


/-! ## The codes of a stage and their commit -/

theorem lastPut_mem (key : Key) (j : List (Sigma Key.Val)) (v : key.Val)
    (h : lastPut key j = some v) : (⟨key, v⟩ : Sigma Key.Val) ∈ j := by
  induction j with
  | nil => simp [lastPut] at h
  | cons e rest ih =>
    obtain ⟨k, w⟩ := e
    simp only [lastPut] at h
    cases hl : lastPut key rest with
    | some x =>
      rw [hl] at h
      simp only [Option.some.injEq] at h
      subst h
      exact List.mem_cons_of_mem _ (ih hl)
    | none =>
      rw [hl] at h
      simp only [] at h
      by_cases hk : k = key
      · subst hk
        simp only [dite_true, Option.some.injEq] at h
        subst h
        exact List.mem_cons_self _ _
      · simp [hk] at h

theorem mem_mapSet {K V : Type} [DecidableEq K] (m : List (K × V)) (k : K) (v : V) :
    (k, v) ∈ mapSet m k v ∧
    (∀ p ∈ mapSet m k v, p ∈ m ∨ p = (k, v)) ∧
    (∀ p ∈ m, ∃ q ∈ mapSet m k v, q.1 = p.1) := by
  induction m with
  | nil => simp [mapSet]
  | cons x rest ih =>
    obtain ⟨k1, v1⟩ := x
    obtain ⟨i1, i2, i3⟩ := ih
    by_cases hk : k1 = k
    · subst hk
      simp only [mapSet, if_true]
      refine ⟨List.mem_cons_self _ _, ?_, ?_⟩
      · intro p hp
        rcases List.mem_cons.mp hp with h | h
        · exact Or.inr h
        · exact Or.inl (List.mem_cons_of_mem _ h)
      · intro p hp
        rcases List.mem_cons.mp hp with h | h
        · exact ⟨(k1, v), List.mem_cons_self _ _, by rw [h]⟩
        · exact ⟨p, List.mem_cons_of_mem _ h, rfl⟩
    · simp only [mapSet, if_neg hk]
      refine ⟨List.mem_cons_of_mem _ i1, ?_, ?_⟩
      · intro p hp
        rcases List.mem_cons.mp hp with h | h
        · exact Or.inl (h ▸ List.mem_cons_self _ _)
        · rcases i2 p h with h2 | h2
          · exact Or.inl (List.mem_cons_of_mem _ h2)
          · exact Or.inr h2
      · intro p hp
        rcases List.mem_cons.mp hp with h | h
        · exact ⟨(k1, v1), List.mem_cons_self _ _, by rw [h]⟩
        · obtain ⟨q, hq, hq1⟩ := i3 p h
          exact ⟨q, List.mem_cons_of_mem _ hq, hq1⟩

/-- The map `codes` that the journal traversal of `Stage` builds: every entry is a journaled
non-empty code under its hash, and every journaled non-empty code has an entry under its
hash. -/
theorem State.stageJournal_codes (env : Env) (j : List (Sigma Key.Val)) :
    ∀ (s : State) (ch : List (Address × changed)) (codes : List (Bytes32 × Bytes)),
    (∀ p ∈ (State.stageJournal env j s ch codes).2.2.2,
      p ∈ codes ∨ ∃ b, (⟨.code b, p.2⟩ : Sigma Key.Val) ∈ j ∧ env.keccak256 p.2 = p.1) ∧
    ((State.stageJournal env j s ch codes).1 = none →
      (∀ p ∈ codes, ∃ q ∈ (State.stageJournal env j s ch codes).2.2.2, q.1 = p.1) ∧
      ∀ (b : Address) (c : Bytes), (⟨.code b, c⟩ : Sigma Key.Val) ∈ j → c.length > 0 →
        ∃ q ∈ (State.stageJournal env j s ch codes).2.2.2, q.1 = env.keccak256 c) := by
  induction j with
  | nil =>
    intro s ch codes
    simp only [State.stageJournal]
    exact ⟨fun p hp => Or.inl hp, fun _ => ⟨fun p hp => ⟨p, hp, rfl⟩, fun b c hm => by simp at hm⟩⟩
  | cons e rest ih =>
    intro s ch codes
    obtain ⟨key, v⟩ := e
    cases key with
    | account b =>
      simp only [State.stageJournal]
      rcases s.getChanged ch b with ⟨r, ch1, s1⟩
      cases r with
      | error err => exact ⟨fun p hp => Or.inl hp, fun h => by simp at h⟩
      | ok c =>
        simp only []
        obtain ⟨i1, i2⟩ := ih s1 (mapSet ch1 b { c with data := v }) codes
        refine ⟨fun p hp => ?_, fun hn => ⟨(i2 hn).1, fun b2 c2 hm hl => ?_⟩⟩
        · rcases i1 p hp with h | ⟨b2, h, hk⟩
          · exact Or.inl h
          · exact Or.inr ⟨b2, List.mem_cons_of_mem _ h, hk⟩
        · rcases List.mem_cons.mp hm with h | h
          · cases h
          · exact (i2 hn).2 b2 c2 h hl
    | storage b k =>
      simp only [State.stageJournal]
      rcases s.getChanged ch b with ⟨r, ch1, s1⟩
      cases r with
      | error err => exact ⟨fun p hp => Or.inl hp, fun h => by simp at h⟩
      | ok c =>
        simp only []
        obtain ⟨i1, i2⟩ := ih s1 (mapSet ch1 b { c with storage := mapSet c.storage k v }) codes
        refine ⟨fun p hp => ?_, fun hn => ⟨(i2 hn).1, fun b2 c2 hm hl => ?_⟩⟩
        · rcases i1 p hp with h | ⟨b2, h, hk⟩
          · exact Or.inl h
          · exact Or.inr ⟨b2, List.mem_cons_of_mem _ h, hk⟩
        · rcases List.mem_cons.mp hm with h | h
          · cases h
          · exact (i2 hn).2 b2 c2 h hl
    | code b =>
      simp only [State.stageJournal]
      by_cases hv : List.length v > 0
      · simp only [if_pos hv]
        obtain ⟨i1, i2⟩ := ih s ch (mapSet codes (env.keccak256 v) v)
        obtain ⟨m1, m2, m3⟩ := mem_mapSet codes (env.keccak256 v) v
        refine ⟨fun p hp => ?_, fun hn => ⟨fun p hp => ?_, fun b2 c2 hm hl => ?_⟩⟩
        · rcases i1 p hp with h | ⟨b2, h, hk⟩
          · rcases m2 p h with h2 | h2
            · exact Or.inl h2
            · exact Or.inr ⟨b, by rw [h2]; exact List.mem_cons_self _ _, by rw [h2]⟩
          · exact Or.inr ⟨b2, List.mem_cons_of_mem _ h, hk⟩
        · obtain ⟨q, hq, hq1⟩ := m3 p hp
          obtain ⟨q2, hq2, hq3⟩ := (i2 hn).1 q hq
          exact ⟨q2, hq2, hq3.trans hq1⟩
        · rcases List.mem_cons.mp hm with h | h
          · have hbc : b2 = b ∧ HEq c2 v := by
              simpa using h
            obtain ⟨h1, h2⟩ := hbc
            have h3 : c2 = v := eq_of_heq h2
            subst h3
            obtain ⟨q2, hq2, hq3⟩ := (i2 hn).1 _ m1
            exact ⟨q2, hq2, hq3⟩
          · exact (i2 hn).2 b2 c2 h hl
      · simp only [if_neg hv]
        obtain ⟨i1, i2⟩ := ih s ch codes
        refine ⟨fun p hp => ?_, fun hn => ⟨(i2 hn).1, fun b2 c2 hm hl => ?_⟩⟩
        · rcases i1 p hp with h | ⟨b2, h, hk⟩
          · exact Or.inl h
          · exact Or.inr ⟨b2, List.mem_cons_of_mem _ h, hk⟩
        · rcases List.mem_cons.mp hm with h | h
          · have hbc : b2 = b ∧ HEq c2 v := by
              simpa using h
            have h3 : c2 = v := eq_of_heq hbc.2
            subst h3
            exact absurd hl hv
          · exact (i2 hn).2 b2 c2 h hl

/-- After a successful batch, the code store holds under the hash of every entry of `codes`
the code of an entry with that hash. -/
theorem putCodes_lookup (db : DB) (codes : List (Bytes32 × Bytes)) :
    ∀ (store store1 : Bytes → Option Bytes), putCodes db codes store = .ok store1 →
    (∀ k, (∀ p ∈ codes, p.1.val ≠ k) → store1 k = store k) ∧
    (∀ p ∈ codes, ∃ q ∈ codes, q.1.val = p.1.val ∧ store1 p.1.val = some q.2) := by
  induction codes with
  | nil =>
    intro store store1 h
    simp only [putCodes, Except.ok.injEq] at h
    subst h
    exact ⟨fun _ _ => rfl, fun p hp => by simp at hp⟩
  | cons x rest ih =>
    intro store store1 h
    obtain ⟨hash, code⟩ := x
    simp only [putCodes] at h
    cases hp : db.putFault hash.val with
    | some e => rw [hp] at h; simp at h
    | none =>
      rw [hp] at h
      simp only [] at h
      obtain ⟨i1, i2⟩ := ih _ store1 h
      refine ⟨fun k hk => ?_, fun p hp2 => ?_⟩
      · rw [i1 k (fun p hp3 => hk p (List.mem_cons_of_mem _ hp3))]
        exact Function.update_noteq (Ne.symm (hk (hash, code) (List.mem_cons_self _ _))) _ _
      · by_cases hex : ∃ q ∈ rest, q.1.val = p.1.val
        · obtain ⟨q, hq, hqv⟩ := hex
          obtain ⟨q2, hq2, hq2v, hst⟩ := i2 q hq
          exact ⟨q2, List.mem_cons_of_mem _ hq2, hq2v.trans hqv, by rw [← hqv]; exact hst⟩
        · have hno : ∀ q ∈ rest, q.1.val ≠ p.1.val := by
            intro q hq hqv
            exact hex ⟨q, hq, hqv⟩
          rcases List.mem_cons.mp hp2 with heq | hrest
          · subst heq
            refine ⟨(hash, code), List.mem_cons_self _ _, rfl, ?_⟩
            rw [i1 hash.val hno]
            exact Function.update_same _ _ _
          · exact absurd rfl (hno p hrest)

theorem BatchCodes_lookup (db db1 : DB) (codes : List (Bytes32 × Bytes))
    (h : db.BatchCodes codes = .ok db1) :
    ∀ p ∈ codes, ∃ q ∈ codes, q.1.val = p.1.val ∧ db1.codeStore p.1.val = some q.2 := by
  unfold DB.BatchCodes at h
  cases hp : putCodes db codes db.codeStore with
  | error e => rw [hp] at h; simp at h
  | ok store =>
    rw [hp] at h
    simp only [] at h
    cases hf : db.flushFault with
    | some e => rw [hf] at h; simp at h
    | none =>
      rw [hf] at h
      simp only [Except.ok.injEq] at h
      rw [← h]
      exact (putCodes_lookup db codes db.codeStore store hp).2

/-- The code store after a successful `Stage` and `Commit` holds every journaled non-empty code
under its hash, when no two journaled codes have the same hash. -/
theorem commit_code_store (env : Env) (s : State) (st : Stage) (R : Bytes32) (db2 : DB)
    (hst : (s.Stage env).1 = .ok st) (hcommit : st.Commit env = (.ok R, db2))
    (hcoll : ∀ (b1 b2 : Address) (c1 c2 : Bytes),
      (⟨.code b1, c1⟩ : Sigma Key.Val) ∈ s.sm.Journal →
      (⟨.code b2, c2⟩ : Sigma Key.Val) ∈ s.sm.Journal →
      env.keccak256 c1 = env.keccak256 c2 → c1 = c2)
    (b : Address) (c : Bytes) (hmem : (⟨.code b, c⟩ : Sigma Key.Val) ∈ s.sm.Journal)
    (hlen : c.length > 0) : db2.codeStore (env.keccak256 c).val = some c := by
  obtain ⟨s1, ch, codes, hw, hl⟩ := State.Stage_ok env s st hst
  obtain ⟨i1, i2⟩ := State.stageJournal_codes env s.sm.Journal s [] []
  rw [hw] at i1 i2
  simp only [] at i1 i2
  obtain ⟨cA, dbA, dbB, _, _, hbatch, hcs, hdb2⟩ := Stage.Commit_ok env st R db2 hcommit
  have hf := State.stageJournal_facts env s.sm.Journal s [] []
  rw [hw] at hf
  simp only [] at hf
  have hcodes : st.codes = codes :=
    (stageChanges_content env s1.db ch _ st (hf.2.2.2.2 List.nodup_nil) hl).2.1
  rw [hcodes] at hbatch
  obtain ⟨q, hq, hq1⟩ := (i2 trivial).2 b c hmem hlen
  obtain ⟨q2, hq2, hq2v, hstore⟩ := BatchCodes_lookup st.db dbA codes hbatch q hq
  have hq2j : ∃ b2, (⟨.code b2, q2.2⟩ : Sigma Key.Val) ∈ s.sm.Journal ∧
      env.keccak256 q2.2 = q2.1 := by
    rcases i1 q2 hq2 with h | h
    · simp at h
    · exact h
  obtain ⟨b2, hb2, hk2⟩ := hq2j
  have hsame : env.keccak256 q2.2 = env.keccak256 c := by
    rw [hk2]
    apply Subtype.ext
    rw [hq2v, hq1]
  have hc2 : q2.2 = c := hcoll b2 b q2.2 c hb2 hmem hsame
  have hcsf := (commitStorageTries_facts env st.storageTries dbA).1
  rw [hcs] at hcsf
  simp only [] at hcsf
  rw [hdb2]
  show dbB.codeStore (env.keccak256 c).val = some c
  rw [hcsf, ← hq1, hstore, hc2]


/-! ## Reads after a commit, for States reached by writes, checkpoints and reverts -/

theorem New_loader (env : Env) (db : DB) (cc : CodeCache) (root : Bytes32)
    (cA0 : AccountContent) (h : (db.NewAccountTrie env root).content = some cA0) (b : Address) :
    ((New env db cc root).cacheGetter env (.account b)).1
      = .ok ((cA0 b).getD emptyAccount) := by
  simp only [State.cacheGetter, State.getCachedObject, New, loadAccount, h]
  cases cA0 b <;> rfl

theorem commit_fresh_trie (env : Env) (st : Stage) (R : Bytes32) (db2 : DB)
    (hcommit : st.Commit env = (.ok R, db2)) (hR : R ≠ Bytes32.zero) :
    ∃ cA, (db2.NewAccountTrie env R).content = some cA := by
  obtain ⟨cA, dbA, dbB, _, hRoot, _, _, hdb2⟩ := Stage.Commit_ok env st R db2 hcommit
  refine ⟨cA, ?_⟩
  rw [hdb2, hRoot, NewAccountTrie_after_commit, if_neg (by rw [← hRoot]; exact hR)]

/-- The getters of the record agree on two States that read records with the same balance,
energy, master and code hash, and the same block time unless the balance is zero. -/
theorem getters_of_fields (env : Env) (s1 s2 : State) (a : Address) (x y : Account)
    (h1 : (s1.smGet env (.account a)).1 = .ok x) (h2 : (s2.smGet env (.account a)).1 = .ok y)
    (hb : x.Balance = y.Balance) (he : x.Energy = y.Energy) (hm : x.Master = y.Master)
    (hc : x.CodeHash = y.CodeHash) (ht : x.Balance = 0 ∨ x.BlockTime = y.BlockTime) :
    (s2.GetBalance env a).1 = (s1.GetBalance env a).1 ∧
    (∀ t, (s2.GetEnergy env a t).1 = (s1.GetEnergy env a t).1) ∧
    (s2.GetMaster env a).1 = (s1.GetMaster env a).1 ∧
    (s2.GetCodeHash env a).1 = (s1.GetCodeHash env a).1 ∧
    (s2.Exists env a).1 = (s1.Exists env a).1 := by
  refine ⟨?_, fun t => ?_, ?_, ?_, ?_⟩
  · rw [State.GetBalance_fst, State.GetBalance_fst, h1, h2]
    simp only [hb]
  · rw [State.GetEnergy_fst, State.GetEnergy_fst, h1, h2]
    simp only [Account.CalcEnergy, Except.ok.injEq]
    rcases ht with h0 | h0
    · rw [← he, ← hb, h0]
      simp
    · rw [← he, ← hb, h0]
  · rw [State.GetMaster_fst, State.GetMaster_fst, h1, h2]
    simp only [hm]
  · rw [State.GetCodeHash_fst, State.GetCodeHash_fst, h1, h2]
    simp only [hc]
  · rw [State.Exists_fst, State.Exists_fst, h1, h2]
    simp only [Account.IsEmpty, hb, he, hm, hc]

theorem New_storage_read (env : Env) (db : DB) (cc : CodeCache) (R : Bytes32) (a : Address)
    (k : Bytes32) (cA : AccountContent) (h : (db.NewAccountTrie env R).content = some cA) :
    ((New env db cc R).smGet env (.storage a k)).1 =
      loadStorage (db.NewStorageTrie env (StorageTrieName (env.blake2b a.val))
        (BytesToBytes32 ((cA a).getD emptyAccount).StorageRoot)) k := by
  rw [New_smGet_storage env db cc R a k cA h, cachedObject.GetStorage_slotOf]
  rfl

theorem New_code_read (env : Env) (db : DB) (cc : CodeCache) (R : Bytes32) (a : Address)
    (cA : AccountContent) (h : (db.NewAccountTrie env R).content = some cA) :
    ((New env db cc R).smGet env (.code a)).1 =
      if ((cA a).getD emptyAccount).CodeHash.length > 0 then
        match cc ((cA a).getD emptyAccount).CodeHash with
        | some code => .ok code
        | none =>
          match db.codeStore ((cA a).getD emptyAccount).CodeHash with
          | none => .error .notFound
          | some code => .ok code
      else .ok [] := by
  rw [New_smGet_code env db cc R a cA h]
  simp only [cachedObject.GetCode, newCachedObject, List.length_nil, gt_iff_lt,
    lt_self_iff_false, if_false]
  split
  · cases cc ((cA a).getD emptyAccount).CodeHash with
    | some code => rfl
    | none =>
      simp only []
      cases db.codeStore ((cA a).getD emptyAccount).CodeHash <;> rfl
  · rfl

/-- C11. Reads after a commit: for a State opened at a root whose content the database holds,
also under the hash of that content, and any sequence of write operations, checkpoints and
reverts, if `Stage` and `Commit` succeed with root `R`, then on a fresh State at `R`, for every
address, `GetBalance`, `GetEnergy` at every time, `GetMaster`, `GetCodeHash` and `Exists`
return what the original State returned before staging; `GetCode` does so for every address
with a journaled code; and `GetRawStorage` and `GetStorage` do so for every journaled slot of
an address that exists at staging.  The root hashes are taken not to be the zero word, the
storage tries of the stage to have distinct names, no two journaled codes to have the same
hash, and the code cache of the fresh State to hold no other code under the hash of a
journaled code. -/
theorem C11_reads_after_commit (env : Env) (db : DB) (cc : CodeCache) (root : Bytes32)
    (steps : List Step) (st : Stage) (R : Bytes32) (db2 : DB) (cc2 : CodeCache)
    (cA0 : AccountContent)
    (hroot : (db.NewAccountTrie env root).content = some cA0)
    (hhash : (db.NewAccountTrie env (env.accountsRoot cA0)).content = some cA0)
    (hst : (((New env db cc root).run env steps).Stage env).1 = .ok st)
    (hcommit : st.Commit env = (.ok R, db2))
    (hR : R ≠ Bytes32.zero) (hS : ∀ cS, env.storageRoot cS ≠ Bytes32.zero)
    (hnames : (st.storageTries.map (fun t => t.name)).Nodup)
    (hcoll : ∀ (b1 b2 : Address) (c1 c2 : Bytes),
      (⟨.code b1, c1⟩ : Sigma Key.Val) ∈ ((New env db cc root).run env steps).sm.Journal →
      (⟨.code b2, c2⟩ : Sigma Key.Val) ∈ ((New env db cc root).run env steps).sm.Journal →
      env.keccak256 c1 = env.keccak256 c2 → c1 = c2)
    (hcc2 : ∀ (b : Address) (c c2 : Bytes),
      (⟨.code b, c⟩ : Sigma Key.Val) ∈ ((New env db cc root).run env steps).sm.Journal →
      cc2 (env.keccak256 c).val = some c2 → c2 = c)
    (a : Address) :
    ((New env db2 cc2 R).GetBalance env a).1
      = (((New env db cc root).run env steps).GetBalance env a).1 ∧
    (∀ t, ((New env db2 cc2 R).GetEnergy env a t).1
      = (((New env db cc root).run env steps).GetEnergy env a t).1) ∧
    ((New env db2 cc2 R).GetMaster env a).1
      = (((New env db cc root).run env steps).GetMaster env a).1 ∧
    ((New env db2 cc2 R).GetCodeHash env a).1
      = (((New env db cc root).run env steps).GetCodeHash env a).1 ∧
    ((New env db2 cc2 R).Exists env a).1
      = (((New env db cc root).run env steps).Exists env a).1 ∧
    (lastPut (.code a) ((New env db cc root).run env steps).sm.Journal ≠ none →
      ((New env db2 cc2 R).GetCode env a).1
        = (((New env db cc root).run env steps).GetCode env a).1) ∧
    (∀ k, lastPut (.storage a k) ((New env db cc root).run env steps).sm.Journal ≠ none →
      (((New env db cc root).run env steps).Exists env a).1 = .ok true →
      ((New env db2 cc2 R).GetRawStorage env a k).1
        = (((New env db cc root).run env steps).GetRawStorage env a k).1 ∧
      ((New env db2 cc2 R).GetStorage env a k).1
        = (((New env db cc root).run env steps).GetStorage env a k).1) := by
  have hl0 := New_loader env db cc root cA0 hroot
  obtain ⟨hWJ, hWS⟩ := State.run_invariants env steps (New env db cc root)
    (WellJournaled.fresh env db cc root) (WellSynced.fresh_state env db cc root)
    (fun b => ⟨_, hl0 b⟩)
  obtain ⟨hdb, htrie, hload⟩ := State.run_base env steps (New env db cc root)
  have hJ := WellJournaled.zero env _ hWJ
  have hsync : Synced env ((New env db cc root).run env steps).sm.Journal := hWS 0
  have h0 : (((New env db cc root).run env steps).db.NewAccountTrie env
      (((New env db cc root).run env steps).trie.HashAccounts env)).content = some cA0 := by
    rw [hdb, htrie]
    simp only [New, Trie.HashAccounts, hroot]
    exact hhash
  obtain ⟨x, y, hx, hy, fb, fe, fm, fc, ft, fsto⟩ := commit_reads env _ st R db2 cc2 cA0 hJ
    (fun b => (hload b).trans (hl0 b)) h0 hst hcommit hR hS hnames a
  obtain ⟨g1, g2, g3, g4, g5⟩ := getters_of_fields env _ (New env db2 cc2 R) a x y hx hy
    fb fe fm fc ft
  obtain ⟨cA, hfresh⟩ := commit_fresh_trie env st R db2 hcommit hR
  have hyA : (cA a).getD emptyAccount = y := by
    have := New_smGet_account env db2 cc2 R a cA hfresh
    rw [hy] at this
    simp only [Except.ok.injEq] at this
    exact this.symm
  obtain ⟨hr1, _⟩ := Journaled.reads env _ hJ
  refine ⟨g1, g2, g3, g4, g5, fun hcode => ?_, fun k hk hex => ?_⟩
  · cases hlc : lastPut (.code a) ((New env db cc root).run env steps).sm.Journal with
    | none => exact absurd hlc hcode
    | some c =>
      obtain ⟨acc, hacc, hh⟩ := hsync a c hlc
      have hxa : x = acc := by
        have := hr1 (.account a) acc hacc
        rw [hx] at this
        simp only [Except.ok.injEq] at this
        exact this
      have hych : y.CodeHash = codeHashOf env c := by rw [← fc, hxa, hh]
      have hmem := lastPut_mem _ _ _ hlc
      rw [State.GetCode_fst, State.GetCode_fst, hr1 (.code a) c hlc,
        New_code_read env db2 cc2 R a cA hfresh, hyA, hych]
      unfold codeHashOf
      by_cases hlen : c.length > 0
      · have h32 : (env.keccak256 c).val.length > 0 := by
          rw [(env.keccak256 c).property]
          decide
        simp only [if_pos hlen, if_pos h32]
        cases hcache : cc2 (env.keccak256 c).val with
        | some c2 => rw [hcc2 a c c2 hmem hcache]
        | none =>
          simp only []
          rw [commit_code_store env _ st R db2 hst hcommit hcoll a c hmem hlen]
      · have hnil : c = [] := List.length_eq_zero.mp (by omega)
        simp only [if_neg hlen, List.length_nil, gt_iff_lt, lt_self_iff_false, if_false, hnil]
  · cases hlk : lastPut (.storage a k) ((New env db cc root).run env steps).sm.Journal with
    | none => exact absurd hlk hk
    | some v =>
      have hne : x.IsEmpty = false := by
        rw [State.Exists_fst, hx] at hex
        simp only [Except.ok.injEq, Bool.not_eq_true'] at hex
        exact hex
      have hraw : ((New env db2 cc2 R).GetRawStorage env a k).1
          = (((New env db cc root).run env steps).GetRawStorage env a k).1 := by
        rw [State.GetRawStorage_fst, State.GetRawStorage_fst, hr1 (.storage a k) v hlk,
          New_storage_read env db2 cc2 R a k cA hfresh, hyA, fsto hne k v hlk]
      refine ⟨hraw, ?_⟩
      rw [State.GetStorage_fst, State.GetStorage_fst, hraw]


/-! ## Delete and the storage reads -/

/-- C28. `Delete` does not touch the storage reads of the same State: `Delete(a)` journals only
the code entry and the account record of `a`, and `GetRawStorage` and `GetStorage` return,
at every address and key, after `Delete(a)` exactly what they returned before it, although
`Exists(a)` is then false. -/
theorem C28_delete_keeps_storage_reads (env : Env) (s : State) (a : Address) :
    (s.Delete a).sm.Journal
      = s.sm.Journal ++ [⟨.code a, ([] : Bytes)⟩, ⟨.account a, emptyAccount⟩] ∧
    (∀ b k, ((s.Delete a).GetRawStorage env b k).1 = (s.GetRawStorage env b k).1) ∧
    (∀ b k, ((s.Delete a).GetStorage env b k).1 = (s.GetStorage env b k).1) ∧
    ((s.Delete a).Exists env a).1 = .ok false := by
  have hread : ∀ b k, ((s.Delete a).smGet env (.storage b k)).1
      = (s.smGet env (.storage b k)).1 := by
    intro b k
    rw [State.Delete_sm]
    apply State.smGet_with_sm
    rw [StackedMap.find_Put_ne _ _ _ _ (by simp)]
    exact StackedMap.find_Put_ne s.sm (.code a) ([] : Bytes) _ (by simp)
  have hraw : ∀ b k, ((s.Delete a).GetRawStorage env b k).1 = (s.GetRawStorage env b k).1 := by
    intro b k
    rw [State.GetRawStorage_fst, State.GetRawStorage_fst, hread]
  refine ⟨?_, hraw, fun b k => ?_, ?_⟩
  · rw [State.Delete_sm]
    simp only [StackedMap.Journal_Put, List.append_assoc, List.singleton_append]
  · rw [State.GetStorage_fst, State.GetStorage_fst, hraw]
  · have hacc : (s.Delete a).smGet env (.account a) = (.ok emptyAccount, s.Delete a) :=
      State.smGet_of_find env _ (.account a) emptyAccount (StackedMap.find_Put_same _ _ _)
    rw [State.Exists_fst, hacc]
    rfl

/-! ## Energy growth is monotone -/

theorem Account.CalcEnergy_mono (rate : Int) (acc : Account) (t1 t2 : Nat)
    (hrate : 0 ≤ rate) (hb : 0 ≤ acc.Balance) (ht : t1 ≤ t2) :
    acc.CalcEnergy rate t1 ≤ acc.CalcEnergy rate t2 := by
  unfold Account.CalcEnergy
  have hsub : ((t1 - acc.BlockTime : Nat) : Int) ≤ ((t2 - acc.BlockTime : Nat) : Int) := by
    exact_mod_cast Nat.sub_le_sub_right ht _
  have hmul : rate * acc.Balance * ((t1 - acc.BlockTime : Nat) : Int)
      ≤ rate * acc.Balance * ((t2 - acc.BlockTime : Nat) : Int) :=
    mul_le_mul_of_nonneg_left hsub (mul_nonneg hrate hb)
  have hdiv := Int.ediv_le_ediv (by unfold energyScale; norm_num : (0 : Int) < energyScale) hmul
  linarith

/-- C21. Energy growth is monotone: for every address whose record is read with a positive
balance, and every pair of timestamps `t2 > t1`, `GetEnergy(a, t2)` and `GetEnergy(a, t1)`
return energies `e2 ≥ e1`; the growth rate is taken not to be negative. -/
theorem C21_energy_monotone (env : Env) (s : State) (a : Address) (acc : Account)
    (t1 t2 : Nat) (hrate : 0 ≤ env.EnergyGrowthRate)
    (hacc : (s.getAccount env a).1 = .ok acc) (hb : 0 < acc.Balance) (ht : t1 < t2) :
    ∃ e1 e2 : Int, (s.GetEnergy env a t1).1 = .ok e1 ∧ (s.GetEnergy env a t2).1 = .ok e2 ∧
      e1 ≤ e2 ∧ e1 = acc.CalcEnergy env.EnergyGrowthRate t1 ∧
      e2 = acc.CalcEnergy env.EnergyGrowthRate t2 := by
  unfold State.getAccount at hacc
  refine ⟨acc.CalcEnergy env.EnergyGrowthRate t1, acc.CalcEnergy env.EnergyGrowthRate t2,
    ?_, ?_, Account.CalcEnergy_mono _ acc t1 t2 hrate (le_of_lt hb) (le_of_lt ht), rfl, rfl⟩
  · rw [State.GetEnergy_fst, hacc]
  · rw [State.GetEnergy_fst, hacc]


/-! ## Storage writes of a stage: empty and non-empty accounts -/

/-- Every storage trie of a successful stage was there before the loop or belongs to an address
of `changes` whose record is not empty and which has pending slots. -/
theorem stageChanges_tries_from (env : Env) (db : DB) :
    ∀ (changes : List (Address × changed)) (stage st1 : Stage),
    stageChanges env db changes stage = .ok st1 →
    ∀ t ∈ st1.storageTries, t ∈ stage.storageTries ∨
      ∃ addr c c0, (addr, c) ∈ changes ∧ c.data.IsEmpty = false ∧ c.storage ≠ [] ∧
        (db.NewStorageTrie env (StorageTrieName (env.blake2b addr.val))
          (BytesToBytes32 c.data.StorageRoot)).content = some c0 ∧
        t = { db.NewStorageTrie env (StorageTrieName (env.blake2b addr.val))
            (BytesToBytes32 c.data.StorageRoot) with
          content := some (c.storage.foldl (fun c p => Function.update c p.1 p.2) c0) } := by
  intro changes
  induction changes with
  | nil =>
    intro stage st1 h t ht
    simp only [stageChanges, Except.ok.injEq] at h
    subst h
    exact Or.inl ht
  | cons p rest ih =>
    intro stage st1 h t ht
    obtain ⟨addr, c⟩ := p
    simp only [stageChanges] at h
    cases hss : stageStorage env db addr c stage.storageTries with
    | error e => rw [hss] at h; simp at h
    | ok r =>
      obtain ⟨data, tries⟩ := r
      rw [hss] at h
      simp only [] at h
      cases hsa : saveAccount stage.accountTrie addr data with
      | error e => rw [hsa] at h; simp at h
      | ok tr =>
        rw [hsa] at h
        simp only [] at h
        obtain ⟨p1, q1⟩ := stageStorage_ok env db addr c stage.storageTries tries data hss
        rcases ih _ st1 h t ht with hin | ⟨addr2, c2, c0, hmem, hne, hsto, hc0, heq⟩
        · simp only [] at hin
          by_cases he : c.data.IsEmpty = true
          · rw [(p1 (Or.inl he)).2] at hin; exact Or.inl hin
          · have he1 : c.data.IsEmpty = false := by simpa using he
            by_cases hs : c.storage = []
            · rw [(p1 (Or.inr hs)).2] at hin; exact Or.inl hin
            · obtain ⟨c0, hc0, _, htr⟩ := q1 he1 hs
              rw [htr] at hin
              rcases List.mem_append.mp hin with h1 | h1
              · exact Or.inl h1
              · exact Or.inr ⟨addr, c, c0, List.mem_cons_self _ _, he1, hs, hc0,
                  List.mem_singleton.mp h1⟩
        · exact Or.inr ⟨addr2, c2, c0, List.mem_cons_of_mem _ hmem, hne, hsto, hc0, heq⟩

theorem mapGet_of_mem {K V : Type} [DecidableEq K] (m : List (K × V)) (k : K) (v : V)
    (hnd : (m.map Prod.fst).Nodup) (h : (k, v) ∈ m) : mapGet m k = some v := by
  induction m with
  | nil => simp at h
  | cons p rest ih =>
    simp only [List.map_cons, List.nodup_cons] at hnd
    rcases List.mem_cons.mp h with heq | hrest
    · rw [← heq]
      simp [mapGet]
    · have hne : p.1 ≠ k := by
        intro hk
        apply hnd.1
        rw [hk]
        exact List.mem_map_of_mem Prod.fst hrest
      simp only [mapGet, if_neg hne]
      exact ih hnd.2 hrest

/-- Every storage trie of a successful stage belongs to an address whose record at staging is
not empty and which has a pending slot: it is the trie opened at the storage root of that
record with the pending slots saved. -/
theorem State.Stage_tries_from (env : Env) (s : State) (st : Luckyshare.Stage)
    (h : (s.Stage env).1 = .ok st) :
    ∀ t ∈ st.storageTries, ∃ (b : Address) (rec : Account) (c0 : StorageContent),
      (s.cacheGetter env (.account b)).1 = .ok rec ∧
      ((lastPut (.account b) s.sm.Journal).getD rec).IsEmpty = false ∧
      (∃ k, lastPut (.storage b k) s.sm.Journal ≠ none) ∧
      t = { name := StorageTrieName (env.blake2b b.val)
            root := BytesToBytes32 ((lastPut (.account b) s.sm.Journal).getD rec).StorageRoot
            content := some (stagedStorage s.sm.Journal b c0) } := by
  obtain ⟨s1, ch, codes, hw, hl⟩ := State.Stage_ok env s st h
  have hf := State.stageJournal_facts env s.sm.Journal s [] []
  rw [hw] at hf
  simp only [] at hf
  obtain ⟨⟨hnd, hnone, hsome⟩, _⟩ := State.stageJournal_changes env s s.sm.Journal s1 ch codes hw
  rw [hf.1, hf.2.1] at hl
  intro t ht
  rcases stageChanges_tries_from env s.db ch _ st hl t ht with hin |
    ⟨b, c, c0, hmem, hne, hsto, hc0, heq⟩
  · simp at hin
  · have hg := mapGet_of_mem ch b c hnd hmem
    obtain ⟨⟨rec, hrec, hdata⟩, hsn, hsk⟩ := hsome b c hg
    have hfold : c.storage.foldl (fun c p => Function.update c p.1 p.2) c0
        = stagedStorage s.sm.Journal b c0 := by
      funext k
      rw [foldl_update_mapGet _ _ _ hsn, hsk k]
      rfl
    refine ⟨b, rec, c0, hrec, by rw [← hdata]; exact hne, ?_, ?_⟩
    · by_contra hcon
      simp only [not_exists, not_not] at hcon
      apply hsto
      rw [mapGet_nil_iff]
      exact fun k => (hsk k).trans (hcon k)
    · rw [heq, hfold, hdata]
      rfl


/-- C22. Empty accounts produce no storage writes: for an address `a` whose record at staging
(the last journaled record, or the loaded one when only slots were journaled) is empty, the
storage step of `Stage` returns the record as it is and the list of storage tries as it is,
so the storage root is not recomputed and no journaled slot of `a` is applied; every storage
trie of the stage was created for another address, one with a non-empty record; and the
accounts trie of the stage holds no record for `a` when `a` has journal entries. -/
theorem C22_empty_account_no_storage_writes (env : Env) (s : State) (st : Luckyshare.Stage)
    (a : Address) (rec : Account) (cA0 : AccountContent)
    (hst : (s.Stage env).1 = .ok st)
    (hrec : (s.cacheGetter env (.account a)).1 = .ok rec)
    (hempty : ((lastPut (.account a) s.sm.Journal).getD rec).IsEmpty = true)
    (h0 : (s.db.NewAccountTrie env (s.trie.HashAccounts env)).content = some cA0) :
    (∀ (c : changed) (tries : List (Trie StorageContent)),
      c.data = (lastPut (.account a) s.sm.Journal).getD rec →
      stageStorage env s.db a c tries = .ok (c.data, tries)) ∧
    (∀ t ∈ st.storageTries, ∃ (b : Address) (recb : Account) (c0 : StorageContent),
      b ≠ a ∧ (s.cacheGetter env (.account b)).1 = .ok recb ∧
      ((lastPut (.account b) s.sm.Journal).getD recb).IsEmpty = false ∧
      t = { name := StorageTrieName (env.blake2b b.val)
            root := BytesToBytes32 ((lastPut (.account b) s.sm.Journal).getD recb).StorageRoot
            content := some (stagedStorage s.sm.Journal b c0) }) ∧
    ∃ cA, st.accountTrie.content = some cA ∧
      ((lastPut (.account a) s.sm.Journal ≠ none ∨
          ∃ k, lastPut (.storage a k) s.sm.Journal ≠ none) → cA a = none) := by
  refine ⟨fun c tries hc => stageStorage_of_empty env s.db a c tries (by rw [hc]; exact hempty),
    fun t ht => ?_, ?_⟩
  · obtain ⟨b, recb, c0, hb, hne, _, heq⟩ := State.Stage_tries_from env s st hst t ht
    refine ⟨b, recb, c0, ?_, hb, hne, heq⟩
    intro hba
    subst hba
    rw [hrec] at hb
    cases hb
    rw [hempty] at hne
    cases hne
  · obtain ⟨cA, hcA, _, hall⟩ := State.Stage_content env s st hst cA0 h0
    refine ⟨cA, hcA, fun htouched => ?_⟩
    obtain ⟨rec2, hrec2, hemp, _⟩ := (hall a).2 htouched
    rw [hrec] at hrec2
    cases hrec2
    exact hemp hempty

/-- C23. Storage root after staging: for an address `a` whose record at staging is not empty
and which has at least one journaled slot, the storage trie opened at the prior storage root
is readable with some content `c0`; the record saved in the accounts trie of the stage is the
staged record with `StorageRoot` the hash of `c0` with the last journaled raw value of every
written key applied (an empty value deletes the key); the stage holds the storage trie with
that content, whose hash is that root; and after a successful `Commit`, when the storage
tries of the stage have distinct names, the committed database holds that content under that
root. -/
theorem C23_storage_root_after_staging (env : Env) (s : State) (st : Luckyshare.Stage)
    (a : Address) (rec : Account) (cA0 : AccountContent)
    (hst : (s.Stage env).1 = .ok st)
    (hrec : (s.cacheGetter env (.account a)).1 = .ok rec)
    (hne : ((lastPut (.account a) s.sm.Journal).getD rec).IsEmpty = false)
    (hpend : ∃ k, lastPut (.storage a k) s.sm.Journal ≠ none)
    (h0 : (s.db.NewAccountTrie env (s.trie.HashAccounts env)).content = some cA0) :
    ∃ (c0 : StorageContent) (cA : AccountContent) (t : Trie StorageContent),
      (s.db.NewStorageTrie env (StorageTrieName (env.blake2b a.val))
        (BytesToBytes32 ((lastPut (.account a) s.sm.Journal).getD rec).StorageRoot)).content
          = some c0 ∧
      (∀ k, stagedStorage s.sm.Journal a c0 k
        = (lastPut (.storage a k) s.sm.Journal).getD (c0 k)) ∧
      st.accountTrie.content = some cA ∧
      cA a = some { (lastPut (.account a) s.sm.Journal).getD rec with
        StorageRoot := (env.storageRoot (stagedStorage s.sm.Journal a c0)).val } ∧
      t ∈ st.storageTries ∧ t.name = StorageTrieName (env.blake2b a.val) ∧
      t.content = some (stagedStorage s.sm.Journal a c0) ∧
      t.HashStorage env = env.storageRoot (stagedStorage s.sm.Journal a c0) ∧
      ∀ R db2, st.Commit env = (.ok R, db2) →
        (st.storageTries.map (fun t => t.name)).Nodup →
        db2.storageTries (StorageTrieName (env.blake2b a.val))
          (env.storageRoot (stagedStorage s.sm.Journal a c0))
            = some (stagedStorage s.sm.Journal a c0) := by
  obtain ⟨c0, hc0, hmem⟩ := State.Stage_trie env s st hst a rec hrec hne hpend
  obtain ⟨cA, hcA, _, hall⟩ := State.Stage_content env s st hst cA0 h0
  obtain ⟨rec2, hrec2, _, hfull⟩ := (hall a).2 (Or.inr hpend)
  rw [hrec] at hrec2
  cases hrec2
  obtain ⟨c1, hc1, hsaved⟩ := (hfull hne).2 hpend
  rw [hc0] at hc1
  cases hc1
  refine ⟨c0, cA, _, hc0, fun k => rfl, hcA, hsaved, hmem, rfl, rfl, rfl, ?_⟩
  intro R db2 hcommit hnames
  obtain ⟨cA1, db0, db1, _, _, _, hct, hdb2⟩ := Stage.Commit_ok env st R db2 hcommit
  obtain ⟨cS, hcS, hlook⟩ := (commitStorageTries_lookup env st.storageTries db0 db1 hnames hct).1
    _ hmem
  simp only [Option.some.injEq] at hcS
  subst hcS
  rw [hdb2]
  exact hlook

/-! ## The codes collected by staging -/

theorem mem_journalCodes (j : List (Sigma Key.Val)) (c : Bytes) :
    c ∈ journalCodes j ↔ c.length > 0 ∧ ∃ b, (⟨.code b, c⟩ : Sigma Key.Val) ∈ j := by
  induction j with
  | nil => simp [journalCodes]
  | cons e rest ih =>
    obtain ⟨key, v⟩ := e
    cases key with
    | account a =>
      simp only [journalCodes, ih, List.mem_cons, Sigma.mk.inj_iff, reduceCtorEq, false_and,
        false_or]
    | storage a k =>
      simp only [journalCodes, ih, List.mem_cons, Sigma.mk.inj_iff, reduceCtorEq, false_and,
        false_or]
    | code a =>
      simp only [journalCodes]
      by_cases hl : List.length (α := Fin 256) v > 0
      · rw [if_pos hl, List.mem_cons, ih]
        constructor
        · rintro (h | ⟨h1, b, h2⟩)
          · subst h
            exact ⟨hl, a, List.mem_cons_self _ _⟩
          · exact ⟨h1, b, List.mem_cons_of_mem _ h2⟩
        · rintro ⟨h1, b, h2⟩
          rcases List.mem_cons.mp h2 with h | h
          · simp only [Sigma.mk.inj_iff, Key.code.injEq] at h
            exact Or.inl (eq_of_heq h.2)
          · exact Or.inr ⟨h1, b, h⟩
      · rw [if_neg hl, ih]
        constructor
        · rintro ⟨h1, b, h2⟩
          exact ⟨h1, b, List.mem_cons_of_mem _ h2⟩
        · rintro ⟨h1, b, h2⟩
          rcases List.mem_cons.mp h2 with h | h
          · simp only [Sigma.mk.inj_iff, Key.code.injEq] at h
            have : c = v := eq_of_heq h.2
            subst this
            exact absurd h1 hl
          · exact ⟨h1, b, h⟩

/-- The codes of a completed staging loop are the non-empty code values of the journal, set
into the map in journal order under their hashes. -/
theorem State.stageJournal_codes_eq (env : Env) (j : List (Sigma Key.Val)) :
    ∀ (s : State) (ch : List (Address × changed)) (codes : List (Bytes32 × Bytes)),
    (State.stageJournal env j s ch codes).1 = none →
    (State.stageJournal env j s ch codes).2.2.2
      = (journalCodes j).foldl (fun m c => mapSet m (env.keccak256 c) c) codes := by
  induction j with
  | nil => intro s ch codes _; rfl
  | cons e rest ih =>
    intro s ch codes
    obtain ⟨key, v⟩ := e
    cases key with
    | account b =>
      simp only [State.stageJournal, journalCodes]
      rcases s.getChanged ch b with ⟨r, ch1, s1⟩
      cases r with
      | error err => intro h; simp at h
      | ok c => exact ih s1 _ codes
    | storage b k =>
      simp only [State.stageJournal, journalCodes]
      rcases s.getChanged ch b with ⟨r, ch1, s1⟩
      cases r with
      | error err => intro h; simp at h
      | ok c => exact ih s1 _ codes
    | code b =>
      simp only [State.stageJournal, journalCodes]
      by_cases hl : List.length (α := Fin 256) v > 0
      · rw [if_pos hl, if_pos hl]
        exact ih s ch _
      · rw [if_neg hl, if_neg hl]
        exact ih s ch codes

theorem mem_mapSet_of_ne {K V : Type} [DecidableEq K] (m : List (K × V)) (k : K) (v : V)
    (p : K × V) (hp : p ∈ m) (hne : p.1 ≠ k) : p ∈ mapSet m k v := by
  induction m with
  | nil => simp at hp
  | cons x rest ih =>
    obtain ⟨k1, v1⟩ := x
    by_cases hk : k1 = k
    · simp only [mapSet, if_pos hk]
      rcases List.mem_cons.mp hp with h | h
      · rw [h] at hne
        exact absurd hk hne
      · exact List.mem_cons_of_mem _ h
    · simp only [mapSet, if_neg hk]
      rcases List.mem_cons.mp hp with h | h
      · rw [h]
        exact List.mem_cons_self _ _
      · exact List.mem_cons_of_mem _ (ih h)

/-- The map built from a list of codes: its keys are distinct, every entry is a code of the
list under its hash, and when no two codes of the list share a hash every code of the list
is an entry. -/
theorem collected_codes (hash : Bytes → Bytes32) (cs : List Bytes) :
    (((cs.foldl (fun m c => mapSet m (hash c) c) []).map Prod.fst).Nodup) ∧
    (∀ p ∈ cs.foldl (fun m c => mapSet m (hash c) c) [], p.2 ∈ cs ∧ p.1 = hash p.2) ∧
    ((∀ c1 ∈ cs, ∀ c2 ∈ cs, hash c1 = hash c2 → c1 = c2) →
      ∀ c ∈ cs, (hash c, c) ∈ cs.foldl (fun m c => mapSet m (hash c) c) []) := by
  induction cs using List.reverseRecOn with
  | nil => simp
  | append_singleton cs c ih =>
    obtain ⟨i1, i2, i3⟩ := ih
    rw [List.foldl_append]
    simp only [List.foldl_cons, List.foldl_nil]
    obtain ⟨m1, m2, _⟩ := mem_mapSet (cs.foldl (fun m c => mapSet m (hash c) c) []) (hash c) c
    refine ⟨mapSet_keys_nodup _ _ _ i1, fun p hp => ?_, fun hinj c1 hc1 => ?_⟩
    · rcases m2 p hp with h | h
      · exact ⟨List.mem_append_left _ (i2 p h).1, (i2 p h).2⟩
      · rw [h]
        exact ⟨List.mem_append_right _ (List.mem_singleton_self _), rfl⟩
    · rcases List.mem_append.mp hc1 with h | h
      · have hin := i3 (fun x hx y hy => hinj x (List.mem_append_left _ hx) y
          (List.mem_append_left _ hy)) c1 h
        by_cases hk : hash c1 = hash c
        · have := hinj c1 hc1 c (List.mem_append_right _ (List.mem_singleton_self _)) hk
          rw [this]
          exact m1
        · exact mem_mapSet_of_ne _ _ _ _ hin hk
      · rw [List.mem_singleton.mp h]
        exact m1

/-- C26. Stage code collection: the codes of a successful `Stage()` form a map (distinct keys)
whose entries are pairs `(keccak256(c), c)` of non-empty code values `c` of the journal, so
that empty-code entries (`SetCode` with empty code, `Delete`) add no entry; and when no two
non-empty code values of the journal share a hash, every non-empty code value of the journal
is present under its hash, so that after `SetCode(a, c1); SetCode(a, c2)` both blobs are. -/
theorem C26_stage_code_collection (env : Env) (s : State) (st : Luckyshare.Stage)
    (hst : (s.Stage env).1 = .ok st) :
    (st.codes.map Prod.fst).Nodup ∧
    (∀ h c, (h, c) ∈ st.codes →
      c.length > 0 ∧ h = env.keccak256 c ∧ ∃ b, (⟨.code b, c⟩ : Sigma Key.Val) ∈ s.sm.Journal) ∧
    ((∀ c1 ∈ journalCodes s.sm.Journal, ∀ c2 ∈ journalCodes s.sm.Journal,
        env.keccak256 c1 = env.keccak256 c2 → c1 = c2) →
      ∀ b c, (⟨.code b, c⟩ : Sigma Key.Val) ∈ s.sm.Journal → c.length > 0 →
        (env.keccak256 c, c) ∈ st.codes) := by
  obtain ⟨s1, ch, codes, hw, hl⟩ := State.Stage_ok env s st hst
  have hf := State.stageJournal_facts env s.sm.Journal s [] []
  have he := State.stageJournal_codes_eq env s.sm.Journal s [] []
  rw [hw] at hf he
  simp only [] at hf he
  have hcodes : st.codes = codes :=
    (stageChanges_content env s1.db ch _ st (hf.2.2.2.2 List.nodup_nil) hl).2.1
  rw [hcodes, he trivial]
  obtain ⟨i1, i2, i3⟩ := collected_codes env.keccak256 (journalCodes s.sm.Journal)
  refine ⟨i1, fun h c hm => ?_, fun hinj b c hm hlen => ?_⟩
  · obtain ⟨h1, h2⟩ := i2 (h, c) hm
    obtain ⟨h3, h4⟩ := (mem_journalCodes _ _).mp h1
    exact ⟨h3, h2, h4⟩
  · exact i3 hinj c ((mem_journalCodes _ _).mpr ⟨hlen, b, hm⟩)

/-! ## Reads of a fresh cached object -/

/-- C24. Cached object reads: for the cachedObject built by `newCachedObject` from address `a`
and account data `d`, `GetStorage(k)` returns what `loadStorage` reads under `k` in the storage
trie of `a` opened at `d.StorageRoot`, which is the raw value of the content (empty when the
key is absent) when the trie is readable, and a repeated `GetStorage(k)` returns the same;
`GetCode()` returns the bytes stored in the code store under `d.CodeHash`, the process-wide
code cache holding no other bytes under that hash, and returns empty with no error when
`d.CodeHash` is absent. -/
theorem C24_cached_object_reads (env : Env) (db : DB) (cc : CodeCache) (a : Address)
    (d : Account) (k : Bytes32) :
    ((newCachedObject a d).GetStorage env db k).1
      = loadStorage (db.NewStorageTrie env (StorageTrieName (env.blake2b a.val))
          (BytesToBytes32 d.StorageRoot)) k ∧
    (∀ c, (db.NewStorageTrie env (StorageTrieName (env.blake2b a.val))
          (BytesToBytes32 d.StorageRoot)).content = some c →
      ((newCachedObject a d).GetStorage env db k).1 = .ok (c k)) ∧
    (((newCachedObject a d).GetStorage env db k).2.GetStorage env db k).1
      = ((newCachedObject a d).GetStorage env db k).1 ∧
    (∀ code, d.CodeHash.length > 0 → db.codeStore d.CodeHash = some code →
      (cc d.CodeHash = none ∨ cc d.CodeHash = some code) →
      ((newCachedObject a d).GetCode db cc).1 = .ok code ∧
      (((newCachedObject a d).GetCode db cc).2.1.GetCode db
        ((newCachedObject a d).GetCode db cc).2.2).1 = .ok code) ∧
    (d.CodeHash.length = 0 → ((newCachedObject a d).GetCode db cc).1 = .ok []) := by
  have h1 : ((newCachedObject a d).GetStorage env db k).1
      = loadStorage (db.NewStorageTrie env (StorageTrieName (env.blake2b a.val))
          (BytesToBytes32 d.StorageRoot)) k := by
    simp only [newCachedObject, cachedObject.GetStorage, cachedObject.getOrCreateStorageTrie]
    cases loadStorage (db.NewStorageTrie env (StorageTrieName (env.blake2b a.val))
      (BytesToBytes32 d.StorageRoot)) k <;> rfl
  refine ⟨h1, fun c hc => ?_, cachedObject.GetStorage_again env db _ k k, ?_, ?_⟩
  · rw [h1]
    simp only [loadStorage, hc]
  · intro code hlen hstore hcache
    have hfirst : ((newCachedObject a d).GetCode db cc).1 = .ok code := by
      simp only [cachedObject.GetCode, newCachedObject, List.length_nil, gt_iff_lt,
        lt_self_iff_false, if_false, if_pos hlen]
      rcases hcache with h | h
      · rw [h]
        simp only [hstore]
      · rw [h]
    refine ⟨hfirst, ?_⟩
    rw [(cachedObject.GetCode_facts db cc (newCachedObject a d)).2.2.2.2.1]
    exact hfirst
  · intro hlen
    simp only [cachedObject.GetCode, newCachedObject, List.length_nil, gt_iff_lt,
      lt_self_iff_false, if_false, hlen]

/-! ## Setters on the error path -/

/-- The setters that read the record first leave the journal as it was when they fail. -/
theorem State.setters_error_journal (env : Env) (s : State) (a : Address) :
    (∀ v e, (s.SetBalance env a v).1 = some e →
      (s.SetBalance env a v).2.sm.Journal = s.sm.Journal) ∧
    (∀ v t e, (s.SetEnergy env a v t).1 = some e →
      (s.SetEnergy env a v t).2.sm.Journal = s.sm.Journal) ∧
    (∀ m e, (s.SetMaster env a m).1 = some e →
      (s.SetMaster env a m).2.sm.Journal = s.sm.Journal) := by
  have hj : (s.getAccountCopy env a).2.sm.Journal = s.sm.Journal := by
    unfold State.getAccountCopy State.getAccount
    have := (State.smGet_facts env s (.account a)).2.2
    rcases hg : s.smGet env (.account a) with ⟨r, s1⟩
    rw [hg] at this
    cases r <;> exact this
  refine ⟨fun v e h => ?_, fun v t e h => ?_, fun m e h => ?_⟩
  · unfold State.SetBalance at h ⊢
    rcases hg : s.getAccountCopy env a with ⟨r, s1⟩
    rw [hg] at h hj
    cases r with
    | error err => exact hj
    | ok cpy => simp at h
  · unfold State.SetEnergy at h ⊢
    rcases hg : s.getAccountCopy env a with ⟨r, s1⟩
    rw [hg] at h hj
    cases r with
    | error err => exact hj
    | ok cpy => simp at h
  · unfold State.SetMaster at h ⊢
    rcases hg : s.getAccountCopy env a with ⟨r, s1⟩
    rw [hg] at h hj
    cases r with
    | error err => exact hj
    | ok cpy =>
      exfalso
      by_cases hm : m.IsZero = true <;> simp [hm] at h

/-- C29. Setter atomicity, evaluated on a State whose accounts trie cannot be read: `SetBalance`,
`SetEnergy` and `SetMaster` return an error and leave the journal empty, while
`SetCode(acc1, [1])` returns the same error and leaves the code entry of `acc1` in the
journal; `GetCode(acc1)`, an error before the call, returns `[1]` after it, and the codes of
the next `Stage()` hold the blob, which they did not before. -/
theorem C29_set_code_error_leaves_entry :
    ((brokenState.SetBalance sampleEnv sampleAddr 1).1 = some (.state .missingNode) ∧
      (brokenState.SetBalance sampleEnv sampleAddr 1).2.sm.Journal = []) ∧
    ((brokenState.SetEnergy sampleEnv sampleAddr 1 1).1 = some (.state .missingNode) ∧
      (brokenState.SetEnergy sampleEnv sampleAddr 1 1).2.sm.Journal = []) ∧
    ((brokenState.SetMaster sampleEnv sampleAddr sampleAddr).1 = some (.state .missingNode) ∧
      (brokenState.SetMaster sampleEnv sampleAddr sampleAddr).2.sm.Journal = []) ∧
    brokenState.sm.Journal = [] ∧
    (brokenState.SetCode sampleEnv sampleAddr [1]).1 = some (.state .missingNode) ∧
    (brokenState.SetCode sampleEnv sampleAddr [1]).2.sm.Journal = [⟨.code sampleAddr, [1]⟩] ∧
    (brokenState.GetCode sampleEnv sampleAddr).1 = .error (.state .missingNode) ∧
    ((brokenState.SetCode sampleEnv sampleAddr [1]).2.GetCode sampleEnv sampleAddr).1
      = .ok [1] ∧
    ((brokenState.Stage sampleEnv).1.toOption.map (fun st => st.codes)) = some [] ∧
    (((brokenState.SetCode sampleEnv sampleAddr [1]).2.Stage sampleEnv).1.toOption.map
      (fun st => st.codes)) = some [(sampleEnv.keccak256 [1], [1])] :=
  ⟨⟨rfl, rfl⟩, ⟨rfl, rfl⟩, ⟨rfl, rfl⟩, rfl, rfl, rfl, rfl, rfl, rfl, rfl⟩

/-! ## The frame of the setters -/

theorem FrameOf.of_keys (env : Env) (s1 s2 : State) (a : Address)
    (h : ∀ key, key ≠ .account a → key ≠ .code a →
      (s1.smGet env key).1 = (s2.smGet env key).1) : FrameOf env s1 s2 a := by
  refine ⟨fun b hb => ?_, fun k => ?_, fun k => ?_⟩
  · exact SameReads.of_smGet env s1 s2 b
      (h _ (by simp [hb]) (by simp)) (h _ (by simp) (by simp [hb]))
      (fun k => h _ (by simp) (by simp))
  · rw [State.GetRawStorage_fst, State.GetRawStorage_fst, h _ (by simp) (by simp)]
  · rw [State.GetStorage_fst, State.GetStorage_fst, State.GetRawStorage_fst,
      State.GetRawStorage_fst, h _ (by simp) (by simp)]

/-- A record put after the read of the record of `a`: the record of `a` reads as the one put,
every other key reads as before. -/
theorem State.put_after_read_frame (env : Env) (s : State) (a : Address) (rec : Account) :
    (((s.smGet env (.account a)).2.updateAccount a rec).smGet env (.account a)).1 = .ok rec ∧
    ∀ key, key ≠ .account a →
      (((s.smGet env (.account a)).2.updateAccount a rec).smGet env key).1
        = (s.smGet env key).1 := by
  constructor
  · rw [State.smGet_of_find env _ (.account a) rec (StackedMap.find_Put_same _ _ _)]
  · intro key hkey
    unfold State.updateAccount
    rw [State.smGet_with_sm env _ _ key (StackedMap.find_Put_ne _ _ _ _ hkey)]
    exact State.smGet_transparent env s (.account a) key

/-- The State in which `SetCode(a, c)` reads the record of `a`: the code entry of `a` reads as
`c`, every other key reads as before the call. -/
theorem State.SetCode_entry_frame (env : Env) (s : State) (a : Address) (c : Bytes)
    (hca : c ≠ [] → CodeAddressed env s c) :
    ∃ s0 : State,
      (∀ acc, (s0.smGet env (.account a)).1 = .ok acc →
        s.SetCode env a c = (none, (s0.smGet env (.account a)).2.updateAccount a
          { acc with CodeHash := if c.length > 0 then (env.keccak256 c).val else [] })) ∧
      (s0.smGet env (.code a)).1 = .ok c ∧
      ∀ key, key ≠ .code a → (s0.smGet env key).1 = (s.smGet env key).1 := by
  by_cases hl : c.length > 0
  · have hne : c ≠ [] := by
      intro h
      rw [h] at hl
      simp at hl
    refine ⟨{ s with
        sm := s.sm.Put (.code a) c
        codeCache := Function.update s.codeCache (env.keccak256 c).val (some c) }, ?_, ?_, ?_⟩
    · intro acc hacc
      simp only [State.SetCode, if_pos hl]
      rw [State.getAccountCopy_of_read env _ a acc hacc]
    · rw [State.smGet_of_find env _ (.code a) c (StackedMap.find_Put_same _ _ _)]
    · intro key hkey
      have h1 := State.smGet_with_sm env
        { s with codeCache := Function.update s.codeCache (env.keccak256 c).val (some c) }
        (s.sm.Put (.code a) c) key (StackedMap.find_Put_ne _ _ _ _ hkey)
      refine h1.trans ?_
      have h2 := State.cacheGetter_addCode env s
        { s with codeCache := Function.update s.codeCache (env.keccak256 c).val (some c) }
        c key rfl rfl rfl rfl (hca hne)
      rw [State.smGet_fst, State.smGet_fst, h2]
  · have hnil : c = [] := by
      cases c with
      | nil => rfl
      | cons x xs => simp at hl
    subst hnil
    refine ⟨{ s with sm := s.sm.Put (.code a) ([] : Bytes) }, ?_, ?_, ?_⟩
    · intro acc hacc
      simp only [State.SetCode, if_neg hl]
      rw [State.getAccountCopy_of_read env _ a acc hacc]
    · rw [State.smGet_of_find env _ (.code a) ([] : Bytes) (StackedMap.find_Put_same _ _ _)]
    · intro key hkey
      exact State.smGet_with_sm env s _ key (StackedMap.find_Put_ne _ _ _ _ hkey)

/-- C30. Setter frame: when the record of `a` reads as `acc`, `SetBalance(a, v)` succeeds and
the record of `a` then reads as `acc` with only `Balance` replaced, `SetEnergy(a, e, t)` with
only `Energy` and `BlockTime` replaced, `SetMaster(a, m)` with only `Master` replaced (empty
for the zero address), and `SetCode(a, c)` with only `CodeHash` replaced (the hash of `c`,
empty for empty `c`) while the code of `a` reads as `c`; after the first three the code of `a`
reads as before; after each of the four every storage slot of `a` and every getter result at
any other address `b ≠ a` is as before; for `SetCode` the code store is taken to be
content-addressed for `c`. -/
theorem C30_setter_frame (env : Env) (s : State) (a : Address) (acc : Account)
    (hacc : (s.getAccount env a).1 = .ok acc) :
    (∀ v, (s.SetBalance env a v).1 = none ∧
      ((s.SetBalance env a v).2.getAccount env a).1 = .ok { acc with Balance := v } ∧
      ((s.SetBalance env a v).2.GetCode env a).1 = (s.GetCode env a).1 ∧
      FrameOf env (s.SetBalance env a v).2 s a) ∧
    (∀ e t, (s.SetEnergy env a e t).1 = none ∧
      ((s.SetEnergy env a e t).2.getAccount env a).1
        = .ok { acc with Energy := e, BlockTime := t } ∧
      ((s.SetEnergy env a e t).2.GetCode env a).1 = (s.GetCode env a).1 ∧
      FrameOf env (s.SetEnergy env a e t).2 s a) ∧
    (∀ m : Address, (s.SetMaster env a m).1 = none ∧
      ((s.SetMaster env a m).2.getAccount env a).1
        = .ok { acc with Master := if m.IsZero then [] else m.val } ∧
      ((s.SetMaster env a m).2.GetCode env a).1 = (s.GetCode env a).1 ∧
      FrameOf env (s.SetMaster env a m).2 s a) ∧
    (∀ c, (c ≠ [] → CodeAddressed env s c) →
      (s.SetCode env a c).1 = none ∧
      ((s.SetCode env a c).2.getAccount env a).1
        = .ok { acc with CodeHash := if c.length > 0 then (env.keccak256 c).val else [] } ∧
      ((s.SetCode env a c).2.GetCode env a).1 = .ok c ∧
      FrameOf env (s.SetCode env a c).2 s a) := by
  unfold State.getAccount at hacc
  have hcopy := State.getAccountCopy_of_read env s a acc hacc
  have hput : ∀ rec : Account,
      (((s.smGet env (.account a)).2.updateAccount a rec).getAccount env a).1 = .ok rec ∧
      (((s.smGet env (.account a)).2.updateAccount a rec).GetCode env a).1
        = (s.GetCode env a).1 ∧
      FrameOf env ((s.smGet env (.account a)).2.updateAccount a rec) s a := by
    intro rec
    obtain ⟨h1, h2⟩ := State.put_after_read_frame env s a rec
    refine ⟨h1, ?_, FrameOf.of_keys env _ s a (fun key hk _ => h2 key hk)⟩
    rw [State.GetCode_fst, State.GetCode_fst, h2 _ (by simp)]
  refine ⟨fun v => ?_, fun e t => ?_, fun m => ?_, fun c hca => ?_⟩
  · have h : s.SetBalance env a v
        = (none, (s.smGet env (.account a)).2.updateAccount a { acc with Balance := v }) := by
      simp only [State.SetBalance, hcopy]
    rw [h]
    exact ⟨rfl, hput _⟩
  · have h : s.SetEnergy env a e t
        = (none, (s.smGet env (.account a)).2.updateAccount a
            { acc with Energy := e, BlockTime := t }) := by
      simp only [State.SetEnergy, hcopy]
    rw [h]
    exact ⟨rfl, hput _⟩
  · have h : s.SetMaster env a m
        = (none, (s.smGet env (.account a)).2.updateAccount a
            { acc with Master := if m.IsZero then [] else m.val }) := by
      simp only [State.SetMaster, hcopy]
      by_cases hm : m.IsZero = true <;> simp [hm]
    rw [h]
    exact ⟨rfl, hput _⟩
  · obtain ⟨s0, hset, hcode, hkeys⟩ := State.SetCode_entry_frame env s a c hca
    have hacc0 : (s0.smGet env (.account a)).1 = .ok acc := by
      rw [hkeys _ (by simp)]
      exact hacc
    rw [hset acc hacc0]
    obtain ⟨h1, h2⟩ := State.put_after_read_frame env s0 a
      { acc with CodeHash := if c.length > 0 then (env.keccak256 c).val else [] }
    refine ⟨rfl, h1, ?_, FrameOf.of_keys env _ s a
      (fun key hk hk2 => (h2 key hk).trans (hkeys key hk2))⟩
    rw [State.GetCode_fst, h2 _ (by simp), hcode]

/-! ## Staging after reads and reverted writes -/

theorem State.getChanged_congr (env : Env) (s1 s2 : State) (ch : List (Address × changed))
    (a : Address)
    (h : (s1.cacheGetter env (.account a)).1 = (s2.cacheGetter env (.account a)).1) :
    (s1.getChanged ch a).1 = (s2.getChanged ch a).1 ∧
    (s1.getChanged ch a).2.1 = (s2.getChanged ch a).2.1 := by
  unfold State.getChanged
  cases mapGet ch a with
  | some obj => exact ⟨rfl, rfl⟩
  | none =>
    simp only [State.cacheGetter] at h
    rcases hg1 : s1.getCachedObject a with ⟨r1, t1⟩
    rcases hg2 : s2.getCachedObject a with ⟨r2, t2⟩
    rw [hg1, hg2] at h
    cases r1 with
    | error e1 =>
      cases r2 with
      | error e2 =>
        simp only [Except.error.injEq] at h
        subst h
        exact ⟨rfl, rfl⟩
      | ok o2 => simp at h
    | ok o1 =>
      cases r2 with
      | error e2 => simp at h
      | ok o2 =>
        simp only [Except.ok.injEq] at h
        simp only [h]
        exact ⟨trivial, trivial⟩

theorem State.getChanged_loader (env : Env) (s : State) (ch : List (Address × changed))
    (a : Address) (key : Key) :
    ((s.getChanged ch a).2.2.cacheGetter env key).1 = (s.cacheGetter env key).1 := by
  unfold State.getChanged
  cases mapGet ch a with
  | some obj => rfl
  | none =>
    have h := State.cacheGetter_getCachedObject env s a key
    rcases hg : s.getCachedObject a with ⟨r, t⟩
    rw [hg] at h
    cases r <;> exact h

/-- The journal traversal of `Stage` returns the same error, map `changes` and codes on two
States with the same loaded records, and leaves the loaded values as they are. -/
theorem State.stageJournal_congr (env : Env) (j : List (Sigma Key.Val)) :
    ∀ (s1 s2 : State) (ch : List (Address × changed)) (codes : List (Bytes32 × Bytes)),
    (∀ a, (s1.cacheGetter env (.account a)).1 = (s2.cacheGetter env (.account a)).1) →
    ((State.stageJournal env j s1 ch codes).1 = (State.stageJournal env j s2 ch codes).1 ∧
      (State.stageJournal env j s1 ch codes).2.2 = (State.stageJournal env j s2 ch codes).2.2) ∧
    ∀ key, ((State.stageJournal env j s1 ch codes).2.1.cacheGetter env key).1
      = (s1.cacheGetter env key).1 := by
  induction j with
  | nil => intro s1 s2 ch codes _; exact ⟨⟨rfl, rfl⟩, fun _ => rfl⟩
  | cons e rest ih =>
    intro s1 s2 ch codes hload
    obtain ⟨key, v⟩ := e
    have hstep : ∀ b, ∀ f : changed → changed,
        ((match s1.getChanged ch b with
          | (.error e, ch1, t1) => ((some e, t1, ch1, codes) :
              Option GoError × State × List (Address × changed) × List (Bytes32 × Bytes))
          | (.ok c, ch1, t1) => State.stageJournal env rest t1 (mapSet ch1 b (f c)) codes).1
        = (match s2.getChanged ch b with
          | (.error e, ch1, t1) => ((some e, t1, ch1, codes) :
              Option GoError × State × List (Address × changed) × List (Bytes32 × Bytes))
          | (.ok c, ch1, t1) => State.stageJournal env rest t1 (mapSet ch1 b (f c)) codes).1 ∧
        (match s1.getChanged ch b with
          | (.error e, ch1, t1) => ((some e, t1, ch1, codes) :
              Option GoError × State × List (Address × changed) × List (Bytes32 × Bytes))
          | (.ok c, ch1, t1) => State.stageJournal env rest t1 (mapSet ch1 b (f c)) codes).2.2
        = (match s2.getChanged ch b with
          | (.error e, ch1, t1) => ((some e, t1, ch1, codes) :
              Option GoError × State × List (Address × changed) × List (Bytes32 × Bytes))
          | (.ok c, ch1, t1) =>
            State.stageJournal env rest t1 (mapSet ch1 b (f c)) codes).2.2) ∧
        ∀ key, ((match s1.getChanged ch b with
          | (.error e, ch1, t1) => ((some e, t1, ch1, codes) :
              Option GoError × State × List (Address × changed) × List (Bytes32 × Bytes))
          | (.ok c, ch1, t1) =>
            State.stageJournal env rest t1 (mapSet ch1 b (f c)) codes).2.1.cacheGetter env
              key).1 = (s1.cacheGetter env key).1 := by
      intro b f
      obtain ⟨g1, g2⟩ := State.getChanged_congr env s1 s2 ch b (hload b)
      have l1 := State.getChanged_loader env s1 ch b
      have l2 := State.getChanged_loader env s2 ch b
      rcases hc1 : s1.getChanged ch b with ⟨r1, c1, t1⟩
      rcases hc2 : s2.getChanged ch b with ⟨r2, c2, t2⟩
      rw [hc1, hc2] at g1 g2
      rw [hc1] at l1
      rw [hc2] at l2
      simp only [] at g1 g2 l1 l2
      subst g1
      subst g2
      cases r1 with
      | error err => exact ⟨⟨rfl, rfl⟩, l1⟩
      | ok c =>
        simp only []
        obtain ⟨i1, i2⟩ := ih t1 t2 (mapSet c1 b (f c)) codes
          (fun a => (l1 _).trans ((hload a).trans (l2 _).symm))
        exact ⟨i1, fun key => (i2 key).trans (l1 key)⟩
    cases key with
    | account b => exact hstep b (fun c => { c with data := v })
    | storage b k => exact hstep b (fun c => { c with storage := mapSet c.storage k v })
    | code b =>
      simp only [State.stageJournal]
      by_cases hl : List.length (α := Fin 256) v > 0
      · rw [if_pos hl, if_pos hl]
        exact ih s1 s2 ch _ hload
      · rw [if_neg hl, if_neg hl]
        exact ih s1 s2 ch codes hload

/-- `Stage()` returns the same on two States that give it the same input. -/
theorem State.Stage_congr (env : Env) (s1 s2 : State) (h : StageAlike env s1 s2) :
    (s1.Stage env).1 = (s2.Stage env).1 := by
  obtain ⟨hdb, htrie, hj, hload⟩ := h
  obtain ⟨⟨c1, c2⟩, _⟩ := State.stageJournal_congr env s1.sm.Journal s1 s2 [] [] hload
  have f1 := State.stageJournal_facts env s1.sm.Journal s1 [] []
  have f2 := State.stageJournal_facts env s1.sm.Journal s2 [] []
  unfold State.Stage
  rw [← hj]
  rcases hw1 : State.stageJournal env s1.sm.Journal s1 [] [] with ⟨r1, t1, ch1, co1⟩
  rcases hw2 : State.stageJournal env s1.sm.Journal s2 [] [] with ⟨r2, t2, ch2, co2⟩
  rw [hw1, hw2] at c1 c2
  rw [hw1] at f1
  rw [hw2] at f2
  simp only [Prod.mk.injEq] at c1 c2 f1 f2
  obtain ⟨c2, c3⟩ := c2
  subst c1
  subst c2
  subst c3
  cases r1 with
  | some err => rfl
  | none =>
    simp only []
    rw [f1.1, f1.2.1, f2.1, f2.2.1, ← hdb, ← htrie]
    cases stageChanges env s1.db ch1
      { db := s1.db
        accountTrie := s1.db.NewAccountTrie env (s1.trie.HashAccounts env)
        storageTries := []
        codes := co1 } <;> rfl

/-- The State that `Stage()` returns gives a later `Stage()` the same input. -/
theorem StageAlike.after_stage (env : Env) (s : State) : StageAlike env (s.Stage env).2 s := by
  obtain ⟨_, hl⟩ := State.stageJournal_congr env s.sm.Journal s s [] [] (fun _ => rfl)
  have f := State.stageJournal_facts env s.sm.Journal s [] []
  unfold State.Stage
  rcases hw : State.stageJournal env s.sm.Journal s [] [] with ⟨r, t, ch, co⟩
  rw [hw] at hl f
  simp only [] at hl f
  have hal : StageAlike env t s := ⟨f.1, f.2.1, by rw [f.2.2.1], fun a => hl _⟩
  cases r with
  | some err => exact hal
  | none =>
    simp only []
    cases stageChanges env t.db ch
      { db := t.db
        accountTrie := t.db.NewAccountTrie env (t.trie.HashAccounts env)
        storageTries := []
        codes := co } <;> exact hal

theorem State.applyOps_base_journal (env : Env) (ops : List WriteOp) :
    ∀ s : State, s.sm.stack ≠ [] → (s.applyOps env ops).sm.base.journal = s.sm.base.journal := by
  induction ops with
  | nil => intro s _; rfl
  | cons op rest ih =>
    intro s h
    simp only [State.applyOps, List.foldl_cons]
    have hlen := (State.applyOp_stack env s op).1
    have hne : (s.applyOp env op).sm.stack ≠ [] := by
      intro h0
      rw [h0] at hlen
      exact h (List.length_eq_zero.mp hlen.symm)
    exact (ih _ hne).trans (State.applyOp_base_journal env s op h)

/-- Writes enclosed by `r = NewCheckpoint()` and `RevertTo(r)` leave the journal as it was. -/
theorem State.reverted_journal (env : Env) (s : State) (writes : List WriteOp) :
    (((s.NewCheckpoint).2.applyOps env writes).RevertTo (s.NewCheckpoint).1).sm.Journal
      = s.sm.Journal := by
  obtain ⟨top, htop⟩ := State.applyOps_checkpoint_stack env s writes
  have hbase := State.applyOps_base_journal env writes (s.NewCheckpoint).2
    (by simp [State.NewCheckpoint, StackedMap.Push])
  have hb : ((s.NewCheckpoint).2.applyOps env writes).sm.base.journal = s.sm.base.journal :=
    hbase
  simp only [State.RevertTo, StackedMap.PopTo, StackedMap.Journal, StackedMap.Depth, htop, hb]
  have hr : (s.NewCheckpoint).1 = ((s.sm.stack.length + 1 : Nat) : Int) := rfl
  rw [hr, Int.toNat_ofNat]
  have hd : (top :: s.sm.stack).length + 1 - max (s.sm.stack.length + 1) 1 = 1 := by
    simp only [List.length_cons]
    omega
  rw [hd]
  rfl

theorem StageAlike.trans (env : Env) (s1 s2 s3 : State) (h1 : StageAlike env s1 s2)
    (h2 : StageAlike env s2 s3) : StageAlike env s1 s3 :=
  ⟨h1.1.trans h2.1, h1.2.1.trans h2.2.1, h1.2.2.1.trans h2.2.2.1,
    fun a => (h1.2.2.2 a).trans (h2.2.2.2 a)⟩

/-- A read, and writes that are reverted, leave the input of `Stage()` as it was. -/
theorem StageAlike.between (env : Env) (s : State) (item : Between) :
    StageAlike env (s.between env item) s := by
  cases item with
  | read key =>
    obtain ⟨h1, h2, h3⟩ := State.smGet_facts env s key
    exact ⟨h1, h2, h3, fun a => State.smGet_loader env s key _⟩
  | reverted writes =>
    obtain ⟨h1, h2, h3⟩ := State.applyOps_base env (s.NewCheckpoint).2 writes
    refine ⟨h1, h2, State.reverted_journal env s writes, fun a => ?_⟩
    exact (State.loader_with_sm env _ _ _).trans
      ((h3 a).trans (State.loader_with_sm env s _ _))

theorem StageAlike.betweens (env : Env) (items : List Between) :
    ∀ s : State, StageAlike env (s.betweens env items) s := by
  induction items with
  | nil => intro s; exact ⟨rfl, rfl, rfl, fun _ => rfl⟩
  | cons item rest ih =>
    intro s
    simp only [State.betweens, List.foldl_cons]
    exact StageAlike.trans env _ _ _ (ih _) (StageAlike.between env s item)

/-- The State a getter returns is the State after the read of its key. -/
theorem State.getters_between (env : Env) (s : State) (a : Address) :
    (s.GetBalance env a).2 = s.between env (.read (.account a)) ∧
    (∀ t, (s.GetEnergy env a t).2 = s.between env (.read (.account a))) ∧
    (s.GetMaster env a).2 = s.between env (.read (.account a)) ∧
    (s.GetCodeHash env a).2 = s.between env (.read (.account a)) ∧
    (s.Exists env a).2 = s.between env (.read (.account a)) ∧
    (s.GetCode env a).2 = s.between env (.read (.code a)) ∧
    (∀ k, (s.GetRawStorage env a k).2 = s.between env (.read (.storage a k))) ∧
    (∀ k, (s.GetStorage env a k).2 = s.between env (.read (.storage a k))) := by
  have hraw : ∀ k, (s.GetRawStorage env a k).2 = s.between env (.read (.storage a k)) := by
    intro k
    simp only [State.GetRawStorage, State.between]
    rcases s.smGet env (.storage a k) with ⟨r, t⟩
    cases r <;> rfl
  refine ⟨?_, fun t => ?_, ?_, ?_, ?_, ?_, hraw, fun k => ?_⟩
  · simp only [State.GetBalance, State.getAccount, State.between]
    rcases s.smGet env (.account a) with ⟨r, t⟩
    cases r <;> rfl
  · simp only [State.GetEnergy, State.getAccount, State.between]
    rcases s.smGet env (.account a) with ⟨r, t⟩
    cases r <;> rfl
  · simp only [State.GetMaster, State.getAccount, State.between]
    rcases s.smGet env (.account a) with ⟨r, t⟩
    cases r <;> rfl
  · simp only [State.GetCodeHash, State.getAccount, State.between]
    rcases s.smGet env (.account a) with ⟨r, t⟩
    cases r <;> rfl
  · simp only [State.Exists, State.getAccount, State.between]
    rcases s.smGet env (.account a) with ⟨r, t⟩
    cases r <;> rfl
  · simp only [State.GetCode, State.between]
    rcases s.smGet env (.code a) with ⟨r, t⟩
    cases r <;> rfl
  · rw [← hraw k]
    unfold State.GetStorage
    rcases s.GetRawStorage env a k with ⟨r, t⟩
    cases r with
    | error e => rfl
    | ok raw =>
      simp only []
      split
      · rfl
      · split
        · rfl
        · split <;> rfl

/-- A State without journal entries stages the accounts trie opened at the hash of its own
accounts trie, without storage tries and codes. -/
theorem State.Stage_no_writes (env : Env) (s : State) (h : s.sm.Journal = []) :
    (s.Stage env).1 = .ok
      { db := s.db
        accountTrie := s.db.NewAccountTrie env (s.trie.HashAccounts env)
        storageTries := []
        codes := [] } := by
  unfold State.Stage
  rw [h]
  rfl

theorem NewAccountTrie_hash (env : Env) (db : DB) (h : Bytes32) (hzero : h ≠ Bytes32.zero)
    (hdb : ∀ c, db.accountTries h = some c → env.accountsRoot c = h) :
    (db.NewAccountTrie env h).HashAccounts env = h := by
  unfold DB.NewAccountTrie Trie.HashAccounts
  simp only [if_neg hzero]
  cases hl : db.accountTries h with
  | some c => exact hdb c hl
  | none =>
    simp only []
    by_cases he : h = env.accountsRoot emptyAccounts
    · rw [if_pos he]
      exact he.symm
    · rw [if_neg he]

/-- C27. Reads and reverted writes do not change the staged root: after a first `Stage()`, and
any sequence of reads of the stacked map (the State every getter returns is the State after
such a read) and of writes enclosed by `r = NewCheckpoint()` and `RevertTo(r)`, a second
`Stage()` returns what the first returned, so that when the first succeeded the second
succeeds with the same `Hash()`; and a State without journal entries stages the accounts trie
opened at the hash of its own accounts trie, whose `Hash()` is that hash when it is not the
zero value and the database holds under it a content with that hash or none. -/
theorem C27_reads_and_reverted_writes (env : Env) (s : State) (items : List Between) :
    (((s.Stage env).2.betweens env items).Stage env).1 = (s.Stage env).1 ∧
    (∀ st, (s.Stage env).1 = .ok st →
      ∃ st2, (((s.Stage env).2.betweens env items).Stage env).1 = .ok st2 ∧
        st2.Hash env = st.Hash env) ∧
    (∀ a, (s.GetBalance env a).2 = s.between env (.read (.account a)) ∧
      (∀ t, (s.GetEnergy env a t).2 = s.between env (.read (.account a))) ∧
      (s.GetMaster env a).2 = s.between env (.read (.account a)) ∧
      (s.GetCodeHash env a).2 = s.between env (.read (.account a)) ∧
      (s.Exists env a).2 = s.between env (.read (.account a)) ∧
      (s.GetCode env a).2 = s.between env (.read (.code a)) ∧
      (∀ k, (s.GetRawStorage env a k).2 = s.between env (.read (.storage a k))) ∧
      (∀ k, (s.GetStorage env a k).2 = s.between env (.read (.storage a k)))) ∧
    (s.sm.Journal = [] →
      ∃ st, (s.Stage env).1 = .ok st ∧
        st.accountTrie = s.db.NewAccountTrie env (s.trie.HashAccounts env) ∧
        (s.trie.HashAccounts env ≠ Bytes32.zero →
          (∀ c, s.db.accountTries (s.trie.HashAccounts env) = some c →
            env.accountsRoot c = s.trie.HashAccounts env) →
          st.Hash env = s.trie.HashAccounts env)) := by
  have hsame : (((s.Stage env).2.betweens env items).Stage env).1 = (s.Stage env).1 :=
    State.Stage_congr env _ s
      (StageAlike.trans env _ _ _ (StageAlike.betweens env items _)
        (StageAlike.after_stage env s))
  refine ⟨hsame, fun st hst => ⟨st, hsame.trans hst, rfl⟩, State.getters_between env s,
    fun hj => ⟨_, State.Stage_no_writes env s hj, rfl, fun hzero hdb => ?_⟩⟩
  exact NewAccountTrie_hash env s.db _ hzero hdb

/-! ## The block ID holds the block number -/

theorem PutUint32_parts (id : Bytes32) (v : Nat) :
    (PutUint32 id v).val.take 4 = beBytes32 v ∧ (PutUint32 id v).val.drop 4 = id.val.drop 4 ∧
    Number (PutUint32 id v) = v % 2 ^ 32 := by
  refine ⟨rfl, rfl, ?_⟩
  simp only [Number, PutUint32, beBytes32, beUint32, List.cons_append, List.nil_append]
  omega

theorem Header.Number_lt (h : Header) : h.Number < 2 ^ 32 :=
  Nat.mod_lt _ (by decide)

/-- The method `SigningHash` on a header with a valid cache returns the hash of the encoded
fields and leaves a valid cache. -/
theorem Header.SigningHash_valid (env : BlockEnv) (h : Header) (hv : h.Valid env)
    (F : Bytes32) (hF : F = (h.fresh.SigningHash env).1) :
    (h.SigningHash env).1 = F ∧
    (h.SigningHash env).2.body = h.body ∧ (h.SigningHash env).2.Valid env ∧
    (h.SigningHash env).2.cache.signingHash = some F ∧
    (h.SigningHash env).2.cache.signer = h.cache.signer ∧
    (h.SigningHash env).2.cache.id = h.cache.id := by
  unfold Header.SigningHash
  cases hc : h.cache.signingHash with
  | some c =>
    have hcF : c = F := by rw [hF]; exact hv.1 c hc
    refine ⟨hcF, rfl, hv, ?_, rfl, rfl⟩
    show h.cache.signingHash = some F
    rw [hc, hcF]
  | none =>
    have hFv : env.blake2b (env.encodeSigning h.body.ParentID h.body.Timestamp h.body.GasLimit
        h.body.Beneficiary h.body.GasUsed h.body.TotalScore h.body.TxsRootFeatures.Root
        h.body.TxsRootFeatures.Features h.body.StateRoot h.body.ReceiptsRoot) = F := by
      rw [hF]
      rfl
    refine ⟨hFv, rfl, ⟨fun c hc2 => ?_, hv.2.1, hv.2.2⟩, ?_, rfl, rfl⟩
    · have hc3 : some (env.blake2b (env.encodeSigning h.body.ParentID h.body.Timestamp
          h.body.GasLimit h.body.Beneficiary h.body.GasUsed h.body.TotalScore
          h.body.TxsRootFeatures.Root h.body.TxsRootFeatures.Features h.body.StateRoot
          h.body.ReceiptsRoot)) = some c := hc2
      simp only [Option.some.injEq] at hc3
      rw [← hc3]
      rfl
    · show some _ = some F
      rw [hFv]

/-- What `Signer` returns on a header with nothing cached. -/
theorem Header.fresh_Signer (env : BlockEnv) (h : Header) :
    (h.fresh.Signer env).1 =
      if h.Number = 0 then .ok Address.zero
      else
        match env.SigToPub (h.fresh.SigningHash env).1.val h.body.Signature with
        | .error e => .error e
        | .ok pub => .ok (env.PubkeyToAddress pub) := by
  have hn : h.fresh.Number = h.Number := rfl
  by_cases h0 : h.Number = 0
  · rw [if_pos h0]
    unfold Header.Signer
    rw [if_pos (hn.trans h0)]
  · rw [if_neg h0]
    unfold Header.Signer
    rw [if_neg (by rw [hn]; exact h0)]
    show (match env.SigToPub (h.fresh.SigningHash env).1.val h.body.Signature with
      | .error e => ((.error e, (h.fresh.SigningHash env).2) : Except GoError Address × Header)
      | .ok pub => (.ok (env.PubkeyToAddress pub), _)).1 = _
    cases env.SigToPub (h.fresh.SigningHash env).1.val h.body.Signature <;> rfl

/-- The method `Signer` on a header with a valid cache returns what it returns with nothing
cached, and leaves a valid cache with the same cached ID. -/
theorem Header.Signer_valid (env : BlockEnv) (h : Header) (hv : h.Valid env) :
    (h.Signer env).1 = (h.fresh.Signer env).1 ∧
    (h.Signer env).2.body = h.body ∧ (h.Signer env).2.Valid env ∧
    (h.Signer env).2.cache.id = h.cache.id := by
  have hfs := Header.fresh_Signer env h
  by_cases h0 : h.Number = 0
  · rw [if_pos h0] at hfs
    rw [hfs]
    unfold Header.Signer
    rw [if_pos h0]
    exact ⟨rfl, rfl, hv, rfl⟩
  · rw [if_neg h0] at hfs
    rw [hfs]
    unfold Header.Signer
    rw [if_neg h0]
    cases hs : h.cache.signer with
    | some s => exact ⟨(hfs.symm.trans (hv.2.1 s hs)).symm, rfl, hv, rfl⟩
    | none =>
      obtain ⟨l1, l2, l3, _, l5, l6⟩ := Header.SigningHash_valid env h hv _ rfl
      rcases hsh : h.SigningHash env with ⟨sh, h1⟩
      rw [hsh] at l1 l2 l3 l5 l6
      simp only [] at l1 l2 l3 l5 l6
      simp only []
      subst l1
      have hf1 : h1.fresh = h.fresh := by
        unfold Header.fresh
        rw [l2]
      have hsig : h1.body.Signature = h.body.Signature := by rw [l2]
      rw [hsig]
      cases hp : env.SigToPub (h.fresh.SigningHash env).1.val h.body.Signature with
      | error e => exact ⟨rfl, l2, l3, l6⟩
      | ok pub =>
        refine ⟨rfl, l2, ⟨?_, fun s hs2 => ?_, ?_⟩, l6⟩
        · show ∀ c, h1.cache.signingHash = some c → c = (Header.SigningHash env h1.fresh).1
          exact l3.1
        · have hs3 : some (env.PubkeyToAddress pub) = some s := hs2
          simp only [Option.some.injEq] at hs3
          show (Header.Signer env h1.fresh).1 = .ok s
          rw [hf1, hfs, hp, ← hs3]
        · show ∀ c, h1.cache.id = some c → c = (Header.ID env h1.fresh).1
          exact l3.2.2

theorem Header.fresh_of_body (h1 h : Header) (hb : h1.body = h.body) : h1.fresh = h.fresh := by
  unfold Header.fresh
  rw [hb]

theorem Header.Number_of_body (h1 h : Header) (hb : h1.body = h.body) :
    h1.Number = h.Number := by
  unfold Header.Number
  rw [hb]

/-- The method `ID` on a header with a valid cache and no cached ID: the block number in the
first four bytes of the zero word when the signer is not recovered, and of the hash of the
signing hash followed by the signer when it is; the result is stored. -/
theorem Header.ID_miss (env : BlockEnv) (h : Header) (hv : h.Valid env)
    (hid : h.cache.id = none) :
    (h.ID env).1 =
      (match (h.fresh.Signer env).1 with
        | .error _ => PutUint32 Bytes32.zero h.Number
        | .ok signer =>
          PutUint32 (env.blake2b ((h.fresh.SigningHash env).1.val ++ signer.val)) h.Number) ∧
    (h.ID env).2.body = h.body ∧
    (∀ c, (h.ID env).2.cache.signingHash = some c → c = (h.fresh.SigningHash env).1) ∧
    (∀ s, (h.ID env).2.cache.signer = some s → (h.fresh.Signer env).1 = .ok s) ∧
    (h.ID env).2.cache.id = some (h.ID env).1 := by
  obtain ⟨s1, s2, s3, _⟩ := Header.Signer_valid env h hv
  unfold Header.ID
  rw [hid]
  simp only []
  rcases hsg : h.Signer env with ⟨r, h1⟩
  rw [hsg] at s1 s2 s3
  simp only [] at s1 s2 s3
  rw [← s1]
  have hf1 := Header.fresh_of_body h1 h s2
  have hn1 := Header.Number_of_body h1 h s2
  cases r with
  | error e =>
    simp only []
    rw [hn1]
    refine ⟨rfl, s2, fun c hc => ?_, fun s hs => ?_, trivial⟩
    · rw [← hf1]
      exact s3.1 c hc
    · rw [s1, ← hf1]
      exact s3.2.1 s hs
  | ok signer =>
    obtain ⟨l1, l2, l3, _⟩ := Header.SigningHash_valid env h1 s3 _ rfl
    simp only []
    have hf2 := (Header.fresh_of_body _ h1 l2).trans hf1
    have hn2 := (Header.Number_of_body _ h1 l2).trans hn1
    rw [hn2, l1, hf1]
    refine ⟨rfl, l2.trans s2, fun c hc => ?_, fun s hs => ?_, trivial⟩
    · rw [← hf2]
      exact l3.1 c hc
    · rw [s1, ← hf2]
      exact l3.2.1 s hs

theorem Header.valid_of_empty (env : BlockEnv) (h : Header)
    (hc : h.cache = headerCache.empty) : h.Valid env := by
  refine ⟨fun c h1 => ?_, fun s h1 => ?_, fun c h1 => ?_⟩ <;>
    · rw [hc] at h1
      simp [headerCache.empty] at h1

/-- The method `ID` on a header with a valid cache: the value, whether cached or computed,
and the validity of the cache after the call. -/
theorem Header.ID_valid (env : BlockEnv) (h : Header) (hv : h.Valid env) :
    (h.ID env).1 =
      (match (h.fresh.Signer env).1 with
        | .error _ => PutUint32 Bytes32.zero h.Number
        | .ok signer =>
          PutUint32 (env.blake2b ((h.fresh.SigningHash env).1.val ++ signer.val)) h.Number) ∧
    (h.ID env).2.body = h.body ∧ (h.ID env).2.Valid env := by
  have hfresh := (Header.ID_miss env h.fresh (Header.valid_of_empty env _ rfl) rfl).1
  have hff : h.fresh.fresh = h.fresh := rfl
  have hfn : h.fresh.Number = h.Number := rfl
  rw [hff, hfn] at hfresh
  cases hid : h.cache.id with
  | some c =>
    have hval : h.ID env = (c, h) := by
      unfold Header.ID
      rw [hid]
    rw [hval]
    exact ⟨(hv.2.2 c hid).trans hfresh, rfl, hv⟩
  | none =>
    obtain ⟨m1, m2, m3, m4, m5⟩ := Header.ID_miss env h hv hid
    have hf := Header.fresh_of_body _ h m2
    refine ⟨m1, m2, fun c hc => ?_, fun s hs => ?_, fun c hc => ?_⟩
    · rw [hf]
      exact m3 c hc
    · rw [hf]
      exact m4 s hs
    · rw [m5] at hc
      simp only [Option.some.injEq] at hc
      rw [hf, ← hc, m1, hfresh]

/-- C25. For every block Header `h` whose cache holds only what its methods stored, the first
four bytes of `h.ID()` are the big-endian block number, so that
`Number(h.ID()) = h.Number() = Number(h.ParentID()) + 1` modulo `2^32`, also when the signer
cannot be recovered from the signature, the other 28 bytes being zero then; when the signer
is recovered the other 28 bytes are the bytes 4 to 31 of the Blake2b hash of the signing hash
followed by the signer; and the header after the call has the same body and a cache of that
kind. -/
theorem C25_header_id_number (env : BlockEnv) (h : Header) (hv : h.Valid env) :
    (h.ID env).1.val.take 4 = beBytes32 h.Number ∧
    Number (h.ID env).1 = h.Number ∧
    h.Number = (Number h.ParentID + 1) % 2 ^ 32 ∧
    (∀ e, (h.Signer env).1 = .error e →
      (h.ID env).1.val.drop 4 = List.replicate 28 0) ∧
    (∀ signer, (h.Signer env).1 = .ok signer →
      (h.ID env).1.val.drop 4
        = (env.blake2b ((h.SigningHash env).1.val ++ signer.val)).val.drop 4) ∧
    (h.ID env).2.body = h.body ∧ (h.ID env).2.Valid env := by
  obtain ⟨i1, i2, i3⟩ := Header.ID_valid env h hv
  have hs := (Header.Signer_valid env h hv).1
  have hsh := (Header.SigningHash_valid env h hv _ rfl).1
  have hmod : h.Number % 2 ^ 32 = h.Number := Nat.mod_eq_of_lt (Header.Number_lt h)
  rw [← hs, ← hsh] at i1
  refine ⟨?_, ?_, rfl, fun e he => ?_, fun signer he => ?_, i2, i3⟩
  · rw [i1]
    cases (h.Signer env).1 <;> exact (PutUint32_parts _ _).1
  · rw [i1]
    cases (h.Signer env).1 <;> exact (PutUint32_parts _ _).2.2.trans hmod
  · rw [i1, he]
    rfl
  · rw [i1, he]
    exact (PutUint32_parts _ _).2.1

/-! ## Instances of the theorems -/

theorem C1_commit_round_trip_witness :
    ((sampleReopened.afterReads sampleEnv sampleReads).GetBalance sampleEnv sampleAddr).1
      = .ok 10 ∧
    ((sampleReopened.afterReads sampleEnv sampleReads).GetCode sampleEnv sampleAddr).1
      = .ok [1, 2, 3] ∧
    ((sampleReopened.afterReads sampleEnv sampleReads).GetCodeHash sampleEnv sampleAddr).1
      = .ok (sampleEnv.keccak256 [1, 2, 3]) ∧
    (∀ p ∈ sampleStorage,
      ((sampleReopened.afterReads sampleEnv sampleReads).GetStorage sampleEnv sampleAddr p.1).1
        = .ok p.2) :=
  C1_commit_round_trip sampleEnv sampleDB sampleCache sampleAddr 10 [1, 2, 3]
    sampleStorage (stageOf sampleEnv sampleWritten) sampleRoot sampleCommitted sampleCache
    sampleReads (by decide) (by decide) (by decide) (by decide)
    (fun _ => (by decide : BytesToBytes32 [4] ≠ Bytes32.zero))
    (fun _ h => by simp [sampleCache] at h) rfl rfl

theorem C2_read_your_writes_witness :
    (((sampleWritten.NewCheckpoint).2.SetBalance sampleEnv sampleAddr 7).2.GetBalance sampleEnv
      sampleAddr).1 = .ok 7 ∧
    (((sampleWritten.NewCheckpoint).2.SetMaster sampleEnv sampleAddr Address.zero).2.GetMaster
      sampleEnv sampleAddr).1 = .ok Address.zero ∧
    (((sampleWritten.NewCheckpoint).2.SetEnergy sampleEnv sampleAddr 5 3).2.GetEnergy sampleEnv
      sampleAddr 3).1 = .ok 5 :=
  ⟨(C2_read_your_writes sampleEnv (sampleWritten.NewCheckpoint).2 sampleAddr 7 Address.zero 5
      3).1 rfl,
    (C2_read_your_writes sampleEnv (sampleWritten.NewCheckpoint).2 sampleAddr 7 Address.zero 5
      3).2.1 rfl,
    (C2_read_your_writes sampleEnv (sampleWritten.NewCheckpoint).2 sampleAddr 7 Address.zero 5
      3).2.2 rfl⟩

/-- A State opened at the zero root sees no account with a code hash. -/
theorem CodeAddressed_New (env : Env) (db : DB) (cc : CodeCache) (c : Bytes) :
    CodeAddressed env (New env db cc Bytes32.zero) c := by
  intro addr acc hacc hhash
  simp only [State.cacheGetter, State.getCachedObject, New, loadAccount, NewAccountTrie_zero,
    emptyAccounts, Except.ok.injEq] at hacc
  rw [← hacc] at hhash
  have hlen := (env.keccak256 c).property
  rw [← hhash] at hlen
  simp [newCachedObject, emptyAccount] at hlen

theorem C4_checkpoint_identity_witness :
    SameReads sampleEnv
      (((sampleState.NewCheckpoint).2.applyOps sampleEnv sampleOps).RevertTo
        (sampleState.NewCheckpoint).1) sampleState sampleAddr :=
  (C4_checkpoint_identity sampleEnv sampleState sampleOps
    (fun _ c _ _ => CodeAddressed_New sampleEnv sampleDB sampleCache c)).1 sampleAddr

theorem C5_hash_is_commit_root_witness :
    sampleRoot = (stageOf sampleEnv sampleWritten).Hash sampleEnv :=
  C5_hash_is_commit_root sampleEnv sampleWritten (stageOf sampleEnv sampleWritten) sampleRoot
    sampleCommitted rfl rfl

theorem C6_code_read_your_writes_witness :
    ((sampleWritten.SetCode sampleEnv sampleAddr [7, 7]).2.GetCode sampleEnv sampleAddr).1
      = .ok [7, 7] ∧
    ((sampleWritten.SetCode sampleEnv sampleAddr []).2.GetCodeHash sampleEnv sampleAddr).1
      = .ok Bytes32.zero :=
  ⟨((C6_code_read_your_writes sampleEnv sampleWritten sampleAddr [7, 7] rfl).1 (by decide)).1,
    ((C6_code_read_your_writes sampleEnv sampleWritten sampleAddr [] rfl).2 rfl).2⟩

theorem C7_energy_growth_witness :
    (((sampleState.SetBalance sampleEnv sampleAddr (10 ^ 18)).2.SetEnergy sampleEnv sampleAddr 0
      10).2.GetEnergy sampleEnv sampleAddr 1000).1 =
      .ok (0 + ⌊((sampleEnv.EnergyGrowthRate * 10 ^ 18 * (((1000 : Nat) : Int) - ((10 : Nat) : Int))
        : Int) : ℚ) / (10 : ℚ) ^ 18⌋) :=
  (C7_energy_growth sampleEnv sampleState sampleAddr (10 ^ 18) 0 10 1000 (by decide) rfl).1.2

theorem C8_exists_iff_not_empty_witness :
    (sampleWritten.Exists sampleEnv sampleAddr).1 = .ok true ∧
    ((sampleState.SetStorage sampleAddr (BytesToBytes32 [0x73, 0x31])
      (BytesToBytes32 [0x76, 0x31])).Exists sampleEnv sampleAddr).1 = .ok false :=
  ⟨(C8_exists_iff_not_empty sampleEnv sampleWritten sampleAddr).1
      { Balance := 10, Energy := 0, BlockTime := 0, Master := [],
        CodeHash := (sampleEnv.keccak256 [1, 2, 3]).val, StorageRoot := [] } rfl,
    (C8_exists_iff_not_empty sampleEnv sampleState sampleAddr).2.2 emptyAccount
      (BytesToBytes32 [0x73, 0x31]) (BytesToBytes32 [0x76, 0x31]) rfl rfl rfl rfl rfl⟩

theorem C10_deleted_account_pruned_witness :
    (((New sampleEnv ((stageOf sampleEnv (sampleReopened.Delete sampleAddr)).Commit sampleEnv).2
      sampleCache (rootOf sampleEnv (stageOf sampleEnv (sampleReopened.Delete sampleAddr)))).afterReads
        sampleEnv sampleReads).Exists sampleEnv sampleAddr).1 = .ok false :=
  (C10_deleted_account_pruned sampleEnv sampleReopened sampleAddr
    (stageOf sampleEnv (sampleReopened.Delete sampleAddr))
    (rootOf sampleEnv (stageOf sampleEnv (sampleReopened.Delete sampleAddr)))
    ((stageOf sampleEnv (sampleReopened.Delete sampleAddr)).Commit sampleEnv).2 sampleCache
    sampleReads rfl rfl).1

theorem C19_get_storage_decoding_witness :
    ((sampleState.SetRawStorage sampleAddr Bytes32.zero [0x82, 0x76, 0x31]).GetStorage sampleEnv
      sampleAddr Bytes32.zero).1 = .ok (BytesToBytes32 [0x76, 0x31]) ∧
    ((sampleState.SetRawStorage sampleAddr Bytes32.zero [0xb8, 0x01]).GetStorage sampleEnv
      sampleAddr Bytes32.zero).1 = .error (.state .canonSize) :=
  ⟨(C19_get_storage_decoding sampleEnv
      (sampleState.SetRawStorage sampleAddr Bytes32.zero [0x82, 0x76, 0x31]) sampleAddr
      Bytes32.zero [0x82, 0x76, 0x31] rfl).2.2.2.1 [0x76, 0x31] (by decide) (by decide) rfl,
    (C19_get_storage_decoding sampleEnv
      (sampleState.SetRawStorage sampleAddr Bytes32.zero [0xb8, 0x01]) sampleAddr
      Bytes32.zero [0xb8, 0x01] rfl).2.2.2.2.1 .canonSize (by decide) rfl⟩

/-- C19, the case the decoding does not reject: the raw value `[0xc1, 0x81]`, a list whose
payload is cut short, is not well-formed RLP, and `GetStorage` returns its Blake2b hash without
an error. -/
theorem C19_malformed_payload_accepted :
    wellFormedRLP truncatedList = false ∧
    ((sampleState.SetRawStorage sampleAddr Bytes32.zero truncatedList).GetRawStorage sampleEnv
      sampleAddr Bytes32.zero).1 = .ok truncatedList ∧
    ((sampleState.SetRawStorage sampleAddr Bytes32.zero truncatedList).GetStorage sampleEnv
      sampleAddr Bytes32.zero).1 = .ok (sampleEnv.blake2b truncatedList) :=
  ⟨by decide, rfl, rfl⟩

theorem C14_revert_nesting_witness :
    SameReads sampleEnv
      (((((sampleState.NewCheckpoint).2.applyOps sampleEnv
        [.setBalance sampleAddr 7]).NewCheckpoint).2.applyOps sampleEnv sampleOps).RevertTo
        (((sampleState.NewCheckpoint).2.applyOps sampleEnv
          [.setBalance sampleAddr 7]).NewCheckpoint).1)
      ((sampleState.NewCheckpoint).2.applyOps sampleEnv [.setBalance sampleAddr 7]) sampleAddr :=
  (C14_revert_nesting sampleEnv sampleState [.setBalance sampleAddr 7] sampleOps
    (fun _ c _ _ => CodeAddressed.above sampleEnv sampleState _ c
      (AboveCheckpoint.applyOps sampleEnv sampleState [.setBalance sampleAddr 7] _
        (AboveCheckpoint.newCheckpoint sampleEnv sampleState) (by simp))
      (CodeAddressed_New sampleEnv sampleDB sampleCache c))).1 sampleAddr

theorem C15_commit_order_and_failure_witness :
    ((stageOf sampleEnv (writtenOn codeFaultDB)).Commit sampleEnv).2 = codeFaultDB ∧
    ((stageOf sampleEnv (writtenOn storageFaultDB)).Commit sampleEnv).1
      = .error (.state (.io 3)) ∧
    ((stageOf sampleEnv (writtenOn storageFaultDB)).Commit sampleEnv).2.accountTries
      = storageFaultDB.accountTries :=
  ⟨((C15_commit_order_and_failure sampleEnv (stageOf sampleEnv (writtenOn codeFaultDB))).1
      (.io 2) rfl).2.2,
    ((C15_commit_order_and_failure sampleEnv (stageOf sampleEnv (writtenOn storageFaultDB))).2.1
      (batchOf (stageOf sampleEnv (writtenOn storageFaultDB))) (.state (.io 3))
      (batchOf (stageOf sampleEnv (writtenOn storageFaultDB))) rfl rfl).1,
    ((C15_commit_order_and_failure sampleEnv (stageOf sampleEnv (writtenOn storageFaultDB))).2.1
      (batchOf (stageOf sampleEnv (writtenOn storageFaultDB))) (.state (.io 3))
      (batchOf (stageOf sampleEnv (writtenOn storageFaultDB))) rfl rfl).2.2.2⟩

theorem C20_build_storage_trie_witness :
    (sampleWritten.BuildStorageTrie sampleEnv sampleAddr).1 = .ok
      { name := StorageTrieName (sampleEnv.blake2b sampleAddr.val)
        root := BytesToBytes32 []
        content := some ((storageWrites sampleAddr sampleWritten.sm.Journal).foldl
          (fun c p => Function.update c p.1 p.2) emptyStorage) } :=
  (C20_build_storage_trie sampleEnv sampleWritten sampleAddr
    { Balance := 10, Energy := 0, BlockTime := 0, Master := [],
      CodeHash := (sampleEnv.keccak256 [1, 2, 3]).val, StorageRoot := [] } emptyStorage
    rfl rfl).1

theorem sampleInterleaved_journal :
    (sampleState.applyOps sampleEnv sampleInterleaved1).sm.Journal =
      [⟨.account sampleAddr, { emptyAccount with Balance := 1 }⟩,
        ⟨.account sampleAddr2, { emptyAccount with Balance := 2 }⟩,
        ⟨.account sampleAddr3, { emptyAccount with Balance := 3 }⟩,
        ⟨.storage sampleAddr (BytesToBytes32 [0x73, 0x31]), [0x82, 0x76, 0x31]⟩] ∧
    (sampleState.applyOps sampleEnv sampleInterleaved2).sm.Journal =
      [⟨.account sampleAddr3, { emptyAccount with Balance := 3 }⟩,
        ⟨.account sampleAddr, { emptyAccount with Balance := 1 }⟩,
        ⟨.storage sampleAddr (BytesToBytes32 [0x73, 0x31]), [0x82, 0x76, 0x31]⟩,
        ⟨.account sampleAddr2, { emptyAccount with Balance := 2 }⟩] :=
  ⟨rfl, rfl⟩

theorem sampleInterleaved_same (key : Key) :
    lastPut key (sampleState.applyOps sampleEnv sampleInterleaved1).sm.Journal
      = lastPut key (sampleState.applyOps sampleEnv sampleInterleaved2).sm.Journal := by
  rw [sampleInterleaved_journal.1, sampleInterleaved_journal.2]
  have e1 := lastPut_swap key (.account sampleAddr2) (.account sampleAddr3)
    { emptyAccount with Balance := 2 } { emptyAccount with Balance := 3 } (by decide)
    [⟨.account sampleAddr, { emptyAccount with Balance := 1 }⟩]
    [⟨.storage sampleAddr (BytesToBytes32 [0x73, 0x31]), [0x82, 0x76, 0x31]⟩]
  have e2 := lastPut_swap key (.account sampleAddr) (.account sampleAddr3)
    { emptyAccount with Balance := 1 } { emptyAccount with Balance := 3 } (by decide) []
    [⟨.account sampleAddr2, { emptyAccount with Balance := 2 }⟩,
      ⟨.storage sampleAddr (BytesToBytes32 [0x73, 0x31]), [0x82, 0x76, 0x31]⟩]
  have e3 := lastPut_swap key (.account sampleAddr2)
    (.storage sampleAddr (BytesToBytes32 [0x73, 0x31]))
    { emptyAccount with Balance := 2 } [0x82, 0x76, 0x31] (by decide)
    [⟨.account sampleAddr3, { emptyAccount with Balance := 3 }⟩,
      ⟨.account sampleAddr, { emptyAccount with Balance := 1 }⟩] []
  exact e1.trans (e2.trans e3)

theorem C12_stage_determinism_witness :
    (stageOf sampleEnv (sampleState.applyOps sampleEnv sampleInterleaved1)).accountTrie
      = (stageOf sampleEnv (sampleState.applyOps sampleEnv sampleInterleaved2)).accountTrie ∧
    (stageOf sampleEnv (sampleState.applyOps sampleEnv sampleInterleaved1)).Hash sampleEnv
      = (stageOf sampleEnv (sampleState.applyOps sampleEnv sampleInterleaved2)).Hash sampleEnv :=
  (C12_stage_determinism sampleEnv (sampleState.applyOps sampleEnv sampleInterleaved1)
    (sampleState.applyOps sampleEnv sampleInterleaved2)
    (stageOf sampleEnv (sampleState.applyOps sampleEnv sampleInterleaved1))
    (stageOf sampleEnv (sampleState.applyOps sampleEnv sampleInterleaved2)) rfl rfl
    (fun a => ((State.applyOps_base sampleEnv sampleState sampleInterleaved1).2.2 a).trans
      ((State.applyOps_base sampleEnv sampleState sampleInterleaved2).2.2 a).symm)
    (fun a => sampleInterleaved_same (.account a))
    (fun a k => sampleInterleaved_same (.storage a k)) rfl rfl).1

/-- C13, an account without storage: the account "acc1" of `balanceReopened` has the balance
10, no storage root and nothing at the slot "s1"; after `SetStorage(acc1, "s1", zero)`, `Stage`
and `Commit`, its record holds the hash of the empty storage trie as storage root, which is
not the storage root before the write nor the one committed when the slot is never written. -/
theorem C13_root_of_account_without_storage :
    loadAccount balanceReopened.trie sampleAddr
      = .ok { emptyAccount with Balance := 10 } ∧
    (balanceReopened.GetRawStorage sampleEnv sampleAddr (BytesToBytes32 [0x73, 0x31])).1
      = .ok [] ∧
    committedRecord sampleEnv balanceReopened sampleAddr
      = .ok { emptyAccount with Balance := 10 } ∧
    committedRecord sampleEnv zeroWritten sampleAddr
      = .ok { emptyAccount with
          Balance := 10, StorageRoot := (sampleEnv.storageRoot emptyStorage).val } ∧
    BytesToBytes32 (sampleEnv.storageRoot emptyStorage).val ≠ BytesToBytes32 [] :=
  ⟨rfl, rfl, rfl, rfl, by decide⟩

theorem C13_zero_write_storage_root_witness :
    ∃ cA, (stageOf sampleEnv (setStorages sampleReopened sampleAddr
        ([BytesToBytes32 [7]].map (fun v => (BytesToBytes32 [0x73, 0x32], v))
          ++ [(BytesToBytes32 [0x73, 0x32], Bytes32.zero)]))).accountTrie.content = some cA ∧
      cA sampleAddr = some
        { Balance := 10, Energy := 0, BlockTime := 0, Master := [],
          CodeHash := (sampleEnv.keccak256 [1, 2, 3]).val,
          StorageRoot := (sampleEnv.storageRoot (stagedStorage sampleReopened.sm.Journal
            sampleAddr (Function.update emptyStorage (BytesToBytes32 [0x73, 0x31])
              [0x82, 0x76, 0x31]))).val } := by
  obtain ⟨cA, h1, h2, _⟩ := C13_zero_write_storage_root sampleEnv sampleReopened sampleAddr
    (BytesToBytes32 [0x73, 0x32]) [BytesToBytes32 [7]]
    (stageOf sampleEnv (setStorages sampleReopened sampleAddr
        ([BytesToBytes32 [7]].map (fun v => (BytesToBytes32 [0x73, 0x32], v))
          ++ [(BytesToBytes32 [0x73, 0x32], Bytes32.zero)])))
    { Balance := 10, Energy := 0, BlockTime := 0, Master := [],
      CodeHash := (sampleEnv.keccak256 [1, 2, 3]).val,
      StorageRoot := (sampleEnv.storageRoot emptyStorage).val }
    (Function.update emptyStorage (BytesToBytes32 [0x73, 0x31]) [0x82, 0x76, 0x31])
    (Function.update emptyAccounts sampleAddr (some
      { Balance := 10, Energy := 0, BlockTime := 0, Master := [],
        CodeHash := (sampleEnv.keccak256 [1, 2, 3]).val,
        StorageRoot := (sampleEnv.storageRoot emptyStorage).val }))
    rfl rfl rfl rfl (by decide) rfl rfl
  exact ⟨cA, h1, h2⟩

/-- C11, storage written to an account that is empty at staging: after `SetStorage(acc1, "s1",
"v1")` on a fresh State, `GetStorage` returns "v1"; `Stage` and `Commit` succeed; a fresh State
at the committed root returns the zero value for the slot. -/
theorem C11_storage_of_empty_account_dropped :
    (emptyWritten.GetStorage sampleEnv sampleAddr (BytesToBytes32 [0x73, 0x31])).1
      = .ok (BytesToBytes32 [0x76, 0x31]) ∧
    ((stageOf sampleEnv emptyWritten).Commit sampleEnv).1
      = .ok (rootOf sampleEnv (stageOf sampleEnv emptyWritten)) ∧
    rootOf sampleEnv (stageOf sampleEnv emptyWritten) ≠ Bytes32.zero ∧
    ((New sampleEnv ((stageOf sampleEnv emptyWritten).Commit sampleEnv).2 sampleCache
      (rootOf sampleEnv (stageOf sampleEnv emptyWritten))).GetStorage sampleEnv sampleAddr
        (BytesToBytes32 [0x73, 0x31])).1 = .ok Bytes32.zero ∧
    BytesToBytes32 [0x76, 0x31] ≠ Bytes32.zero :=
  ⟨rfl, rfl, by decide, rfl, by decide⟩

theorem sampleRun_journal :
    sampleRun.sm.Journal =
      [⟨.account sampleAddr, { emptyAccount with Balance := 10 }⟩,
        ⟨.code sampleAddr, [1, 2, 3]⟩,
        ⟨.account sampleAddr,
          { emptyAccount with Balance := 10, CodeHash := (sampleEnv.keccak256 [1, 2, 3]).val }⟩,
        ⟨.storage sampleAddr (BytesToBytes32 [0x73, 0x31]), [0x82, 0x76, 0x31]⟩] := rfl

theorem sampleRun_codes (b : Address) (c : Bytes)
    (h : (⟨.code b, c⟩ : Sigma Key.Val) ∈ sampleRun.sm.Journal) : c = [1, 2, 3] := by
  rw [sampleRun_journal] at h
  simp only [List.mem_cons, Sigma.mk.inj_iff, reduceCtorEq, false_and, Key.code.injEq,
    List.mem_nil_iff, or_false, false_or] at h
  exact eq_of_heq h.2

theorem C11_reads_after_commit_witness :
    ((New sampleEnv ((stageOf sampleEnv sampleRun).Commit sampleEnv).2 sampleCache
      (rootOf sampleEnv (stageOf sampleEnv sampleRun))).GetBalance sampleEnv sampleAddr).1
        = (sampleRun.GetBalance sampleEnv sampleAddr).1 ∧
    ((New sampleEnv ((stageOf sampleEnv sampleRun).Commit sampleEnv).2 sampleCache
      (rootOf sampleEnv (stageOf sampleEnv sampleRun))).GetCode sampleEnv sampleAddr).1
        = (sampleRun.GetCode sampleEnv sampleAddr).1 ∧
    ((New sampleEnv ((stageOf sampleEnv sampleRun).Commit sampleEnv).2 sampleCache
      (rootOf sampleEnv (stageOf sampleEnv sampleRun))).GetStorage sampleEnv sampleAddr
        (BytesToBytes32 [0x73, 0x31])).1
        = (sampleRun.GetStorage sampleEnv sampleAddr (BytesToBytes32 [0x73, 0x31])).1 := by
  have h := C11_reads_after_commit sampleEnv sampleDB sampleCache Bytes32.zero sampleSteps
    (stageOf sampleEnv sampleRun) (rootOf sampleEnv (stageOf sampleEnv sampleRun))
    ((stageOf sampleEnv sampleRun).Commit sampleEnv).2 sampleCache emptyAccounts rfl rfl rfl rfl
    (by decide) (fun _ => (by decide : BytesToBytes32 [4] ≠ Bytes32.zero)) (by decide)
    (fun b1 b2 c1 c2 h1 h2 _ => (sampleRun_codes b1 c1 h1).trans (sampleRun_codes b2 c2 h2).symm)
    (fun _ _ _ _ hc => absurd hc (by simp [sampleCache])) sampleAddr
  have hc : lastPut (.code sampleAddr) sampleRun.sm.Journal ≠ none := by
    rw [sampleRun_journal]
    decide
  have hk : lastPut (.storage sampleAddr (BytesToBytes32 [0x73, 0x31])) sampleRun.sm.Journal
      ≠ none := by
    rw [sampleRun_journal]
    decide
  exact ⟨h.1, h.2.2.2.2.2.1 hc, (h.2.2.2.2.2.2 (BytesToBytes32 [0x73, 0x31]) hk rfl).2⟩

theorem C21_energy_monotone_witness :
    ∃ e1 e2 : Int, (sampleWritten.GetEnergy sampleEnv sampleAddr 10).1 = .ok e1 ∧
      (sampleWritten.GetEnergy sampleEnv sampleAddr 1000).1 = .ok e2 ∧ e1 ≤ e2 := by
  obtain ⟨e1, e2, h1, h2, h3, _⟩ := C21_energy_monotone sampleEnv sampleWritten sampleAddr
    { Balance := 10, Energy := 0, BlockTime := 0, Master := [],
      CodeHash := (sampleEnv.keccak256 [1, 2, 3]).val, StorageRoot := [] } 10 1000
    (by decide) rfl (by decide) (by decide)
  exact ⟨e1, e2, h1, h2, h3⟩

theorem C22_empty_account_no_storage_writes_witness :
    (stageOf sampleEnv emptyWritten).storageTries = [] ∧
    ∃ cA, (stageOf sampleEnv emptyWritten).accountTrie.content = some cA ∧
      cA sampleAddr = none := by
  obtain ⟨_, _, cA, hcA, hnone⟩ := C22_empty_account_no_storage_writes sampleEnv emptyWritten
    (stageOf sampleEnv emptyWritten) sampleAddr emptyAccount emptyAccounts rfl rfl rfl rfl
  exact ⟨rfl, cA, hcA, hnone (Or.inr ⟨BytesToBytes32 [0x73, 0x31], by decide⟩)⟩

theorem C23_storage_root_after_staging_witness :
    ∃ cA, (stageOf sampleEnv sampleRun).accountTrie.content = some cA ∧
      cA sampleAddr = some
        { Balance := 10, Energy := 0, BlockTime := 0, Master := [],
          CodeHash := (sampleEnv.keccak256 [1, 2, 3]).val,
          StorageRoot := (sampleEnv.storageRoot (Function.update emptyStorage
            (BytesToBytes32 [0x73, 0x31]) [0x82, 0x76, 0x31])).val } := by
  obtain ⟨c0, cA, _, hc0, _, hcA, hsaved, _⟩ := C23_storage_root_after_staging sampleEnv
    sampleRun (stageOf sampleEnv sampleRun) sampleAddr emptyAccount emptyAccounts rfl rfl rfl
    ⟨BytesToBytes32 [0x73, 0x31], by rw [sampleRun_journal]; decide⟩ rfl
  refine ⟨cA, hcA, ?_⟩
  rw [hsaved]
  rfl

theorem twoCodes_journal :
    twoCodes.sm.Journal =
      [⟨.code sampleAddr, [1]⟩,
        ⟨.account sampleAddr, { emptyAccount with CodeHash := (sampleEnv.keccak256 [1]).val }⟩,
        ⟨.code sampleAddr, [2]⟩,
        ⟨.account sampleAddr, { emptyAccount with CodeHash := (sampleEnv.keccak256 [2]).val }⟩,
        ⟨.code sampleAddr2, []⟩,
        ⟨.account sampleAddr2, emptyAccount⟩] := rfl

theorem C26_stage_code_collection_witness :
    (sampleEnv.keccak256 [1], [1]) ∈ (stageOf sampleEnv twoCodes).codes ∧
    (sampleEnv.keccak256 [2], [2]) ∈ (stageOf sampleEnv twoCodes).codes ∧
    (stageOf sampleEnv twoCodes).codes.length = 2 := by
  obtain ⟨_, _, h⟩ := C26_stage_code_collection sampleEnv twoCodes (stageOf sampleEnv twoCodes) rfl
  have h1 : (⟨.code sampleAddr, [1]⟩ : Sigma Key.Val) ∈ twoCodes.sm.Journal := by
    rw [twoCodes_journal]
    exact List.mem_cons_self _ _
  have h2 : (⟨.code sampleAddr, [2]⟩ : Sigma Key.Val) ∈ twoCodes.sm.Journal := by
    rw [twoCodes_journal]
    exact List.mem_cons_of_mem _ (List.mem_cons_of_mem _ (List.mem_cons_self _ _))
  exact ⟨h (by decide) sampleAddr [1] h1 (by decide),
    h (by decide) sampleAddr [2] h2 (by decide), rfl⟩

theorem C24_cached_object_reads_witness :
    ((newCachedObject sampleAddr
        { Balance := 10, Energy := 0, BlockTime := 0, Master := [],
          CodeHash := (sampleEnv.keccak256 [1, 2, 3]).val,
          StorageRoot := (sampleEnv.storageRoot emptyStorage).val }).GetStorage sampleEnv
        sampleCommitted (BytesToBytes32 [0x73, 0x31])).1 = .ok [0x82, 0x76, 0x31] ∧
    ((newCachedObject sampleAddr
        { Balance := 10, Energy := 0, BlockTime := 0, Master := [],
          CodeHash := (sampleEnv.keccak256 [1, 2, 3]).val,
          StorageRoot := (sampleEnv.storageRoot emptyStorage).val }).GetCode
        sampleCommitted sampleCache).1 = .ok [1, 2, 3] := by
  obtain ⟨h1, _, _, h4, _⟩ := C24_cached_object_reads sampleEnv sampleCommitted sampleCache
    sampleAddr
    { Balance := 10, Energy := 0, BlockTime := 0, Master := [],
      CodeHash := (sampleEnv.keccak256 [1, 2, 3]).val,
      StorageRoot := (sampleEnv.storageRoot emptyStorage).val } (BytesToBytes32 [0x73, 0x31])
  exact ⟨h1.trans rfl, (h4 [1, 2, 3] (by decide) rfl (Or.inl rfl)).1⟩

theorem C30_setter_frame_witness :
    ((sampleState.SetBalance sampleEnv sampleAddr 10).2.getAccount sampleEnv sampleAddr).1
      = .ok { emptyAccount with Balance := 10 } ∧
    ((sampleState.SetCode sampleEnv sampleAddr [1, 2, 3]).2.GetCode sampleEnv sampleAddr).1
      = .ok [1, 2, 3] ∧
    FrameOf sampleEnv (sampleState.SetCode sampleEnv sampleAddr [1, 2, 3]).2 sampleState
      sampleAddr := by
  have h := C30_setter_frame sampleEnv sampleState sampleAddr emptyAccount rfl
  have hc := h.2.2.2 [1, 2, 3] (fun _ => CodeAddressed_New sampleEnv sampleDB sampleCache _)
  exact ⟨(h.1 10).2.1, hc.2.2.1, hc.2.2.2⟩

theorem C27_reads_and_reverted_writes_witness :
    (∃ st2, (((sampleWritten.Stage sampleEnv).2.betweens sampleEnv sampleBetween).Stage
        sampleEnv).1 = .ok st2 ∧
      st2.Hash sampleEnv = (stageOf sampleEnv sampleWritten).Hash sampleEnv) ∧
    ∃ st, (sampleReopened.Stage sampleEnv).1 = .ok st ∧
      st.Hash sampleEnv = sampleReopened.trie.HashAccounts sampleEnv := by
  constructor
  · exact (C27_reads_and_reverted_writes sampleEnv sampleWritten sampleBetween).2.1
      (stageOf sampleEnv sampleWritten) rfl
  · obtain ⟨st, h1, _, h3⟩ :=
      (C27_reads_and_reverted_writes sampleEnv sampleReopened []).2.2.2 rfl
    exact ⟨st, h1, h3 (by decide) (fun _ _ => rfl)⟩

theorem C25_header_id_number_witness :
    Number (sampleHeader.ID sampleBlockEnv).1 = 42 ∧
    Number ((sampleHeader.withSignature [9]).ID sampleBlockEnv).1 = 42 ∧
    ((sampleHeader.withSignature [9]).Signer sampleBlockEnv).1 = .ok (BytesToAddress [9]) ∧
    (sampleHeader.Signer sampleBlockEnv).1 = .error (.io 1) :=
  ⟨(C25_header_id_number sampleBlockEnv sampleHeader
      (Header.valid_of_empty sampleBlockEnv sampleHeader rfl)).2.1.trans (by decide),
    (C25_header_id_number sampleBlockEnv (sampleHeader.withSignature [9])
      (Header.valid_of_empty sampleBlockEnv _ rfl)).2.1.trans (by decide), rfl, rfl⟩

end Luckyshare
